import Mathlib

/-!
# Graph search algorithms: shallow embedding and verified properties

The C++ sources of the repository (uniform-cost search, A*, IDA*, greedy best-first search,
bidirectional BFS, iterative-deepening DFS, BFS, DFS, linear and binary search) are embedded
as executable Lean functions.

* `int` values are `Int`s; every `int` operation goes through `addInt`, `subInt` or `divInt`,
  which wrap to the 32-bit two's-complement range.
* `vector<T>` is a `List T`; `v[i]` is `List.getD` and `v[i] = x` is `List.set`.
  Node identifiers are array indices and are modelled as `Nat`.
* Loops and recursive procedures take a fuel argument and return `none` when it runs out;
  the theorems show that enough fuel always produces a result.
* Console output is modelled by the list of visit events (`trace`) and by the returned outcome.
-/

namespace SearchAlgorithm

/-! ## Machine integers -/

/-- Largest 32-bit signed value (`INT_MAX`, `numeric_limits<int>::max()`). -/
def INT_MAX : Int := 2147483647

/-- Two's-complement wrap of an integer into the 32-bit signed range. -/
def wrap32 (x : Int) : Int := (x + 2147483648) % 4294967296 - 2147483648

/-- Addition of two `int` values. -/
def addInt (a b : Int) : Int := wrap32 (a + b)

/-! ## Graph model -/

/-- Weighted edge `pair<destination, cost>`. -/
abbrev Edge := Nat × Int

/-- Weighted adjacency list `vector<vector<Edge>>`. -/
abbrev WGraph := List (List Edge)

/-- Unweighted adjacency list `vector<vector<int>>`. -/
abbrev Graph := List (List Nat)

/-- Outgoing edges `graph[u]` of a weighted graph. -/
def wadj (graph : WGraph) (u : Nat) : List Edge := graph.getD u []

/-- Neighbours `graph[u]` of an unweighted graph. -/
def adj (graph : Graph) (u : Nat) : List Nat := graph.getD u []

/-- Terminal outcome of a goal-directed weighted search. -/
inductive Outcome where
  | found (cost : Int)
  | notFound
deriving DecidableEq

/-! ## Uniform-cost search (`uniform_const_search.cpp`) -/

namespace Ucs

/-- Strict order of `std::pair<int,int>`: lexicographic on `(cost, node)`. -/
def pairLt (a b : Int × Nat) : Bool :=
  decide (a.1 < b.1) || (decide (a.1 = b.1) && decide (a.2 < b.2))

/-- Top of the min-heap `priority_queue<Edge, vector<Edge>, greater<Edge>>`: the least pair. -/
def pqTop : List (Int × Nat) → Option (Int × Nat)
  | [] => none
  | x :: xs =>
    match pqTop xs with
    | none => some x
    | some y => if pairLt y x then some y else some x

/-- Reading `pq.top()` followed by `pq.pop()`. -/
def pqPop (pq : List (Int × Nat)) : Option ((Int × Nat) × List (Int × Nat)) :=
  match pqTop pq with
  | none => none
  | some m => some (m, pq.erase m)

/-- Mutable state of `ucs`; `trace` records the `Visited node` lines as `(node, cost)`. -/
structure State where
  visited : List Bool
  cost : List Int
  pq : List (Int × Nat)
  trace : List (Nat × Int)
deriving DecidableEq

/-- The `for (auto [neighbor, weight] : graph[node])` loop of `ucs`. -/
def relax (currCost : Int) : List Edge → List Int × List (Int × Nat) → List Int × List (Int × Nat)
  | [], st => st
  | (neighbor, weight) :: es, (cost, pq) =>
    let newCost := addInt currCost weight
    if newCost < cost.getD neighbor 0 then
      relax currCost es (cost.set neighbor newCost, pq ++ [(newCost, neighbor)])
    else
      relax currCost es (cost, pq)

/-- The `while (!pq.empty())` loop of `ucs`; one unit of fuel per iteration. -/
def loop (graph : WGraph) : Nat → State → Option State
  | 0, _ => none
  | fuel + 1, st =>
    match pqPop st.pq with
    | none => some st
    | some ((currCost, node), pq1) =>
      if st.visited.getD node false then
        loop graph fuel { st with pq := pq1 }
      else
        let r := relax currCost (wadj graph node) (st.cost, pq1)
        loop graph fuel
          { visited := st.visited.set node true, cost := r.1, pq := r.2,
            trace := st.trace ++ [(node, currCost)] }

/-- The function `ucs(start, graph)`: final state, whose `cost` field is the printed table. -/
def ucs (fuel : Nat) (start : Nat) (graph : WGraph) : Option State :=
  let n := graph.length
  loop graph fuel
    { visited := List.replicate n false,
      cost := (List.replicate n INT_MAX).set start 0,
      pq := [(0, start)],
      trace := [] }

end Ucs

/-! ## A* search (`a_star_search.cpp`) -/

namespace AStar

/-- Frontier entry `struct Node { id, g, f }`. -/
structure Node where
  id : Nat
  g : Int
  f : Int
deriving DecidableEq

/-- Least `f` value in a non-empty frontier `x :: xs`. -/
def minF : Node → List Node → Int
  | x, [] => x.f
  | x, y :: ys => min x.f (minF y ys)

/-- Reading `pq.top()` followed by `pq.pop()`. The comparator looks at `f` only, so the standard
leaves open which of several entries with the least `f` is on top; `pick` selects among them. -/
def pqPop (pick : Nat) : List Node → Option (Node × List Node)
  | [] => none
  | x :: xs =>
    let cands := (x :: xs).filter (fun e => decide (e.f = minF x xs))
    let c := cands.getD (pick % cands.length) x
    some (c, (x :: xs).erase c)

/-- Visit event `(node, g, h, f)` printed by `aStar` and by IDA*. -/
abbrev Visit := Nat × Int × Int × Int

/-- Result of `aStar`: the visit events and the terminal outcome. -/
structure Result where
  trace : List Visit
  outcome : Outcome
deriving DecidableEq

/-- The `for (auto [neighbor, weight] : graph[node])` loop of `aStar`. -/
def relax (heuristic : List Int) (g : Int) :
    List Edge → List Int × List Node → List Int × List Node
  | [], st => st
  | (neighbor, weight) :: es, (cost, pq) =>
    let newG := addInt g weight
    let newF := addInt newG (heuristic.getD neighbor 0)
    if newG < cost.getD neighbor 0 then
      relax heuristic g es (cost.set neighbor newG, pq ++ [⟨neighbor, newG, newF⟩])
    else
      relax heuristic g es (cost, pq)

/-- The `while (!pq.empty())` loop of `aStar`. `tie k` resolves the `k`-th upcoming pop. -/
def loop (goal : Nat) (graph : WGraph) (heuristic : List Int) :
    Nat → (Nat → Nat) → List Bool → List Int → List Node → List Visit → Option Result
  | 0, _, _, _, _, _ => none
  | fuel + 1, tie, visited, cost, pq, trace =>
    match pqPop (tie 0) pq with
    | none => some ⟨trace, Outcome.notFound⟩
    | some (current, pq1) =>
      let node := current.id
      if visited.getD node false then
        loop goal graph heuristic fuel (fun k => tie (k + 1)) visited cost pq1 trace
      else
        let visited1 := visited.set node true
        let trace1 := trace ++ [(node, current.g, heuristic.getD node 0, current.f)]
        if node = goal then
          some ⟨trace1, Outcome.found current.g⟩
        else
          let r := relax heuristic current.g (wadj graph node) (cost, pq1)
          loop goal graph heuristic fuel (fun k => tie (k + 1)) visited1 r.1 r.2 trace1

/-- The function `aStar(start, goal, graph, heuristic)`. -/
def aStar (fuel : Nat) (tie : Nat → Nat) (start goal : Nat) (graph : WGraph)
    (heuristic : List Int) : Option Result :=
  let n := graph.length
  loop goal graph heuristic fuel tie (List.replicate n false)
    ((List.replicate n INT_MAX).set start 0) [⟨start, 0, heuristic.getD start 0⟩] []

end AStar

/-! ## Iterative-deepening A* (`ida_star_search.cpp`) -/

namespace IdaStar

/-- The constant `INF = numeric_limits<int>::max()`. -/
def INF : Int := INT_MAX

/-- State threaded through the recursive `dfs`: the `visited` vector, the `next_limit`
reference and the printed visit events. -/
structure State where
  visited : List Bool
  next_limit : Int
  trace : List AStar.Visit
deriving DecidableEq

/-- The `for (auto [neighbor, cost] : graph[node])` loop of `dfs`; `call` is the recursive
`dfs` with the loop-invariant arguments already supplied. The first component of the result is
`some c` when the call returned `true` after printing cost `c`, and `none` when it returned
`false`. -/
def dfsLoop (call : Nat → Int → State → Option (Option Int × State)) (g : Int) :
    List Edge → State → Option (Option Int × State)
  | [], st => some (none, st)
  | (neighbor, cost) :: es, st =>
    if !(st.visited.getD neighbor false) then
      match call neighbor (addInt g cost) st with
      | none => none
      | some (some c, st1) => some (some c, st1)
      | some (none, st1) => dfsLoop call g es st1
    else
      dfsLoop call g es st

/-- The recursive function `dfs(node, goal, g, limit, graph, heuristic, visited, next_limit)`;
fuel bounds the recursion depth. -/
def dfs (goal : Nat) (limit : Int) (graph : WGraph) (heuristic : List Int) :
    Nat → Nat → Int → State → Option (Option Int × State)
  | 0, _, _, _ => none
  | fuel + 1, node, g, st =>
    let f := addInt g (heuristic.getD node 0)
    if f > limit then
      some (none, { st with next_limit := min st.next_limit f })
    else
      let st1 := { st with trace := st.trace ++ [(node, g, heuristic.getD node 0, f)] }
      if node = goal then
        some (some g, st1)
      else
        let st2 := { st1 with visited := st1.visited.set node true }
        match dfsLoop (dfs goal limit graph heuristic fuel) g (wadj graph node) st2 with
        | none => none
        | some (some c, st3) => some (some c, st3)
        | some (none, st3) => some (none, { st3 with visited := st3.visited.set node false })

/-- Result of `idaStar`: the limits of the iterations run, all visit events, the outcome. -/
structure Result where
  limits : List Int
  trace : List AStar.Visit
  outcome : Outcome
deriving DecidableEq

/-- The `while (true)` loop of `idaStar`; `iters` bounds the number of iterations and `depth`
is the recursion fuel handed to each `dfs`. -/
def idaLoop (depth : Nat) (start goal : Nat) (graph : WGraph) (heuristic : List Int) :
    Nat → Int → List Int → List AStar.Visit → Option Result
  | 0, _, _, _ => none
  | iters + 1, limit, limits, trace =>
    let visited := List.replicate graph.length false
    let next_limit := INF
    match dfs goal limit graph heuristic depth start 0 ⟨visited, next_limit, trace⟩ with
    | none => none
    | some (some c, st) => some ⟨limits ++ [limit], st.trace, Outcome.found c⟩
    | some (none, st) =>
      if st.next_limit = INF then
        some ⟨limits ++ [limit], st.trace, Outcome.notFound⟩
      else
        idaLoop depth start goal graph heuristic iters st.next_limit (limits ++ [limit]) st.trace

/-- The function `idaStar(start, goal, graph, heuristic)`. -/
def idaStar (iters depth : Nat) (start goal : Nat) (graph : WGraph) (heuristic : List Int) :
    Option Result :=
  idaLoop depth start goal graph heuristic iters (heuristic.getD start 0) [] []

end IdaStar

/-! ## Breadth-first search (`breadth_first_search.cpp`) -/

namespace Bfs

/-- The `for (int neighbor : graph[node])` loop of `bfs`, acting on the queue and `visited`. -/
def scan : List Nat → List Nat × List Bool → List Nat × List Bool
  | [], st => st
  | neighbor :: ns, (q, visited) =>
    if !(visited.getD neighbor false) then
      scan ns (q ++ [neighbor], visited.set neighbor true)
    else
      scan ns (q, visited)

/-- The `while (!q.empty())` loop of `bfs`; the result is the final `visited` vector and the
list of printed nodes. -/
def loop (graph : Graph) : Nat → List Nat → List Bool → List Nat → Option (List Bool × List Nat)
  | _, [], visited, trace => some (visited, trace)
  | 0, _ :: _, _, _ => none
  | fuel + 1, node :: q, visited, trace =>
    let r := scan (adj graph node) (q, visited)
    loop graph fuel r.1 r.2 (trace ++ [node])

/-- The function `bfs(start, graph, visited)`. -/
def bfs (fuel : Nat) (start : Nat) (graph : Graph) (visited : List Bool) :
    Option (List Bool × List Nat) :=
  loop graph fuel [start] (visited.set start true) []

end Bfs

/-! ## Depth-first search (`depth_first_search.cpp`) -/

namespace Dfs

/-- The `for (int neighbor : graph[node])` loop of `dfs`; `call` is the recursive `dfs`.
The state is the `visited` vector together with the list of printed nodes. -/
def dfsLoop (call : Nat → List Bool × List Nat → Option (List Bool × List Nat)) :
    List Nat → List Bool × List Nat → Option (List Bool × List Nat)
  | [], st => some st
  | neighbor :: ns, st =>
    if !(st.1.getD neighbor false) then
      match call neighbor st with
      | none => none
      | some st1 => dfsLoop call ns st1
    else
      dfsLoop call ns st

/-- The recursive function `dfs(node, graph, visited)`; fuel bounds the recursion depth. -/
def dfs (graph : Graph) : Nat → Nat → List Bool × List Nat → Option (List Bool × List Nat)
  | 0, _, _ => none
  | fuel + 1, node, st =>
    dfsLoop (dfs graph fuel) (adj graph node) (st.1.set node true, st.2 ++ [node])

end Dfs

/-! ## Iterative-deepening DFS (`iterative_deepening_depth_first_search.cpp`) -/

namespace Iddfs

/-- Lines printed by `iddfs` and `dls`. -/
inductive Event where
  | trying (depth : Int)
  | visited (node : Nat) (depthLeft : Int)
  | found (node : Nat)
deriving DecidableEq

/-- The `for (int neighbor : graph[node])` loop of `dls`; `call` is the recursive `dls` at
depth `depth - 1`. -/
def dlsLoop (call : Nat → List Bool × List Event → Option (Bool × List Bool × List Event)) :
    List Nat → List Bool × List Event → Option (Bool × List Bool × List Event)
  | [], st => some (false, st)
  | neighbor :: ns, st =>
    if !(st.1.getD neighbor false) then
      match call neighbor st with
      | none => none
      | some (true, st1) => some (true, st1)
      | some (false, st1) => dlsLoop call ns st1
    else
      dlsLoop call ns st

/-- The recursive function `dls(node, target, depth, graph, visited)`. -/
def dls (target : Nat) (graph : Graph) :
    Nat → Nat → Int → List Bool × List Event → Option (Bool × List Bool × List Event)
  | 0, _, _, _ => none
  | fuel + 1, node, depth, st =>
    if depth < 0 then some (false, st)
    else if node = target then some (true, st.1, st.2 ++ [Event.found node])
    else
      dlsLoop (fun nb s => dls target graph fuel nb (depth - 1) s) (adj graph node)
        (st.1.set node true, st.2 ++ [Event.visited node depth])

/-- The `for (int depth = 0; depth <= maxDepth; ++depth)` loop of `iddfs`. -/
def iddfsLoop (rec_fuel : Nat) (start target : Nat) (maxDepth : Int) (graph : Graph) :
    Nat → Int → List Event → Option (Bool × List Event)
  | 0, _, _ => none
  | fuel + 1, depth, trace =>
    if depth ≤ maxDepth then
      match dls target graph rec_fuel start depth
          (List.replicate graph.length false, trace ++ [Event.trying depth]) with
      | none => none
      | some (true, st) => some (true, st.2)
      | some (false, st) => iddfsLoop rec_fuel start target maxDepth graph fuel (addInt depth 1) st.2
    else
      some (false, trace)

/-- The function `iddfs(start, target, maxDepth, graph)`: the returned flag and printed lines. -/
def iddfs (fuel rec_fuel : Nat) (start target : Nat) (maxDepth : Int) (graph : Graph) :
    Option (Bool × List Event) :=
  iddfsLoop rec_fuel start target maxDepth graph fuel 0 []

/-- Depth limit of the last iteration started, read off the printed lines. -/
def lastLimit : List Event → Option Int
  | [] => none
  | e :: es =>
    match lastLimit es with
    | some d => some d
    | none =>
      match e with
      | Event.trying d => some d
      | _ => none

end Iddfs

/-! ## Bidirectional BFS (`bidirectional_search.cpp`) -/

namespace Bidirectional

/-- Parent pointers `unordered_map<int, int>`: an association list read with `List.lookup`;
`m[k] = v` puts `(k, v)` in front. -/
abbrev PMap := List (Nat × Nat)

/-- First loop of `printPath`: `while (parent_fwd.count(node)) { path.push_back(node);
node = parent_fwd[node]; }`. -/
def traceBack (parent_fwd : PMap) : Nat → Nat → List Nat → Option (Nat × List Nat)
  | fuel, node, path =>
    match parent_fwd.lookup node with
    | none => some (node, path)
    | some p =>
      match fuel with
      | 0 => none
      | fuel1 + 1 => traceBack parent_fwd fuel1 p (path ++ [node])

/-- Second loop of `printPath`: `while (parent_bwd.count(node)) { node = parent_bwd[node];
path.push_back(node); }`. -/
def traceOn (parent_bwd : PMap) : Nat → Nat → List Nat → Option (List Nat)
  | fuel, node, path =>
    match parent_bwd.lookup node with
    | none => some path
    | some p =>
      match fuel with
      | 0 => none
      | fuel1 + 1 => traceOn parent_bwd fuel1 p (path ++ [p])

/-- The function `printPath(meet, parent_fwd, parent_bwd)`: the printed node sequence. -/
def printPath (fuel : Nat) (meet : Nat) (parent_fwd parent_bwd : PMap) : Option (List Nat) :=
  match traceBack parent_fwd fuel meet [] with
  | none => none
  | some (node, path) => traceOn parent_bwd fuel meet (path ++ [node]).reverse

/-- Local state of `bidirectionalBFS`. -/
structure State where
  visited_fwd : List Bool
  visited_bwd : List Bool
  parent_fwd : PMap
  parent_bwd : PMap
  q_fwd : List Nat
  q_bwd : List Nat
deriving DecidableEq

/-- Result of scanning: either the frontiers met at a node, or the search goes on. -/
inductive Scan where
  | meet (node : Nat) (st : State)
  | cont (st : State)

/-- The `for (int neighbor : graph[current])` loop of the forward half. -/
def scanFwd (current : Nat) : List Nat → State → Scan
  | [], st => Scan.cont st
  | neighbor :: ns, st =>
    if !(st.visited_fwd.getD neighbor false) then
      let st1 := { st with
        visited_fwd := st.visited_fwd.set neighbor true,
        parent_fwd := (neighbor, current) :: st.parent_fwd,
        q_fwd := st.q_fwd ++ [neighbor] }
      if st1.visited_bwd.getD neighbor false then Scan.meet neighbor st1
      else scanFwd current ns st1
    else
      scanFwd current ns st

/-- The `while (size_f--)` loop: expands `size_f` queued nodes of the forward search. -/
def levelFwd (graph : Graph) : Nat → State → Scan
  | 0, st => Scan.cont st
  | size_f + 1, st =>
    match st.q_fwd with
    | [] => Scan.cont st
    | current :: q =>
      match scanFwd current (adj graph current) { st with q_fwd := q } with
      | Scan.meet m st1 => Scan.meet m st1
      | Scan.cont st1 => levelFwd graph size_f st1

/-- The `for (int neighbor : graph[current])` loop of the backward half. -/
def scanBwd (current : Nat) : List Nat → State → Scan
  | [], st => Scan.cont st
  | neighbor :: ns, st =>
    if !(st.visited_bwd.getD neighbor false) then
      let st1 := { st with
        visited_bwd := st.visited_bwd.set neighbor true,
        parent_bwd := (neighbor, current) :: st.parent_bwd,
        q_bwd := st.q_bwd ++ [neighbor] }
      if st1.visited_fwd.getD neighbor false then Scan.meet neighbor st1
      else scanBwd current ns st1
    else
      scanBwd current ns st

/-- The `while (size_b--)` loop: expands `size_b` queued nodes of the backward search. -/
def levelBwd (graph : Graph) : Nat → State → Scan
  | 0, st => Scan.cont st
  | size_b + 1, st =>
    match st.q_bwd with
    | [] => Scan.cont st
    | current :: q =>
      match scanBwd current (adj graph current) { st with q_bwd := q } with
      | Scan.meet m st1 => Scan.meet m st1
      | Scan.cont st1 => levelBwd graph size_b st1

/-- Outcome of `bidirectionalBFS`: `none` for `return false`, and for `return true` the meeting
node together with the node sequence printed by `printPath`. -/
abbrev Answer := Option (Nat × List Nat)

/-- The `while (!q_fwd.empty() && !q_bwd.empty())` loop of `bidirectionalBFS`. -/
def loop (path_fuel : Nat) (graph : Graph) : Nat → State → Option Answer
  | 0, _ => none
  | fuel + 1, st =>
    if !st.q_fwd.isEmpty && !st.q_bwd.isEmpty then
      match levelFwd graph st.q_fwd.length st with
      | Scan.meet m st1 =>
        (printPath path_fuel m st1.parent_fwd st1.parent_bwd).map (fun p => some (m, p))
      | Scan.cont st1 =>
        match levelBwd graph st1.q_bwd.length st1 with
        | Scan.meet m st2 =>
          (printPath path_fuel m st2.parent_fwd st2.parent_bwd).map (fun p => some (m, p))
        | Scan.cont st2 => loop path_fuel graph fuel st2
    else
      some none

/-- The function `bidirectionalBFS(graph, start, goal)`. -/
def bidirectionalBFS (fuel path_fuel : Nat) (graph : Graph) (start goal : Nat) : Option Answer :=
  let n := graph.length
  loop path_fuel graph fuel
    { visited_fwd := (List.replicate n false).set start true,
      visited_bwd := (List.replicate n false).set goal true,
      parent_fwd := [], parent_bwd := [],
      q_fwd := [start], q_bwd := [goal] }

end Bidirectional

/-! ## Specification vocabulary: walks, reachability, minimum cost -/

/-- A walk of a weighted graph leaving `u`, given by the edges it takes in order. -/
def IsWalk (graph : WGraph) : Nat → List Edge → Prop
  | _, [] => True
  | u, e :: es => e ∈ wadj graph u ∧ IsWalk graph e.1 es

/-- Last node of the walk `p` leaving `u`. -/
def walkEnd : Nat → List Edge → Nat
  | u, [] => u
  | _, e :: es => walkEnd e.1 es

/-- Total weight of a walk. -/
def walkCost (p : List Edge) : Int := (p.map Prod.snd).sum

/-- There is a path from `s` to `t` of total weight `c`. -/
def HasPath (graph : WGraph) (s t : Nat) (c : Int) : Prop :=
  ∃ p, IsWalk graph s p ∧ walkEnd s p = t ∧ walkCost p = c

/-- Node `t` is reachable from `s` in a weighted graph. -/
def Reachable (graph : WGraph) (s t : Nat) : Prop := ∃ c, HasPath graph s t c

/-- The minimum total weight over all paths from `s` to `t` is `c`. -/
def IsMinCost (graph : WGraph) (s t : Nat) (c : Int) : Prop :=
  HasPath graph s t c ∧ ∀ c', HasPath graph s t c' → c ≤ c'

/-- Every edge weight is non-negative. -/
def NonNegWeights (graph : WGraph) : Prop := ∀ es ∈ graph, ∀ e ∈ es, 0 ≤ e.2

/-- Every edge destination is a node of the graph. -/
def WellFormedW (graph : WGraph) : Prop := ∀ es ∈ graph, ∀ e ∈ es, e.1 < graph.length

/-- Sum of the weights of all edges of the graph. -/
def totalWeight (graph : WGraph) : Int := (graph.map walkCost).sum

/-- The heuristic never overestimates the cost of reaching `goal`. -/
def Admissible (graph : WGraph) (heuristic : List Int) (goal : Nat) : Prop :=
  ∀ n c, HasPath graph n goal c → heuristic.getD n 0 ≤ c

/-- A walk of an unweighted graph leaving `u`, given by the nodes it steps to in order. -/
def IsUWalk (graph : Graph) : Nat → List Nat → Prop
  | _, [] => True
  | u, v :: vs => v ∈ adj graph u ∧ IsUWalk graph v vs

/-- Last node of the unweighted walk `p` leaving `u`. -/
def uwalkEnd : Nat → List Nat → Nat
  | u, [] => u
  | _, v :: vs => uwalkEnd v vs

/-- There is a path from `s` to `t` with `k` edges. -/
def HasUPath (graph : Graph) (s t : Nat) (k : Nat) : Prop :=
  ∃ p, IsUWalk graph s p ∧ uwalkEnd s p = t ∧ p.length = k

/-- Node `t` is reachable from `s` in an unweighted graph. -/
def UReachable (graph : Graph) (s t : Nat) : Prop := ∃ k, HasUPath graph s t k

/-- The unweighted shortest-path distance from `s` to `t` is `d`. -/
def IsDist (graph : Graph) (s t : Nat) (d : Nat) : Prop :=
  HasUPath graph s t d ∧ ∀ k, HasUPath graph s t k → d ≤ k

/-- Every neighbour listed is a node of the graph. -/
def WellFormed (graph : Graph) : Prop := ∀ ns ∈ graph, ∀ v ∈ ns, v < graph.length

/-- The adjacency list is symmetric: `v` is listed under `u` exactly when `u` is under `v`. -/
def Symmetric (graph : Graph) : Prop := ∀ u v, v ∈ adj graph u → u ∈ adj graph v

/-! ## Auxiliary notions used in the proofs -/

/-- Node `x` is marked in the boolean vector `v`. -/
def marked (v : List Bool) (x : Nat) : Prop := v.getD x false = true

instance (v : List Bool) (x : Nat) : Decidable (marked v x) := by unfold marked; infer_instance

/-- Number of unmarked entries. -/
def unmarkedCount (v : List Bool) : Nat := v.count false

/-- Invariant of the `while` loop of `bfs`. -/
structure Bfs.Inv (graph : Graph) (start : Nat) (q : List Nat) (visited : List Bool)
    (trace : List Nat) : Prop where
  len : visited.length = graph.length
  mark : ∀ x, marked visited x ↔ x ∈ trace ∨ x ∈ q
  nodup : (trace ++ q).Nodup
  reach : ∀ x, marked visited x → UReachable graph start x
  closed : ∀ x ∈ trace, ∀ y ∈ adj graph x, marked visited y
  start_mem : marked visited start

/-- The undirected sample graph of the BFS, DFS and IDDFS demos. -/
def sampleGraph : Graph := [[1, 2], [0, 3, 4], [0], [1], [1, 5], [4]]

/-- Relation between the `(visited, trace)` state before and after a call of `dfs` (or a run of
its loop) that printed the nodes `new`. -/
structure Dfs.Post (graph : Graph) (v : List Bool) (t : List Nat) (v1 : List Bool)
    (t1 : List Nat) (new : List Nat) : Prop where
  len : v1.length = v.length
  tr : t1 = t ++ new
  nodup : new.Nodup
  mem : ∀ x, x ∈ new ↔ marked v1 x ∧ ¬ marked v x
  mono : ∀ x, marked v x → marked v1 x
  closed : ∀ x ∈ new, ∀ y ∈ adj graph x, marked v1 y
  cnt : unmarkedCount v1 + new.length = unmarkedCount v

/-! ## Concrete inputs -/

/-- Weighted graph on which A* closes node 2 through the dearer route `0 → 2` first. -/
def detourGraph : WGraph := [[(1, 1), (2, 3)], [(2, 1)], [(3, 10)], []]

/-- Heuristic for goal 3 on `detourGraph`: admissible, but `h 1 = 11 > 1 + h 2`. -/
def detourH : List Int := [0, 11, 0, 0]

/-- Undirected graph with a triangle `0-1-2` and a pendant edge `2-3`. -/
def triangleGraph : Graph := [[1, 2], [0, 2], [0, 1, 3], [2]]

/-- Weighted graph whose first edge has weight `INT_MAX`. -/
def heavyGraph : WGraph := [[(1, 2147483647)], [(2, 1)], []]

/-- Weighted graph with the single edge `0 → 1` of weight `INT_MAX`. -/
def heavyEdge : WGraph := [[(1, 2147483647)], []]

/-- Weighted graph whose two edge weights add up to `INT_MAX + 1`. -/
def wrapGraph : WGraph := [[(1, 1073741824)], [(2, 1073741824)], []]

/-- Weighted graph with the single edge `0 → 1` of weight 5. -/
def lightEdge : WGraph := [[(1, 5)], []]

/-- Weighted sample graph of the A* and IDA* demos. -/
def sampleWGraph : WGraph := [[(1, 2), (2, 4)], [(3, 2), (4, 3)], [(4, 2)], [(5, 1)], [(5, 2)], []]

/-- Heuristic table of the A* and IDA* demos (goal 5). -/
def sampleH : List Int := [7, 6, 2, 1, 3, 0]

/-- Weighted sample graph of the UCS demo. -/
def sampleUcsGraph : WGraph :=
  [[(1, 2), (2, 4)], [(0, 2), (3, 7), (4, 1)], [(0, 4), (4, 3)], [(1, 7), (5, 1)],
    [(1, 1), (2, 3), (5, 5)], [(3, 1), (4, 5)]]

/-- Undirected sample graph of the bidirectional-search demo. -/
def sampleBiGraph : Graph := [[1, 2], [0, 3], [0, 4], [1, 5], [2, 5], [3, 4, 6], [5]]

/-- Pop that succeeds only when exactly one entry has the least `f`, so that no tie arises. -/
def AStar.pqPopUnique : List AStar.Node → Option (AStar.Node × List AStar.Node)
  | [] => none
  | x :: xs =>
    match (x :: xs).filter (fun e => decide (e.f = AStar.minF x xs)) with
    | [c] => some (c, (x :: xs).erase c)
    | _ => none

/-- The loop of `aStar` run without a tie-breaking rule: it gives up (`none`) as soon as two
entries tie for the least `f`. Used to evaluate runs in which the pop order is forced. -/
def AStar.loopDet (goal : Nat) (graph : WGraph) (heuristic : List Int) :
    Nat → List Bool → List Int → List AStar.Node → List AStar.Visit → Option AStar.Result
  | 0, _, _, _, _ => none
  | _ + 1, _, _, [], trace => some ⟨trace, Outcome.notFound⟩
  | fuel + 1, visited, cost, x :: xs, trace =>
    match AStar.pqPopUnique (x :: xs) with
    | none => none
    | some (current, pq1) =>
      let node := current.id
      if visited.getD node false then
        AStar.loopDet goal graph heuristic fuel visited cost pq1 trace
      else
        let visited1 := visited.set node true
        let trace1 := trace ++ [(node, current.g, heuristic.getD node 0, current.f)]
        if node = goal then
          some ⟨trace1, Outcome.found current.g⟩
        else
          let r := AStar.relax heuristic current.g (wadj graph node) (cost, pq1)
          AStar.loopDet goal graph heuristic fuel visited1 r.1 r.2 trace1

/-- The function `aStar` run without a tie-breaking rule (see `AStar.loopDet`). -/
def AStar.aStarDet (fuel : Nat) (start goal : Nat) (graph : WGraph) (heuristic : List Int) :
    Option AStar.Result :=
  AStar.loopDet goal graph heuristic fuel (List.replicate graph.length false)
    ((List.replicate graph.length INT_MAX).set start 0) [⟨start, 0, heuristic.getD start 0⟩] []

/-- Directed graph with the edges `0 → 1` and `2 → 1` only. -/
def oneWayGraph : Graph := [[1], [], [1]]

/-- Weighted graph with the cheap route `0 → 2 → 3` and the dear route `0 → 1 → 3`. -/
def shortcutGraph : WGraph := [[(1, 1), (2, 1)], [(3, 5)], [(3, 1)], []]

/-- Heuristic on `shortcutGraph` that is consistent but has entries close to `INT_MAX`. -/
def steepH : List Int := [0, 2147483647, 0, 2147483642]

/-! ## Bookkeeping for the weighted searches -/

/-- Sum of the absolute values of the weights in one adjacency list. -/
def absWeight (es : List Edge) : Int := (es.map (fun e => |e.2|)).sum

/-- Sum of the absolute values of all edge weights of the graph. -/
def absTotal (graph : WGraph) : Int := (graph.map absWeight).sum

/-- Number of edges of the graph. -/
def edgeCount (graph : WGraph) : Nat := (graph.map List.length).sum

/-- Sum of the entries of `xs` at the marked positions of `v`. -/
def markedSum : List Bool → List Int → Int
  | b :: bs, x :: xs => (if b then x else 0) + markedSum bs xs
  | _, _ => 0

/-- Sum of the entries of `xs` at the unmarked positions of `v`. -/
def unmarkedSum : List Bool → List Nat → Nat
  | b :: bs, x :: xs => (if b then 0 else x) + unmarkedSum bs xs
  | _, _ => 0

/-- Invariant of the `while` loop of `aStar`, as far as reaching the goal goes. -/
structure AStar.Inv (graph : WGraph) (start goal : Nat) (visited : List Bool) (cost : List Int)
    (pq : List AStar.Node) : Prop where
  vlen : visited.length = graph.length
  clen : cost.length = graph.length
  pq_ok : ∀ e ∈ pq, e.id < graph.length ∧ Reachable graph start e.id
    ∧ |e.g| ≤ markedSum visited (graph.map absWeight)
  disc : ∀ v, v < graph.length → cost.getD v 0 ≠ INT_MAX →
    marked visited v ∨ ∃ e ∈ pq, e.id = v
  expanded : ∀ u, marked visited u → ∀ e ∈ wadj graph u, cost.getD e.1 0 ≠ INT_MAX
  goal_open : ¬ marked visited goal
  start_disc : cost.getD start 0 ≠ INT_MAX

/-- Invariant of the `while` loop of `ucs` (Dijkstra's invariant with lazy deletion). -/
structure Ucs.Inv (graph : WGraph) (start : Nat) (visited : List Bool) (cost : List Int)
    (pq : List (Int × Nat)) : Prop where
  vlen : visited.length = graph.length
  clen : cost.length = graph.length
  cost_dich : ∀ v, v < graph.length → cost.getD v 0 = INT_MAX ∨
    (HasPath graph start v (cost.getD v 0)
      ∧ cost.getD v 0 ≤ markedSum visited (graph.map absWeight))
  pq_ok : ∀ x ∈ pq, x.2 < graph.length ∧ HasPath graph start x.2 x.1
    ∧ x.1 ≤ markedSum visited (graph.map absWeight) ∧ cost.getD x.2 0 ≤ x.1
  open_in_pq : ∀ v, v < graph.length → ¬ marked visited v → cost.getD v 0 ≠ INT_MAX →
    (cost.getD v 0, v) ∈ pq
  closed_min : ∀ u, marked visited u → cost.getD u 0 ≠ INT_MAX
    ∧ ∀ c, HasPath graph start u c → cost.getD u 0 ≤ c
  edge_ok : ∀ u, marked visited u → ∀ e ∈ wadj graph u,
    cost.getD e.1 0 ≤ cost.getD u 0 + e.2 ∧ cost.getD e.1 0 ≠ INT_MAX
  start_ok : cost.getD start 0 ≤ 0

/-- Nodes met by the walk `p` leaving `u`, in order. -/
def pathNodes (u : Nat) (p : List Edge) : List Nat := u :: p.map Prod.fst

/-- The walk `p` leaving `u` meets no node twice and no node marked in `visited`. -/
def SimpleAvoiding (visited : List Bool) (u : Nat) (p : List Edge) : Prop :=
  (pathNodes u p).Nodup ∧ ∀ x ∈ pathNodes u p, ¬ marked visited x

/-- Largest evaluation value `g + h` met along the walk `p` leaving `u` with accumulated cost
`g`. -/
def maxF (heuristic : List Int) : Int → Nat → List Edge → Int
  | g, u, [] => g + heuristic.getD u 0
  | g, u, e :: es => max (g + heuristic.getD u 0) (maxF heuristic (g + e.2) e.1 es)

/-- The heuristic table has one non-negative entry per node, and adding any entry to the sum of
all edge weights stays below `INT_MAX`. -/
def BoundedHeuristic (graph : WGraph) (heuristic : List Int) : Prop :=
  heuristic.length = graph.length ∧ totalWeight graph < INT_MAX
    ∧ ∀ x ∈ heuristic, 0 ≤ x ∧ totalWeight graph + x < INT_MAX

/-- Largest entry of the heuristic table (at least 0). -/
def maxEntry (heuristic : List Int) : Int := heuristic.foldr max 0

/-- Number of iterations after which the outer loop of `idaStar` has certainly stopped. -/
def iterBound (graph : WGraph) (heuristic : List Int) : Nat :=
  (totalWeight graph + maxEntry heuristic).toNat + 2

/-- What a call `dfs(node, goal, g, limit, ...)` of IDA* guarantees, relating the state `st`
at entry to the returned flag `res` and the state `st1` at exit. -/
def IdaStar.DfsPost (graph : WGraph) (heuristic : List Int) (goal : Nat) (limit : Int)
    (node : Nat) (g : Int) (st : IdaStar.State) (res : Option Int) (st1 : IdaStar.State) :
    Prop :=
  (res = none → st1.visited = st.visited ∧ st1.next_limit ≤ st.next_limit
      ∧ (st1.next_limit = st.next_limit
        ∨ (limit < st1.next_limit ∧ st1.next_limit ≤ totalWeight graph + maxEntry heuristic))
      ∧ ∀ p, IsWalk graph node p → walkEnd node p = goal → SimpleAvoiding st.visited node p →
          limit < maxF heuristic g node p ∧ st1.next_limit ≤ maxF heuristic g node p
            ∧ st1.next_limit < INT_MAX)
  ∧ (∀ c, res = some c → c + heuristic.getD goal 0 ≤ limit
      ∧ ∃ c', HasPath graph node goal c' ∧ c = g + c')

/-- What the neighbour loop of IDA*'s `dfs` guarantees for the edges `es` it scans. -/
def IdaStar.LoopPost (graph : WGraph) (heuristic : List Int) (goal : Nat) (limit : Int)
    (g : Int) (es : List Edge) (st : IdaStar.State) (res : Option Int) (st1 : IdaStar.State) :
    Prop :=
  (res = none → st1.visited = st.visited ∧ st1.next_limit ≤ st.next_limit
      ∧ (st1.next_limit = st.next_limit
        ∨ (limit < st1.next_limit ∧ st1.next_limit ≤ totalWeight graph + maxEntry heuristic))
      ∧ ∀ e ∈ es, ∀ p, IsWalk graph e.1 p → walkEnd e.1 p = goal →
          SimpleAvoiding st.visited e.1 p →
          limit < maxF heuristic (g + e.2) e.1 p ∧ st1.next_limit ≤ maxF heuristic (g + e.2) e.1 p
            ∧ st1.next_limit < INT_MAX)
  ∧ (∀ c, res = some c → c + heuristic.getD goal 0 ≤ limit
      ∧ ∃ e ∈ es, ∃ c', HasPath graph e.1 goal c' ∧ c = g + e.2 + c')

/-! ## Auxiliary notions for bidirectional BFS -/

/-- Following the parent pointers from `v` reaches `root`, which has no parent, in `k` steps. -/
inductive Bidirectional.Chain (parent : Bidirectional.PMap) (root : Nat) : Nat → Nat → Prop where
  | base : parent.lookup root = none → Bidirectional.Chain parent root root 0
  | step {v p k : Nat} : parent.lookup v = some p → Bidirectional.Chain parent root p k →
      Bidirectional.Chain parent root v (k + 1)

/-- The state with the roles of the forward and the backward search exchanged. -/
def Bidirectional.State.swap (st : Bidirectional.State) : Bidirectional.State :=
  { visited_fwd := st.visited_bwd, visited_bwd := st.visited_fwd,
    parent_fwd := st.parent_bwd, parent_bwd := st.parent_fwd,
    q_fwd := st.q_bwd, q_bwd := st.q_fwd }

/-- A scan result with the roles of the two searches exchanged. -/
def Bidirectional.Scan.swap : Bidirectional.Scan → Bidirectional.Scan
  | Bidirectional.Scan.meet m st => Bidirectional.Scan.meet m st.swap
  | Bidirectional.Scan.cont st => Bidirectional.Scan.cont st.swap

/-- One search direction at the start of round `r`: `visited` is the ball of radius `r` around
`root`, the queue holds the nodes first reached in round `r`, and the parent pointers lead back
to `root` along edges. -/
structure Bidirectional.SideInv (graph : Graph) (root r : Nat) (visited : List Bool)
    (parent : Bidirectional.PMap) (q : List Nat) : Prop where
  len : visited.length = graph.length
  ball : ∀ v, marked visited v ↔ ∃ k, k ≤ r ∧ HasUPath graph root v k
  queue : ∀ v ∈ q, HasUPath graph root v r ∧ ∃ k, k ≤ r ∧ Bidirectional.Chain parent root v k
  queue_complete : ∀ v, marked visited v → (∃ k, k < r ∧ HasUPath graph root v k) ∨ v ∈ q
  root_none : parent.lookup root = none
  par : ∀ v p, parent.lookup v = some p → marked visited v ∧ v ∈ adj graph p
  chain : ∀ v, marked visited v → ∃ k, k ≤ r ∧ Bidirectional.Chain parent root v k

/-- One search direction in the middle of round `r`: `rest` are the queued nodes of the round
still to be expanded, `new` the nodes discovered so far, none of them marked by the other
search (`other`). -/
structure Bidirectional.MidInv (graph : Graph) (root r : Nat) (other : List Bool)
    (visited : List Bool) (parent : Bidirectional.PMap) (rest new : List Nat) : Prop where
  len : visited.length = graph.length
  sound : ∀ v, marked visited v → (∃ k, k ≤ r ∧ HasUPath graph root v k) ∨ v ∈ new
  ball : ∀ v, (∃ k, k ≤ r ∧ HasUPath graph root v k) → marked visited v
  rest_ok : ∀ v ∈ rest, HasUPath graph root v r ∧ ∃ k, k ≤ r ∧ Bidirectional.Chain parent root v k
  new_ok : ∀ v ∈ new, marked visited v ∧ HasUPath graph root v (r + 1)
    ∧ (¬ ∃ k, k ≤ r ∧ HasUPath graph root v k) ∧ ¬ marked other v
    ∧ ∃ k, k ≤ r + 1 ∧ Bidirectional.Chain parent root v k
  closed : ∀ u, (∃ k, k ≤ r ∧ HasUPath graph root u k) →
    u ∈ rest ∨ ∀ v ∈ adj graph u, marked visited v
  root_none : parent.lookup root = none
  par : ∀ v p, parent.lookup v = some p → marked visited v ∧ v ∈ adj graph p
  chain : ∀ v, marked visited v → ∃ k, k ≤ r + 1 ∧ Bidirectional.Chain parent root v k

/-- The state after the forward search discovers `y` from `current`. -/
def Bidirectional.State.discover (st : Bidirectional.State) (current y : Nat) :
    Bidirectional.State :=
  { st with
    visited_fwd := st.visited_fwd.set y true,
    parent_fwd := (y, current) :: st.parent_fwd,
    q_fwd := st.q_fwd ++ [y] }

/-! ## Greedy best-first search (`greedy_best_first_search.cpp`) -/

namespace Greedy

/-- Frontier entry `struct Node { id, h }`. -/
structure Node where
  id : Nat
  h : Int
deriving DecidableEq

/-- Least `h` value in a non-empty frontier `x :: xs`. -/
def minH : Node → List Node → Int
  | x, [] => x.h
  | x, y :: ys => min x.h (minH y ys)

/-- Reading `pq.top()` followed by `pq.pop()`. The comparator looks at `h` only; `pick` selects
among the entries with the least `h`. -/
def pqPop (pick : Nat) : List Node → Option (Node × List Node)
  | [] => none
  | x :: xs =>
    let cands := (x :: xs).filter (fun e => decide (e.h = minH x xs))
    let c := cands.getD (pick % cands.length) x
    some (c, (x :: xs).erase c)

/-- The `for (auto [neighbor, cost] : graph[node])` loop: queues every unvisited neighbour. -/
def expand (heuristic : List Int) (visited : List Bool) : List Edge → List Node → List Node
  | [], pq => pq
  | (neighbor, _) :: es, pq =>
    if !(visited.getD neighbor false) then
      expand heuristic visited es (pq ++ [⟨neighbor, heuristic.getD neighbor 0⟩])
    else
      expand heuristic visited es pq

/-- Result of `greedyBestFirstSearch`: the `Visited node` lines as `(node, h)` and whether the
run ended with `Goal reached`. -/
structure Result where
  trace : List (Nat × Int)
  reached : Bool
deriving DecidableEq

/-- The `while (!pq.empty())` loop. `tie k` resolves the `k`-th upcoming pop. -/
def loop (goal : Nat) (graph : WGraph) (heuristic : List Int) :
    Nat → (Nat → Nat) → List Bool → List Node → List (Nat × Int) → Option Result
  | 0, _, _, _, _ => none
  | fuel + 1, tie, visited, pq, trace =>
    match pqPop (tie 0) pq with
    | none => some ⟨trace, false⟩
    | some (current, pq1) =>
      let node := current.id
      if visited.getD node false then
        loop goal graph heuristic fuel (fun k => tie (k + 1)) visited pq1 trace
      else
        let visited1 := visited.set node true
        let trace1 := trace ++ [(node, heuristic.getD node 0)]
        if node = goal then
          some ⟨trace1, true⟩
        else
          loop goal graph heuristic fuel (fun k => tie (k + 1)) visited1
            (expand heuristic visited1 (wadj graph node) pq1) trace1

/-- The function `greedyBestFirstSearch(start, goal, graph, heuristic)`. -/
def greedyBestFirstSearch (fuel : Nat) (tie : Nat → Nat) (start goal : Nat) (graph : WGraph)
    (heuristic : List Int) : Option Result :=
  loop goal graph heuristic fuel tie (List.replicate graph.length false)
    [⟨start, heuristic.getD start 0⟩] []

/-- Pop that succeeds only when exactly one entry has the least `h`, so that no tie arises. -/
def pqPopUnique : List Node → Option (Node × List Node)
  | [] => none
  | x :: xs =>
    match (x :: xs).filter (fun e => decide (e.h = minH x xs)) with
    | [c] => some (c, (x :: xs).erase c)
    | _ => none

/-- The loop run without a tie-breaking rule: it gives up (`none`) as soon as two entries tie
for the least `h`. Used to evaluate runs in which the pop order is forced. -/
def loopDet (goal : Nat) (graph : WGraph) (heuristic : List Int) :
    Nat → List Bool → List Node → List (Nat × Int) → Option Result
  | 0, _, _, _ => none
  | _ + 1, _, [], trace => some ⟨trace, false⟩
  | fuel + 1, visited, x :: xs, trace =>
    match pqPopUnique (x :: xs) with
    | none => none
    | some (current, pq1) =>
      let node := current.id
      if visited.getD node false then
        loopDet goal graph heuristic fuel visited pq1 trace
      else
        let visited1 := visited.set node true
        let trace1 := trace ++ [(node, heuristic.getD node 0)]
        if node = goal then
          some ⟨trace1, true⟩
        else
          loopDet goal graph heuristic fuel visited1
            (expand heuristic visited1 (wadj graph node) pq1) trace1

/-- The function `greedyBestFirstSearch` run without a tie-breaking rule (see `loopDet`). -/
def greedyDet (fuel : Nat) (start goal : Nat) (graph : WGraph) (heuristic : List Int) :
    Option Result :=
  loopDet goal graph heuristic fuel (List.replicate graph.length false)
    [⟨start, heuristic.getD start 0⟩] []

end Greedy

/-! ## Array searches (`linear_search.cpp`, `binary_search.cpp`) -/

/-- Subtraction of two `int` values. -/
def subInt (a b : Int) : Int := wrap32 (a - b)

/-- Division of two `int` values: the quotient is truncated towards zero. -/
def divInt (a b : Int) : Int := wrap32 (Int.tdiv a b)

/-- Element `arr[i]` of an `int` array. -/
def arrGet (arr : List Int) (i : Int) : Int := arr.getD i.toNat 0

namespace LinearSearch

/-- The loop `for (int i = 0; i < size; i++)` of `linearSearch`, entered with the current `i`;
one unit of fuel per iteration. -/
def loop (arr : List Int) (size target : Int) : Nat → Int → Option Int
  | 0, _ => none
  | fuel + 1, i =>
    if i < size then
      if arrGet arr i = target then some i
      else loop arr size target fuel (addInt i 1)
    else
      some (-1)

/-- The function `linearSearch(arr, size, target)`. -/
def linearSearch (fuel : Nat) (arr : List Int) (size target : Int) : Option Int :=
  loop arr size target fuel 0

end LinearSearch

namespace BinarySearch

/-- The loop `while (left <= right)` of `binarySearch`; one unit of fuel per iteration. -/
def loop (arr : List Int) (target : Int) : Nat → Int → Int → Option Int
  | 0, _, _ => none
  | fuel + 1, left, right =>
    if left ≤ right then
      let mid := addInt left (divInt (subInt right left) 2)
      if arrGet arr mid = target then some mid
      else if arrGet arr mid < target then loop arr target fuel (addInt mid 1) right
      else loop arr target fuel left (subInt mid 1)
    else
      some (-1)

/-- The function `binarySearch(arr, size, target)`. -/
def binarySearch (fuel : Nat) (arr : List Int) (size target : Int) : Option Int :=
  loop arr target fuel 0 (subInt size 1)

end BinarySearch

/-! ## Level-by-level order: the specification of the BFS visit order -/

namespace LevelSpec

/-- Scanning `xs` in order: the nodes not listed before, each once, at its first occurrence.
`listed` holds the nodes listed so far. -/
def newNodes (listed : List Nat) : List Nat → List Nat
  | [] => []
  | x :: xs =>
    if x ∈ listed then newNodes listed xs
    else x :: newNodes (listed ++ [x]) xs

/-- The level after `level`: the nodes of `level` are scanned in order, the adjacency list of
each in stored order. `listed` holds the nodes of all levels up to `level`. -/
def nextLevel (graph : Graph) (listed level : List Nat) : List Nat :=
  newNodes listed (level.flatMap (adj graph))

/-- The non-empty levels from `level` on, at most `fuel` of them after `level`. -/
def levelsFrom (graph : Graph) : Nat → List Nat → List Nat → List (List Nat)
  | _, _, [] => []
  | 0, _, level => [level]
  | fuel + 1, listed, level =>
    level :: levelsFrom graph fuel (listed ++ nextLevel graph listed level)
      (nextLevel graph listed level)

/-- The levels around `start`: level 0 is `[start]`. A graph with `n` nodes has at most `n`
non-empty levels. -/
def levels (graph : Graph) (start : Nat) : List (List Nat) :=
  levelsFrom graph graph.length [start] [start]

/-- The level-by-level order: the levels one after the other. -/
def levelOrder (graph : Graph) (start : Nat) : List Nat :=
  (levels graph start).flatten

end LevelSpec

/-! ## IDA*: `dfs` with a record of the pruned evaluation values -/

namespace IdaStar

end IdaStar

/-- Invariant of the `while` loop of `ucs` about the visit events printed so far. -/
structure Ucs.TraceInv (visited : List Bool) (cost : List Int) (pq : List (Int × Nat))
    (trace : List (Nat × Int)) : Prop where
  vis : ∀ e ∈ trace, marked visited e.1
  nodup : (trace.map Prod.fst).Nodup
  sorted : (trace.map Prod.snd).Pairwise (fun a b => a ≤ b)
  below : ∀ e ∈ trace, ∀ x ∈ pq, e.2 ≤ x.1
  cost_eq : ∀ e ∈ trace, cost.getD e.1 0 = e.2

/-- The heuristic is consistent: `h(u) ≤ w(u, v) + h(v)` for every edge `u → v`. -/
def Consistent (graph : WGraph) (heuristic : List Int) : Prop :=
  ∀ u, u < graph.length → ∀ e ∈ wadj graph u, heuristic.getD u 0 ≤ e.2 + heuristic.getD e.1 0

/-- Every heuristic entry, added in absolute value to the sum of all absolute edge weights,
stays below `INT_MAX`; then no evaluation value `g + h` of a genuine path leaves the `int`
range. -/
def SmallHeuristic (graph : WGraph) (heuristic : List Int) : Prop :=
  absTotal graph < INT_MAX ∧ ∀ x ∈ heuristic, |x| + absTotal graph < INT_MAX

/-- Invariant of the `while` loop of `aStar` under a consistent heuristic: the recorded costs
of closed nodes are minimal (Dijkstra's invariant with lazy deletion, ordered by `f`). -/
structure AStar.OptInv (graph : WGraph) (heuristic : List Int) (start : Nat)
    (visited : List Bool) (cost : List Int) (pq : List AStar.Node) : Prop where
  vlen : visited.length = graph.length
  clen : cost.length = graph.length
  cost_dich : ∀ v, v < graph.length → cost.getD v 0 = INT_MAX ∨
    (HasPath graph start v (cost.getD v 0)
      ∧ cost.getD v 0 ≤ markedSum visited (graph.map absWeight))
  pq_ok : ∀ x ∈ pq, x.id < graph.length ∧ HasPath graph start x.id x.g
    ∧ x.g ≤ markedSum visited (graph.map absWeight) ∧ cost.getD x.id 0 ≤ x.g
    ∧ x.f = x.g + heuristic.getD x.id 0
  open_in_pq : ∀ v, v < graph.length → ¬ marked visited v → cost.getD v 0 ≠ INT_MAX →
    ∃ x ∈ pq, x.id = v ∧ x.g = cost.getD v 0
  closed_min : ∀ u, marked visited u → cost.getD u 0 ≠ INT_MAX
    ∧ ∀ c, HasPath graph start u c → cost.getD u 0 ≤ c
  edge_ok : ∀ u, marked visited u → ∀ e ∈ wadj graph u,
    cost.getD e.1 0 ≤ cost.getD u 0 + e.2 ∧ cost.getD e.1 0 ≠ INT_MAX
  start_ok : cost.getD start 0 ≤ 0

/-! ## Subscripts used by `aStar`

`relaxLog`, `loopLog` and `aStarLog` are `relax`, `loop` and `aStar` with one more component:
the list of subscript expressions `vec[index]` evaluated so far, in program order. -/

namespace AStar

/-- The vector a subscript expression of `aStar` is applied to. -/
inductive Vec where
  | graph
  | visited
  | cost
  | heuristic
deriving DecidableEq, Repr

/-- One evaluation of `vec[index]`. -/
abbrev Access := Vec × Nat

/-- The `for` loop of `aStar` with its subscripts: `heuristic[neighbor]` for `newF`,
`cost[neighbor]` in the comparison and `cost[neighbor]` again in the assignment. -/
def relaxLog (heuristic : List Int) (g : Int) :
    List Edge → List Int × List Node × List Access → List Int × List Node × List Access
  | [], st => st
  | (neighbor, weight) :: es, (cost, pq, log) =>
    let newG := addInt g weight
    let newF := addInt newG (heuristic.getD neighbor 0)
    let log1 := log ++ [(Vec.heuristic, neighbor), (Vec.cost, neighbor)]
    if newG < cost.getD neighbor 0 then
      relaxLog heuristic g es
        (cost.set neighbor newG, pq ++ [⟨neighbor, newG, newF⟩], log1 ++ [(Vec.cost, neighbor)])
    else
      relaxLog heuristic g es (cost, pq, log1)

/-- The `while` loop of `aStar` with its subscripts: `visited[node]` in the test, then
`visited[node]` in the assignment and `heuristic[node]` in the output, then `graph[node]` and
the subscripts of the `for` loop. -/
def loopLog (goal : Nat) (graph : WGraph) (heuristic : List Int) :
    Nat → (Nat → Nat) → List Bool → List Int → List Node → List Visit → List Access →
      Option (Result × List Access)
  | 0, _, _, _, _, _, _ => none
  | fuel + 1, tie, visited, cost, pq, trace, log =>
    match pqPop (tie 0) pq with
    | none => some (⟨trace, Outcome.notFound⟩, log)
    | some (current, pq1) =>
      let node := current.id
      let log1 := log ++ [(Vec.visited, node)]
      if visited.getD node false then
        loopLog goal graph heuristic fuel (fun k => tie (k + 1)) visited cost pq1 trace log1
      else
        let visited1 := visited.set node true
        let trace1 := trace ++ [(node, current.g, heuristic.getD node 0, current.f)]
        let log2 := log1 ++ [(Vec.visited, node), (Vec.heuristic, node)]
        if node = goal then
          some (⟨trace1, Outcome.found current.g⟩, log2)
        else
          let r := relaxLog heuristic current.g (wadj graph node)
            (cost, pq1, log2 ++ [(Vec.graph, node)])
          loopLog goal graph heuristic fuel (fun k => tie (k + 1)) visited1 r.1 r.2.1 trace1 r.2.2

/-- The function `aStar` with its subscripts; before the loop it evaluates `heuristic[start]`
and `cost[start]`. -/
def aStarLog (fuel : Nat) (tie : Nat → Nat) (start goal : Nat) (graph : WGraph)
    (heuristic : List Int) : Option (Result × List Access) :=
  let n := graph.length
  loopLog goal graph heuristic fuel tie (List.replicate n false)
    ((List.replicate n INT_MAX).set start 0) [⟨start, 0, heuristic.getD start 0⟩] []
    [(Vec.heuristic, start), (Vec.cost, start)]

end AStar

/-! ## Loop invariant of greedy best-first search -/

/-- Invariant of the loop of `greedyBestFirstSearch`: queued entries are nodes reachable from
`start`; every edge leaving a closed node leads to a closed node or to a queued one; the goal
is not closed; the nodes printed so far are closed and pairwise distinct. -/
structure Greedy.Inv (graph : WGraph) (start goal : Nat) (visited : List Bool)
    (pq : List Greedy.Node) (trace : List (Nat × Int)) : Prop where
  vlen : visited.length = graph.length
  pq_ok : ∀ x ∈ pq, x.id < graph.length ∧ Reachable graph start x.id
  closed : ∀ u, marked visited u → ∀ e ∈ wadj graph u,
    marked visited e.1 ∨ ∃ x ∈ pq, x.id = e.1
  start_ok : marked visited start ∨ ∃ x ∈ pq, x.id = start
  goal_open : ¬ marked visited goal
  trace_marked : ∀ ev ∈ trace, marked visited ev.1
  trace_nodup : (trace.map Prod.fst).Nodup

/-! ## Additions performed by `ucs`

`relaxAdds`, `loopAdds` and `ucsAdds` are `relax`, `loop` and `ucs` with one more component:
the list of the additions `currCost + weight` evaluated so far, each recorded as
`(node, currCost, weight)` with `node` the node whose edges are being relaxed. -/

namespace Ucs

/-- One evaluation of `currCost + weight` while relaxing the edges of `node`. -/
abbrev Addition := Nat × Int × Int

/-- The `for` loop of `ucs` with its additions recorded. -/
def relaxAdds (node : Nat) (currCost : Int) :
    List Edge → List Int × List (Int × Nat) × List Addition →
      List Int × List (Int × Nat) × List Addition
  | [], st => st
  | (neighbor, weight) :: es, (cost, pq, log) =>
    let newCost := addInt currCost weight
    let log1 := log ++ [(node, currCost, weight)]
    if newCost < cost.getD neighbor 0 then
      relaxAdds node currCost es (cost.set neighbor newCost, pq ++ [(newCost, neighbor)], log1)
    else
      relaxAdds node currCost es (cost, pq, log1)

/-- The `while` loop of `ucs` with its additions recorded. -/
def loopAdds (graph : WGraph) : Nat → State → List Addition → Option (State × List Addition)
  | 0, _, _ => none
  | fuel + 1, st, log =>
    match pqPop st.pq with
    | none => some (st, log)
    | some ((currCost, node), pq1) =>
      if st.visited.getD node false then
        loopAdds graph fuel { st with pq := pq1 } log
      else
        let r := relaxAdds node currCost (wadj graph node) (st.cost, pq1, log)
        loopAdds graph fuel
          { visited := st.visited.set node true, cost := r.1, pq := r.2.1,
            trace := st.trace ++ [(node, currCost)] } r.2.2

/-- The function `ucs` with its additions recorded. -/
def ucsAdds (fuel : Nat) (start : Nat) (graph : WGraph) : Option (State × List Addition) :=
  let n := graph.length
  loopAdds graph fuel
    { visited := List.replicate n false,
      cost := (List.replicate n INT_MAX).set start 0,
      pq := [(0, start)],
      trace := [] } []

end Ucs

/-! ## Frontier entries pushed by `aStar`

`relaxPush`, `loopPush` and `aStarPush` are `relax`, `loop` and `aStar` with one more
component: the list of the entries passed to `pq.push` so far, in program order. -/

namespace AStar

/-- The `for` loop of `aStar` with the pushed entries recorded. -/
def relaxPush (heuristic : List Int) (g : Int) :
    List Edge → List Int × List Node × List Node → List Int × List Node × List Node
  | [], st => st
  | (neighbor, weight) :: es, (cost, pq, pushed) =>
    let newG := addInt g weight
    let newF := addInt newG (heuristic.getD neighbor 0)
    if newG < cost.getD neighbor 0 then
      relaxPush heuristic g es
        (cost.set neighbor newG, pq ++ [⟨neighbor, newG, newF⟩],
          pushed ++ [⟨neighbor, newG, newF⟩])
    else
      relaxPush heuristic g es (cost, pq, pushed)

/-- The `while` loop of `aStar` with the pushed entries recorded. -/
def loopPush (goal : Nat) (graph : WGraph) (heuristic : List Int) :
    Nat → (Nat → Nat) → List Bool → List Int → List Node → List Visit → List Node →
      Option (Result × List Node)
  | 0, _, _, _, _, _, _ => none
  | fuel + 1, tie, visited, cost, pq, trace, pushed =>
    match pqPop (tie 0) pq with
    | none => some (⟨trace, Outcome.notFound⟩, pushed)
    | some (current, pq1) =>
      let node := current.id
      if visited.getD node false then
        loopPush goal graph heuristic fuel (fun k => tie (k + 1)) visited cost pq1 trace pushed
      else
        let visited1 := visited.set node true
        let trace1 := trace ++ [(node, current.g, heuristic.getD node 0, current.f)]
        if node = goal then
          some (⟨trace1, Outcome.found current.g⟩, pushed)
        else
          let r := relaxPush heuristic current.g (wadj graph node) (cost, pq1, pushed)
          loopPush goal graph heuristic fuel (fun k => tie (k + 1)) visited1 r.1 r.2.1 trace1
            r.2.2

/-- The function `aStar` with the pushed entries recorded; the first one is
`{start, 0, heuristic[start]}`. -/
def aStarPush (fuel : Nat) (tie : Nat → Nat) (start goal : Nat) (graph : WGraph)
    (heuristic : List Int) : Option (Result × List Node) :=
  let n := graph.length
  loopPush goal graph heuristic fuel tie (List.replicate n false)
    ((List.replicate n INT_MAX).set start 0) [⟨start, 0, heuristic.getD start 0⟩] []
    [⟨start, 0, heuristic.getD start 0⟩]

end AStar

/-! # Verified properties -/

/-! ## Marked vectors and reachability -/

theorem marked_lt {v : List Bool} {x : Nat} (h : marked v x) : x < v.length := by
  unfold marked at h
  by_contra hx
  rw [List.getD_eq_default _ _ (by omega)] at h
  exact absurd h (by decide)

theorem marked_set_true {v : List Bool} {i x : Nat} :
    marked (v.set i true) x ↔ marked v x ∨ (x = i ∧ i < v.length) := by
  unfold marked
  by_cases hx : x < v.length
  · by_cases hxi : x = i
    · subst hxi
      simp [List.getD_eq_getElem?_getD, List.getElem?_set, hx]
    · have : i ≠ x := fun h => hxi h.symm
      simp [List.getD_eq_getElem?_getD, List.getElem?_set, this, hxi]
  · rw [List.getD_eq_default _ _ (by simpa using hx), List.getD_eq_default _ _ (by omega)]
    constructor
    · intro h; exact absurd h (by decide)
    · rintro (h | ⟨h1, h2⟩)
      · exact h
      · omega

theorem marked_set_false {v : List Bool} {i x : Nat} :
    marked (v.set i false) x ↔ marked v x ∧ x ≠ i := by
  unfold marked
  by_cases hxi : x = i
  · subst hxi
    by_cases hx : x < v.length
    · simp [List.getD_eq_getElem?_getD, List.getElem?_set, hx]
    · rw [List.getD_eq_default _ _ (by simpa using hx)]; simp
  · have : i ≠ x := fun h => hxi h.symm
    simp [List.getD_eq_getElem?_getD, List.getElem?_set, this, hxi]

theorem not_marked_replicate (n x : Nat) : ¬ marked (List.replicate n false) x := by
  unfold marked
  simp only [List.getD_eq_getElem?_getD, List.getElem?_replicate]
  split <;> simp

theorem unmarkedCount_set {v : List Bool} {i : Nat} (hi : i < v.length) (h : ¬ marked v i) :
    unmarkedCount (v.set i true) + 1 = unmarkedCount v := by
  unfold unmarkedCount
  unfold marked at h
  induction v generalizing i with
  | nil => simp at hi
  | cons b bs ih =>
    cases i with
    | zero =>
      simp at h
      subst h
      simp [List.count_cons]
    | succ j =>
      simp at hi h
      have := ih hi (by simpa using h)
      simp [List.count_cons, List.set]
      omega

theorem unmarkedCount_replicate (n : Nat) : unmarkedCount (List.replicate n false) = n := by
  simp [unmarkedCount]

/-- Neighbours of an in-range node are in range. -/
theorem WellFormed.adj_lt {graph : Graph} (h : WellFormed graph) {u v : Nat}
    (hv : v ∈ adj graph u) : v < graph.length := by
  unfold adj at hv
  by_cases hu : u < graph.length
  · rw [List.getD_eq_getElem _ _ hu] at hv
    exact h _ (List.getElem_mem hu) v hv
  · rw [List.getD_eq_default _ _ (by omega)] at hv
    simp at hv

theorem UReachable.ureach_refl (graph : Graph) (s : Nat) : UReachable graph s s :=
  ⟨0, [], trivial, rfl, rfl⟩

theorem isUWalk_append {graph : Graph} {u : Nat} {p q : List Nat} :
    IsUWalk graph u (p ++ q) ↔ IsUWalk graph u p ∧ IsUWalk graph (uwalkEnd u p) q := by
  induction p generalizing u with
  | nil => simp [IsUWalk, uwalkEnd]
  | cons v vs ih => simp [IsUWalk, uwalkEnd, ih, and_assoc]

theorem uwalkEnd_append {u : Nat} {p q : List Nat} :
    uwalkEnd u (p ++ q) = uwalkEnd (uwalkEnd u p) q := by
  induction p generalizing u with
  | nil => simp [uwalkEnd]
  | cons v vs ih => simp [uwalkEnd, ih]

theorem HasUPath.upath_snoc {graph : Graph} {s u v : Nat} {k : Nat} (h : HasUPath graph s u k)
    (hv : v ∈ adj graph u) : HasUPath graph s v (k + 1) := by
  obtain ⟨p, hp, he, hl⟩ := h
  refine ⟨p ++ [v], ?_, ?_, by simp [hl]⟩
  · rw [isUWalk_append]; exact ⟨hp, by rw [he]; exact ⟨hv, trivial⟩⟩
  · rw [uwalkEnd_append]; simp [uwalkEnd]

theorem UReachable.ureach_step {graph : Graph} {s u v : Nat} (h : UReachable graph s u)
    (hv : v ∈ adj graph u) : UReachable graph s v := by
  obtain ⟨k, hk⟩ := h
  exact ⟨k + 1, hk.upath_snoc hv⟩

/-- A set of nodes containing `s` and closed under taking neighbours contains everything
reachable from `s`. -/
theorem UReachable.ureach_closed {graph : Graph} {s t : Nat} {P : Nat → Prop}
    (h : UReachable graph s t) (hs : P s) (hstep : ∀ u v, P u → v ∈ adj graph u → P v) : P t := by
  obtain ⟨k, p, hp, he, -⟩ := h
  induction p generalizing s with
  | nil => simp [uwalkEnd] at he; exact he ▸ hs
  | cons v vs ih =>
    simp only [IsUWalk] at hp
    simp only [uwalkEnd] at he
    exact ih (hstep s v hs hp.1) hp.2 he

namespace Bfs

theorem bfs_scan_spec (n : Nat) (ns : List Nat) (q : List Nat) (visited : List Bool)
    (hlen : visited.length = n) (hns : ∀ y ∈ ns, y < n) :
    ∃ new, scan ns (q, visited) = (q ++ new, (scan ns (q, visited)).2)
      ∧ (scan ns (q, visited)).2.length = n
      ∧ new.Nodup
      ∧ (∀ x, x ∈ new → x ∈ ns ∧ ¬ marked visited x)
      ∧ (∀ x, marked (scan ns (q, visited)).2 x ↔ marked visited x ∨ x ∈ new)
      ∧ (∀ y ∈ ns, marked (scan ns (q, visited)).2 y)
      ∧ unmarkedCount (scan ns (q, visited)).2 + new.length = unmarkedCount visited := by
  induction ns generalizing q visited with
  | nil => exact ⟨[], by simp [scan], by simpa [scan] using hlen, by simp, by simp, by simp [scan], by simp, by simp [scan]⟩
  | cons y ys ih =>
    have hy : y < n := hns y (by simp)
    have hys : ∀ z ∈ ys, z < n := fun z hz => hns z (by simp [hz])
    by_cases hm : marked visited y
    · have hsc : scan (y :: ys) (q, visited) = scan ys (q, visited) := by
        have : visited.getD y false = true := hm
        simp only [scan, this]; rfl
      obtain ⟨new, h1, h2, h3, h4, h5, h6, h7⟩ := ih q visited hlen hys
      rw [hsc]
      refine ⟨new, h1, h2, h3, ?_, h5, ?_, h7⟩
      · intro x hx; exact ⟨by simp [(h4 x hx).1], (h4 x hx).2⟩
      · intro z hz
        rcases List.mem_cons.1 hz with rfl | hz
        · exact (h5 _).2 (Or.inl hm)
        · exact h6 z hz
    · have hsc : scan (y :: ys) (q, visited) = scan ys (q ++ [y], visited.set y true) := by
        have : visited.getD y false = false := by
          unfold marked at hm; simpa using hm
        simp only [scan, this]; rfl
      obtain ⟨new, h1, h2, h3, h4, h5, h6, h7⟩ :=
        ih (q ++ [y]) (visited.set y true) (by simpa using hlen) hys
      rw [hsc]
      have hynew : y ∉ new := fun hmem => (h4 y hmem).2 (marked_set_true.2 (Or.inr ⟨rfl, by omega⟩))
      refine ⟨y :: new, ?_, h2, ?_, ?_, ?_, ?_, ?_⟩
      · rw [h1]; simp
      · exact List.nodup_cons.2 ⟨hynew, h3⟩
      · intro x hx
        rcases List.mem_cons.1 hx with rfl | hx
        · exact ⟨by simp, hm⟩
        · refine ⟨by simp [(h4 x hx).1], fun hmx => (h4 x hx).2 (marked_set_true.2 (Or.inl hmx))⟩
      · intro x
        rw [h5, marked_set_true]
        constructor
        · rintro ((h | ⟨rfl, -⟩) | h)
          · exact Or.inl h
          · exact Or.inr (by simp)
          · exact Or.inr (by simp [h])
        · rintro (h | h)
          · exact Or.inl (Or.inl h)
          · rcases List.mem_cons.1 h with rfl | h
            · exact Or.inl (Or.inr ⟨rfl, by omega⟩)
            · exact Or.inr h
      · intro z hz
        rcases List.mem_cons.1 hz with rfl | hz
        · exact (h5 _).2 (Or.inl (marked_set_true.2 (Or.inr ⟨rfl, by omega⟩)))
        · exact h6 z hz
      · have := unmarkedCount_set (v := visited) (i := y) (by omega) hm
        simp only [List.length_cons]
        omega

theorem bfs_loop_spec (graph : Graph) (start : Nat) (hwf : WellFormed graph) :
    ∀ (fuel : Nat) (q : List Nat) (visited : List Bool) (trace : List Nat),
      Inv graph start q visited trace → unmarkedCount visited + q.length ≤ fuel →
      ∃ visited1 trace1, loop graph fuel q visited trace = some (visited1, trace1)
        ∧ Inv graph start [] visited1 trace1 := by
  intro fuel
  induction fuel with
  | zero =>
    intro q visited trace hinv hf
    have : q = [] := by
      cases q with
      | nil => rfl
      | cons a l => simp at hf
    subst this
    exact ⟨visited, trace, by simp [loop], hinv⟩
  | succ fuel ih =>
    intro q visited trace hinv hf
    cases q with
    | nil => exact ⟨visited, trace, by simp [loop], hinv⟩
    | cons node q =>
      obtain ⟨new, h1, h2, h3, h4, h5, h6, h7⟩ :=
        bfs_scan_spec graph.length (adj graph node) q visited hinv.len (fun y hy => hwf.adj_lt hy)
      simp only [loop]
      rw [h1]
      have hnode : marked visited node := (hinv.mark node).2 (Or.inr (by simp))
      apply ih
      · refine ⟨h2, ?_, ?_, ?_, ?_, ?_⟩
        · intro x
          rw [h5, hinv.mark]
          simp only [List.mem_append, List.mem_cons, List.mem_singleton]
          tauto
        · have hnd := hinv.nodup
          rw [List.nodup_append] at hnd ⊢
          obtain ⟨ht, hq, hdisj⟩ := hnd
          have hq' := List.nodup_cons.1 hq
          refine ⟨?_, ?_, ?_⟩
          · rw [List.nodup_append]
            refine ⟨ht, by simp, ?_⟩
            intro a ha hb
            simp at hb; subst hb
            exact hdisj ha (by simp)
          · rw [List.nodup_append]
            refine ⟨hq'.2, h3, ?_⟩
            intro a ha hb
            exact (h4 a hb).2 ((hinv.mark a).2 (Or.inr (by simp [ha])))
          · intro a ha hb
            rcases List.mem_append.1 ha with ha | ha
            · rcases List.mem_append.1 hb with hb | hb
              · exact hdisj ha (by simp [hb])
              · exact (h4 a hb).2 ((hinv.mark a).2 (Or.inl ha))
            · simp at ha; subst ha
              rcases List.mem_append.1 hb with hb | hb
              · exact hq'.1 hb
              · exact (h4 a hb).2 hnode
        · intro x hx
          rcases (h5 x).1 hx with hx | hx
          · exact hinv.reach x hx
          · exact (hinv.reach node hnode).ureach_step (h4 x hx).1
        · intro x hx y hy
          rcases List.mem_append.1 hx with hx | hx
          · exact (h5 y).2 (Or.inl (hinv.closed x hx y hy))
          · simp at hx; subst hx
            exact h6 y hy
        · exact (h5 start).2 (Or.inl hinv.start_mem)
      · simp only [List.length_cons, List.length_append] at hf ⊢
        omega

end Bfs

/-- Run of `bfs` from an all-false `visited` vector: it terminates and prints exactly the
nodes reachable from `start`, each once. -/
theorem Bfs.bfs_trace_spec (graph : Graph) (start fuel : Nat)
    (hwf : WellFormed graph) (hs : start < graph.length) (hfuel : graph.length ≤ fuel) :
    ∃ visited trace,
      Bfs.bfs fuel start graph (List.replicate graph.length false) = some (visited, trace)
        ∧ trace.Nodup ∧ ∀ v, v ∈ trace ↔ UReachable graph start v := by
  have hinv : Bfs.Inv graph start [start] ((List.replicate graph.length false).set start true) [] := by
    refine ⟨by simp, ?_, by simp, ?_, by simp, ?_⟩
    · intro x
      rw [marked_set_true]
      simp [not_marked_replicate, hs]
    · intro x hx
      rcases marked_set_true.1 hx with h | ⟨rfl, -⟩
      · exact absurd h (not_marked_replicate _ _)
      · exact UReachable.ureach_refl _ _
    · exact marked_set_true.2 (Or.inr ⟨rfl, by simpa using hs⟩)
  have hcount : unmarkedCount ((List.replicate graph.length false).set start true)
      + [start].length ≤ fuel := by
    have := unmarkedCount_set (v := List.replicate graph.length false) (i := start)
      (by simpa using hs) (not_marked_replicate _ _)
    rw [unmarkedCount_replicate] at this
    simp only [List.length_singleton]
    omega
  obtain ⟨visited1, trace1, hrun, hfin⟩ :=
    Bfs.bfs_loop_spec graph start hwf fuel [start] _ [] hinv hcount
  refine ⟨visited1, trace1, hrun, by simpa using hfin.nodup, ?_⟩
  intro v
  constructor
  · intro hmem
    exact hfin.reach v ((hfin.mark v).2 (Or.inl hmem))
  · intro hv
    have hP : ∀ x, UReachable graph start x → marked visited1 x := by
      intro x hx
      exact hx.ureach_closed hfin.start_mem (fun u w hu hw =>
        hfin.closed u (by simpa using (hfin.mark u).1 hu) w hw)
    simpa using (hfin.mark v).1 (hP v hv)

theorem unmarkedCount_pos {v : List Bool} {i : Nat} (hi : i < v.length) (h : ¬ marked v i) :
    0 < unmarkedCount v := by
  have := unmarkedCount_set hi h
  omega

theorem UReachable.head {graph : Graph} {u v x : Nat} (hv : v ∈ adj graph u)
    (h : UReachable graph v x) : UReachable graph u x := by
  obtain ⟨k, p, hp, he, hl⟩ := h
  exact ⟨k + 1, v :: p, ⟨hv, hp⟩, he, by simp [hl]⟩

namespace Dfs

theorem dfs_loop_post (graph : Graph) (fuel : Nat)
    (ih : ∀ (node : Nat) (v : List Bool) (t : List Nat), node < graph.length →
      v.length = graph.length → ¬ marked v node → unmarkedCount v ≤ fuel →
      ∃ v1 t1 new, dfs graph fuel node (v, t) = some (v1, t1) ∧ Post graph v t v1 t1 new
        ∧ marked v1 node ∧ ∀ x ∈ new, UReachable graph node x)
    (ns : List Nat) (hns : ∀ y ∈ ns, y < graph.length) :
    ∀ (v : List Bool) (t : List Nat), v.length = graph.length → unmarkedCount v ≤ fuel →
      ∃ v1 t1 new, dfsLoop (dfs graph fuel) ns (v, t) = some (v1, t1) ∧ Post graph v t v1 t1 new
        ∧ (∀ y ∈ ns, marked v1 y) ∧ ∀ x ∈ new, ∃ y ∈ ns, UReachable graph y x := by
  induction ns with
  | nil =>
    intro v t hlen hf
    exact ⟨v, t, [], by simp [dfsLoop], ⟨rfl, by simp, by simp, by simp, fun _ h => h, by simp,
      by simp⟩, by simp, by simp⟩
  | cons y ys ihl =>
    intro v t hlen hf
    have hy : y < graph.length := hns y (by simp)
    have hys : ∀ z ∈ ys, z < graph.length := fun z hz => hns z (by simp [hz])
    by_cases hm : marked v y
    · have hsc : dfsLoop (dfs graph fuel) (y :: ys) (v, t) = dfsLoop (dfs graph fuel) ys (v, t) := by
        have : v.getD y false = true := hm
        simp only [dfsLoop, this]; rfl
      obtain ⟨v1, t1, new, h1, hp, h2, h3⟩ := ihl hys v t hlen hf
      rw [hsc]
      refine ⟨v1, t1, new, h1, hp, ?_, ?_⟩
      · intro z hz
        rcases List.mem_cons.1 hz with rfl | hz
        · exact hp.mono _ hm
        · exact h2 z hz
      · intro x hx
        obtain ⟨z, hz, hr⟩ := h3 x hx
        exact ⟨z, by simp [hz], hr⟩
    · obtain ⟨v', t', new1, hc, hp1, hmy, hr1⟩ := ih y v t hy hlen hm hf
      have hsc : dfsLoop (dfs graph fuel) (y :: ys) (v, t)
          = dfsLoop (dfs graph fuel) ys (v', t') := by
        have : v.getD y false = false := by
          unfold marked at hm; simpa using hm
        simp only [dfsLoop, this, hc]; rfl
      have hcnt := hp1.cnt
      obtain ⟨v1, t1, new2, h1, hp2, h2, h3⟩ :=
        ihl hys v' t' (by rw [hp1.len, hlen]) (by omega)
      rw [hsc]
      refine ⟨v1, t1, new1 ++ new2, h1, ⟨?_, ?_, ?_, ?_, ?_, ?_, ?_⟩, ?_, ?_⟩
      · rw [hp2.len, hp1.len]
      · rw [hp2.tr, hp1.tr, List.append_assoc]
      · rw [List.nodup_append]
        refine ⟨hp1.nodup, hp2.nodup, ?_⟩
        intro a ha hb
        exact ((hp2.mem a).1 hb).2 ((hp1.mem a).1 ha).1
      · intro x
        rw [List.mem_append, hp1.mem, hp2.mem]
        constructor
        · rintro (⟨h, h'⟩ | ⟨h, h'⟩)
          · exact ⟨hp2.mono x h, h'⟩
          · exact ⟨h, fun hx => h' (hp1.mono x hx)⟩
        · rintro ⟨h, h'⟩
          by_cases hx : marked v' x
          · exact Or.inl ⟨hx, h'⟩
          · exact Or.inr ⟨h, hx⟩
      · intro x hx; exact hp2.mono x (hp1.mono x hx)
      · intro x hx z hz
        rcases List.mem_append.1 hx with hx | hx
        · exact hp2.mono z (hp1.closed x hx z hz)
        · exact hp2.closed x hx z hz
      · have := hp2.cnt
        simp only [List.length_append]
        omega
      · intro z hz
        rcases List.mem_cons.1 hz with rfl | hz
        · exact hp2.mono _ hmy
        · exact h2 z hz
      · intro x hx
        rcases List.mem_append.1 hx with hx | hx
        · exact ⟨y, by simp, hr1 x hx⟩
        · obtain ⟨z, hz, hr⟩ := h3 x hx
          exact ⟨z, by simp [hz], hr⟩

theorem dfs_call_post (graph : Graph) (hwf : WellFormed graph) :
    ∀ (fuel : Nat) (node : Nat) (v : List Bool) (t : List Nat), node < graph.length →
      v.length = graph.length → ¬ marked v node → unmarkedCount v ≤ fuel →
      ∃ v1 t1 new, dfs graph fuel node (v, t) = some (v1, t1) ∧ Post graph v t v1 t1 new
        ∧ marked v1 node ∧ ∀ x ∈ new, UReachable graph node x := by
  intro fuel
  induction fuel with
  | zero =>
    intro node v t hn hlen hm hf
    have := unmarkedCount_pos (by omega) hm
    omega
  | succ fuel ih =>
    intro node v t hn hlen hm hf
    have hcnt := unmarkedCount_set (v := v) (i := node) (by omega) hm
    have hmn : marked (v.set node true) node := marked_set_true.2 (Or.inr ⟨rfl, by omega⟩)
    obtain ⟨v1, t1, new, h1, hp, h2, h3⟩ :=
      dfs_loop_post graph fuel ih (adj graph node) (fun y hy => hwf.adj_lt hy)
        (v.set node true) (t ++ [node]) (by simpa using hlen) (by omega)
    refine ⟨v1, t1, node :: new, ?_, ⟨?_, ?_, ?_, ?_, ?_, ?_, ?_⟩, hp.mono _ hmn, ?_⟩
    · simpa only [dfs] using h1
    · rw [hp.len]; simp
    · rw [hp.tr]; simp
    · refine List.nodup_cons.2 ⟨?_, hp.nodup⟩
      intro hmem
      exact ((hp.mem node).1 hmem).2 hmn
    · intro x
      rw [List.mem_cons, hp.mem, marked_set_true]
      constructor
      · rintro (rfl | ⟨h, h'⟩)
        · exact ⟨hp.mono _ hmn, hm⟩
        · exact ⟨h, fun hx => h' (Or.inl hx)⟩
      · rintro ⟨h, h'⟩
        by_cases hx : x = node
        · exact Or.inl hx
        · refine Or.inr ⟨h, ?_⟩
          rintro (h'' | ⟨h'', -⟩)
          · exact h' h''
          · exact hx h''
    · intro x hx; exact hp.mono x (marked_set_true.2 (Or.inl hx))
    · intro x hx z hz
      rcases List.mem_cons.1 hx with rfl | hx
      · exact h2 z hz
      · exact hp.closed x hx z hz
    · have := hp.cnt
      simp only [List.length_cons]
      omega
    · intro x hx
      rcases List.mem_cons.1 hx with rfl | hx
      · exact UReachable.ureach_refl _ _
      · obtain ⟨z, hz, hr⟩ := h3 x hx
        exact UReachable.head hz hr

/-- Run of `dfs` from an all-false `visited` vector: it terminates and prints exactly the
nodes reachable from `start`, each once. -/
theorem dfs_trace_spec (graph : Graph) (start fuel : Nat)
    (hwf : WellFormed graph) (hs : start < graph.length) (hfuel : graph.length ≤ fuel) :
    ∃ visited trace,
      dfs graph fuel start (List.replicate graph.length false, []) = some (visited, trace)
        ∧ trace.Nodup ∧ ∀ v, v ∈ trace ↔ UReachable graph start v := by
  obtain ⟨v1, t1, new, h1, hp, h2, h3⟩ :=
    dfs_call_post graph hwf fuel start (List.replicate graph.length false) [] hs (by simp)
      (not_marked_replicate _ _) (by rw [unmarkedCount_replicate]; exact hfuel)
  have ht : t1 = new := by simpa using hp.tr
  subst ht
  refine ⟨v1, t1, h1, hp.nodup, ?_⟩
  intro v
  constructor
  · exact h3 v
  · intro hv
    have hP : marked v1 v := by
      apply hv.ureach_closed h2
      intro u w hu hw
      exact hp.closed u ((hp.mem u).2 ⟨hu, not_marked_replicate _ _⟩) w hw
    exact (hp.mem v).2 ⟨hP, not_marked_replicate _ _⟩

end Dfs

/-! ## Lower bounds on path costs from potentials -/

theorem wadj_nil_of_ge {graph : WGraph} {u : Nat} (h : graph.length ≤ u) : wadj graph u = [] := by
  unfold wadj; exact List.getD_eq_default _ _ h

theorem walkCost_cons (e : Edge) (p : List Edge) : walkCost (e :: p) = e.2 + walkCost p := by
  simp [walkCost]

/-- If `pot` drops by at most the weight along every edge, it bounds every walk from below. -/
theorem potential_walk {graph : WGraph} (pot : List Int)
    (hpot : ∀ u, u < graph.length → ∀ e ∈ wadj graph u, pot.getD e.1 0 ≤ pot.getD u 0 + e.2)
    {s : Nat} {p : List Edge} (hp : IsWalk graph s p) :
    pot.getD (walkEnd s p) 0 ≤ pot.getD s 0 + walkCost p := by
  induction p generalizing s with
  | nil => simp [walkEnd, walkCost]
  | cons e es ih =>
    obtain ⟨he, hes⟩ := hp
    have hs : s < graph.length := by
      by_contra hn
      rw [wadj_nil_of_ge (by omega)] at he
      simp at he
    have h1 := hpot s hs e he
    have h2 := ih hes
    rw [walkCost_cons]
    simp only [walkEnd]
    omega

theorem potential_hasPath (graph : WGraph) (pot : List Int)
    (hpot : ∀ u, u < graph.length → ∀ e ∈ wadj graph u, pot.getD e.1 0 ≤ pot.getD u 0 + e.2)
    {s t : Nat} {c : Int} (h : HasPath graph s t c) : pot.getD t 0 - pot.getD s 0 ≤ c := by
  obtain ⟨p, hp, he, hc⟩ := h
  have := potential_walk pot hpot hp
  rw [he, hc] at this
  omega

/-- Certificate for admissibility: a potential dominating the heuristic. -/
theorem admissible_of_potential {graph : WGraph} {heuristic : List Int} {goal : Nat}
    (pot : List Int) (N : Nat)
    (hpot : ∀ u, u < graph.length → ∀ e ∈ wadj graph u, pot.getD e.1 0 ≤ pot.getD u 0 + e.2)
    (hh : ∀ n, n < N → heuristic.getD n 0 ≤ pot.getD goal 0 - pot.getD n 0)
    (hN1 : heuristic.length ≤ N) (hN2 : pot.length ≤ N) (hg : 0 ≤ pot.getD goal 0) :
    Admissible graph heuristic goal := by
  intro n c hpath
  have h1 := potential_hasPath graph pot hpot hpath
  by_cases hn : n < N
  · have := hh n hn; omega
  · have hpn : pot.getD n 0 = 0 := List.getD_eq_default _ _ (by omega)
    have hhn : heuristic.getD n 0 = 0 := List.getD_eq_default _ _ (by omega)
    omega

/-- If `lev` rises by at most one along every edge, it bounds every walk length from below. -/
theorem level_hasUPath (graph : Graph) (lev : List Nat)
    (hlev : ∀ u, u < graph.length → ∀ v ∈ adj graph u, lev.getD v 0 ≤ lev.getD u 0 + 1)
    {s t k : Nat} (h : HasUPath graph s t k) : lev.getD t 0 ≤ lev.getD s 0 + k := by
  obtain ⟨p, hp, he, hl⟩ := h
  subst hl
  induction p generalizing s with
  | nil => simp [uwalkEnd] at he; subst he; simp
  | cons v vs ih =>
    obtain ⟨hv, hvs⟩ := hp
    have hs : s < graph.length := by
      by_contra hn
      unfold adj at hv
      rw [List.getD_eq_default _ _ (by omega)] at hv
      simp at hv
    have h1 := hlev s hs v hv
    have h2 := ih hvs he
    simp only [List.length_cons]
    omega

/-! ## Runs of A* in which no tie arises -/

theorem AStar.pqPop_of_unique {pq : List AStar.Node} {c : AStar.Node} {rest : List AStar.Node}
    (h : AStar.pqPopUnique pq = some (c, rest)) (pick : Nat) :
    AStar.pqPop pick pq = some (c, rest) := by
  cases pq with
  | nil => simp [AStar.pqPopUnique] at h
  | cons x xs =>
    simp only [AStar.pqPopUnique] at h
    split at h
    · rename_i c' hc
      simp only [AStar.pqPop, hc]
      simp only [List.length_singleton, Nat.mod_one]
      simpa using h
    · simp at h

theorem AStar.loop_of_loopDet (goal : Nat) (graph : WGraph) (heuristic : List Int) :
    ∀ (fuel : Nat) (visited : List Bool) (cost : List Int) (pq : List AStar.Node)
      (trace : List AStar.Visit) (r : AStar.Result),
      AStar.loopDet goal graph heuristic fuel visited cost pq trace = some r →
      ∀ tie, AStar.loop goal graph heuristic fuel tie visited cost pq trace = some r := by
  intro fuel
  induction fuel with
  | zero => intro visited cost pq trace r h; simp [AStar.loopDet] at h
  | succ fuel ih =>
    intro visited cost pq trace r h tie
    cases pq with
    | nil =>
      simp only [AStar.loopDet] at h
      simp only [AStar.loop, AStar.pqPop]
      exact h
    | cons x xs =>
      simp only [AStar.loopDet] at h
      cases hpop : AStar.pqPopUnique (x :: xs) with
      | none => simp [hpop] at h
      | some cr =>
        obtain ⟨current, pq1⟩ := cr
        simp only [hpop] at h
        simp only [AStar.loop, AStar.pqPop_of_unique hpop (tie 0)]
        by_cases hv : visited.getD current.id false = true
        · simp only [hv, if_true] at h ⊢
          exact ih _ _ _ _ _ h _
        · simp only [hv] at h ⊢
          by_cases hg : current.id = goal
          · simpa only [hg, if_true] using h
          · simp only [hg, if_false] at h ⊢
            exact ih _ _ _ _ _ h _

theorem AStar.aStar_of_aStarDet {fuel start goal : Nat} {graph : WGraph} {heuristic : List Int}
    {r : AStar.Result} (h : AStar.aStarDet fuel start goal graph heuristic = some r)
    (tie : Nat → Nat) : AStar.aStar fuel tie start goal graph heuristic = some r :=
  AStar.loop_of_loopDet goal graph heuristic fuel _ _ _ _ r h tie

/-! ## Facts about the concrete inputs -/

theorem detourGraph_minCost : IsMinCost detourGraph 0 3 12 := by
  refine ⟨⟨[(1, 1), (2, 1), (3, 10)], by simp [IsWalk, wadj, detourGraph], rfl, rfl⟩, ?_⟩
  intro c hc
  have := potential_hasPath detourGraph [0, 1, 2, 12] (by decide) hc
  simpa using this

theorem detourH_admissible : Admissible detourGraph detourH 3 :=
  admissible_of_potential [-12, -11, -10, 0] 4 (by decide) (by decide) (by decide) (by decide)
    (by decide)

theorem detourGraph_aStar (tie : Nat → Nat) :
    (AStar.aStar 6 tie 0 3 detourGraph detourH).map (fun r => r.outcome)
      = some (Outcome.found 13) := by
  have h : AStar.aStarDet 6 0 3 detourGraph detourH
      = some ⟨[(0, 0, 0, 0), (2, 3, 0, 3), (1, 1, 11, 12), (3, 13, 0, 13)], Outcome.found 13⟩ := by
    decide
  rw [AStar.aStar_of_aStarDet h tie]
  rfl

theorem detourGraph_idaStar :
    (IdaStar.idaStar 3 4 0 3 detourGraph detourH).map (fun r => r.outcome)
      = some (Outcome.found 12) := by
  decide

theorem triangleGraph_dist : IsDist triangleGraph 0 3 2 := by
  refine ⟨⟨[2, 3], by simp [IsUWalk, adj, triangleGraph], rfl, rfl⟩, ?_⟩
  intro k hk
  have := level_hasUPath triangleGraph [0, 1, 1, 2] (by decide) hk
  simpa using this

/-! ## Sums over marked and unmarked positions -/

theorem wrap32_eq {x : Int} (h1 : -2147483648 ≤ x) (h2 : x ≤ 2147483647) : wrap32 x = x := by
  unfold wrap32; omega

theorem getD_set_int (l : List Int) (i j : Nat) (a d : Int) :
    (l.set i a).getD j d = if i = j ∧ i < l.length then a else l.getD j d := by
  simp only [List.getD_eq_getElem?_getD, List.getElem?_set]
  by_cases hij : i = j
  · subst hij
    by_cases hi : i < l.length
    · simp [hi]
    · have : l[i]? = none := List.getElem?_eq_none (by omega)
      simp [hi, this]
  · simp [hij]

theorem markedSum_set {v : List Bool} {i : Nat} (xs : List Int) (hi : i < v.length)
    (h : ¬ marked v i) : markedSum (v.set i true) xs = markedSum v xs + xs.getD i 0 := by
  unfold marked at h
  induction v generalizing i xs with
  | nil => simp at hi
  | cons b bs ih =>
    cases xs with
    | nil => simp [markedSum]
    | cons x xs =>
      cases i with
      | zero =>
        simp at h
        subst h
        simp only [List.set, markedSum, List.getD_cons_zero]
        simp; omega
      | succ j =>
        simp at hi h
        have := ih xs hi (by simpa using h)
        simp only [List.set, markedSum, this, List.getD_cons_succ]
        omega

theorem markedSum_le_sum (v : List Bool) (xs : List Int) (hx : ∀ x ∈ xs, 0 ≤ x) :
    markedSum v xs ≤ xs.sum := by
  induction v generalizing xs with
  | nil =>
    simp only [markedSum]
    exact List.sum_nonneg hx
  | cons b bs ih =>
    cases xs with
    | nil => simp [markedSum]
    | cons x xs =>
      have h1 := ih xs (fun y hy => hx y (by simp [hy]))
      have h2 := hx x (by simp)
      simp only [markedSum, List.sum_cons]
      split <;> omega

theorem markedSum_replicate (n : Nat) (xs : List Int) :
    markedSum (List.replicate n false) xs = 0 := by
  induction n generalizing xs with
  | zero => simp [markedSum]
  | succ n ih =>
    cases xs with
    | nil => simp [markedSum]
    | cons x xs => simp [List.replicate_succ, markedSum, ih]

theorem unmarkedSum_set {v : List Bool} {i : Nat} (xs : List Nat) (hi : i < v.length)
    (h : ¬ marked v i) : unmarkedSum (v.set i true) xs + xs.getD i 0 = unmarkedSum v xs := by
  unfold marked at h
  induction v generalizing i xs with
  | nil => simp at hi
  | cons b bs ih =>
    cases xs with
    | nil => simp [unmarkedSum]
    | cons x xs =>
      cases i with
      | zero =>
        simp at h
        subst h
        simp only [List.set, unmarkedSum, List.getD_cons_zero]
        simp; omega
      | succ j =>
        simp at hi h
        have := ih xs hi (by simpa using h)
        simp only [List.set, unmarkedSum, List.getD_cons_succ]
        omega

theorem unmarkedSum_replicate (n : Nat) (xs : List Nat) (h : xs.length = n) :
    unmarkedSum (List.replicate n false) xs = xs.sum := by
  induction n generalizing xs with
  | zero =>
    have : xs = [] := List.length_eq_zero.1 h
    subst this
    simp [unmarkedSum]
  | succ n ih =>
    cases xs with
    | nil => simp at h
    | cons x xs =>
      simp at h
      simp [List.replicate_succ, unmarkedSum, ih xs h]

theorem absWeight_nonneg (es : List Edge) : 0 ≤ absWeight es := by
  unfold absWeight
  apply List.sum_nonneg
  intro x hx
  obtain ⟨e, -, rfl⟩ := List.mem_map.1 hx
  exact abs_nonneg _

theorem abs_le_absWeight {es : List Edge} {e : Edge} (he : e ∈ es) : |e.2| ≤ absWeight es := by
  unfold absWeight
  induction es with
  | nil => simp at he
  | cons x xs ih =>
    simp only [List.map_cons, List.sum_cons]
    rcases List.mem_cons.1 he with rfl | h
    · have : 0 ≤ (xs.map (fun e => |e.2|)).sum := absWeight_nonneg xs
      omega
    · have := ih h
      have : 0 ≤ |x.2| := abs_nonneg _
      omega

theorem getD_map_absWeight (graph : WGraph) (u : Nat) :
    (graph.map absWeight).getD u 0 = absWeight (wadj graph u) := by
  unfold wadj
  by_cases hu : u < graph.length
  · rw [List.getD_eq_getElem _ _ (by simpa using hu), List.getD_eq_getElem _ _ hu]
    simp
  · rw [List.getD_eq_default _ _ (by simpa using hu), List.getD_eq_default _ _ (by omega)]
    rfl

theorem getD_map_length (graph : WGraph) (u : Nat) :
    (graph.map List.length).getD u 0 = (wadj graph u).length := by
  unfold wadj
  by_cases hu : u < graph.length
  · rw [List.getD_eq_getElem _ _ (by simpa using hu), List.getD_eq_getElem _ _ hu]
    simp
  · rw [List.getD_eq_default _ _ (by simpa using hu), List.getD_eq_default _ _ (by omega)]
    rfl

theorem markedSum_le_absTotal (graph : WGraph) (v : List Bool) :
    markedSum v (graph.map absWeight) ≤ absTotal graph := by
  apply markedSum_le_sum
  intro x hx
  obtain ⟨es, -, rfl⟩ := List.mem_map.1 hx
  exact absWeight_nonneg es

theorem WellFormedW.wadj_lt {graph : WGraph} (h : WellFormedW graph) {u : Nat} {e : Edge}
    (he : e ∈ wadj graph u) : e.1 < graph.length := by
  unfold wadj at he
  by_cases hu : u < graph.length
  · rw [List.getD_eq_getElem _ _ hu] at he
    exact h _ (List.getElem_mem hu) e he
  · rw [List.getD_eq_default _ _ (by omega)] at he
    simp at he

/-! ## Weighted walks -/

theorem Reachable.reach_refl (graph : WGraph) (s : Nat) : Reachable graph s s :=
  ⟨0, [], trivial, rfl, rfl⟩

theorem isWalk_append {graph : WGraph} {u : Nat} {p q : List Edge} :
    IsWalk graph u (p ++ q) ↔ IsWalk graph u p ∧ IsWalk graph (walkEnd u p) q := by
  induction p generalizing u with
  | nil => simp [IsWalk, walkEnd]
  | cons v vs ih => simp [IsWalk, walkEnd, ih, and_assoc]

theorem walkEnd_append {u : Nat} {p q : List Edge} :
    walkEnd u (p ++ q) = walkEnd (walkEnd u p) q := by
  induction p generalizing u with
  | nil => simp [walkEnd]
  | cons v vs ih => simp [walkEnd, ih]

theorem walkCost_append (p q : List Edge) : walkCost (p ++ q) = walkCost p + walkCost q := by
  simp [walkCost]

theorem HasPath.path_snoc {graph : WGraph} {s u : Nat} {c : Int} {e : Edge} (h : HasPath graph s u c)
    (he : e ∈ wadj graph u) : HasPath graph s e.1 (c + e.2) := by
  obtain ⟨p, hp, hend, hc⟩ := h
  refine ⟨p ++ [e], ?_, ?_, ?_⟩
  · rw [isWalk_append]; exact ⟨hp, by rw [hend]; exact ⟨he, trivial⟩⟩
  · rw [walkEnd_append]; simp [walkEnd]
  · rw [walkCost_append, hc]; simp [walkCost]

theorem Reachable.reach_step {graph : WGraph} {s u : Nat} {e : Edge} (h : Reachable graph s u)
    (he : e ∈ wadj graph u) : Reachable graph s e.1 := by
  obtain ⟨c, hc⟩ := h
  exact ⟨_, hc.path_snoc he⟩

theorem Reachable.reach_closed {graph : WGraph} {s t : Nat} {P : Nat → Prop}
    (h : Reachable graph s t) (hs : P s)
    (hstep : ∀ u e, P u → e ∈ wadj graph u → P e.1) : P t := by
  obtain ⟨c, p, hp, he, -⟩ := h
  induction p generalizing s with
  | nil => simp [walkEnd] at he; exact he ▸ hs
  | cons e es ih =>
    simp only [IsWalk] at hp
    simp only [walkEnd] at he
    exact ih (hstep s e hs hp.1) hp.2 he

/-! ## A*: the goal is reported exactly when it is reachable -/

namespace AStar

theorem minF_attained (x : Node) (xs : List Node) : ∃ e ∈ x :: xs, e.f = minF x xs := by
  induction xs generalizing x with
  | nil => exact ⟨x, by simp, rfl⟩
  | cons y ys ih =>
    obtain ⟨e, he, hf⟩ := ih y
    simp only [minF]
    by_cases h : x.f ≤ minF y ys
    · exact ⟨x, by simp, by rw [min_eq_left h]⟩
    · exact ⟨e, by simp [he], by rw [min_eq_right (by omega)]; exact hf⟩

theorem minF_le (x : Node) (xs : List Node) : ∀ e ∈ x :: xs, minF x xs ≤ e.f := by
  induction xs generalizing x with
  | nil => intro e he; simp at he; subst he; simp [minF]
  | cons y ys ih =>
    intro e he
    simp only [minF]
    rcases List.mem_cons.1 he with rfl | he
    · exact min_le_left _ _
    · exact le_trans (min_le_right _ _) (ih y e he)

theorem pqPop_none {pick : Nat} {pq : List Node} (h : pqPop pick pq = none) : pq = [] := by
  cases pq with
  | nil => rfl
  | cons x xs => simp [pqPop] at h

theorem pqPop_some {pick : Nat} {pq : List Node} {c : Node} {rest : List Node}
    (h : pqPop pick pq = some (c, rest)) :
    c ∈ pq ∧ rest = pq.erase c ∧ ∀ e ∈ pq, c.f ≤ e.f := by
  cases pq with
  | nil => simp [pqPop] at h
  | cons x xs =>
    simp only [pqPop, Option.some.injEq, Prod.mk.injEq] at h
    obtain ⟨hc, hrest⟩ := h
    obtain ⟨e0, he0, hf0⟩ := minF_attained x xs
    have hne : (List.filter (fun e => decide (e.f = minF x xs)) (x :: xs)) ≠ [] := by
      intro hnil
      have : e0 ∈ List.filter (fun e => decide (e.f = minF x xs)) (x :: xs) :=
        List.mem_filter.2 ⟨he0, by simpa using hf0⟩
      rw [hnil] at this
      simp at this
    have hpos : 0 < (List.filter (fun e => decide (e.f = minF x xs)) (x :: xs)).length :=
      List.length_pos.2 hne
    have hlt := Nat.mod_lt pick hpos
    have hc0 := hc
    rw [List.getD_eq_getElem _ _ hlt] at hc
    have hmem := List.getElem_mem hlt
    rw [hc] at hmem
    obtain ⟨h1, h2⟩ := List.mem_filter.1 hmem
    have h2' : c.f = minF x xs := by simpa using h2
    refine ⟨h1, by rw [← hrest, hc0], ?_⟩
    intro e he
    rw [h2']
    exact minF_le x xs e he

theorem astar_relax_spec (heuristic : List Int) (g : Int) (n : Nat) (es : List Edge) :
    ∀ (cost : List Int) (pq : List Node), cost.length = n →
      (∀ e ∈ es, e.1 < n ∧ -INT_MAX < g + e.2 ∧ g + e.2 < INT_MAX) →
      ∃ new, (relax heuristic g es (cost, pq)).2 = pq ++ new
        ∧ (relax heuristic g es (cost, pq)).1.length = n
        ∧ new.length ≤ es.length
        ∧ (∀ x ∈ new, ∃ e ∈ es, x.id = e.1 ∧ x.g = g + e.2)
        ∧ (∀ v, cost.getD v 0 ≠ INT_MAX → (relax heuristic g es (cost, pq)).1.getD v 0 ≠ INT_MAX)
        ∧ (∀ e ∈ es, (relax heuristic g es (cost, pq)).1.getD e.1 0 ≠ INT_MAX)
        ∧ (∀ v, (relax heuristic g es (cost, pq)).1.getD v 0 ≠ INT_MAX →
            cost.getD v 0 ≠ INT_MAX ∨ ∃ x ∈ new, x.id = v) := by
  induction es with
  | nil =>
    intro cost pq hlen _
    exact ⟨[], by simp [relax], by simpa [relax] using hlen, by simp, by simp, by simp [relax],
      by simp, by simp [relax]⟩
  | cons e es ih =>
    intro cost pq hlen hes
    obtain ⟨v, w⟩ := e
    obtain ⟨hv, hlo, hhi⟩ := hes (v, w) (by simp)
    have hes' : ∀ e ∈ es, e.1 < n ∧ -INT_MAX < g + e.2 ∧ g + e.2 < INT_MAX :=
      fun e he => hes e (by simp [he])
    simp only [INT_MAX] at hlo hhi
    have hadd : addInt g w = g + w := wrap32_eq (by omega) (by omega)
    by_cases hlt : g + w < cost.getD v 0
    · have hstep : relax heuristic g ((v, w) :: es) (cost, pq)
          = relax heuristic g es (cost.set v (g + w),
              pq ++ [⟨v, g + w, addInt (g + w) (heuristic.getD v 0)⟩]) := by
        simp only [relax, hadd, hlt, if_true]
      obtain ⟨new, h1, h2, h3, h4, h5, h6, h7⟩ :=
        ih (cost.set v (g + w)) (pq ++ [⟨v, g + w, addInt (g + w) (heuristic.getD v 0)⟩])
          (by simpa using hlen) hes'
      rw [hstep]
      have hsetv : (cost.set v (g + w)).getD v 0 ≠ INT_MAX := by
        rw [getD_set_int, if_pos ⟨rfl, by omega⟩]
        simp only [INT_MAX]; omega
      refine ⟨⟨v, g + w, addInt (g + w) (heuristic.getD v 0)⟩ :: new, ?_, h2, ?_, ?_, ?_, ?_, ?_⟩
      · rw [h1]; simp
      · simp only [List.length_cons]; omega
      · intro x hx
        rcases List.mem_cons.1 hx with rfl | hx
        · exact ⟨(v, w), by simp, rfl, rfl⟩
        · obtain ⟨e, he, h⟩ := h4 x hx
          exact ⟨e, by simp [he], h⟩
      · intro u hu
        apply h5
        rw [getD_set_int]
        split
        · simp only [INT_MAX]; omega
        · exact hu
      · intro e he
        rcases List.mem_cons.1 he with rfl | he
        · exact h5 _ hsetv
        · exact h6 e he
      · intro u hu
        rcases h7 u hu with h | ⟨x, hx, hxu⟩
        · rw [getD_set_int] at h
          by_cases huv : v = u
          · subst huv
            exact Or.inr ⟨⟨v, g + w, addInt (g + w) (heuristic.getD v 0)⟩,
              List.mem_cons_self _ _, rfl⟩
          · rw [if_neg (by tauto)] at h
            exact Or.inl h
        · exact Or.inr ⟨x, by simp [hx], hxu⟩
    · have hstep : relax heuristic g ((v, w) :: es) (cost, pq)
          = relax heuristic g es (cost, pq) := by
        simp only [relax, hadd, hlt, if_false]
      obtain ⟨new, h1, h2, h3, h4, h5, h6, h7⟩ := ih cost pq hlen hes'
      rw [hstep]
      have hv' : cost.getD v 0 ≠ INT_MAX := by simp only [INT_MAX]; omega
      refine ⟨new, h1, h2, ?_, ?_, h5, ?_, h7⟩
      · simp only [List.length_cons]; omega
      · intro x hx
        obtain ⟨e, he, h⟩ := h4 x hx
        exact ⟨e, by simp [he], h⟩
      · intro e he
        rcases List.mem_cons.1 he with rfl | he
        · exact h5 _ hv'
        · exact h6 e he

theorem astar_loop_complete (graph : WGraph) (heuristic : List Int) (start goal : Nat)
    (hwf : WellFormedW graph) (hb : absTotal graph < INT_MAX) (hs : start < graph.length) :
    ∀ (fuel : Nat) (tie : Nat → Nat) (visited : List Bool) (cost : List Int) (pq : List Node)
      (trace : List Visit), Inv graph start goal visited cost pq →
      pq.length + unmarkedSum visited (graph.map List.length) < fuel →
      ∃ r, loop goal graph heuristic fuel tie visited cost pq trace = some r
        ∧ ((Reachable graph start goal ∧ ∃ c h f pre, r.outcome = Outcome.found c
              ∧ r.trace = pre ++ [(goal, c, h, f)])
          ∨ (¬ Reachable graph start goal ∧ r.outcome = Outcome.notFound)) := by
  intro fuel
  induction fuel with
  | zero => intro tie visited cost pq trace _ hf; omega
  | succ fuel ih =>
    intro tie visited cost pq trace hinv hf
    cases hpop : pqPop (tie 0) pq with
    | none =>
      have hpq := pqPop_none hpop
      subst hpq
      refine ⟨⟨trace, Outcome.notFound⟩, by simp only [loop, hpop], Or.inr ⟨?_, rfl⟩⟩
      intro hreach
      have hclosed : ∀ v, v < graph.length → cost.getD v 0 ≠ INT_MAX → marked visited v := by
        intro v hv hc
        rcases hinv.disc v hv hc with h | ⟨e, he, -⟩
        · exact h
        · simp at he
      have hgoal : marked visited goal := by
        apply hreach.reach_closed (hclosed start hs hinv.start_disc)
        intro u e hu he
        exact hclosed e.1 (hwf.wadj_lt he) (hinv.expanded u hu e he)
      exact hinv.goal_open hgoal
    | some cr =>
      obtain ⟨current, pq1⟩ := cr
      obtain ⟨hmem, hrest, -⟩ := pqPop_some hpop
      obtain ⟨hid, hreach, hg⟩ := hinv.pq_ok current hmem
      have hlen1 : pq1.length + 1 = pq.length := by
        rw [hrest, List.length_erase_of_mem hmem]
        have := List.length_pos_of_mem hmem
        omega
      have hsub : ∀ e, e ∈ pq1 → e ∈ pq := fun e he => by
        rw [hrest] at he; exact List.mem_of_mem_erase he
      have hcases : ∀ e, e ∈ pq → e = current ∨ e ∈ pq1 := by
        intro e he
        by_cases hec : e = current
        · exact Or.inl hec
        · right; rw [hrest]; exact (List.mem_erase_of_ne hec).2 he
      by_cases hv : marked visited current.id
      · have hv' : visited.getD current.id false = true := hv
        have hstep : loop goal graph heuristic (fuel + 1) tie visited cost pq trace
            = loop goal graph heuristic fuel (fun k => tie (k + 1)) visited cost pq1 trace := by
          simp only [loop, hpop, hv', if_true]
        rw [hstep]
        apply ih
        · refine ⟨hinv.vlen, hinv.clen, fun e he => hinv.pq_ok e (hsub e he), ?_, hinv.expanded,
            hinv.goal_open, hinv.start_disc⟩
          intro v hvn hc
          rcases hinv.disc v hvn hc with h | ⟨e, he, hev⟩
          · exact Or.inl h
          · rcases hcases e he with rfl | he1
            · exact Or.inl (hev ▸ hv)
            · exact Or.inr ⟨e, he1, hev⟩
        · omega
      · have hv' : visited.getD current.id false = false := by
          unfold marked at hv; simpa using hv
        by_cases hgoal : current.id = goal
        · refine ⟨⟨trace ++ [(current.id, current.g, heuristic.getD current.id 0, current.f)],
            Outcome.found current.g⟩, ?_, Or.inl ⟨hgoal ▸ hreach, current.g,
              heuristic.getD current.id 0, current.f, trace, rfl, ?_⟩⟩
          · simp only [loop, hpop, hv', Bool.false_eq_true, if_false, if_pos hgoal]
          · simp only [hgoal]
        · have hms := markedSum_set (v := visited) (i := current.id) (graph.map absWeight)
            (by rw [hinv.vlen]; exact hid) hv
          rw [getD_map_absWeight] at hms
          have hus := unmarkedSum_set (v := visited) (i := current.id) (graph.map List.length)
            (by rw [hinv.vlen]; exact hid) hv
          rw [getD_map_length] at hus
          have htot := markedSum_le_absTotal graph (visited.set current.id true)
          have hgb := abs_le.1 hg
          have hedges : ∀ e ∈ wadj graph current.id,
              e.1 < graph.length ∧ -INT_MAX < current.g + e.2 ∧ current.g + e.2 < INT_MAX := by
            intro e he
            have h1 := abs_le.1 (abs_le_absWeight he)
            exact ⟨hwf.wadj_lt he, by omega, by omega⟩
          obtain ⟨new, h1, h2, h3, h4, h5, h6, h7⟩ :=
            astar_relax_spec heuristic current.g graph.length (wadj graph current.id) cost pq1
              hinv.clen hedges
          have hstep : loop goal graph heuristic (fuel + 1) tie visited cost pq trace
              = loop goal graph heuristic fuel (fun k => tie (k + 1))
                  (visited.set current.id true)
                  (relax heuristic current.g (wadj graph current.id) (cost, pq1)).1
                  (relax heuristic current.g (wadj graph current.id) (cost, pq1)).2
                  (trace ++ [(current.id, current.g, heuristic.getD current.id 0, current.f)]) := by
            simp only [loop, hpop, hv', Bool.false_eq_true, if_false, if_neg hgoal]
          rw [hstep]
          apply ih
          · refine ⟨by simpa using hinv.vlen, h2, ?_, ?_, ?_, ?_, h5 _ hinv.start_disc⟩
            · intro e he
              rw [h1] at he
              rcases List.mem_append.1 he with he | he
              · obtain ⟨a, b, c⟩ := hinv.pq_ok e (hsub e he)
                have := absWeight_nonneg (wadj graph current.id)
                exact ⟨a, b, by omega⟩
              · obtain ⟨ed, hed, hid', hg'⟩ := h4 e he
                refine ⟨hid' ▸ hwf.wadj_lt hed, hid' ▸ hreach.reach_step hed, ?_⟩
                have hw := abs_le.1 (abs_le_absWeight hed)
                rw [hg', abs_le]
                constructor <;> omega
            · intro v hvn hc
              rcases h7 v hc with hc' | ⟨x, hx, hxv⟩
              · rcases hinv.disc v hvn hc' with h | ⟨e, he, hev⟩
                · exact Or.inl (marked_set_true.2 (Or.inl h))
                · rcases hcases e he with rfl | he1
                  · exact Or.inl (marked_set_true.2 (Or.inr ⟨hev.symm, by rw [hinv.vlen]; exact hid⟩))
                  · exact Or.inr ⟨e, by rw [h1]; exact List.mem_append_left _ he1, hev⟩
              · exact Or.inr ⟨x, by rw [h1]; exact List.mem_append_right _ hx, hxv⟩
            · intro u hu e he
              rcases marked_set_true.1 hu with hu | ⟨rfl, -⟩
              · exact h5 _ (hinv.expanded u hu e he)
              · exact h6 e he
            · intro hgm
              rcases marked_set_true.1 hgm with h | ⟨h, -⟩
              · exact hinv.goal_open h
              · exact hgoal h.symm
          · rw [h1, List.length_append]
            omega

end AStar

/-- The reachability part of `aStar`: with enough fuel it returns, and it reports the goal
exactly when the goal is reachable. -/
theorem AStar.aStar_reach_spec (graph : WGraph) (heuristic : List Int) (start goal fuel : Nat)
    (tie : Nat → Nat) (hwf : WellFormedW graph) (hb : absTotal graph < INT_MAX)
    (hs : start < graph.length) (hfuel : edgeCount graph + 2 ≤ fuel) :
    ∃ r, AStar.aStar fuel tie start goal graph heuristic = some r
      ∧ ((Reachable graph start goal ∧ ∃ c h f pre, r.outcome = Outcome.found c
            ∧ r.trace = pre ++ [(goal, c, h, f)])
        ∨ (¬ Reachable graph start goal ∧ r.outcome = Outcome.notFound)) := by
  unfold AStar.aStar
  apply AStar.astar_loop_complete graph heuristic start goal hwf hb hs
  · refine ⟨by simp, by simp, ?_, ?_, ?_, not_marked_replicate _ _, ?_⟩
    · intro e he
      simp at he
      subst he
      refine ⟨hs, Reachable.reach_refl _ _, ?_⟩
      simp [markedSum_replicate]
    · intro v hv hc
      right
      refine ⟨_, List.mem_singleton_self _, ?_⟩
      rw [getD_set_int] at hc
      by_cases hsv : start = v
      · exact hsv
      · rw [if_neg (by tauto)] at hc
        rw [List.getD_eq_getElem _ _ (by simpa using hv)] at hc
        simp at hc
    · intro u hu
      exact absurd hu (not_marked_replicate _ _)
    · rw [getD_set_int, if_pos ⟨rfl, by simpa using hs⟩]
      simp [INT_MAX]
  · rw [unmarkedSum_replicate _ _ (by simp)]
    simp only [List.length_singleton]
    unfold edgeCount at hfuel
    omega

/-! ## Uniform-cost search computes minimum path costs -/

theorem NonNegWeights.wadj_nonneg {graph : WGraph} (h : NonNegWeights graph) {u : Nat} {e : Edge}
    (he : e ∈ wadj graph u) : 0 ≤ e.2 := by
  unfold wadj at he
  by_cases hu : u < graph.length
  · rw [List.getD_eq_getElem _ _ hu] at he
    exact h _ (List.getElem_mem hu) e he
  · rw [List.getD_eq_default _ _ (by omega)] at he
    simp at he

theorem NonNegWeights.walkCost_nonneg {graph : WGraph} (h : NonNegWeights graph) {u : Nat}
    {p : List Edge} (hp : IsWalk graph u p) : 0 ≤ walkCost p := by
  induction p generalizing u with
  | nil => simp [walkCost]
  | cons e es ih =>
    have h1 := h.wadj_nonneg hp.1
    have h2 := ih hp.2
    rw [walkCost_cons]
    omega

theorem NonNegWeights.hasPath_nonneg {graph : WGraph} (h : NonNegWeights graph) {s t : Nat}
    {c : Int} (hp : HasPath graph s t c) : 0 ≤ c := by
  obtain ⟨p, hw, -, hc⟩ := hp
  exact hc ▸ h.walkCost_nonneg hw

theorem NonNegWeights.absTotal_eq {graph : WGraph} (h : NonNegWeights graph) :
    absTotal graph = totalWeight graph := by
  unfold absTotal totalWeight
  congr 1
  apply List.map_congr_left
  intro es hes
  unfold absWeight walkCost
  congr 1
  apply List.map_congr_left
  intro e he
  exact abs_of_nonneg (h es hes e he)

namespace Ucs

theorem ucs_pqTop_none {pq : List (Int × Nat)} (h : pqTop pq = none) : pq = [] := by
  cases pq with
  | nil => rfl
  | cons x xs =>
    simp only [pqTop] at h
    split at h
    · simp at h
    · split at h <;> simp at h

theorem ucs_pqTop_some {pq : List (Int × Nat)} {m : Int × Nat} (h : pqTop pq = some m) :
    m ∈ pq ∧ ∀ e ∈ pq, m.1 ≤ e.1 := by
  induction pq generalizing m with
  | nil => simp [pqTop] at h
  | cons x xs ih =>
    simp only [pqTop] at h
    cases htop : pqTop xs with
    | none =>
      have hxs := ucs_pqTop_none htop
      subst hxs
      simp only [htop, Option.some.injEq] at h
      subst h
      simp
    | some y =>
      obtain ⟨hy, hmin⟩ := ih htop
      simp only [htop] at h
      by_cases hlt : pairLt y x = true
      · simp only [hlt, if_true, Option.some.injEq] at h
        subst h
        refine ⟨by simp [hy], ?_⟩
        intro e he
        rcases List.mem_cons.1 he with rfl | he
        · simp only [pairLt, Bool.or_eq_true, Bool.and_eq_true, decide_eq_true_eq] at hlt
          omega
        · exact hmin e he
      · have hlt' : pairLt y x = false := by simpa using hlt
        simp only [hlt', Bool.false_eq_true, if_false, Option.some.injEq] at h
        subst h
        refine ⟨by simp, ?_⟩
        intro e he
        rcases List.mem_cons.1 he with rfl | he
        · exact le_refl _
        · have := hmin e he
          simp only [pairLt, Bool.or_eq_true, Bool.and_eq_true, decide_eq_true_eq] at hlt
          omega

theorem ucs_pqPop_none {pq : List (Int × Nat)} (h : pqPop pq = none) : pq = [] := by
  unfold pqPop at h
  cases htop : pqTop pq with
  | none => exact ucs_pqTop_none htop
  | some m => simp [htop] at h

theorem ucs_pqPop_some {pq : List (Int × Nat)} {m : Int × Nat} {rest : List (Int × Nat)}
    (h : pqPop pq = some (m, rest)) : m ∈ pq ∧ rest = pq.erase m ∧ ∀ e ∈ pq, m.1 ≤ e.1 := by
  unfold pqPop at h
  cases htop : pqTop pq with
  | none => simp [htop] at h
  | some m' =>
    simp only [htop, Option.some.injEq, Prod.mk.injEq] at h
    obtain ⟨rfl, rfl⟩ := h
    obtain ⟨h1, h2⟩ := ucs_pqTop_some htop
    exact ⟨h1, rfl, h2⟩

theorem ucs_relax_spec (c : Int) (n : Nat) (es : List Edge) :
    ∀ (cost : List Int) (pq : List (Int × Nat)), cost.length = n →
      (∀ e ∈ es, e.1 < n ∧ -INT_MAX < c + e.2 ∧ c + e.2 < INT_MAX) →
      ∃ new, (relax c es (cost, pq)).2 = pq ++ new
        ∧ (relax c es (cost, pq)).1.length = n
        ∧ new.length ≤ es.length
        ∧ (∀ x ∈ new, ∃ e ∈ es, x.2 = e.1 ∧ x.1 = c + e.2 ∧ (relax c es (cost, pq)).1.getD x.2 0 ≤ x.1)
        ∧ (∀ v, (relax c es (cost, pq)).1.getD v 0 ≤ cost.getD v 0)
        ∧ (∀ e ∈ es, (relax c es (cost, pq)).1.getD e.1 0 ≤ c + e.2)
        ∧ (∀ v, (relax c es (cost, pq)).1.getD v 0 = cost.getD v 0
            ∨ ((relax c es (cost, pq)).1.getD v 0, v) ∈ new) := by
  induction es with
  | nil =>
    intro cost pq hlen _
    exact ⟨[], by simp [relax], by simpa [relax] using hlen, by simp, by simp, by simp [relax],
      by simp, by simp [relax]⟩
  | cons e es ih =>
    intro cost pq hlen hes
    obtain ⟨v, w⟩ := e
    obtain ⟨hv, hlo, hhi⟩ := hes (v, w) (by simp)
    have hes' : ∀ e ∈ es, e.1 < n ∧ -INT_MAX < c + e.2 ∧ c + e.2 < INT_MAX :=
      fun e he => hes e (by simp [he])
    simp only [INT_MAX] at hlo hhi
    have hadd : addInt c w = c + w := wrap32_eq (by omega) (by omega)
    by_cases hlt : c + w < cost.getD v 0
    · have hstep : relax c ((v, w) :: es) (cost, pq)
          = relax c es (cost.set v (c + w), pq ++ [(c + w, v)]) := by
        simp only [relax, hadd, hlt, if_true]
      obtain ⟨new, h1, h2, h3, h4, h5, h6, h7⟩ :=
        ih (cost.set v (c + w)) (pq ++ [(c + w, v)]) (by simpa using hlen) hes'
      rw [hstep]
      have hsetv : (cost.set v (c + w)).getD v 0 = c + w := by
        rw [getD_set_int, if_pos ⟨rfl, by omega⟩]
      refine ⟨(c + w, v) :: new, ?_, h2, ?_, ?_, ?_, ?_, ?_⟩
      · rw [h1]; simp
      · simp only [List.length_cons]; omega
      · intro x hx
        rcases List.mem_cons.1 hx with rfl | hx
        · refine ⟨(v, w), by simp, rfl, rfl, ?_⟩
          have := h5 v
          rw [hsetv] at this
          exact this
        · obtain ⟨e, he, h⟩ := h4 x hx
          exact ⟨e, by simp [he], h⟩
      · intro u
        refine le_trans (h5 u) ?_
        rw [getD_set_int]
        split
        · rename_i huv
          rw [← huv.1]; omega
        · exact le_refl _
      · intro e he
        rcases List.mem_cons.1 he with rfl | he
        · have := h5 v
          rw [hsetv] at this
          exact this
        · exact h6 e he
      · intro u
        rcases h7 u with h | h
        · by_cases huv : v = u
          · subst huv
            rw [hsetv] at h
            right
            rw [h]
            exact List.mem_cons_self _ _
          · left
            rw [h, getD_set_int, if_neg (by tauto)]
        · exact Or.inr (List.mem_cons_of_mem _ h)
    · have hstep : relax c ((v, w) :: es) (cost, pq) = relax c es (cost, pq) := by
        simp only [relax, hadd, hlt, if_false]
      obtain ⟨new, h1, h2, h3, h4, h5, h6, h7⟩ := ih cost pq hlen hes'
      rw [hstep]
      refine ⟨new, h1, h2, ?_, ?_, h5, ?_, h7⟩
      · simp only [List.length_cons]; omega
      · intro x hx
        obtain ⟨e, he, h⟩ := h4 x hx
        exact ⟨e, by simp [he], h⟩
      · intro e he
        rcases List.mem_cons.1 he with rfl | he
        · have := h5 v
          simp only at hlt ⊢
          omega
        · exact h6 e he

/-- In a state satisfying the invariant, every cheap walk out of a closed node either ends in
a closed node whose recorded cost is no larger, or is undercut by a frontier entry. -/
theorem ucs_walk_bound {graph : WGraph} {start : Nat} {visited : List Bool} {cost : List Int}
    {pq : List (Int × Nat)} (hinv : Inv graph start visited cost pq) (hwf : WellFormedW graph)
    (hnn : NonNegWeights graph) (p : List Edge) :
    ∀ (u : Nat) (c0 : Int), marked visited u → cost.getD u 0 ≤ c0 → IsWalk graph u p →
      c0 + walkCost p < INT_MAX →
      (marked visited (walkEnd u p) ∧ cost.getD (walkEnd u p) 0 ≤ c0 + walkCost p)
        ∨ ∃ e ∈ pq, e.1 ≤ c0 + walkCost p := by
  induction p with
  | nil =>
    intro u c0 hu hc _ _
    left
    simp only [walkEnd, walkCost, List.map_nil, List.sum_nil, add_zero]
    exact ⟨hu, hc⟩
  | cons e es ih =>
    intro u c0 hu hc hw hlt
    obtain ⟨he, hes⟩ := hw
    rw [walkCost_cons] at hlt ⊢
    have hrest := hnn.walkCost_nonneg hes
    obtain ⟨hedge, -⟩ := hinv.edge_ok u hu e he
    by_cases hm : marked visited e.1
    · have := ih e.1 (c0 + e.2) hm (by omega) hes (by omega)
      simp only [walkEnd]
      rw [← add_assoc]
      exact this
    · right
      refine ⟨_, hinv.open_in_pq e.1 (hwf.wadj_lt he) hm (by omega), ?_⟩
      simp only
      omega

theorem ucs_path_bound {graph : WGraph} {start : Nat} {visited : List Bool} {cost : List Int}
    {pq : List (Int × Nat)} (hinv : Inv graph start visited cost pq) (hwf : WellFormedW graph)
    (hnn : NonNegWeights graph) (hs : start < graph.length) {x : Nat} {c : Int}
    (hp : HasPath graph start x c) (hc : c < INT_MAX) :
    (marked visited x ∧ cost.getD x 0 ≤ c) ∨ ∃ e ∈ pq, e.1 ≤ c := by
  obtain ⟨p, hw, hend, hcost⟩ := hp
  have h0 := hnn.walkCost_nonneg hw
  have hst := hinv.start_ok
  by_cases hm : marked visited start
  · have := ucs_walk_bound hinv hwf hnn p start 0 hm hst hw (by omega)
    rw [hend, hcost, zero_add] at this
    exact this
  · right
    refine ⟨_, hinv.open_in_pq start hs hm (by simp only [INT_MAX]; omega), ?_⟩
    simp only
    omega

theorem ucs_loop_spec (graph : WGraph) (start : Nat) (hwf : WellFormedW graph)
    (hnn : NonNegWeights graph) (hb : absTotal graph < 2147483647) (hs : start < graph.length) :
    ∀ (fuel : Nat) (st : State), Inv graph start st.visited st.cost st.pq →
      st.pq.length + unmarkedSum st.visited (graph.map List.length) < fuel →
      ∃ st1, loop graph fuel st = some st1 ∧ Inv graph start st1.visited st1.cost [] := by
  intro fuel
  induction fuel with
  | zero => intro st _ hf; omega
  | succ fuel ih =>
    intro st hinv hf
    have hIM : INT_MAX = 2147483647 := rfl
    cases hpop : pqPop st.pq with
    | none =>
      have hpq := ucs_pqPop_none hpop
      refine ⟨st, by simp only [loop, hpop], ?_⟩
      rw [← hpq]; exact hinv
    | some cr =>
      obtain ⟨⟨c, v⟩, pq1⟩ := cr
      obtain ⟨hmem, hrest, hmin⟩ := ucs_pqPop_some hpop
      obtain ⟨hv, hpath, hcb, hcv⟩ := hinv.pq_ok (c, v) hmem
      simp only at hv hpath hcb hcv
      have hlen1 : pq1.length + 1 = st.pq.length := by
        rw [hrest, List.length_erase_of_mem hmem]
        have := List.length_pos_of_mem hmem
        omega
      have hsub : ∀ e, e ∈ pq1 → e ∈ st.pq := fun e he => by
        rw [hrest] at he; exact List.mem_of_mem_erase he
      have hne : ∀ e, e ∈ st.pq → e ≠ (c, v) → e ∈ pq1 := by
        intro e he hec
        rw [hrest]; exact (List.mem_erase_of_ne hec).2 he
      by_cases hm : marked st.visited v
      · have hm' : st.visited.getD v false = true := hm
        have hstep : loop graph (fuel + 1) st = loop graph fuel { st with pq := pq1 } := by
          simp only [loop, hpop, hm', if_true]
        rw [hstep]
        apply ih
        · refine ⟨hinv.vlen, hinv.clen, hinv.cost_dich, fun e he => hinv.pq_ok e (hsub e he), ?_,
            hinv.closed_min, hinv.edge_ok, hinv.start_ok⟩
          intro u hu hum hc
          apply hne _ (hinv.open_in_pq u hu hum hc)
          intro heq
          have : u = v := by simpa using congrArg Prod.snd heq
          exact hum (this ▸ hm)
        · simp only; omega
      · have hm' : st.visited.getD v false = false := by
          unfold marked at hm; simpa using hm
        have hms := markedSum_set (v := st.visited) (i := v) (graph.map absWeight)
          (by rw [hinv.vlen]; exact hv) hm
        rw [getD_map_absWeight] at hms
        have hus := unmarkedSum_set (v := st.visited) (i := v) (graph.map List.length)
          (by rw [hinv.vlen]; exact hv) hm
        rw [getD_map_length] at hus
        have htot := markedSum_le_absTotal graph (st.visited.set v true)
        have hc0 := hnn.hasPath_nonneg hpath
        have habs := absWeight_nonneg (wadj graph v)
        -- the popped cost is minimal
        have hcmin : ∀ c', HasPath graph start v c' → c ≤ c' := by
          intro c' hc'
          by_cases hbig : c' < INT_MAX
          · rcases ucs_path_bound hinv hwf hnn hs hc' hbig with ⟨h, -⟩ | ⟨e, he, hle⟩
            · exact absurd h hm
            · exact le_trans (hmin e he) hle
          · omega
        have hcostv : st.cost.getD v 0 = c := by
          rcases hinv.cost_dich v hv with h | ⟨h, -⟩
          · omega
          · have := hcmin _ h; omega
        have hedges : ∀ e ∈ wadj graph v,
            e.1 < graph.length ∧ -INT_MAX < c + e.2 ∧ c + e.2 < INT_MAX := by
          intro e he
          have h1 := abs_le.1 (abs_le_absWeight he)
          have h2 := hnn.wadj_nonneg he
          exact ⟨hwf.wadj_lt he, by simp only [INT_MAX]; omega, by omega⟩
        obtain ⟨new, h1, h2, h3, h4, h5, h6, h7⟩ :=
          ucs_relax_spec c graph.length (wadj graph v) st.cost pq1 hinv.clen hedges
        have hstep : loop graph (fuel + 1) st = loop graph fuel
            { visited := st.visited.set v true,
              cost := (relax c (wadj graph v) (st.cost, pq1)).1,
              pq := (relax c (wadj graph v) (st.cost, pq1)).2,
              trace := st.trace ++ [(v, c)] } := by
          simp only [loop, hpop, hm', Bool.false_eq_true, if_false]
        rw [hstep]
        -- pushed entries are genuine path costs
        have hnew : ∀ x ∈ new, x.2 < graph.length ∧ HasPath graph start x.2 x.1
            ∧ x.1 ≤ markedSum (st.visited.set v true) (graph.map absWeight) := by
          intro x hx
          obtain ⟨e, he, hx2, hx1, -⟩ := h4 x hx
          have hw := abs_le.1 (abs_le_absWeight he)
          refine ⟨hx2 ▸ hwf.wadj_lt he, ?_, by omega⟩
          rw [hx2, hx1]
          exact hpath.path_snoc he
        -- costs of closed nodes do not change
        have hkeep : ∀ u, marked st.visited u ∨ u = v →
            (relax c (wadj graph v) (st.cost, pq1)).1.getD u 0 = st.cost.getD u 0 := by
          intro u hu
          rcases h7 u with h | h
          · exact h
          · have hp := (hnew _ h).2.1
            simp only at hp
            have hle := h5 u
            rcases hu with hu | rfl
            · have := (hinv.closed_min u hu).2 _ hp
              omega
            · have := hcmin _ hp
              omega
        have hInv : Inv graph start (st.visited.set v true)
            (relax c (wadj graph v) (st.cost, pq1)).1
            (relax c (wadj graph v) (st.cost, pq1)).2 := by
          refine ⟨by simpa using hinv.vlen, h2, ?_, ?_, ?_, ?_, ?_, le_trans (h5 _) hinv.start_ok⟩
          · intro u hu
            rcases h7 u with h | h
            · rw [h]
              rcases hinv.cost_dich u hu with h' | ⟨h', h''⟩
              · exact Or.inl h'
              · exact Or.inr ⟨h', by omega⟩
            · obtain ⟨-, hp, hb'⟩ := hnew _ h
              exact Or.inr ⟨hp, hb'⟩
          · intro x hx
            simp only at hx
            rw [h1] at hx
            rcases List.mem_append.1 hx with hx | hx
            · obtain ⟨a, b, c', d⟩ := hinv.pq_ok x (hsub x hx)
              exact ⟨a, b, by omega, le_trans (h5 _) d⟩
            · obtain ⟨a, b, c'⟩ := hnew x hx
              obtain ⟨e, he, -, -, hle⟩ := h4 x hx
              exact ⟨a, b, c', hle⟩
          · intro u hu hum hc
            simp only at hum hc ⊢
            have hum' : ¬ marked st.visited u := fun h => hum (marked_set_true.2 (Or.inl h))
            have huv : u ≠ v := fun h =>
              hum (marked_set_true.2 (Or.inr ⟨h, by rw [hinv.vlen]; exact hv⟩))
            rw [h1]
            rcases h7 u with h | h
            · rw [h] at hc ⊢
              apply List.mem_append_left
              apply hne _ (hinv.open_in_pq u hu hum' hc)
              intro heq
              exact huv (by simpa using congrArg Prod.snd heq)
            · exact List.mem_append_right _ h
          · intro u hu
            simp only at hu ⊢
            have hu' : marked st.visited u ∨ u = v := by
              rcases marked_set_true.1 hu with h | ⟨h, -⟩
              · exact Or.inl h
              · exact Or.inr h
            rw [hkeep u hu']
            rcases hu' with h | rfl
            · exact hinv.closed_min u h
            · rw [hcostv]
              exact ⟨by simp only [INT_MAX]; omega, hcmin⟩
          · intro u hu e he
            simp only at hu ⊢
            have hu' : marked st.visited u ∨ u = v := by
              rcases marked_set_true.1 hu with h | ⟨h, -⟩
              · exact Or.inl h
              · exact Or.inr h
            rw [hkeep u hu']
            rcases hu' with h | rfl
            · obtain ⟨a, b⟩ := hinv.edge_ok u h e he
              have := h5 e.1
              have hdich := hinv.cost_dich e.1 (hwf.wadj_lt he)
              refine ⟨by omega, ?_⟩
              rcases hdich with h' | ⟨-, h''⟩
              · exact absurd h' b
              · simp only [INT_MAX]; omega
            · have := h6 e he
              have hw := abs_le.1 (abs_le_absWeight he)
              rw [hcostv]
              exact ⟨this, by simp only [INT_MAX]; omega⟩
        refine ih _ hInv ?_
        simp only
        rw [h1, List.length_append]
        omega
end Ucs

theorem HasPath.path_refl (graph : WGraph) (s : Nat) : HasPath graph s s 0 :=
  ⟨[], trivial, rfl, rfl⟩

/-- Run of `ucs`: with enough fuel it returns, and the final cost table holds the minimum path
cost of every reachable node and the sentinel `INT_MAX` for every other node. -/
theorem Ucs.ucs_cost_spec (graph : WGraph) (start fuel : Nat) (hwf : WellFormedW graph)
    (hnn : NonNegWeights graph) (hb : totalWeight graph < INT_MAX) (hs : start < graph.length)
    (hfuel : edgeCount graph + 2 ≤ fuel) :
    ∃ st, Ucs.ucs fuel start graph = some st
      ∧ (∀ v, Reachable graph start v → IsMinCost graph start v (st.cost.getD v 0))
      ∧ (∀ v, v < graph.length → ¬ Reachable graph start v → st.cost.getD v 0 = INT_MAX) := by
  have hIM : INT_MAX = 2147483647 := rfl
  have hb' : absTotal graph < 2147483647 := by rw [hnn.absTotal_eq]; omega
  have hinit : Ucs.Inv graph start (List.replicate graph.length false)
      ((List.replicate graph.length INT_MAX).set start 0) [(0, start)] := by
    have hst : ((List.replicate graph.length INT_MAX).set start 0).getD start 0 = 0 := by
      rw [getD_set_int, if_pos ⟨rfl, by simpa using hs⟩]
    have hother : ∀ v, v < graph.length → v ≠ start →
        ((List.replicate graph.length INT_MAX).set start 0).getD v 0 = INT_MAX := by
      intro v hv hvs
      rw [getD_set_int, if_neg (fun h => hvs h.1.symm),
        List.getD_eq_getElem _ _ (by simpa using hv)]
      simp
    refine ⟨by simp, by simp, ?_, ?_, ?_, ?_, ?_, by rw [hst]⟩
    · intro v hv
      by_cases hvs : v = start
      · subst hvs
        right
        rw [hst, markedSum_replicate]
        exact ⟨HasPath.path_refl _ _, le_refl _⟩
      · exact Or.inl (hother v hv hvs)
    · intro x hx
      simp at hx
      subst hx
      simp only
      rw [hst, markedSum_replicate]
      exact ⟨hs, HasPath.path_refl _ _, le_refl _, le_refl _⟩
    · intro v hv _ hc
      by_cases hvs : v = start
      · subst hvs
        rw [hst]
        exact List.mem_singleton_self _
      · exact absurd (hother v hv hvs) hc
    · intro u hu
      exact absurd hu (not_marked_replicate _ _)
    · intro u hu
      exact absurd hu (not_marked_replicate _ _)
  obtain ⟨st, hrun, hfin⟩ := Ucs.ucs_loop_spec graph start hwf hnn hb' hs fuel
    ⟨List.replicate graph.length false, (List.replicate graph.length INT_MAX).set start 0,
      [(0, start)], []⟩ hinit (by
        simp only [List.length_singleton]
        rw [unmarkedSum_replicate _ _ (by simp)]
        unfold edgeCount at hfuel
        omega)
  have hclosed : ∀ v, v < graph.length → st.cost.getD v 0 ≠ INT_MAX → marked st.visited v := by
    intro v hv hc
    by_contra hm
    have := hfin.open_in_pq v hv hm hc
    simp at this
  have hstart : marked st.visited start :=
    hclosed start hs (by have := hfin.start_ok; omega)
  refine ⟨st, hrun, ?_, ?_⟩
  · intro v hv
    have hm : marked st.visited v := by
      apply hv.reach_closed hstart
      intro u e hu he
      exact hclosed e.1 (hwf.wadj_lt he) (hfin.edge_ok u hu e he).2
    obtain ⟨hne, hmin⟩ := hfin.closed_min v hm
    have hvn : v < graph.length := by
      have := marked_lt hm
      rw [hfin.vlen] at this
      exact this
    rcases hfin.cost_dich v hvn with h | ⟨h, -⟩
    · exact absurd h hne
    · exact ⟨h, hmin⟩
  · intro v hv hnr
    rcases hfin.cost_dich v hv with h | ⟨h, -⟩
    · exact h
    · exact absurd ⟨_, h⟩ hnr

theorem heavyGraph_minCost : IsMinCost heavyGraph 0 2 2147483648 := by
  refine ⟨⟨[(1, 2147483647), (2, 1)], by simp [IsWalk, wadj, heavyGraph], rfl, rfl⟩, ?_⟩
  intro c hc
  have := potential_hasPath heavyGraph [0, 2147483647, 2147483648] (by decide) hc
  simpa using this

/-! ## Simple paths -/

theorem BoundedHeuristic.getD_bounds {graph : WGraph} {heuristic : List Int}
    (h : BoundedHeuristic graph heuristic) (v : Nat) :
    0 ≤ heuristic.getD v 0 ∧ totalWeight graph + heuristic.getD v 0 < 2147483647 := by
  obtain ⟨-, h1, h2⟩ := h
  simp only [INT_MAX] at h1 h2
  by_cases hv : v < heuristic.length
  · rw [List.getD_eq_getElem _ _ hv]
    exact h2 _ (List.getElem_mem hv)
  · rw [List.getD_eq_default _ _ (by omega)]
    exact ⟨le_refl _, by omega⟩

theorem isWalk_suffix {graph : WGraph} {u : Nat} {q1 q2 : List Edge} {e : Edge}
    (h : IsWalk graph u (q1 ++ e :: q2)) : IsWalk graph e.1 q2 := by
  rw [isWalk_append] at h
  exact h.2.2

theorem walkEnd_suffix {u : Nat} {q1 q2 : List Edge} {e : Edge} :
    walkEnd u (q1 ++ e :: q2) = walkEnd e.1 q2 := by
  rw [walkEnd_append]; rfl

/-- Cycles can be cut out of a walk without raising its cost. -/
theorem exists_simple_walk {graph : WGraph} (hnn : NonNegWeights graph) (p : List Edge) :
    ∀ u, IsWalk graph u p → ∃ q, IsWalk graph u q ∧ walkEnd u q = walkEnd u p
      ∧ (pathNodes u q).Nodup ∧ walkCost q ≤ walkCost p := by
  induction p with
  | nil => intro u _; exact ⟨[], trivial, rfl, by simp [pathNodes], le_refl _⟩
  | cons e es ih =>
    intro u hw
    obtain ⟨he, hes⟩ := hw
    obtain ⟨q, hq, hend, hnd, hcost⟩ := ih e.1 hes
    have he0 := hnn.wadj_nonneg he
    have hq0 := hnn.walkCost_nonneg hq
    rw [walkCost_cons]
    simp only [walkEnd]
    by_cases hu : u ∈ pathNodes e.1 q
    · unfold pathNodes at hu
      rcases List.mem_cons.1 hu with hu1 | hu2
      · subst hu1
        exact ⟨q, hq, hend, hnd, by omega⟩
      · obtain ⟨x, hx, hxu⟩ := List.mem_map.1 hu2
        obtain ⟨q1, q2, hsplit⟩ := List.append_of_mem hx
        subst hsplit
        have hw2 : IsWalk graph x.1 q2 := isWalk_suffix hq
        refine ⟨q2, hxu ▸ hw2, ?_, ?_, ?_⟩
        · rw [← hend, walkEnd_suffix, hxu]
        · rw [← hxu]
          unfold pathNodes at hnd ⊢
          simp only [List.map_append, List.map_cons] at hnd
          have := (List.nodup_cons.1 hnd).2
          exact (List.nodup_append.1 this).2.1
        · have h1 : IsWalk graph e.1 q1 := (isWalk_append.1 hq).1
          have h10 := hnn.walkCost_nonneg h1
          have hx0 : 0 ≤ x.2 := hnn.wadj_nonneg (isWalk_append.1 hq).2.1
          rw [walkCost_append, walkCost_cons] at hcost
          omega
    · refine ⟨e :: q, ⟨he, hq⟩, by simp only [walkEnd]; exact hend, ?_, ?_⟩
      · unfold pathNodes at hnd hu ⊢
        simp only [List.map_cons]
        exact List.nodup_cons.2 ⟨hu, hnd⟩
      · rw [walkCost_cons]; omega

theorem maxF_ge_head (heuristic : List Int) (g : Int) (u : Nat) (p : List Edge) :
    g + heuristic.getD u 0 ≤ maxF heuristic g u p := by
  cases p with
  | nil => exact le_refl _
  | cons e es => exact le_max_left _ _

/-- Along any path to the goal, an admissible heuristic keeps `g + h` below the path cost. -/
theorem maxF_le_of_admissible {graph : WGraph} {heuristic : List Int} {goal : Nat}
    (hadm : Admissible graph heuristic goal) (p : List Edge) :
    ∀ (g : Int) (u : Nat), IsWalk graph u p → walkEnd u p = goal →
      maxF heuristic g u p ≤ g + walkCost p := by
  induction p with
  | nil =>
    intro g u _ hend
    simp only [walkEnd] at hend
    subst hend
    have := hadm u 0 (HasPath.path_refl _ _)
    simp only [maxF, walkCost, List.map_nil, List.sum_nil]
    omega
  | cons e es ih =>
    intro g u hw hend
    have h1 := hadm u (walkCost (e :: es)) ⟨e :: es, hw, hend, rfl⟩
    have h2 := ih (g + e.2) e.1 hw.2 hend
    rw [walkCost_cons] at h1 ⊢
    simp only [maxF]
    exact max_le (by omega) (by omega)

theorem set_true_set_false {v : List Bool} {i : Nat} (h : ¬ marked v i) :
    (v.set i true).set i false = v := by
  unfold marked at h
  induction v generalizing i with
  | nil => simp
  | cons b bs ih =>
    cases i with
    | zero => simp at h; subst h; simp
    | succ j =>
      simp at h
      simp only [List.set_cons_succ]
      rw [ih (by simpa using h)]

/-! ## IDA*: the depth-first pass -/

theorem getD_le_maxEntry (heuristic : List Int) (v : Nat) :
    heuristic.getD v 0 ≤ maxEntry heuristic := by
  unfold maxEntry
  induction heuristic generalizing v with
  | nil => simp
  | cons x xs ih =>
    cases v with
    | zero => simp
    | succ j =>
      simp only [List.getD_cons_succ, List.foldr_cons]
      exact le_trans (ih j) (le_max_right _ _)

namespace IdaStar

theorem ida_loop_post (graph : WGraph) (heuristic : List Int) (goal : Nat) (limit : Int)
    (hb : absTotal graph < 2147483647) (fuel : Nat)
    (ih : ∀ (node : Nat) (g : Int) (st : State), node < graph.length →
      st.visited.length = graph.length → ¬ marked st.visited node →
      unmarkedCount st.visited ≤ fuel → 0 ≤ g →
      g ≤ markedSum st.visited (graph.map absWeight) →
      ∃ res st1, dfs goal limit graph heuristic fuel node g st = some (res, st1)
        ∧ DfsPost graph heuristic goal limit node g st res st1)
    (g : Int) (hg : 0 ≤ g) (es : List Edge) :
    ∀ (st : State), st.visited.length = graph.length → unmarkedCount st.visited ≤ fuel →
      (∀ e ∈ es, e.1 < graph.length ∧ 0 ≤ e.2
        ∧ g + e.2 ≤ markedSum st.visited (graph.map absWeight)) →
      ∃ res st1, dfsLoop (dfs goal limit graph heuristic fuel) g es st = some (res, st1)
        ∧ LoopPost graph heuristic goal limit g es st res st1 := by
  induction es with
  | nil =>
    intro st _ _ _
    refine ⟨none, st, rfl, ?_, ?_⟩
    · intro _
      exact ⟨rfl, le_refl _, Or.inl rfl, by simp⟩
    · intro c hc; cases hc
  | cons e es ihl =>
    intro st hlen hf hes
    obtain ⟨hv, hw, hgb⟩ := hes e (by simp)
    have hes' : ∀ e ∈ es, e.1 < graph.length ∧ 0 ≤ e.2
        ∧ g + e.2 ≤ markedSum st.visited (graph.map absWeight) :=
      fun x hx => hes x (by simp [hx])
    have htot := markedSum_le_absTotal graph st.visited
    have hadd : addInt g e.2 = g + e.2 := wrap32_eq (by omega) (by omega)
    by_cases hm : marked st.visited e.1
    · have hm' : st.visited.getD e.1 false = true := hm
      have hstep : dfsLoop (dfs goal limit graph heuristic fuel) g (e :: es) st
          = dfsLoop (dfs goal limit graph heuristic fuel) g es st := by
        obtain ⟨a, b⟩ := e
        simp only [dfsLoop, hm']; rfl
      obtain ⟨res, st1, hrun, hpost⟩ := ihl st hlen hf hes'
      refine ⟨res, st1, by rw [hstep, hrun], ?_, ?_⟩
      · intro hres
        obtain ⟨h1, h2, h3, h4⟩ := hpost.1 hres
        refine ⟨h1, h2, h3, ?_⟩
        intro x hx p hp hend hsa
        rcases List.mem_cons.1 hx with rfl | hx
        · exact absurd hm (hsa.2 _ (by simp [pathNodes]))
        · exact h4 x hx p hp hend hsa
      · intro c hc
        obtain ⟨h1, x, hx, h2⟩ := hpost.2 c hc
        exact ⟨h1, x, by simp [hx], h2⟩
    · have hm' : st.visited.getD e.1 false = false := by
        unfold marked at hm; simpa using hm
      obtain ⟨res1, st1, hcall, hpost1⟩ := ih e.1 (g + e.2) st hv hlen hm hf (by omega) hgb
      cases res1 with
      | some c =>
        have hstep : dfsLoop (dfs goal limit graph heuristic fuel) g (e :: es) st
            = some (some c, st1) := by
          obtain ⟨a, b⟩ := e
          simp only [dfsLoop, hm', hadd, hcall]; rfl
        refine ⟨some c, st1, hstep, ?_, ?_⟩
        · intro h; cases h
        · intro c' hc'
          cases hc'
          obtain ⟨h1, c'', h2, h3⟩ := hpost1.2 c rfl
          exact ⟨h1, e, by simp, c'', h2, h3⟩
      | none =>
        obtain ⟨hv1, hle1, hd1, hp1⟩ := hpost1.1 rfl
        have hstep : dfsLoop (dfs goal limit graph heuristic fuel) g (e :: es) st
            = dfsLoop (dfs goal limit graph heuristic fuel) g es st1 := by
          obtain ⟨a, b⟩ := e
          simp only [dfsLoop, hm', hadd, hcall]; rfl
        obtain ⟨res, st2, hrun, hpost⟩ :=
          ihl st1 (by rw [hv1]; exact hlen) (by rw [hv1]; exact hf) (by rw [hv1]; exact hes')
        refine ⟨res, st2, by rw [hstep, hrun], ?_, ?_⟩
        · intro hres
          obtain ⟨h1, h2, h3, h4⟩ := hpost.1 hres
          refine ⟨by rw [h1, hv1], le_trans h2 hle1, ?_, ?_⟩
          · rcases h3 with h3 | h3
            · rcases hd1 with hd1 | hd1
              · exact Or.inl (by rw [h3, hd1])
              · exact Or.inr (by rw [h3]; exact hd1)
            · exact Or.inr h3
          · intro x hx p hp hend hsa
            rcases List.mem_cons.1 hx with rfl | hx
            · obtain ⟨a, b, c⟩ := hp1 p hp hend hsa
              exact ⟨a, le_trans h2 b, lt_of_le_of_lt h2 c⟩
            · exact h4 x hx p hp hend (by rw [hv1]; exact hsa)
        · intro c hc
          obtain ⟨h1, x, hx, h2⟩ := hpost.2 c hc
          exact ⟨h1, x, by simp [hx], h2⟩

theorem ida_dfs_post (graph : WGraph) (heuristic : List Int) (goal : Nat) (limit : Int)
    (hwf : WellFormedW graph) (hnn : NonNegWeights graph)
    (hbh : BoundedHeuristic graph heuristic) :
    ∀ (fuel : Nat) (node : Nat) (g : Int) (st : State), node < graph.length →
      st.visited.length = graph.length → ¬ marked st.visited node →
      unmarkedCount st.visited ≤ fuel → 0 ≤ g →
      g ≤ markedSum st.visited (graph.map absWeight) →
      ∃ res st1, dfs goal limit graph heuristic fuel node g st = some (res, st1)
        ∧ DfsPost graph heuristic goal limit node g st res st1 := by
  have hIM : INT_MAX = 2147483647 := rfl
  have hb : absTotal graph < 2147483647 := by
    rw [hnn.absTotal_eq]; have := hbh.2.1; omega
  have habs := hnn.absTotal_eq
  intro fuel
  induction fuel with
  | zero =>
    intro node g st hn hlen hm hf _ _
    have := unmarkedCount_pos (by omega) hm
    omega
  | succ fuel ih =>
    intro node g st hn hlen hm hf hg0 hgb
    obtain ⟨hh0, hhb⟩ := hbh.getD_bounds node
    have htot := markedSum_le_absTotal graph st.visited
    have hadd : addInt g (heuristic.getD node 0) = g + heuristic.getD node 0 :=
      wrap32_eq (by omega) (by omega)
    by_cases hprune : g + heuristic.getD node 0 > limit
    · refine ⟨none, { st with next_limit := min st.next_limit (g + heuristic.getD node 0) }, ?_,
        ?_, ?_⟩
      · simp only [dfs, hadd, hprune, if_true]
      · intro _
        refine ⟨rfl, min_le_left _ _, ?_, ?_⟩
        · simp only
          rcases le_total st.next_limit (g + heuristic.getD node 0) with h | h
          · exact Or.inl (min_eq_left h)
          · right; rw [min_eq_right h]
            have := getD_le_maxEntry heuristic node
            exact ⟨hprune, by omega⟩
        · intro p _ _ _
          have := maxF_ge_head heuristic g node p
          refine ⟨by omega, le_trans (min_le_right _ _) this, ?_⟩
          have := min_le_right st.next_limit (g + heuristic.getD node 0)
          simp only
          omega
      · intro c hc; cases hc
    · by_cases hgoal : node = goal
      · refine ⟨some g, { st with trace := st.trace ++ [(node, g, heuristic.getD node 0,
          g + heuristic.getD node 0)] }, ?_, ?_, ?_⟩
        · simp only [dfs, hadd, hprune, if_false, if_pos hgoal]
        · intro h; cases h
        · intro c hc
          cases hc
          refine ⟨by rw [← hgoal]; omega, 0, hgoal ▸ HasPath.path_refl _ _, by omega⟩
      · -- expand the node
        have hms := markedSum_set (v := st.visited) (i := node) (graph.map absWeight)
          (by rw [hlen]; exact hn) hm
        rw [getD_map_absWeight] at hms
        have hcnt := unmarkedCount_set (v := st.visited) (i := node) (by rw [hlen]; exact hn) hm
        have hedges : ∀ e ∈ wadj graph node, e.1 < graph.length ∧ 0 ≤ e.2
            ∧ g + e.2 ≤ markedSum (st.visited.set node true) (graph.map absWeight) := by
          intro e he
          have h1 := abs_le.1 (abs_le_absWeight he)
          exact ⟨hwf.wadj_lt he, hnn.wadj_nonneg he, by omega⟩
        obtain ⟨res, st3, hrun, hpost⟩ :=
          ida_loop_post graph heuristic goal limit hb fuel ih g hg0 (wadj graph node)
            { visited := st.visited.set node true, next_limit := st.next_limit,
              trace := st.trace ++ [(node, g, heuristic.getD node 0, g + heuristic.getD node 0)] }
            (by simpa using hlen) (by simp only; omega) hedges
        cases res with
        | some c =>
          refine ⟨some c, st3, ?_, ?_, ?_⟩
          · simp only [dfs, hadd, hprune, if_false, if_neg hgoal, hrun]
          · intro h; cases h
          · intro c' hc'
            cases hc'
            obtain ⟨h1, e, he, c'', ⟨p, hp, hend, hcost⟩, h3⟩ := hpost.2 c rfl
            refine ⟨h1, e.2 + c'', ⟨e :: p, ⟨he, hp⟩, hend, ?_⟩, by omega⟩
            rw [walkCost_cons, hcost]
        | none =>
          obtain ⟨h1, h2, h3, h4⟩ := hpost.1 rfl
          simp only at h1 h2 h3 h4
          refine ⟨none, { st3 with visited := st3.visited.set node false }, ?_, ?_, ?_⟩
          · simp only [dfs, hadd, hprune, if_false, if_neg hgoal, hrun]
          · intro _
            refine ⟨?_, h2, h3, ?_⟩
            · simp only
              rw [h1, set_true_set_false hm]
            · intro p hp hend hsa
              cases p with
              | nil => exact absurd hend hgoal
              | cons e es =>
                obtain ⟨he, hes⟩ := hp
                have hsa' : SimpleAvoiding (st.visited.set node true) e.1 es := by
                  obtain ⟨hnd, hav⟩ := hsa
                  unfold pathNodes at hnd hav
                  simp only [List.map_cons] at hnd hav
                  obtain ⟨hnotin, hnd'⟩ := List.nodup_cons.1 hnd
                  refine ⟨hnd', ?_⟩
                  intro x hx hmx
                  rcases marked_set_true.1 hmx with h | ⟨h, -⟩
                  · exact hav x (List.mem_cons_of_mem _ hx) h
                  · exact hnotin (h ▸ hx)
                obtain ⟨a, b, c⟩ := h4 e he es hes hend hsa'
                simp only [maxF]
                exact ⟨lt_of_lt_of_le a (le_max_right _ _), le_trans b (le_max_right _ _), c⟩
          · intro c hc; cases hc

theorem simpleAvoiding_replicate (n u : Nat) (p : List Edge) (h : (pathNodes u p).Nodup) :
    SimpleAvoiding (List.replicate n false) u p :=
  ⟨h, fun x _ => not_marked_replicate n x⟩

theorem ida_outer_spec (graph : WGraph) (heuristic : List Int) (start goal depth : Nat)
    (hwf : WellFormedW graph) (hnn : NonNegWeights graph)
    (hbh : BoundedHeuristic graph heuristic) (hs : start < graph.length)
    (hdepth : graph.length ≤ depth) :
    ∀ (iters : Nat) (limit : Int) (limits : List Int) (trace : List AStar.Visit),
      (totalWeight graph + maxEntry heuristic - limit).toNat + 1 ≤ iters →
      (∀ p, IsWalk graph start p → walkEnd start p = goal → (pathNodes start p).Nodup →
        limit ≤ maxF heuristic 0 start p) →
      ∃ r, idaLoop depth start goal graph heuristic iters limit limits trace = some r
        ∧ ((∃ c, r.outcome = Outcome.found c ∧ HasPath graph start goal c
              ∧ ∀ p, IsWalk graph start p → walkEnd start p = goal →
                  (pathNodes start p).Nodup →
                  c + heuristic.getD goal 0 ≤ maxF heuristic 0 start p)
          ∨ (r.outcome = Outcome.notFound ∧ ¬ Reachable graph start goal)) := by
  have hIM : INT_MAX = 2147483647 := rfl
  intro iters
  induction iters with
  | zero => intro limit limits trace h _; omega
  | succ iters ih =>
    intro limit limits trace hit hlim
    obtain ⟨res, st1, hrun, hpost⟩ :=
      ida_dfs_post graph heuristic goal limit hwf hnn hbh depth start 0
        ⟨List.replicate graph.length false, INF, trace⟩ hs (by simp)
        (not_marked_replicate _ _) (by simp only [unmarkedCount_replicate]; exact hdepth)
        (le_refl _) (by simp only [markedSum_replicate]; exact le_refl _)
    cases res with
    | some c =>
      refine ⟨⟨limits ++ [limit], st1.trace, Outcome.found c⟩, ?_, Or.inl ⟨c, rfl, ?_, ?_⟩⟩
      · simp only [idaLoop, hrun]
      · obtain ⟨-, c', hp, hc⟩ := hpost.2 c rfl
        rw [hc, zero_add]; exact hp
      · intro p hp hend hnd
        have := (hpost.2 c rfl).1
        have := hlim p hp hend hnd
        omega
    | none =>
      obtain ⟨-, hle, hdich, hpaths⟩ := hpost.1 rfl
      simp only at hle hdich hpaths
      by_cases hinf : st1.next_limit = INF
      · refine ⟨⟨limits ++ [limit], st1.trace, Outcome.notFound⟩, ?_, Or.inr ⟨rfl, ?_⟩⟩
        · simp only [idaLoop, hrun, hinf, if_true]
        · rintro ⟨c, p, hp, hend, -⟩
          obtain ⟨q, hq, hqend, hnd, -⟩ := exists_simple_walk hnn p start hp
          have := (hpaths q hq (hqend.trans hend)
            (simpleAvoiding_replicate _ _ _ hnd)).2.2
          rw [hinf] at this
          simp only [INF] at this
          omega
      · have hstep : idaLoop depth start goal graph heuristic (iters + 1) limit limits trace
            = idaLoop depth start goal graph heuristic iters st1.next_limit (limits ++ [limit])
                st1.trace := by
          simp only [idaLoop, hrun, hinf, if_false]
        rw [hstep]
        rcases hdich with h | ⟨h1, h2⟩
        · exact absurd h hinf
        · apply ih
          · omega
          · intro p hp hend hnd
            exact (hpaths p hp hend (simpleAvoiding_replicate _ _ _ hnd)).2.1

end IdaStar

/-- Run of `idaStar`: with enough fuel it returns; it reports "not found" exactly when the goal
is unreachable, and a reported cost is the cost of a path and is bounded by the largest `g + h`
along every simple path to the goal. -/
theorem IdaStar.idaStar_spec (graph : WGraph) (heuristic : List Int) (start goal : Nat)
    (iters depth : Nat) (hwf : WellFormedW graph) (hnn : NonNegWeights graph)
    (hbh : BoundedHeuristic graph heuristic) (hs : start < graph.length)
    (hiters : iterBound graph heuristic ≤ iters) (hdepth : graph.length ≤ depth) :
    ∃ r, IdaStar.idaStar iters depth start goal graph heuristic = some r
      ∧ ((∃ c, r.outcome = Outcome.found c ∧ HasPath graph start goal c
            ∧ ∀ p, IsWalk graph start p → walkEnd start p = goal →
                (pathNodes start p).Nodup →
                c + heuristic.getD goal 0 ≤ maxF heuristic 0 start p)
        ∨ (r.outcome = Outcome.notFound ∧ ¬ Reachable graph start goal)) := by
  unfold IdaStar.idaStar
  apply IdaStar.ida_outer_spec graph heuristic start goal depth hwf hnn hbh hs hdepth
  · have := (hbh.getD_bounds start).1
    unfold iterBound at hiters
    omega
  · intro p _ _ _
    have := maxF_ge_head heuristic 0 start p
    omega

/-! ## Unweighted paths -/

theorem HasUPath.upath_refl (graph : Graph) (s : Nat) : HasUPath graph s s 0 :=
  ⟨[], trivial, rfl, rfl⟩

theorem HasUPath.eq_of_zero {graph : Graph} {s t : Nat} (h : HasUPath graph s t 0) : s = t := by
  obtain ⟨p, -, he, hl⟩ := h
  have : p = [] := List.length_eq_zero.1 hl
  subst this
  exact he

theorem HasUPath.trans {graph : Graph} {s u t a b : Nat} (h1 : HasUPath graph s u a)
    (h2 : HasUPath graph u t b) : HasUPath graph s t (a + b) := by
  obtain ⟨p, hp, hpe, hpl⟩ := h1
  obtain ⟨q, hq, hqe, hql⟩ := h2
  refine ⟨p ++ q, ?_, ?_, by simp [hpl, hql]⟩
  · rw [isUWalk_append, hpe]; exact ⟨hp, hq⟩
  · rw [uwalkEnd_append, hpe, hqe]

theorem HasUPath.edge {graph : Graph} {u v : Nat} (h : v ∈ adj graph u) : HasUPath graph u v 1 :=
  ⟨[v], ⟨h, trivial⟩, rfl, rfl⟩

theorem HasUPath.split {graph : Graph} {s t : Nat} (a b : Nat) (h : HasUPath graph s t (a + b)) :
    ∃ u, HasUPath graph s u a ∧ HasUPath graph u t b := by
  obtain ⟨p, hp, he, hl⟩ := h
  have hsplit : p = p.take a ++ p.drop a := (List.take_append_drop a p).symm
  rw [hsplit, isUWalk_append] at hp
  rw [hsplit, uwalkEnd_append] at he
  refine ⟨uwalkEnd s (p.take a), ⟨p.take a, hp.1, rfl, ?_⟩, ⟨p.drop a, hp.2, he, ?_⟩⟩
  · rw [List.length_take]; omega
  · rw [List.length_drop]; omega

theorem HasUPath.pred {graph : Graph} {s v k : Nat} (h : HasUPath graph s v (k + 1)) :
    ∃ u, HasUPath graph s u k ∧ v ∈ adj graph u := by
  obtain ⟨u, h1, p, hp, he, hl⟩ := h.split k 1
  refine ⟨u, h1, ?_⟩
  match p, hl with
  | [w], _ =>
    simp only [uwalkEnd] at he
    subst he
    exact hp.1

theorem HasUPath.symm {graph : Graph} (hsym : Symmetric graph) {s t k : Nat}
    (h : HasUPath graph s t k) : HasUPath graph t s k := by
  obtain ⟨p, hp, he, hl⟩ := h
  induction p generalizing s k with
  | nil =>
    simp only [uwalkEnd] at he
    simp only [List.length_nil] at hl
    subst he; subst hl
    exact HasUPath.upath_refl _ _
  | cons v vs ih =>
    simp only [List.length_cons] at hl
    subst hl
    have h1 := ih hp.2 he rfl
    have h2 : HasUPath graph v s 1 := HasUPath.edge (hsym s v hp.1)
    exact h1.trans h2

theorem IsDist.le_of_path {graph : Graph} {s t d k : Nat} (h : IsDist graph s t d)
    (hk : HasUPath graph s t k) : d ≤ k := h.2 k hk

namespace Bidirectional

theorem Chain.hasUPath {graph : Graph} {parent : PMap} {root v k : Nat}
    (hpar : ∀ v p, parent.lookup v = some p → v ∈ adj graph p) (h : Chain parent root v k) :
    HasUPath graph root v k := by
  induction h with
  | base _ => exact HasUPath.upath_refl _ _
  | step hl _ ih => exact ih.upath_snoc (hpar _ _ hl)

theorem lookup_cons_ne {parent : PMap} {x y p : Nat} (h : y ≠ x) :
    List.lookup y ((x, p) :: parent) = List.lookup y parent := by
  simp only [List.lookup]
  have : (y == x) = false := by simpa using h
  rw [this]

theorem lookup_cons_self {parent : PMap} {x p : Nat} :
    List.lookup x ((x, p) :: parent) = some p := by
  simp [List.lookup]

/-- Chains survive the insertion of a parent pointer for a node that had none and is not
the root. -/
theorem Chain.insert {parent : PMap} {root v k x p : Nat} (h : Chain parent root v k)
    (hx : parent.lookup x = none) (hroot : x ≠ root) : Chain ((x, p) :: parent) root v k := by
  induction h with
  | base h0 =>
    exact Chain.base (by rw [lookup_cons_ne (Ne.symm hroot)]; exact h0)
  | @step v' p' k' hl _ ih =>
    have hne : v' ≠ x := by
      intro heq
      rw [heq, hx] at hl
      cases hl
    exact Chain.step (by rw [lookup_cons_ne hne]; exact hl) ih

theorem scanBwd_eq_swap (current : Nat) (ns : List Nat) :
    ∀ st, scanBwd current ns st = (scanFwd current ns st.swap).swap := by
  induction ns with
  | nil => intro st; rfl
  | cons y ys ih =>
    intro st
    simp only [scanBwd, scanFwd, State.swap]
    by_cases h1 : st.visited_bwd.getD y false = true
    · simp only [h1, Bool.not_true, Bool.false_eq_true, if_false]
      rw [ih]; rfl
    · have h1' : st.visited_bwd.getD y false = false := by simpa using h1
      simp only [h1', Bool.not_false, if_true]
      by_cases h2 : st.visited_fwd.getD y false = true
      · simp only [h2, if_true]; rfl
      · simp only [h2, if_false]
        rw [ih]; rfl

theorem levelBwd_eq_swap (graph : Graph) (k : Nat) :
    ∀ st, levelBwd graph k st = (levelFwd graph k st.swap).swap := by
  induction k with
  | zero => intro st; rfl
  | succ k ih =>
    intro st
    simp only [levelBwd, levelFwd]
    cases hq : st.q_bwd with
    | nil =>
      have : st.swap.q_fwd = [] := hq
      simp only [this]; rfl
    | cons c q =>
      have : st.swap.q_fwd = c :: q := hq
      simp only [this]
      rw [scanBwd_eq_swap]
      have hsw : ({ st with q_bwd := q } : State).swap = { st.swap with q_fwd := q } := rfl
      rw [hsw]
      cases scanFwd c (adj graph c) { st.swap with q_fwd := q } with
      | meet m st1 => rfl
      | cont st1 =>
        simp only [Scan.swap]
        rw [ih]; rfl

end Bidirectional

namespace Bidirectional

/-! ## Bidirectional BFS: expanding one level -/

theorem scanFwd_cons_marked (current y : Nat) (ys : List Nat) (st : State)
    (h : marked st.visited_fwd y) : scanFwd current (y :: ys) st = scanFwd current ys st := by
  have h' : st.visited_fwd.getD y false = true := h
  simp only [scanFwd, h', Bool.not_true, Bool.false_eq_true, if_false]

theorem scanFwd_cons_meet (current y : Nat) (ys : List Nat) (st : State)
    (h : ¬ marked st.visited_fwd y) (hb : marked st.visited_bwd y) :
    scanFwd current (y :: ys) st = Scan.meet y (st.discover current y) := by
  have h' : st.visited_fwd.getD y false = false := by unfold marked at h; simpa using h
  have hb' : st.visited_bwd.getD y false = true := hb
  simp only [scanFwd, h', Bool.not_false, if_true, hb', State.discover]

theorem scanFwd_cons_cont (current y : Nat) (ys : List Nat) (st : State)
    (h : ¬ marked st.visited_fwd y) (hb : ¬ marked st.visited_bwd y) :
    scanFwd current (y :: ys) st = scanFwd current ys (st.discover current y) := by
  have h' : st.visited_fwd.getD y false = false := by unfold marked at h; simpa using h
  have hb' : st.visited_bwd.getD y false = false := by unfold marked at hb; simpa using hb
  simp only [scanFwd, h', Bool.not_false, if_true, hb', Bool.false_eq_true, if_false,
    State.discover]

/-- Facts about the parent map after discovering the unmarked node `y` from `current`. -/
theorem discover_chain {graph : Graph} {root r : Nat} {other visited : List Bool}
    {parent : PMap} {rest new : List Nat}
    (hinv : MidInv graph root r other visited parent rest new) {current y : Nat}
    (hy : ¬ marked visited y) (hadj : y ∈ adj graph current)
    (hchain : ∃ k, k ≤ r ∧ Chain parent root current k) :
    parent.lookup y = none ∧ y ≠ root
      ∧ (∃ k, k ≤ r + 1 ∧ Chain ((y, current) :: parent) root y k)
      ∧ (∀ v p, List.lookup v ((y, current) :: parent) = some p → v ∈ adj graph p) := by
  have hnone : parent.lookup y = none := by
    cases h : parent.lookup y with
    | none => rfl
    | some p => exact absurd (hinv.par y p h).1 hy
  have hroot : y ≠ root := by
    intro h
    exact hy (h ▸ hinv.ball root ⟨0, Nat.zero_le _, HasUPath.upath_refl _ _⟩)
  obtain ⟨k, hk, hc⟩ := hchain
  refine ⟨hnone, hroot, ⟨k + 1, by omega, Chain.step lookup_cons_self (hc.insert hnone hroot)⟩, ?_⟩
  intro v p hl
  by_cases hv : v = y
  · subst hv
    rw [lookup_cons_self] at hl
    cases hl
    exact hadj
  · rw [lookup_cons_ne hv] at hl
    exact (hinv.par v p hl).2

theorem discover_mid {graph : Graph} {root r : Nat} {other visited : List Bool}
    {parent : PMap} {rest new : List Nat} (hwf : WellFormed graph)
    (hinv : MidInv graph root r other visited parent rest new) {current y : Nat}
    (hy : ¬ marked visited y) (hother : ¬ marked other y) (hadj : y ∈ adj graph current)
    (hcur : HasUPath graph root current r)
    (hchain : ∃ k, k ≤ r ∧ Chain parent root current k) :
    MidInv graph root r other (visited.set y true) ((y, current) :: parent) rest
      (new ++ [y]) := by
  obtain ⟨hnone, hroot, hcy, -⟩ := discover_chain hinv hy hadj hchain
  have hylt : y < visited.length := by rw [hinv.len]; exact hwf.adj_lt hadj
  have hmy : marked (visited.set y true) y := marked_set_true.2 (Or.inr ⟨rfl, hylt⟩)
  have hmono : ∀ v, marked visited v → marked (visited.set y true) v :=
    fun v hv => marked_set_true.2 (Or.inl hv)
  have hins : ∀ v, (∃ k, k ≤ r ∧ Chain parent root v k) →
      ∃ k, k ≤ r ∧ Chain ((y, current) :: parent) root v k := by
    rintro v ⟨k, hk, hc⟩
    exact ⟨k, hk, hc.insert hnone hroot⟩
  have hins1 : ∀ v, (∃ k, k ≤ r + 1 ∧ Chain parent root v k) →
      ∃ k, k ≤ r + 1 ∧ Chain ((y, current) :: parent) root v k := by
    rintro v ⟨k, hk, hc⟩
    exact ⟨k, hk, hc.insert hnone hroot⟩
  refine ⟨by simpa using hinv.len, ?_, ?_, ?_, ?_, ?_, ?_, ?_, ?_⟩
  · intro v hv
    rcases marked_set_true.1 hv with h | ⟨h, -⟩
    · rcases hinv.sound v h with h' | h'
      · exact Or.inl h'
      · exact Or.inr (List.mem_append_left _ h')
    · exact Or.inr (by simp [h])
  · intro v hv
    exact hmono v (hinv.ball v hv)
  · intro v hv
    obtain ⟨a, b⟩ := hinv.rest_ok v hv
    exact ⟨a, hins v b⟩
  · intro v hv
    rcases List.mem_append.1 hv with hv | hv
    · obtain ⟨a, b, c, d, e⟩ := hinv.new_ok v hv
      exact ⟨hmono v a, b, c, d, hins1 v e⟩
    · simp at hv
      subst hv
      refine ⟨hmy, hcur.upath_snoc hadj, ?_, hother, hcy⟩
      intro hball
      exact hy (hinv.ball v hball)
  · intro u hu
    rcases hinv.closed u hu with h | h
    · exact Or.inl h
    · exact Or.inr (fun v hv => hmono v (h v hv))
  · rw [lookup_cons_ne (Ne.symm hroot)]; exact hinv.root_none
  · intro v p hl
    by_cases hv : v = y
    · subst hv
      rw [lookup_cons_self] at hl
      cases hl
      exact ⟨hmy, hadj⟩
    · rw [lookup_cons_ne hv] at hl
      obtain ⟨a, b⟩ := hinv.par v p hl
      exact ⟨hmono v a, b⟩
  · intro v hv
    rcases marked_set_true.1 hv with h | ⟨h, -⟩
    · exact hins1 v (hinv.chain v h)
    · rw [h]; exact hcy

theorem MidInv.marked_mono {graph : Graph} {root r : Nat} {other v1 v2 : List Bool}
    {p1 p2 : PMap} {rest new1 new2 : List Nat}
    (h1 : MidInv graph root r other v1 p1 rest new1)
    (h2 : MidInv graph root r other v2 p2 rest (new1 ++ new2)) :
    ∀ v, marked v1 v → marked v2 v := by
  intro v hv
  rcases h1.sound v hv with h | h
  · exact h2.ball v h
  · exact (h2.new_ok v (List.mem_append_left _ h)).1

theorem scanFwd_mid (graph : Graph) (hwf : WellFormed graph) (root r current : Nat)
    (hcur : HasUPath graph root current r) (ns : List Nat) :
    ∀ (st : State) (rest new : List Nat), (∀ y ∈ ns, y ∈ adj graph current) →
      MidInv graph root r st.visited_bwd st.visited_fwd st.parent_fwd rest new →
      (∃ k, k ≤ r ∧ Chain st.parent_fwd root current k) →
      (∀ st1, scanFwd current ns st = Scan.cont st1 →
        ∃ new1, MidInv graph root r st.visited_bwd st1.visited_fwd st1.parent_fwd rest
            (new ++ new1)
          ∧ st1.q_fwd = st.q_fwd ++ new1 ∧ (∀ y ∈ ns, marked st1.visited_fwd y)
          ∧ st1.visited_bwd = st.visited_bwd ∧ st1.parent_bwd = st.parent_bwd
          ∧ st1.q_bwd = st.q_bwd)
      ∧ (∀ m st1, scanFwd current ns st = Scan.meet m st1 →
        marked st.visited_bwd m ∧ (∃ k, k ≤ r + 1 ∧ Chain st1.parent_fwd root m k)
          ∧ (∀ v p, st1.parent_fwd.lookup v = some p → v ∈ adj graph p)
          ∧ st1.visited_bwd = st.visited_bwd ∧ st1.parent_bwd = st.parent_bwd
          ∧ st1.q_bwd = st.q_bwd) := by
  induction ns with
  | nil =>
    intro st rest new _ hinv _
    refine ⟨?_, ?_⟩
    · intro st1 h
      simp only [scanFwd, Scan.cont.injEq] at h
      subst h
      exact ⟨[], by simpa using hinv, by simp, by simp, rfl, rfl, rfl⟩
    · intro m st1 h
      simp [scanFwd] at h
  | cons y ys ih =>
    intro st rest new hns hinv hchain
    have hadj : y ∈ adj graph current := hns y (by simp)
    have hys : ∀ z ∈ ys, z ∈ adj graph current := fun z hz => hns z (by simp [hz])
    by_cases hm : marked st.visited_fwd y
    · rw [scanFwd_cons_marked current y ys st hm]
      obtain ⟨hc, hmeet⟩ := ih st rest new hys hinv hchain
      refine ⟨?_, hmeet⟩
      intro st1 h
      obtain ⟨new1, a, b, c, d⟩ := hc st1 h
      refine ⟨new1, a, b, ?_, d⟩
      intro z hz
      rcases List.mem_cons.1 hz with rfl | hz
      · exact MidInv.marked_mono hinv a _ hm
      · exact c z hz
    · by_cases hb : marked st.visited_bwd y
      · rw [scanFwd_cons_meet current y ys st hm hb]
        refine ⟨fun st1 h => (by cases h), ?_⟩
        intro m st1 h
        simp only [Scan.meet.injEq] at h
        obtain ⟨rfl, rfl⟩ := h
        obtain ⟨-, -, hcy, hpar⟩ := discover_chain hinv hm hadj hchain
        exact ⟨hb, hcy, hpar, rfl, rfl, rfl⟩
      · rw [scanFwd_cons_cont current y ys st hm hb]
        have hinv' := discover_mid hwf hinv hm hb hadj hcur hchain
        obtain ⟨hnone, hroot, -, -⟩ := discover_chain hinv hm hadj hchain
        have hchain' : ∃ k, k ≤ r ∧ Chain (st.discover current y).parent_fwd root current k := by
          obtain ⟨k, hk, hc⟩ := hchain
          exact ⟨k, hk, hc.insert hnone hroot⟩
        obtain ⟨hc, hmeet⟩ := ih (st.discover current y) rest (new ++ [y]) hys hinv' hchain'
        refine ⟨?_, ?_⟩
        · intro st1 h
          obtain ⟨new1, a, b, c, d⟩ := hc st1 h
          refine ⟨y :: new1, by simpa using a, ?_, ?_, d⟩
          · rw [b]; simp [State.discover]
          · intro z hz
            rcases List.mem_cons.1 hz with rfl | hz
            · exact (a.new_ok _ (by simp)).1
            · exact c z hz
        · intro m st1 h
          exact hmeet m st1 h

theorem levelFwd_cons (graph : Graph) (k : Nat) (st : State) (current : Nat) (q : List Nat)
    (h : st.q_fwd = current :: q) :
    levelFwd graph (k + 1) st
      = match scanFwd current (adj graph current) { st with q_fwd := q } with
        | Scan.meet m st1 => Scan.meet m st1
        | Scan.cont st1 => levelFwd graph k st1 := by
  rw [levelFwd]
  split
  · rename_i h'; rw [h] at h'; cases h'
  · rename_i c q' h'
    rw [h] at h'
    cases h'
    rfl

theorem levelFwd_mid (graph : Graph) (hwf : WellFormed graph) (root r : Nat) :
    ∀ (k : Nat) (st : State) (rest new : List Nat), st.q_fwd = rest ++ new → rest.length = k →
      MidInv graph root r st.visited_bwd st.visited_fwd st.parent_fwd rest new →
      (∀ st1, levelFwd graph k st = Scan.cont st1 →
        MidInv graph root r st.visited_bwd st1.visited_fwd st1.parent_fwd [] st1.q_fwd
          ∧ st1.visited_bwd = st.visited_bwd ∧ st1.parent_bwd = st.parent_bwd
          ∧ st1.q_bwd = st.q_bwd)
      ∧ (∀ m st1, levelFwd graph k st = Scan.meet m st1 →
        marked st.visited_bwd m ∧ (∃ k, k ≤ r + 1 ∧ Chain st1.parent_fwd root m k)
          ∧ (∀ v p, st1.parent_fwd.lookup v = some p → v ∈ adj graph p)
          ∧ st1.visited_bwd = st.visited_bwd ∧ st1.parent_bwd = st.parent_bwd
          ∧ st1.q_bwd = st.q_bwd) := by
  intro k
  induction k with
  | zero =>
    intro st rest new hq hlen hinv
    have hrest : rest = [] := List.length_eq_zero.1 hlen
    subst hrest
    simp only [List.nil_append] at hq
    refine ⟨?_, ?_⟩
    · intro st1 h
      simp only [levelFwd, Scan.cont.injEq] at h
      subst h
      rw [hq]
      exact ⟨hinv, rfl, rfl, rfl⟩
    · intro m st1 h
      simp [levelFwd] at h
  | succ k ih =>
    intro st rest new hq hlen hinv
    cases rest with
    | nil => simp at hlen
    | cons current rest' =>
      simp only [List.length_cons, Nat.add_right_cancel_iff] at hlen
      have hq' : st.q_fwd = current :: (rest' ++ new) := by rw [hq]; rfl
      obtain ⟨hcur, hchain⟩ := hinv.rest_ok current (by simp)
      obtain ⟨hc, hmeet⟩ := scanFwd_mid graph hwf root r current hcur (adj graph current)
        { st with q_fwd := rest' ++ new } (current :: rest') new (fun y hy => hy) hinv hchain
      rw [levelFwd_cons graph k st current (rest' ++ new) hq']
      cases hscan : scanFwd current (adj graph current) { st with q_fwd := rest' ++ new } with
      | meet m st1 =>
        refine ⟨fun st2 h => (by cases h), ?_⟩
        intro m' st2 h
        simp only [Scan.meet.injEq] at h
        obtain ⟨rfl, rfl⟩ := h
        exact hmeet m st1 hscan
      | cont st1 =>
        obtain ⟨new1, hmid, hq1, hall, hvb, hpb, hqb⟩ := hc st1 hscan
        simp only at hq1 hvb hpb hqb hmid
        have hmid' : MidInv graph root r st1.visited_bwd st1.visited_fwd st1.parent_fwd rest'
            (new ++ new1) := by
          rw [hvb]
          refine ⟨hmid.len, hmid.sound, hmid.ball, fun v hv => hmid.rest_ok v (by simp [hv]),
            hmid.new_ok, ?_, hmid.root_none, hmid.par, hmid.chain⟩
          intro u hu
          rcases hmid.closed u hu with h | h
          · rcases List.mem_cons.1 h with rfl | h
            · exact Or.inr hall
            · exact Or.inl h
          · exact Or.inr h
        obtain ⟨hc2, hmeet2⟩ := ih st1 rest' (new ++ new1)
          (by rw [hq1, List.append_assoc]) hlen hmid'
        simp only
        refine ⟨?_, ?_⟩
        · intro st2 h
          obtain ⟨a, b, c, d⟩ := hc2 st2 h
          exact ⟨hvb ▸ a, b.trans hvb, c.trans hpb, d.trans hqb⟩
        · intro m st2 h
          obtain ⟨a, b, c, d, e, f⟩ := hmeet2 m st2 h
          exact ⟨hvb ▸ a, b, c, d.trans hvb, e.trans hpb, f.trans hqb⟩

theorem SideInv.toMid {graph : Graph} {root r : Nat} {visited : List Bool} {parent : PMap}
    {q : List Nat} (h : SideInv graph root r visited parent q) (other : List Bool) :
    MidInv graph root r other visited parent q [] := by
  refine ⟨h.len, fun v hv => Or.inl ((h.ball v).1 hv), fun v hv => (h.ball v).2 hv, h.queue,
    by simp, ?_, h.root_none, h.par, ?_⟩
  · intro u hu
    rcases h.queue_complete u ((h.ball u).2 hu) with ⟨k, hk, hp⟩ | hq
    · right
      intro v hv
      exact (h.ball v).2 ⟨k + 1, by omega, hp.upath_snoc hv⟩
    · exact Or.inl hq
  · intro v hv
    obtain ⟨k, hk, hc⟩ := h.chain v hv
    exact ⟨k, by omega, hc⟩

theorem MidInv.toSide {graph : Graph} {root r : Nat} {other visited : List Bool}
    {parent : PMap} {new : List Nat} (h : MidInv graph root r other visited parent [] new) :
    SideInv graph root (r + 1) visited parent new := by
  refine ⟨h.len, ?_, ?_, ?_, h.root_none, h.par, h.chain⟩
  · intro v
    constructor
    · intro hv
      rcases h.sound v hv with ⟨k, hk, hp⟩ | hn
      · exact ⟨k, by omega, hp⟩
      · exact ⟨r + 1, le_refl _, (h.new_ok v hn).2.1⟩
    · rintro ⟨k, hk, hp⟩
      by_cases hkr : k ≤ r
      · exact h.ball v ⟨k, hkr, hp⟩
      · have hk' : k = r + 1 := by omega
        subst hk'
        obtain ⟨u, hu, hadj⟩ := hp.pred
        rcases h.closed u ⟨r, le_refl _, hu⟩ with h' | h'
        · simp at h'
        · exact h' v hadj
  · intro v hv
    obtain ⟨-, a, -, -, b⟩ := h.new_ok v hv
    exact ⟨a, b⟩
  · intro v hv
    rcases h.sound v hv with ⟨k, hk, hp⟩ | hn
    · exact Or.inl ⟨k, by omega, hp⟩
    · exact Or.inr hn

/-- One forward phase: either the search goes on with the next ball, no node of the new level
being marked by the other search, or it stops at a meeting node. -/
theorem levelFwd_phase (graph : Graph) (hwf : WellFormed graph) (root r : Nat) (st : State)
    (hinv : SideInv graph root r st.visited_fwd st.parent_fwd st.q_fwd) :
    (∀ st1, levelFwd graph st.q_fwd.length st = Scan.cont st1 →
      SideInv graph root (r + 1) st1.visited_fwd st1.parent_fwd st1.q_fwd
        ∧ (∀ v ∈ st1.q_fwd, ¬ marked st.visited_bwd v)
        ∧ st1.visited_bwd = st.visited_bwd ∧ st1.parent_bwd = st.parent_bwd
        ∧ st1.q_bwd = st.q_bwd)
    ∧ (∀ m st1, levelFwd graph st.q_fwd.length st = Scan.meet m st1 →
      marked st.visited_bwd m ∧ (∃ k, k ≤ r + 1 ∧ Chain st1.parent_fwd root m k)
        ∧ (∀ v p, st1.parent_fwd.lookup v = some p → v ∈ adj graph p)
        ∧ st1.visited_bwd = st.visited_bwd ∧ st1.parent_bwd = st.parent_bwd
        ∧ st1.q_bwd = st.q_bwd) := by
  obtain ⟨hc, hmeet⟩ := levelFwd_mid graph hwf root r st.q_fwd.length st st.q_fwd []
    (by simp) rfl (hinv.toMid st.visited_bwd)
  refine ⟨?_, hmeet⟩
  intro st1 h
  obtain ⟨a, b, c, d⟩ := hc st1 h
  exact ⟨a.toSide, fun v hv => (a.new_ok v hv).2.2.2.1, b, c, d⟩

theorem State.swap_swap (st : State) : st.swap.swap = st := rfl

theorem Scan.swap_eq_cont {x : Scan} {st1 : State} (h : x.swap = Scan.cont st1) :
    x = Scan.cont st1.swap := by
  cases x with
  | meet m st => simp [Scan.swap] at h
  | cont st =>
    simp only [Scan.swap, Scan.cont.injEq] at h
    rw [← h]; rfl

theorem Scan.swap_eq_meet {x : Scan} {m : Nat} {st1 : State} (h : x.swap = Scan.meet m st1) :
    x = Scan.meet m st1.swap := by
  cases x with
  | cont st => simp [Scan.swap] at h
  | meet m' st =>
    simp only [Scan.swap, Scan.meet.injEq] at h
    obtain ⟨rfl, rfl⟩ := h
    rfl

/-- One backward phase, obtained from the forward one by exchanging the two searches. -/
theorem levelBwd_phase (graph : Graph) (hwf : WellFormed graph) (root r : Nat) (st : State)
    (hinv : SideInv graph root r st.visited_bwd st.parent_bwd st.q_bwd) :
    (∀ st1, levelBwd graph st.q_bwd.length st = Scan.cont st1 →
      SideInv graph root (r + 1) st1.visited_bwd st1.parent_bwd st1.q_bwd
        ∧ (∀ v ∈ st1.q_bwd, ¬ marked st.visited_fwd v)
        ∧ st1.visited_fwd = st.visited_fwd ∧ st1.parent_fwd = st.parent_fwd
        ∧ st1.q_fwd = st.q_fwd)
    ∧ (∀ m st1, levelBwd graph st.q_bwd.length st = Scan.meet m st1 →
      marked st.visited_fwd m ∧ (∃ k, k ≤ r + 1 ∧ Chain st1.parent_bwd root m k)
        ∧ (∀ v p, st1.parent_bwd.lookup v = some p → v ∈ adj graph p)
        ∧ st1.visited_fwd = st.visited_fwd ∧ st1.parent_fwd = st.parent_fwd
        ∧ st1.q_fwd = st.q_fwd) := by
  obtain ⟨hc, hmeet⟩ := levelFwd_phase graph hwf root r st.swap hinv
  rw [levelBwd_eq_swap]
  refine ⟨?_, ?_⟩
  · intro st1 h
    exact hc st1.swap (Scan.swap_eq_cont h)
  · intro m st1 h
    exact hmeet m st1.swap (Scan.swap_eq_meet h)

theorem traceBack_chain {graph : Graph} {parent : PMap} {root v k : Nat}
    (hpar : ∀ v p, parent.lookup v = some p → v ∈ adj graph p) (h : Chain parent root v k) :
    ∀ (fuel : Nat) (acc : List Nat), k ≤ fuel →
      ∃ l, traceBack parent fuel v acc = some (root, acc ++ l) ∧ l.length = k
        ∧ IsUWalk graph root l.reverse ∧ uwalkEnd root l.reverse = v := by
  induction h with
  | base h0 =>
    intro fuel acc _
    refine ⟨[], ?_, rfl, trivial, rfl⟩
    cases fuel <;> simp [traceBack, h0]
  | @step v p k hl _ ih =>
    intro fuel acc hf
    cases fuel with
    | zero => omega
    | succ fuel =>
      obtain ⟨l, h1, h2, h3, h4⟩ := ih fuel (acc ++ [v]) (by omega)
      refine ⟨v :: l, ?_, by simp [h2], ?_, ?_⟩
      · simp only [traceBack, hl, h1]
        simp
      · rw [List.reverse_cons, isUWalk_append, h4]
        exact ⟨h3, hpar v p hl, trivial⟩
      · rw [List.reverse_cons, uwalkEnd_append]
        rfl

theorem traceOn_chain {graph : Graph} {parent : PMap} {root v k : Nat}
    (hpar : ∀ v p, parent.lookup v = some p → p ∈ adj graph v) (h : Chain parent root v k) :
    ∀ (fuel : Nat) (acc : List Nat), k ≤ fuel →
      ∃ l, traceOn parent fuel v acc = some (acc ++ l) ∧ l.length = k
        ∧ IsUWalk graph v l ∧ uwalkEnd v l = root := by
  induction h with
  | base h0 =>
    intro fuel acc _
    refine ⟨[], ?_, rfl, trivial, rfl⟩
    cases fuel <;> simp [traceOn, h0]
  | @step v p k hl _ ih =>
    intro fuel acc hf
    cases fuel with
    | zero => omega
    | succ fuel =>
      obtain ⟨l, h1, h2, h3, h4⟩ := ih fuel (acc ++ [p]) (by omega)
      refine ⟨p :: l, ?_, by simp [h2], ⟨hpar v p hl, h3⟩, h4⟩
      simp only [traceOn, hl, h1]
      simp

/-- The sequence printed by `printPath` at a meeting node: a walk from `start` to `goal` whose
number of edges is the sum of the two chain lengths. -/
theorem printPath_spec (fuel : Nat) {graph : Graph} {pf pb : PMap} {start goal m kf kb : Nat}
    (hparf : ∀ v p, pf.lookup v = some p → v ∈ adj graph p)
    (hparb : ∀ v p, pb.lookup v = some p → p ∈ adj graph v)
    (hf : Chain pf start m kf) (hb : Chain pb goal m kb) (h1 : kf ≤ fuel) (h2 : kb ≤ fuel) :
    ∃ p, printPath fuel m pf pb = some (start :: p) ∧ p.length = kf + kb
      ∧ IsUWalk graph start p ∧ uwalkEnd start p = goal := by
  obtain ⟨l1, ht1, hl1, hw1, he1⟩ := traceBack_chain hparf hf fuel [] h1
  obtain ⟨l2, ht2, hl2, hw2, he2⟩ := traceOn_chain hparb hb fuel ([] ++ l1 ++ [start]).reverse h2
  refine ⟨l1.reverse ++ l2, ?_, by simp [hl1, hl2], ?_, ?_⟩
  · simp only [printPath, ht1]
    rw [ht2]
    simp
  · rw [isUWalk_append, he1]
    exact ⟨hw1, hw2⟩
  · rw [uwalkEnd_append, he1, he2]

/-- The queue of a search direction is non-empty as long as the round number does not exceed
the distance to some node. -/
theorem SideInv.queue_ne_nil {graph : Graph} {root r : Nat} {visited : List Bool}
    {parent : PMap} {q : List Nat} (h : SideInv graph root r visited parent q) {t d : Nat}
    (hd : IsDist graph root t d) (hr : r ≤ d) : q ≠ [] := by
  obtain ⟨u, hu1, hu2⟩ := HasUPath.split r (d - r) (by rw [Nat.add_sub_cancel' hr]; exact hd.1)
  have hm : marked visited u := (h.ball u).2 ⟨r, le_refl _, hu1⟩
  rcases h.queue_complete u hm with ⟨k, hk, hp⟩ | hq
  · have := hd.2 _ (hp.trans hu2)
    omega
  · exact List.ne_nil_of_mem hq

theorem isDist_symm {graph : Graph} (hsym : Symmetric graph) {s t d : Nat}
    (h : IsDist graph s t d) : IsDist graph t s d :=
  ⟨h.1.symm hsym, fun k hk => h.2 k (hk.symm hsym)⟩

theorem loop_meets (graph : Graph) (hwf : WellFormed graph) (hsym : Symmetric graph)
    (start goal d path_fuel : Nat) (hd : IsDist graph start goal d) (hpf : d ≤ path_fuel) :
    ∀ (fuel r : Nat) (st : State),
      SideInv graph start r st.visited_fwd st.parent_fwd st.q_fwd →
      SideInv graph goal r st.visited_bwd st.parent_bwd st.q_bwd →
      2 * r + 1 ≤ d → d ≤ fuel + r →
      ∃ m p, loop path_fuel graph fuel st = some (some (m, start :: p))
        ∧ p.length = d ∧ IsUWalk graph start p ∧ uwalkEnd start p = goal := by
  intro fuel
  induction fuel with
  | zero => intro r st _ _ h1 h2; omega
  | succ fuel ih =>
    intro r st hF hB h1 h2
    have hqf : st.q_fwd ≠ [] := hF.queue_ne_nil hd (by omega)
    have hqb : st.q_bwd ≠ [] := hB.queue_ne_nil (isDist_symm hsym hd) (by omega)
    have hcond : (!st.q_fwd.isEmpty && !st.q_bwd.isEmpty) = true := by
      cases hq1 : st.q_fwd with
      | nil => exact absurd hq1 hqf
      | cons a l =>
        cases hq2 : st.q_bwd with
        | nil => exact absurd hq2 hqb
        | cons b l' => rfl
    -- a meeting yields a path with exactly `d` edges
    have hfinish : ∀ (m : Nat) (pf pb : PMap) (kf kb : Nat), Chain pf start m kf →
        Chain pb goal m kb → (∀ v p, pf.lookup v = some p → v ∈ adj graph p) →
        (∀ v p, pb.lookup v = some p → v ∈ adj graph p) → kf + kb ≤ d →
        ∃ p, printPath path_fuel m pf pb = some (start :: p) ∧ p.length = d
          ∧ IsUWalk graph start p ∧ uwalkEnd start p = goal := by
      intro m pf pb kf kb hcf hcb hpf' hpb' hle
      have hp1 := hcf.hasUPath hpf'
      have hp2 := (hcb.hasUPath hpb').symm hsym
      have hge := hd.2 _ (hp1.trans hp2)
      obtain ⟨p, hpath, hlen, hw, he⟩ := printPath_spec path_fuel hpf'
        (fun v q h => hsym q v (hpb' v q h)) hcf hcb (by omega) (by omega)
      exact ⟨p, hpath, by omega, hw, he⟩
    obtain ⟨hFc, hFm⟩ := levelFwd_phase graph hwf start r st hF
    cases hlf : levelFwd graph st.q_fwd.length st with
    | meet m st1 =>
      obtain ⟨hmb, ⟨kf, hkf, hcf⟩, hparf, hvb, hpb, -⟩ := hFm m st1 hlf
      obtain ⟨kb, hkb, hcb⟩ := hB.chain m hmb
      obtain ⟨path, hpath, hlen⟩ := hfinish m st1.parent_fwd st1.parent_bwd kf kb hcf
        (hpb ▸ hcb) hparf (hpb ▸ fun v p h => (hB.par v p h).2) (by omega)
      refine ⟨m, path, ?_, hlen⟩
      simp only [loop, hcond, if_true, hlf, hpath, Option.map_some']
    | cont st1 =>
      obtain ⟨hF1, hnew, hvb, hpb, hqb1⟩ := hFc st1 hlf
      have hB1 : SideInv graph goal r st1.visited_bwd st1.parent_bwd st1.q_bwd := by
        rw [hvb, hpb, hqb1]; exact hB
      -- the forward phase did not meet, so the distance is at least `2 r + 2`
      have hd2 : 2 * r + 2 ≤ d := by
        by_contra hlt
        have hdr : d = (r + 1) + r := by omega
        obtain ⟨u, hu1, hu2⟩ := HasUPath.split (r + 1) r (hdr ▸ hd.1)
        have hub : marked st.visited_bwd u := (hB.ball u).2 ⟨r, le_refl _, hu2.symm hsym⟩
        have huf : marked st1.visited_fwd u := (hF1.ball u).2 ⟨r + 1, le_refl _, hu1⟩
        rcases hF1.queue_complete u huf with ⟨k, hk, hp⟩ | hq
        · have := hd.2 _ (hp.trans hu2)
          omega
        · exact hnew u hq hub
      obtain ⟨hBc, hBm⟩ := levelBwd_phase graph hwf goal r st1 hB1
      cases hlb : levelBwd graph st1.q_bwd.length st1 with
      | meet m st2 =>
        obtain ⟨hmf, ⟨kb, hkb, hcb⟩, hparb, hvf, hpf2, -⟩ := hBm m st2 hlb
        obtain ⟨kf, hkf, hcf⟩ := hF1.chain m hmf
        obtain ⟨path, hpath, hlen⟩ := hfinish m st2.parent_fwd st2.parent_bwd kf kb
          (hpf2 ▸ hcf) hcb (hpf2 ▸ fun v p h => (hF1.par v p h).2) hparb (by omega)
        refine ⟨m, path, ?_, hlen⟩
        simp only [loop, hcond, if_true, hlf, hlb, hpath, Option.map_some']
      | cont st2 =>
        obtain ⟨hB2, hnew2, hvf, hpf2, hqf2⟩ := hBc st2 hlb
        have hF2 : SideInv graph start (r + 1) st2.visited_fwd st2.parent_fwd st2.q_fwd := by
          rw [hvf, hpf2, hqf2]; exact hF1
        have hd3 : 2 * (r + 1) + 1 ≤ d := by
          by_contra hlt
          have hdr : d = (r + 1) + (r + 1) := by omega
          obtain ⟨u, hu1, hu2⟩ := HasUPath.split (r + 1) (r + 1) (hdr ▸ hd.1)
          have huf : marked st1.visited_fwd u := (hF1.ball u).2 ⟨r + 1, le_refl _, hu1⟩
          have hub : marked st2.visited_bwd u :=
            (hB2.ball u).2 ⟨r + 1, le_refl _, hu2.symm hsym⟩
          rcases hB2.queue_complete u hub with ⟨k, hk, hp⟩ | hq
          · have := hd.2 _ (hu1.trans (hp.symm hsym))
            omega
          · exact hnew2 u hq huf
        obtain ⟨m, path, hrun, hlen⟩ := ih (r + 1) st2 hF2 hB2 hd3 (by omega)
        refine ⟨m, path, ?_, hlen⟩
        simp only [loop, hcond, if_true, hlf, hlb, hrun]

end Bidirectional

/-- Run of `bidirectionalBFS` on a symmetric graph with `start ≠ goal` at distance `d`: it
returns `true` and prints `start` followed by a walk to `goal` with exactly `d` edges. -/
theorem Bidirectional.bidirectionalBFS_spec (graph : Graph) (start goal d fuel path_fuel : Nat)
    (hwf : WellFormed graph) (hsym : Symmetric graph) (hs : start < graph.length)
    (hg : goal < graph.length) (hne : start ≠ goal) (hd : IsDist graph start goal d)
    (hfuel : d ≤ fuel) (hpf : d ≤ path_fuel) :
    ∃ m p, Bidirectional.bidirectionalBFS fuel path_fuel graph start goal
        = some (some (m, start :: p))
      ∧ p.length = d ∧ IsUWalk graph start p ∧ uwalkEnd start p = goal := by
  have hside : ∀ root, root < graph.length →
      Bidirectional.SideInv graph root 0 ((List.replicate graph.length false).set root true)
        [] [root] := by
    intro root hr
    have hmark : ∀ v, marked ((List.replicate graph.length false).set root true) v ↔ v = root := by
      intro v
      rw [marked_set_true]
      simp [not_marked_replicate, hr]
    refine ⟨by simp, ?_, ?_, ?_, rfl, ?_, ?_⟩
    · intro v
      rw [hmark]
      constructor
      · rintro rfl
        exact ⟨0, le_refl _, HasUPath.upath_refl _ _⟩
      · rintro ⟨k, hk, hp⟩
        have hk0 : k = 0 := by omega
        subst hk0
        exact hp.eq_of_zero.symm
    · intro v hv
      simp at hv
      subst hv
      exact ⟨HasUPath.upath_refl _ _, 0, le_refl _, Bidirectional.Chain.base rfl⟩
    · intro v hv
      right
      rw [hmark] at hv
      simp [hv]
    · intro v p h
      simp [List.lookup] at h
    · intro v hv
      rw [hmark] at hv
      subst hv
      exact ⟨0, le_refl _, Bidirectional.Chain.base rfl⟩
  have hd1 : 1 ≤ d := by
    rcases Nat.eq_zero_or_pos d with h0 | h
    · subst h0
      exact absurd hd.1.eq_of_zero hne
    · exact h
  exact Bidirectional.loop_meets graph hwf hsym start goal d path_fuel hd hpf fuel 0 _
    (hside start hs) (hside goal hg) (by omega) (by omega)

/-! ## Fuel is only a bound: more fuel gives the same result -/

theorem AStar.astar_loop_fuel_mono (goal : Nat) (graph : WGraph) (heuristic : List Int) :
    ∀ (fuel : Nat) (tie : Nat → Nat) (visited : List Bool) (cost : List Int)
      (pq : List AStar.Node) (trace : List AStar.Visit) (r : AStar.Result),
      AStar.loop goal graph heuristic fuel tie visited cost pq trace = some r →
      ∀ k, AStar.loop goal graph heuristic (fuel + k) tie visited cost pq trace = some r := by
  intro fuel
  induction fuel with
  | zero => intro tie visited cost pq trace r h; simp [AStar.loop] at h
  | succ fuel ih =>
    intro tie visited cost pq trace r h k
    rw [show fuel + 1 + k = (fuel + k) + 1 by omega]
    simp only [AStar.loop] at h ⊢
    cases hpop : AStar.pqPop (tie 0) pq with
    | none => simpa [hpop] using h
    | some cp =>
      obtain ⟨current, pq1⟩ := cp
      simp only [hpop] at h ⊢
      by_cases hv : visited.getD current.id false = true
      · simp only [hv, if_true] at h ⊢
        exact ih _ _ _ _ _ _ h k
      · simp only [hv, Bool.false_eq_true, if_false] at h ⊢
        by_cases hg : current.id = goal
        · simpa only [hg, if_true] using h
        · simp only [hg, if_false] at h ⊢
          exact ih _ _ _ _ _ _ h k

theorem AStar.aStar_fuel_mono {fuel start goal : Nat} {tie : Nat → Nat} {graph : WGraph}
    {heuristic : List Int} {r : AStar.Result}
    (h : AStar.aStar fuel tie start goal graph heuristic = some r) (k : Nat) :
    AStar.aStar (fuel + k) tie start goal graph heuristic = some r :=
  AStar.astar_loop_fuel_mono goal graph heuristic fuel tie _ _ _ _ r h k

/-! ## Greedy best-first search: forced pops and fuel -/

theorem Greedy.greedy_pqPop_of_unique {pq : List Greedy.Node} {c : Greedy.Node}
    {rest : List Greedy.Node} (h : Greedy.pqPopUnique pq = some (c, rest)) (pick : Nat) :
    Greedy.pqPop pick pq = some (c, rest) := by
  cases pq with
  | nil => simp [Greedy.pqPopUnique] at h
  | cons x xs =>
    simp only [Greedy.pqPopUnique] at h
    split at h
    · rename_i c' hc
      simp only [Greedy.pqPop, hc]
      simp only [List.length_singleton, Nat.mod_one]
      simpa using h
    · simp at h

theorem Greedy.greedy_loop_of_loopDet (goal : Nat) (graph : WGraph) (heuristic : List Int) :
    ∀ (fuel : Nat) (visited : List Bool) (pq : List Greedy.Node) (trace : List (Nat × Int))
      (r : Greedy.Result),
      Greedy.loopDet goal graph heuristic fuel visited pq trace = some r →
      ∀ tie, Greedy.loop goal graph heuristic fuel tie visited pq trace = some r := by
  intro fuel
  induction fuel with
  | zero => intro visited pq trace r h; simp [Greedy.loopDet] at h
  | succ fuel ih =>
    intro visited pq trace r h tie
    cases pq with
    | nil =>
      simp only [Greedy.loopDet] at h
      simp only [Greedy.loop, Greedy.pqPop]
      exact h
    | cons x xs =>
      simp only [Greedy.loopDet] at h
      cases hpop : Greedy.pqPopUnique (x :: xs) with
      | none => simp [hpop] at h
      | some cr =>
        obtain ⟨current, pq1⟩ := cr
        simp only [hpop] at h
        simp only [Greedy.loop, Greedy.greedy_pqPop_of_unique hpop (tie 0)]
        by_cases hv : visited.getD current.id false = true
        · simp only [hv, if_true] at h ⊢
          exact ih _ _ _ _ h _
        · simp only [hv] at h ⊢
          by_cases hg : current.id = goal
          · simpa only [hg, if_true] using h
          · simp only [hg, if_false] at h ⊢
            exact ih _ _ _ _ h _

theorem Greedy.greedy_of_greedyDet {fuel start goal : Nat} {graph : WGraph}
    {heuristic : List Int} {r : Greedy.Result}
    (h : Greedy.greedyDet fuel start goal graph heuristic = some r) (tie : Nat → Nat) :
    Greedy.greedyBestFirstSearch fuel tie start goal graph heuristic = some r :=
  Greedy.greedy_loop_of_loopDet goal graph heuristic fuel _ _ _ r h tie

theorem Greedy.greedy_loop_fuel_mono (goal : Nat) (graph : WGraph) (heuristic : List Int) :
    ∀ (fuel : Nat) (tie : Nat → Nat) (visited : List Bool) (pq : List Greedy.Node)
      (trace : List (Nat × Int)) (r : Greedy.Result),
      Greedy.loop goal graph heuristic fuel tie visited pq trace = some r →
      ∀ k, Greedy.loop goal graph heuristic (fuel + k) tie visited pq trace = some r := by
  intro fuel
  induction fuel with
  | zero => intro tie visited pq trace r h; simp [Greedy.loop] at h
  | succ fuel ih =>
    intro tie visited pq trace r h k
    rw [show fuel + 1 + k = (fuel + k) + 1 by omega]
    simp only [Greedy.loop] at h ⊢
    cases hpop : Greedy.pqPop (tie 0) pq with
    | none => simpa [hpop] using h
    | some cp =>
      obtain ⟨current, pq1⟩ := cp
      simp only [hpop] at h ⊢
      by_cases hv : visited.getD current.id false = true
      · simp only [hv, if_true] at h ⊢
        exact ih _ _ _ _ _ h k
      · simp only [hv, Bool.false_eq_true, if_false] at h ⊢
        by_cases hg : current.id = goal
        · simpa only [hg, if_true] using h
        · simp only [hg, if_false] at h ⊢
          exact ih _ _ _ _ _ h k

theorem Greedy.greedy_fuel_mono {fuel start goal : Nat} {tie : Nat → Nat} {graph : WGraph}
    {heuristic : List Int} {r : Greedy.Result}
    (h : Greedy.greedyBestFirstSearch fuel tie start goal graph heuristic = some r) (k : Nat) :
    Greedy.greedyBestFirstSearch (fuel + k) tie start goal graph heuristic = some r :=
  Greedy.greedy_loop_fuel_mono goal graph heuristic fuel tie _ _ _ r h k

/-! ## Bidirectional BFS: more fuel gives the same result -/

namespace Bidirectional

theorem traceBack_fuel_mono (parent : PMap) :
    ∀ (fuel node : Nat) (path : List Nat) (r : Nat × List Nat),
      traceBack parent fuel node path = some r →
      ∀ k, traceBack parent (fuel + k) node path = some r := by
  intro fuel
  induction fuel with
  | zero =>
    intro node path r h k
    cases hl : parent.lookup node with
    | none =>
      rw [traceBack] at h ⊢
      simp only [hl] at h ⊢
      exact h
    | some p =>
      rw [traceBack] at h
      simp [hl] at h
  | succ fuel ih =>
    intro node path r h k
    rw [show fuel + 1 + k = (fuel + k) + 1 by omega]
    rw [traceBack] at h ⊢
    cases hl : parent.lookup node with
    | none =>
      simp only [hl] at h ⊢
      exact h
    | some p =>
      simp only [hl] at h ⊢
      exact ih _ _ _ h k

theorem traceOn_fuel_mono (parent : PMap) :
    ∀ (fuel node : Nat) (path : List Nat) (r : List Nat),
      traceOn parent fuel node path = some r →
      ∀ k, traceOn parent (fuel + k) node path = some r := by
  intro fuel
  induction fuel with
  | zero =>
    intro node path r h k
    cases hl : parent.lookup node with
    | none =>
      rw [traceOn] at h ⊢
      simp only [hl] at h ⊢
      exact h
    | some p =>
      rw [traceOn] at h
      simp [hl] at h
  | succ fuel ih =>
    intro node path r h k
    rw [show fuel + 1 + k = (fuel + k) + 1 by omega]
    rw [traceOn] at h ⊢
    cases hl : parent.lookup node with
    | none =>
      simp only [hl] at h ⊢
      exact h
    | some p =>
      simp only [hl] at h ⊢
      exact ih _ _ _ h k

theorem printPath_fuel_mono {fuel meet : Nat} {pf pb : PMap} {path : List Nat}
    (h : printPath fuel meet pf pb = some path) (k : Nat) :
    printPath (fuel + k) meet pf pb = some path := by
  unfold printPath at h ⊢
  cases ht : traceBack pf fuel meet [] with
  | none => simp [ht] at h
  | some r =>
    obtain ⟨node, p⟩ := r
    rw [traceBack_fuel_mono pf fuel meet [] _ ht k]
    simp only [ht] at h
    exact traceOn_fuel_mono pb fuel meet _ _ h k

theorem printPath_map_fuel_mono {fuel meet : Nat} {pf pb : PMap} {a : Answer}
    (h : (printPath fuel meet pf pb).map (fun p => some (meet, p)) = some a) (k : Nat) :
    (printPath (fuel + k) meet pf pb).map (fun p => some (meet, p)) = some a := by
  cases hp : printPath fuel meet pf pb with
  | none => simp [hp] at h
  | some path =>
    rw [printPath_fuel_mono hp k]
    rw [hp] at h
    exact h

/-- More fuel for the main loop and for `printPath` does not change a result. -/
theorem bidir_loop_fuel_mono (graph : Graph) (path_fuel : Nat) :
    ∀ (fuel : Nat) (st : State) (a : Answer), loop path_fuel graph fuel st = some a →
      ∀ k j, loop (path_fuel + j) graph (fuel + k) st = some a := by
  intro fuel
  induction fuel with
  | zero => intro st a h; simp [loop] at h
  | succ fuel ih =>
    intro st a h k j
    rw [show fuel + 1 + k = (fuel + k) + 1 by omega]
    simp only [loop] at h ⊢
    by_cases hc : (!st.q_fwd.isEmpty && !st.q_bwd.isEmpty) = true
    · simp only [hc, if_true] at h ⊢
      cases hlf : levelFwd graph st.q_fwd.length st with
      | meet m st1 =>
        simp only [hlf] at h ⊢
        exact printPath_map_fuel_mono h j
      | cont st1 =>
        simp only [hlf] at h ⊢
        cases hlb : levelBwd graph st1.q_bwd.length st1 with
        | meet m st2 =>
          simp only [hlb] at h ⊢
          exact printPath_map_fuel_mono h j
        | cont st2 =>
          simp only [hlb] at h ⊢
          exact ih _ _ h k j
    · simp only [hc, Bool.false_eq_true, if_false] at h ⊢
      exact h

end Bidirectional

theorem Bidirectional.bidirectionalBFS_fuel_mono {fuel path_fuel start goal : Nat}
    {graph : Graph} {a : Bidirectional.Answer}
    (h : Bidirectional.bidirectionalBFS fuel path_fuel graph start goal = some a) (k j : Nat) :
    Bidirectional.bidirectionalBFS (fuel + k) (path_fuel + j) graph start goal = some a :=
  Bidirectional.bidir_loop_fuel_mono graph path_fuel fuel _ a h k j

/-! ## A*: termination on every graph, whatever the weights -/

namespace AStar

theorem relax_ids (heuristic : List Int) (g : Int) (es : List Edge) :
    ∀ (cost : List Int) (pq : List Node),
      ∃ new, (relax heuristic g es (cost, pq)).2 = pq ++ new ∧ new.length ≤ es.length
        ∧ ∀ x ∈ new, ∃ e ∈ es, x.id = e.1 := by
  induction es with
  | nil => intro cost pq; exact ⟨[], by simp [relax], by simp, by simp⟩
  | cons e es ih =>
    intro cost pq
    obtain ⟨v, w⟩ := e
    by_cases hlt : addInt g w < cost.getD v 0
    · obtain ⟨new, h1, h2, h3⟩ := ih (cost.set v (addInt g w))
        (pq ++ [⟨v, addInt g w, addInt (addInt g w) (heuristic.getD v 0)⟩])
      refine ⟨⟨v, addInt g w, addInt (addInt g w) (heuristic.getD v 0)⟩ :: new, ?_, ?_, ?_⟩
      · simp only [relax, hlt, if_true]
        rw [h1]; simp
      · simp only [List.length_cons]; omega
      · intro x hx
        rcases List.mem_cons.1 hx with rfl | hx
        · exact ⟨(v, w), by simp, rfl⟩
        · obtain ⟨e, he, h⟩ := h3 x hx
          exact ⟨e, by simp [he], h⟩
    · obtain ⟨new, h1, h2, h3⟩ := ih cost pq
      refine ⟨new, ?_, ?_, ?_⟩
      · simp only [relax, hlt, if_false]
        exact h1
      · simp only [List.length_cons]; omega
      · intro x hx
        obtain ⟨e, he, h⟩ := h3 x hx
        exact ⟨e, by simp [he], h⟩

/-- The loop of `aStar` stops on every graph whose edge destinations are nodes: every entry
popped is either stale or closes a node. Its visit events extend the ones printed so far, and
a goal that is not a node of the graph is never reported. -/
theorem astar_loop_terminates (graph : WGraph) (heuristic : List Int) (goal : Nat)
    (hwf : WellFormedW graph) :
    ∀ (fuel : Nat) (tie : Nat → Nat) (visited : List Bool) (cost : List Int) (pq : List Node)
      (trace : List Visit), visited.length = graph.length →
      (∀ e ∈ pq, e.id < graph.length) →
      pq.length + unmarkedSum visited (graph.map List.length) < fuel →
      ∃ r suffix, loop goal graph heuristic fuel tie visited cost pq trace = some r
        ∧ r.trace = trace ++ suffix
        ∧ (graph.length ≤ goal → r.outcome = Outcome.notFound) := by
  intro fuel
  induction fuel with
  | zero => intro tie visited cost pq trace _ _ hf; omega
  | succ fuel ih =>
    intro tie visited cost pq trace hvlen hids hf
    cases hpop : pqPop (tie 0) pq with
    | none =>
      exact ⟨⟨trace, Outcome.notFound⟩, [], by simp only [loop, hpop], by simp, fun _ => rfl⟩
    | some cr =>
      obtain ⟨current, pq1⟩ := cr
      obtain ⟨hmem, hrest, -⟩ := pqPop_some hpop
      have hid := hids current hmem
      have hlen1 : pq1.length + 1 = pq.length := by
        rw [hrest, List.length_erase_of_mem hmem]
        have := List.length_pos_of_mem hmem
        omega
      have hsub : ∀ e, e ∈ pq1 → e ∈ pq := fun e he => by
        rw [hrest] at he; exact List.mem_of_mem_erase he
      by_cases hv : marked visited current.id
      · have hv' : visited.getD current.id false = true := hv
        have hstep : loop goal graph heuristic (fuel + 1) tie visited cost pq trace
            = loop goal graph heuristic fuel (fun k => tie (k + 1)) visited cost pq1 trace := by
          simp only [loop, hpop, hv', if_true]
        rw [hstep]
        exact ih _ _ _ _ _ hvlen (fun e he => hids e (hsub e he)) (by omega)
      · have hv' : visited.getD current.id false = false := by
          unfold marked at hv; simpa using hv
        by_cases hgoal : current.id = goal
        · refine ⟨⟨trace ++ [(current.id, current.g, heuristic.getD current.id 0, current.f)],
            Outcome.found current.g⟩, [_], ?_, rfl, fun hg => by omega⟩
          simp only [loop, hpop, hv', Bool.false_eq_true, if_false, if_pos hgoal]
        · have hus := unmarkedSum_set (v := visited) (i := current.id) (graph.map List.length)
            (by rw [hvlen]; exact hid) hv
          rw [getD_map_length] at hus
          obtain ⟨new, h1, h2, h3⟩ :=
            relax_ids heuristic current.g (wadj graph current.id) cost pq1
          have hstep : loop goal graph heuristic (fuel + 1) tie visited cost pq trace
              = loop goal graph heuristic fuel (fun k => tie (k + 1))
                  (visited.set current.id true)
                  (relax heuristic current.g (wadj graph current.id) (cost, pq1)).1
                  (relax heuristic current.g (wadj graph current.id) (cost, pq1)).2
                  (trace ++ [(current.id, current.g, heuristic.getD current.id 0, current.f)]) := by
            simp only [loop, hpop, hv', Bool.false_eq_true, if_false, if_neg hgoal]
          rw [hstep]
          obtain ⟨r, suffix, hr, htr, hout⟩ := ih (fun k => tie (k + 1))
            (visited.set current.id true)
            (relax heuristic current.g (wadj graph current.id) (cost, pq1)).1
            (relax heuristic current.g (wadj graph current.id) (cost, pq1)).2
            (trace ++ [(current.id, current.g, heuristic.getD current.id 0, current.f)])
            (by simpa using hvlen)
            (by
              intro e he
              rw [h1] at he
              rcases List.mem_append.1 he with he | he
              · exact hids e (hsub e he)
              · obtain ⟨ed, hed, hid'⟩ := h3 e he
                exact hid' ▸ hwf.wadj_lt hed)
            (by rw [h1, List.length_append]; omega)
          exact ⟨r, (current.id, current.g, heuristic.getD current.id 0, current.f) :: suffix, hr,
            by rw [htr, List.append_assoc, List.singleton_append], hout⟩

end AStar

/-! ## A*: the first pop -/

theorem AStar.pqPop_singleton (pick : Nat) (x : AStar.Node) :
    AStar.pqPop pick [x] = some (x, []) := by
  simp [AStar.pqPop, AStar.minF, Nat.mod_one]

theorem getD_replicate_false (n x : Nat) : (List.replicate n false).getD x false = false := by
  exact Bool.eq_false_iff.2 (not_marked_replicate n x)

/-! ## Linear and binary search -/

theorem addInt_eq {a b : Int} (h1 : -2147483648 ≤ a + b) (h2 : a + b ≤ 2147483647) :
    addInt a b = a + b := by
  unfold addInt wrap32
  omega

theorem subInt_eq {a b : Int} (h1 : -2147483648 ≤ a - b) (h2 : a - b ≤ 2147483647) :
    subInt a b = a - b := by
  unfold subInt wrap32
  omega

theorem divInt_two_eq {a : Int} (h1 : 0 ≤ a) (h2 : a ≤ 2147483647) : divInt a 2 = a / 2 := by
  unfold divInt
  rw [Int.tdiv_eq_ediv h1 (by decide)]
  unfold wrap32
  omega

theorem arrGet_natCast (arr : List Int) (i : Nat) : arrGet arr (i : Int) = arr.getD i 0 := by
  simp [arrGet]

namespace LinearSearch

/-- The loop of `linearSearch` entered at index `i`, no earlier element being the target:
it stops at the first match from `i` on, or returns `-1` when there is none below `size`. -/
theorem linear_loop_spec (arr : List Int) (size target : Int) (hmax : size ≤ INT_MAX) :
    ∀ (fuel i : Nat), (∀ j, j < i → arr.getD j 0 ≠ target) → (size - i).toNat < fuel →
      ∃ r, loop arr size target fuel i = some r
        ∧ ((r = -1 ∧ ∀ j : Nat, (j : Int) < size → arr.getD j 0 ≠ target)
          ∨ ∃ m : Nat, r = m ∧ (m : Int) < size ∧ arr.getD m 0 = target
              ∧ ∀ j, j < m → arr.getD j 0 ≠ target) := by
  have hIM : INT_MAX = 2147483647 := rfl
  intro fuel
  induction fuel with
  | zero => intro i _ hf; omega
  | succ fuel ih =>
    intro i hbefore hf
    by_cases hlt : (i : Int) < size
    · by_cases heq : arr.getD i 0 = target
      · refine ⟨i, ?_, Or.inr ⟨i, rfl, hlt, heq, hbefore⟩⟩
        simp only [loop, hlt, if_true, arrGet_natCast, heq]
      · have hadd : addInt (i : Int) 1 = ((i + 1 : Nat) : Int) := by
          rw [addInt_eq (by omega) (by omega)]
          push_cast
          rfl
        have hstep : loop arr size target (fuel + 1) i
            = loop arr size target fuel ((i + 1 : Nat) : Int) := by
          simp only [loop, hlt, if_true, arrGet_natCast, heq, if_false, hadd]
        rw [hstep]
        apply ih
        · intro j hj
          by_cases hji : j = i
          · subst hji; exact heq
          · exact hbefore j (by omega)
        · push_cast
          omega
    · refine ⟨-1, ?_, Or.inl ⟨rfl, ?_⟩⟩
      · simp only [loop, hlt, if_false]
      · intro j hj
        exact hbefore j (by omega)

end LinearSearch

namespace BinarySearch

theorem sorted_getD {arr : List Int} (h : arr.Pairwise (fun a b => a ≤ b)) {i j : Nat}
    (hij : i ≤ j) (hj : j < arr.length) : arr.getD i 0 ≤ arr.getD j 0 := by
  rw [List.getD_eq_getElem _ _ hj, List.getD_eq_getElem _ _ (by omega)]
  rcases Nat.lt_or_eq_of_le hij with hlt | heq
  · exact List.pairwise_iff_getElem.1 h i j (by omega) hj hlt
  · subst heq
    exact le_refl _

/-- The loop of `binarySearch` on a sorted array: every element left of `left` is below the
target and every element right of `right` is above it. -/
theorem binary_loop_spec (arr : List Int) (target : Int)
    (hsorted : arr.Pairwise (fun a b => a ≤ b)) (hmax : (arr.length : Int) ≤ INT_MAX) :
    ∀ (fuel : Nat) (left right : Int), 0 ≤ left → -1 ≤ right → right < arr.length →
      (∀ j : Nat, (j : Int) < left → j < arr.length → arr.getD j 0 < target) →
      (∀ j : Nat, right < (j : Int) → j < arr.length → target < arr.getD j 0) →
      (right - left + 1).toNat < fuel →
      ∃ r, loop arr target fuel left right = some r
        ∧ ((r = -1 ∧ target ∉ arr)
          ∨ (0 ≤ r ∧ r < arr.length ∧ arrGet arr r = target)) := by
  have hIM : INT_MAX = 2147483647 := rfl
  intro fuel
  induction fuel with
  | zero => intro left right _ _ _ _ _ hf; omega
  | succ fuel ih =>
    intro left right hl hr1 hr2 hlo hhi hf
    by_cases hle : left ≤ right
    · have hsub : subInt right left = right - left := subInt_eq (by omega) (by omega)
      have hdiv : divInt (right - left) 2 = (right - left) / 2 :=
        divInt_two_eq (by omega) (by omega)
      have hmid : addInt left ((right - left) / 2) = left + (right - left) / 2 :=
        addInt_eq (by omega) (by omega)
      obtain ⟨m, hm⟩ : ∃ m : Nat, (m : Int) = left + (right - left) / 2 :=
        ⟨(left + (right - left) / 2).toNat, Int.toNat_of_nonneg (by omega)⟩
      have hmlen : m < arr.length := by omega
      have hget : arrGet arr (left + (right - left) / 2) = arr.getD m 0 := by
        rw [← hm, arrGet_natCast]
      by_cases heq : arr.getD m 0 = target
      · refine ⟨left + (right - left) / 2, ?_, Or.inr ⟨by omega, by omega, by rw [hget, heq]⟩⟩
        simp only [loop, hle, if_true, hsub, hdiv, hmid, hget, heq]
      · by_cases hlt : arr.getD m 0 < target
        · have hadd : addInt (left + (right - left) / 2) 1 = left + (right - left) / 2 + 1 :=
            addInt_eq (by omega) (by omega)
          have hstep : loop arr target (fuel + 1) left right
              = loop arr target fuel (left + (right - left) / 2 + 1) right := by
            simp only [loop, hle, if_true, hsub, hdiv, hmid, hget, heq, if_false, hlt, hadd]
          rw [hstep]
          apply ih _ _ (by omega) hr1 hr2 _ hhi (by omega)
          intro j hj hjl
          exact lt_of_le_of_lt (sorted_getD hsorted (by omega) hmlen) hlt
        · have hsub1 : subInt (left + (right - left) / 2) 1 = left + (right - left) / 2 - 1 :=
            subInt_eq (by omega) (by omega)
          have hstep : loop arr target (fuel + 1) left right
              = loop arr target fuel left (left + (right - left) / 2 - 1) := by
            simp only [loop, hle, if_true, hsub, hdiv, hmid, hget, heq, if_false, hlt, hsub1]
          rw [hstep]
          apply ih _ _ hl (by omega) (by omega) hlo _ (by omega)
          intro j hj hjl
          have hgt : target < arr.getD m 0 := by omega
          exact lt_of_lt_of_le hgt (sorted_getD hsorted (by omega) hjl)
    · refine ⟨-1, ?_, Or.inl ⟨rfl, ?_⟩⟩
      · simp only [loop, hle, if_false]
      · intro hmem
        obtain ⟨j, hj, hjt⟩ := List.getElem_of_mem hmem
        have hjd : arr.getD j 0 = target := by rw [List.getD_eq_getElem _ _ hj, hjt]
        by_cases hjl : (j : Int) < left
        · have := hlo j hjl hj
          omega
        · have := hhi j (by omega) hj
          omega

end BinarySearch

/-! ## Bidirectional BFS: termination and soundness on every symmetric graph -/

theorem count_false_cons (c : Bool) (l : List Bool) :
    List.count false (c :: l) = List.count false l + (if c = false then 1 else 0) := by
  cases c <;> simp [List.count_cons]

theorem unmarkedCount_le_of_mono {v v' : List Bool} (hlen : v.length = v'.length)
    (hmono : ∀ x, marked v x → marked v' x) : unmarkedCount v' ≤ unmarkedCount v := by
  unfold unmarkedCount
  induction v generalizing v' with
  | nil =>
    cases v' with
    | nil => exact le_refl _
    | cons b' bs' => simp at hlen
  | cons b bs ih =>
    cases v' with
    | nil => simp at hlen
    | cons b' bs' =>
      have htail : ∀ x, marked bs x → marked bs' x := by
        intro x hx
        have := hmono (x + 1) (by simpa [marked] using hx)
        simpa [marked] using this
      have hhead : b = true → b' = true := by
        intro hb
        have := hmono 0 (by simpa [marked] using hb)
        simpa [marked] using this
      have hlen' : bs.length = bs'.length := by simpa using hlen
      have h1 := ih hlen' htail
      rw [count_false_cons, count_false_cons]
      cases b with
      | false =>
        cases b'
        · simpa using h1
        · simp only [Bool.true_eq_false, if_false, if_true]
          omega
      | true =>
        have hb' := hhead rfl
        subst hb'
        simpa using h1

theorem unmarkedCount_lt_of_mono {v v' : List Bool} (hlen : v.length = v'.length)
    (hmono : ∀ x, marked v x → marked v' x) {y : Nat} (hy : marked v' y) (hny : ¬ marked v y) :
    unmarkedCount v' < unmarkedCount v := by
  induction v generalizing v' y with
  | nil =>
    cases v' with
    | nil => simp [marked] at hy
    | cons b' bs' => simp at hlen
  | cons b bs ih =>
    cases v' with
    | nil => simp at hlen
    | cons b' bs' =>
      have htail : ∀ x, marked bs x → marked bs' x := by
        intro x hx
        have := hmono (x + 1) (by simpa [marked] using hx)
        simpa [marked] using this
      have hhead : b = true → b' = true := by
        intro hb
        have := hmono 0 (by simpa [marked] using hb)
        simpa [marked] using this
      have hlen' : bs.length = bs'.length := by simpa using hlen
      cases y with
      | zero =>
        have hb' : b' = true := by simpa [marked] using hy
        have hb : b = false := by simpa [marked] using hny
        have h1 := unmarkedCount_le_of_mono hlen' htail
        subst hb' hb
        unfold unmarkedCount at h1 ⊢
        rw [count_false_cons, count_false_cons]
        simp only [Bool.true_eq_false, if_false, if_true]
        omega
      | succ j =>
        have h1 := ih hlen' htail (y := j) (by simpa [marked] using hy)
          (by simpa [marked] using hny)
        unfold unmarkedCount at h1 ⊢
        rw [count_false_cons, count_false_cons]
        cases b with
        | false =>
          cases b'
          · simpa using h1
          · simp only [Bool.true_eq_false, if_false, if_true]
            omega
        | true =>
          have hb' := hhead rfl
          subst hb'
          simpa using h1

namespace Bidirectional

/-- Before the first round each search has marked and queued only its root. -/
theorem sideInv_init (graph : Graph) (root : Nat) (hr : root < graph.length) :
    SideInv graph root 0 ((List.replicate graph.length false).set root true) [] [root] := by
  have hmark : ∀ v, marked ((List.replicate graph.length false).set root true) v ↔ v = root := by
    intro v
    rw [marked_set_true]
    simp [not_marked_replicate, hr]
  refine ⟨by simp, ?_, ?_, ?_, rfl, ?_, ?_⟩
  · intro v
    rw [hmark]
    constructor
    · rintro rfl
      exact ⟨0, le_refl _, HasUPath.upath_refl _ _⟩
    · rintro ⟨k, hk, hp⟩
      have hk0 : k = 0 := by omega
      subst hk0
      exact hp.eq_of_zero.symm
  · intro v hv
    simp at hv
    subst hv
    exact ⟨HasUPath.upath_refl _ _, 0, le_refl _, Chain.base rfl⟩
  · intro v hv
    right
    rw [hmark] at hv
    simp [hv]
  · intro v p h
    simp [List.lookup] at h
  · intro v hv
    rw [hmark] at hv
    subst hv
    exact ⟨0, le_refl _, Chain.base rfl⟩

/-- The nodes queued by a forward phase were unmarked before it. -/
theorem levelFwd_fresh (graph : Graph) (hwf : WellFormed graph) (root r : Nat) (st : State)
    (hinv : SideInv graph root r st.visited_fwd st.parent_fwd st.q_fwd) (st1 : State)
    (h : levelFwd graph st.q_fwd.length st = Scan.cont st1) :
    ∀ v ∈ st1.q_fwd, marked st1.visited_fwd v ∧ ¬ marked st.visited_fwd v := by
  obtain ⟨hc, -⟩ := levelFwd_mid graph hwf root r st.q_fwd.length st st.q_fwd []
    (by simp) rfl (hinv.toMid st.visited_bwd)
  obtain ⟨a, -⟩ := hc st1 h
  intro v hv
  obtain ⟨h1, -, h3, -⟩ := a.new_ok v hv
  exact ⟨h1, fun hm => h3 ((hinv.ball v).1 hm)⟩

/-- A forward phase that queues a node leaves fewer unmarked nodes. -/
theorem levelFwd_unmarked_lt (graph : Graph) (hwf : WellFormed graph) (root r : Nat) (st : State)
    (hinv : SideInv graph root r st.visited_fwd st.parent_fwd st.q_fwd) (st1 : State)
    (h : levelFwd graph st.q_fwd.length st = Scan.cont st1) (hne : st1.q_fwd ≠ []) :
    unmarkedCount st1.visited_fwd < unmarkedCount st.visited_fwd := by
  obtain ⟨hF1, -⟩ := (levelFwd_phase graph hwf root r st hinv).1 st1 h
  obtain ⟨v, hv⟩ := List.exists_mem_of_ne_nil _ hne
  obtain ⟨h1, h2⟩ := levelFwd_fresh graph hwf root r st hinv st1 h v hv
  refine unmarkedCount_lt_of_mono (by rw [hinv.len, hF1.len]) ?_ h1 h2
  intro x hx
  obtain ⟨k, hk, hp⟩ := (hinv.ball x).1 hx
  exact (hF1.ball x).2 ⟨k, by omega, hp⟩

end Bidirectional

namespace Bidirectional

/-- The main loop on a symmetric graph, from the start of round `r`: it stops within
`unmarked + 2` iterations, and whatever path it prints is a walk from `start` to `goal`. -/
theorem loop_sound (graph : Graph) (hwf : WellFormed graph) (hsym : Symmetric graph)
    (start goal path_fuel : Nat) (hpf : graph.length ≤ path_fuel) :
    ∀ (fuel r : Nat) (st : State),
      SideInv graph start r st.visited_fwd st.parent_fwd st.q_fwd →
      SideInv graph goal r st.visited_bwd st.parent_bwd st.q_bwd →
      r + unmarkedCount st.visited_fwd < graph.length →
      unmarkedCount st.visited_fwd + 2 ≤ fuel →
      ∃ ans, loop path_fuel graph fuel st = some ans
        ∧ ∀ m path, ans = some (m, path) →
            ∃ p, path = start :: p ∧ IsUWalk graph start p ∧ uwalkEnd start p = goal := by
  intro fuel
  induction fuel with
  | zero => intro r st _ _ _ h; omega
  | succ fuel ih =>
    intro r st hF hB hr hfuel
    by_cases hcond : (!st.q_fwd.isEmpty && !st.q_bwd.isEmpty) = true
    · -- a meeting yields a walk from `start` to `goal`
      have hfinish : ∀ (m : Nat) (pf pb : PMap) (kf kb : Nat), Chain pf start m kf →
          Chain pb goal m kb → (∀ v p, pf.lookup v = some p → v ∈ adj graph p) →
          (∀ v p, pb.lookup v = some p → v ∈ adj graph p) → kf ≤ r + 1 → kb ≤ r + 1 →
          ∃ p, printPath path_fuel m pf pb = some (start :: p)
            ∧ IsUWalk graph start p ∧ uwalkEnd start p = goal := by
        intro m pf pb kf kb hcf hcb hpf' hpb' h1 h2
        obtain ⟨p, hpath, -, hw, he⟩ := printPath_spec path_fuel hpf'
          (fun v q h => hsym q v (hpb' v q h)) hcf hcb (by omega) (by omega)
        exact ⟨p, hpath, hw, he⟩
      obtain ⟨hFc, hFm⟩ := levelFwd_phase graph hwf start r st hF
      cases hlf : levelFwd graph st.q_fwd.length st with
      | meet m st1 =>
        obtain ⟨hmb, ⟨kf, hkf, hcf⟩, hparf, hvb, hpb, -⟩ := hFm m st1 hlf
        obtain ⟨kb, hkb, hcb⟩ := hB.chain m hmb
        obtain ⟨p, hpath, hw, he⟩ := hfinish m st1.parent_fwd st1.parent_bwd kf kb hcf
          (hpb ▸ hcb) hparf (hpb ▸ fun v p h => (hB.par v p h).2) hkf (by omega)
        refine ⟨some (m, start :: p), ?_, ?_⟩
        · simp only [loop, hcond, if_true, hlf, hpath, Option.map_some']
        · intro m' path h
          simp only [Option.some.injEq, Prod.mk.injEq] at h
          exact ⟨p, h.2.symm, hw, he⟩
      | cont st1 =>
        obtain ⟨hF1, -, hvb, hpb, hqb1⟩ := hFc st1 hlf
        have hB1 : SideInv graph goal r st1.visited_bwd st1.parent_bwd st1.q_bwd := by
          rw [hvb, hpb, hqb1]; exact hB
        obtain ⟨hBc, hBm⟩ := levelBwd_phase graph hwf goal r st1 hB1
        cases hlb : levelBwd graph st1.q_bwd.length st1 with
        | meet m st2 =>
          obtain ⟨hmf, ⟨kb, hkb, hcb⟩, hparb, hvf, hpf2, -⟩ := hBm m st2 hlb
          obtain ⟨kf, hkf, hcf⟩ := hF1.chain m hmf
          obtain ⟨p, hpath, hw, he⟩ := hfinish m st2.parent_fwd st2.parent_bwd kf kb
            (hpf2 ▸ hcf) hcb (hpf2 ▸ fun v p h => (hF1.par v p h).2) hparb hkf hkb
          refine ⟨some (m, start :: p), ?_, ?_⟩
          · simp only [loop, hcond, if_true, hlf, hlb, hpath, Option.map_some']
          · intro m' path h
            simp only [Option.some.injEq, Prod.mk.injEq] at h
            exact ⟨p, h.2.symm, hw, he⟩
        | cont st2 =>
          obtain ⟨hB2, -, hvf, hpf2, hqf2⟩ := hBc st2 hlb
          have hstep : loop path_fuel graph (fuel + 1) st = loop path_fuel graph fuel st2 := by
            simp only [loop, hcond, if_true, hlf, hlb]
          rw [hstep]
          by_cases hq : st1.q_fwd = []
          · -- the forward queue ran empty: the next test of the loop condition fails
            obtain ⟨fuel', rfl⟩ : ∃ f, fuel = f + 1 := ⟨fuel - 1, by omega⟩
            refine ⟨none, ?_, fun m path h => by simp at h⟩
            simp only [loop, hqf2, hq, List.isEmpty_nil, Bool.not_true, Bool.false_and,
              Bool.false_eq_true, if_false]
          · have hlt := levelFwd_unmarked_lt graph hwf start r st hF st1 hlf hq
            have hF2 : SideInv graph start (r + 1) st2.visited_fwd st2.parent_fwd st2.q_fwd := by
              rw [hvf, hpf2, hqf2]; exact hF1
            exact ih (r + 1) st2 hF2 hB2 (by rw [hvf]; omega) (by rw [hvf]; omega)
    · refine ⟨none, ?_, fun m path h => by simp at h⟩
      simp only [loop, hcond, Bool.false_eq_true, if_false]

end Bidirectional

/-- Run of `bidirectionalBFS` on a symmetric graph with `n` nodes: `n + 1` rounds of fuel
suffice, and a printed path is a walk of the graph from `start` to `goal`. -/
theorem Bidirectional.bidirectionalBFS_sound (graph : Graph) (start goal fuel path_fuel : Nat)
    (hwf : WellFormed graph) (hsym : Symmetric graph) (hs : start < graph.length)
    (hg : goal < graph.length) (hfuel : graph.length + 1 ≤ fuel)
    (hpf : graph.length ≤ path_fuel) :
    ∃ ans, Bidirectional.bidirectionalBFS fuel path_fuel graph start goal = some ans
      ∧ ∀ m path, ans = some (m, path) →
          ∃ p, path = start :: p ∧ IsUWalk graph start p ∧ uwalkEnd start p = goal := by
  have hcount : unmarkedCount ((List.replicate graph.length false).set start true) + 1
      = graph.length := by
    rw [unmarkedCount_set (by simpa using hs) (not_marked_replicate _ _),
      unmarkedCount_replicate]
  exact Bidirectional.loop_sound graph hwf hsym start goal path_fuel hpf fuel 0 _
    (Bidirectional.sideInv_init graph start hs) (Bidirectional.sideInv_init graph goal hg)
    (by simp only []; omega) (by simp only []; omega)

/-! ## The level-by-level order -/

namespace LevelSpec

theorem newNodes_append (listed xs ys : List Nat) :
    newNodes listed (xs ++ ys)
      = newNodes listed xs ++ newNodes (listed ++ newNodes listed xs) ys := by
  induction xs generalizing listed with
  | nil => simp [newNodes]
  | cons x xs ih =>
    by_cases hx : x ∈ listed
    · simp only [List.cons_append, newNodes, hx, if_true]
      exact ih listed
    · have h := ih (listed ++ [x])
      rw [List.append_assoc, List.singleton_append] at h
      rw [List.cons_append]
      simp only [newNodes, hx, if_false]
      rw [h, List.cons_append]

theorem mem_newNodes {listed xs : List Nat} {x : Nat} :
    x ∈ newNodes listed xs ↔ x ∈ xs ∧ x ∉ listed := by
  induction xs generalizing listed with
  | nil => simp [newNodes]
  | cons y ys ih =>
    by_cases hy : y ∈ listed
    · simp only [newNodes, hy, if_true, ih, List.mem_cons]
      constructor
      · rintro ⟨h1, h2⟩
        exact ⟨Or.inr h1, h2⟩
      · rintro ⟨h1 | h1, h2⟩
        · exact absurd (h1 ▸ hy) h2
        · exact ⟨h1, h2⟩
    · have hmem : x ∈ listed ++ [y] ↔ x ∈ listed ∨ x = y := by
        rw [List.mem_append, List.mem_singleton]
      simp only [newNodes, hy, if_false, List.mem_cons, ih, hmem, not_or]
      constructor
      · rintro (h | ⟨h1, h2, -⟩)
        · exact ⟨Or.inl h, h ▸ hy⟩
        · exact ⟨Or.inr h1, h2⟩
      · rintro ⟨h1 | h1, h2⟩
        · exact Or.inl h1
        · by_cases hxy : x = y
          · exact Or.inl hxy
          · exact Or.inr ⟨h1, h2, hxy⟩

theorem newNodes_nodup {listed : List Nat} (xs : List Nat) (h : listed.Nodup) :
    (listed ++ newNodes listed xs).Nodup := by
  induction xs generalizing listed with
  | nil => simpa [newNodes] using h
  | cons y ys ih =>
    by_cases hy : y ∈ listed
    · simp only [newNodes, hy, if_true]
      exact ih h
    · simp only [newNodes, hy, if_false]
      have h1 : (listed ++ [y]).Nodup := by
        rw [List.nodup_append]
        refine ⟨h, List.nodup_singleton y, ?_⟩
        intro a ha hay
        simp at hay
        exact hy (hay ▸ ha)
      have h2 := ih h1
      rwa [List.append_assoc, List.singleton_append] at h2

theorem length_le_of_nodup_lt {l : List Nat} {n : Nat} (h : l.Nodup) (hlt : ∀ x ∈ l, x < n) :
    l.length ≤ n := by
  have hsub : l ⊆ List.range n := fun x hx => List.mem_range.2 (hlt x hx)
  have := (List.subperm_of_subset h hsub).length_le
  simpa using this

end LevelSpec

namespace Bfs

/-- The neighbour loop of `bfs` appends to the queue exactly the nodes not listed before. -/
theorem scan_newNodes (n : Nat) (ns : List Nat) :
    ∀ (q : List Nat) (visited : List Bool) (listed : List Nat), visited.length = n →
      (∀ x ∈ ns, x < n) → (∀ x, marked visited x ↔ x ∈ listed) →
      ∃ v, scan ns (q, visited) = (q ++ LevelSpec.newNodes listed ns, v) ∧ v.length = n
        ∧ ∀ x, marked v x ↔ x ∈ listed ++ LevelSpec.newNodes listed ns := by
  induction ns with
  | nil =>
    intro q visited listed hlen _ hm
    exact ⟨visited, by simp [scan, LevelSpec.newNodes], hlen,
      by simpa [LevelSpec.newNodes] using hm⟩
  | cons y ys ih =>
    intro q visited listed hlen hns hm
    have hys : ∀ x ∈ ys, x < n := fun x hx => hns x (List.mem_cons_of_mem _ hx)
    by_cases hy : y ∈ listed
    · have hv : visited.getD y false = true := (hm y).2 hy
      obtain ⟨v, h1, h2, h3⟩ := ih q visited listed hlen hys hm
      refine ⟨v, ?_, h2, ?_⟩
      · simp only [scan, hv, Bool.not_true, Bool.false_eq_true, if_false, LevelSpec.newNodes,
          hy, if_true]
        exact h1
      · simpa only [LevelSpec.newNodes, hy, if_true] using h3
    · have hv : visited.getD y false = false := by
        have := mt (hm y).1 hy
        unfold marked at this
        simpa using this
      have hm' : ∀ x, marked (visited.set y true) x ↔ x ∈ listed ++ [y] := by
        intro x
        rw [marked_set_true, hm x, List.mem_append, List.mem_singleton]
        have hyn : y < visited.length := by rw [hlen]; exact hns y (List.mem_cons_self _ _)
        constructor
        · rintro (h | ⟨h, -⟩)
          · exact Or.inl h
          · exact Or.inr h
        · rintro (h | h)
          · exact Or.inl h
          · exact Or.inr ⟨h, h ▸ hyn⟩
      obtain ⟨v, h1, h2, h3⟩ := ih (q ++ [y]) (visited.set y true) (listed ++ [y])
        (by simpa using hlen) hys hm'
      refine ⟨v, ?_, h2, ?_⟩
      · simp only [scan, hv, Bool.not_false, if_true, LevelSpec.newNodes, hy, if_false]
        rw [h1, List.append_assoc, List.singleton_append]
      · intro x
        rw [h3 x]
        simp only [LevelSpec.newNodes, hy, if_false, List.append_assoc, List.singleton_append]

end Bfs

namespace Bfs

/-- Expanding the queued nodes `rest` of one level: the loop moves them to the trace and
appends to the queue the nodes they reach that were not listed before. -/
theorem loop_level (graph : Graph) (hwf : WellFormed graph) :
    ∀ (rest new : List Nat) (visited : List Bool) (trace listed : List Nat) (fuel : Nat),
      visited.length = graph.length → (∀ x, marked visited x ↔ x ∈ listed) →
      ∃ v, loop graph (fuel + rest.length) (rest ++ new) visited trace
          = loop graph fuel (new ++ LevelSpec.newNodes listed (rest.flatMap (adj graph))) v
              (trace ++ rest)
        ∧ v.length = graph.length
        ∧ ∀ x, marked v x ↔ x ∈ listed ++ LevelSpec.newNodes listed (rest.flatMap (adj graph)) := by
  intro rest
  induction rest with
  | nil =>
    intro new visited trace listed fuel hlen hm
    exact ⟨visited, by simp [LevelSpec.newNodes], hlen, by simpa [LevelSpec.newNodes] using hm⟩
  | cons x rest ih =>
    intro new visited trace listed fuel hlen hm
    obtain ⟨v1, hs1, hs2, hs3⟩ := scan_newNodes graph.length (adj graph x) (rest ++ new) visited
      listed hlen (fun y hy => hwf.adj_lt hy) hm
    obtain ⟨v, h1, h2, h3⟩ := ih (new ++ LevelSpec.newNodes listed (adj graph x)) v1
      (trace ++ [x]) (listed ++ LevelSpec.newNodes listed (adj graph x)) fuel hs2 hs3
    refine ⟨v, ?_, h2, ?_⟩
    · have hstep : loop graph (fuel + (x :: rest).length) (x :: rest ++ new) visited trace
          = loop graph (fuel + rest.length)
              (rest ++ (new ++ LevelSpec.newNodes listed (adj graph x))) v1 (trace ++ [x]) := by
        rw [List.length_cons, ← Nat.add_assoc, List.cons_append]
        simp only [loop, hs1, List.append_assoc]
      rw [hstep, h1, List.flatMap_cons, LevelSpec.newNodes_append]
      simp only [List.append_assoc, List.singleton_append]
    · intro y
      rw [h3 y, List.flatMap_cons, LevelSpec.newNodes_append]
      simp only [List.append_assoc]

/-- From a level boundary on, the loop of `bfs` prints the remaining levels in order. -/
theorem loop_levels (graph : Graph) (hwf : WellFormed graph) :
    ∀ (lf fuel : Nat) (listed level : List Nat) (visited : List Bool) (trace : List Nat),
      visited.length = graph.length → (∀ x, marked visited x ↔ x ∈ listed) → listed.Nodup →
      graph.length ≤ listed.length + lf → graph.length + level.length ≤ fuel + listed.length →
      ∃ v, loop graph fuel level visited trace
        = some (v, trace ++ (LevelSpec.levelsFrom graph lf listed level).flatten) := by
  intro lf
  induction lf with
  | zero =>
    intro fuel listed level visited trace hlen hm hnd hlf hfuel
    cases level with
    | nil => exact ⟨visited, by simp [loop, LevelSpec.levelsFrom]⟩
    | cons a l =>
      have hbound : listed.length ≤ graph.length :=
        LevelSpec.length_le_of_nodup_lt hnd (fun x hx => hlen ▸ marked_lt ((hm x).2 hx))
      obtain ⟨f, rfl⟩ : ∃ f, fuel = f + (a :: l).length := ⟨fuel - (a :: l).length, by omega⟩
      obtain ⟨v, h1, h2, h3⟩ := loop_level graph hwf (a :: l) [] visited trace listed f hlen hm
      have hnd' := LevelSpec.newNodes_nodup ((a :: l).flatMap (adj graph)) hnd
      have hbound' := LevelSpec.length_le_of_nodup_lt hnd'
        (fun x hx => h2 ▸ marked_lt ((h3 x).2 hx))
      have hnil : LevelSpec.newNodes listed ((a :: l).flatMap (adj graph)) = [] := by
        rw [List.length_append] at hbound'
        exact List.length_eq_zero.1 (by omega)
      refine ⟨v, ?_⟩
      rw [List.append_nil] at h1
      rw [h1, hnil]
      simp [loop, LevelSpec.levelsFrom]
  | succ lf ih =>
    intro fuel listed level visited trace hlen hm hnd hlf hfuel
    cases level with
    | nil => exact ⟨visited, by simp [loop, LevelSpec.levelsFrom]⟩
    | cons a l =>
      have hbound : listed.length ≤ graph.length :=
        LevelSpec.length_le_of_nodup_lt hnd (fun x hx => hlen ▸ marked_lt ((hm x).2 hx))
      obtain ⟨f, rfl⟩ : ∃ f, fuel = f + (a :: l).length := ⟨fuel - (a :: l).length, by omega⟩
      obtain ⟨v, h1, h2, h3⟩ := loop_level graph hwf (a :: l) [] visited trace listed f hlen hm
      have hnd' := LevelSpec.newNodes_nodup ((a :: l).flatMap (adj graph)) hnd
      rw [List.append_nil, List.nil_append] at h1
      rw [h1]
      have hlev : LevelSpec.levelsFrom graph (lf + 1) listed (a :: l)
          = (a :: l) :: LevelSpec.levelsFrom graph lf
              (listed ++ LevelSpec.newNodes listed ((a :: l).flatMap (adj graph)))
              (LevelSpec.newNodes listed ((a :: l).flatMap (adj graph))) := by
        simp only [LevelSpec.levelsFrom, LevelSpec.nextLevel]
      rw [hlev, List.flatten_cons, ← List.append_assoc]
      by_cases hnil : LevelSpec.newNodes listed ((a :: l).flatMap (adj graph)) = []
      · refine ⟨v, ?_⟩
        rw [hnil]
        simp [loop, LevelSpec.levelsFrom]
      · have hpos : 0 < (LevelSpec.newNodes listed ((a :: l).flatMap (adj graph))).length :=
          List.length_pos.2 hnil
        exact ih f _ _ v _ h2 h3 hnd' (by rw [List.length_append]; omega)
          (by rw [List.length_append]; omega)

end Bfs

/-- With every listed neighbour a node of the graph and fuel for `n` iterations, `bfs` returns
and the nodes it prints are the levels around `start`, one level after the other. -/
theorem Bfs.bfs_trace_levelOrder (graph : Graph) (start fuel : Nat) (hwf : WellFormed graph)
    (hs : start < graph.length) (hfuel : graph.length ≤ fuel) :
    ∃ v, Bfs.bfs fuel start graph (List.replicate graph.length false)
      = some (v, LevelSpec.levelOrder graph start) := by
  have hmark : ∀ x, marked ((List.replicate graph.length false).set start true) x
      ↔ x ∈ [start] := by
    intro x
    rw [marked_set_true]
    simp [not_marked_replicate, hs]
  obtain ⟨v, hv⟩ := Bfs.loop_levels graph hwf graph.length fuel [start] [start]
    ((List.replicate graph.length false).set start true) [] (by simp) hmark
    (List.nodup_singleton _) (by simp) (by simpa using hfuel)
  exact ⟨v, by simpa [Bfs.bfs, LevelSpec.levelOrder, LevelSpec.levels] using hv⟩

/-! ## Levels and distances -/

theorem IsDist.dist_unique {graph : Graph} {s t a b : Nat} (ha : IsDist graph s t a)
    (hb : IsDist graph s t b) : a = b :=
  Nat.le_antisymm (ha.2 b hb.1) (hb.2 a ha.1)

namespace LevelSpec

/-- The next level holds exactly the nodes at distance `k + 1`, when `level` holds the nodes
at distance `k` and `listed` the nodes at distance at most `k`. -/
theorem nextLevel_dist (graph : Graph) (start k : Nat) (listed level : List Nat)
    (hlisted : ∀ v, v ∈ listed ↔ ∃ j, j ≤ k ∧ HasUPath graph start v j)
    (hlevel : ∀ v, v ∈ level ↔ IsDist graph start v k) :
    (∀ v, v ∈ listed ++ nextLevel graph listed level
        ↔ ∃ j, j ≤ k + 1 ∧ HasUPath graph start v j)
      ∧ ∀ v, v ∈ nextLevel graph listed level ↔ IsDist graph start v (k + 1) := by
  have hnext : ∀ v, v ∈ nextLevel graph listed level ↔ IsDist graph start v (k + 1) := by
    intro v
    unfold nextLevel
    rw [mem_newNodes, List.mem_flatMap]
    constructor
    · rintro ⟨⟨u, hu, hv⟩, hnot⟩
      have hp : HasUPath graph start v (k + 1) := ((hlevel u).1 hu).1.upath_snoc hv
      refine ⟨hp, fun j hj => ?_⟩
      by_contra hlt
      exact hnot ((hlisted v).2 ⟨j, by omega, hj⟩)
    · intro hd
      obtain ⟨u, hu, hadj⟩ := hd.1.pred
      refine ⟨⟨u, (hlevel u).2 ⟨hu, fun j hj => ?_⟩, hadj⟩, ?_⟩
      · have := hd.2 (j + 1) (hj.upath_snoc hadj)
        omega
      · intro hmem
        obtain ⟨j, hj, hp⟩ := (hlisted v).1 hmem
        have := hd.2 j hp
        omega
  refine ⟨?_, hnext⟩
  intro v
  rw [List.mem_append, hlisted v, hnext v]
  constructor
  · rintro (⟨j, hj, hp⟩ | hd)
    · exact ⟨j, by omega, hp⟩
    · exact ⟨k + 1, le_refl _, hd.1⟩
  · rintro ⟨j, hj, hp⟩
    by_cases hsmall : ∃ i, i ≤ k ∧ HasUPath graph start v i
    · exact Or.inl hsmall
    · right
      have hjk : j = k + 1 := by
        by_contra hne
        exact hsmall ⟨j, by omega, hp⟩
      subst hjk
      refine ⟨hp, fun i hi => ?_⟩
      by_contra hlt
      exact hsmall ⟨i, by omega, hi⟩

/-- The levels from the one at distance `k` on list nodes in non-decreasing order of distance,
all at distance at least `k`. -/
theorem levelsFrom_sorted (graph : Graph) (start : Nat) :
    ∀ (lf k : Nat) (listed level : List Nat),
      (∀ v, v ∈ listed ↔ ∃ j, j ≤ k ∧ HasUPath graph start v j) →
      (∀ v, v ∈ level ↔ IsDist graph start v k) →
      (levelsFrom graph lf listed level).flatten.Pairwise
          (fun u v => ∀ du dv, IsDist graph start u du → IsDist graph start v dv → du ≤ dv)
        ∧ ∀ v ∈ (levelsFrom graph lf listed level).flatten,
            ∃ d, k ≤ d ∧ IsDist graph start v d := by
  intro lf
  induction lf with
  | zero =>
    intro k listed level _ hlevel
    cases level with
    | nil => simp [levelsFrom]
    | cons a l =>
      simp only [levelsFrom, List.flatten_cons, List.flatten_nil, List.append_nil]
      refine ⟨List.pairwise_of_forall_mem_list ?_, fun v hv => ⟨k, le_refl _, (hlevel v).1 hv⟩⟩
      intro u hu v hv du dv hdu hdv
      rw [hdu.dist_unique ((hlevel u).1 hu), hdv.dist_unique ((hlevel v).1 hv)]
  | succ lf ih =>
    intro k listed level hlisted hlevel
    cases level with
    | nil => simp [levelsFrom]
    | cons a l =>
      obtain ⟨h1, h2⟩ := nextLevel_dist graph start k listed (a :: l) hlisted hlevel
      obtain ⟨ih1, ih2⟩ := ih (k + 1) _ _ h1 h2
      simp only [levelsFrom, List.flatten_cons]
      refine ⟨List.pairwise_append.2 ⟨List.pairwise_of_forall_mem_list ?_, ih1, ?_⟩, ?_⟩
      · intro u hu v hv du dv hdu hdv
        rw [hdu.dist_unique ((hlevel u).1 hu), hdv.dist_unique ((hlevel v).1 hv)]
      · intro u hu v hv du dv hdu hdv
        obtain ⟨d, hd, hvd⟩ := ih2 v hv
        rw [hdu.dist_unique ((hlevel u).1 hu), hdv.dist_unique hvd]
        omega
      · intro v hv
        rcases List.mem_append.1 hv with h | h
        · exact ⟨k, le_refl _, (hlevel v).1 h⟩
        · obtain ⟨d, hd, hvd⟩ := ih2 v h
          exact ⟨d, by omega, hvd⟩

/-- The level-by-level order lists nodes in non-decreasing order of distance from `start`. -/
theorem levelOrder_sorted (graph : Graph) (start : Nat) :
    (levelOrder graph start).Pairwise
      (fun u v => ∀ du dv, IsDist graph start u du → IsDist graph start v dv → du ≤ dv) := by
  refine (levelsFrom_sorted graph start graph.length 0 [start] [start] ?_ ?_).1
  · intro v
    rw [List.mem_singleton]
    constructor
    · rintro rfl
      exact ⟨0, le_refl _, HasUPath.upath_refl _ _⟩
    · rintro ⟨j, hj, hp⟩
      have hj0 : j = 0 := by omega
      subst hj0
      exact hp.eq_of_zero.symm
  · intro v
    rw [List.mem_singleton]
    constructor
    · rintro rfl
      exact ⟨HasUPath.upath_refl _ _, fun _ _ => Nat.zero_le _⟩
    · intro hd
      exact hd.1.eq_of_zero.symm

end LevelSpec

/-! ## IDA*: a failed `dfs` call restores the `visited` vector -/

namespace IdaStar

theorem dfsLoop_restores (call : Nat → Int → State → Option (Option Int × State))
    (hcall : ∀ nb g st st1, ¬ marked st.visited nb → call nb g st = some (none, st1) →
      st1.visited = st.visited) (g : Int) (es : List Edge) :
    ∀ st st1, dfsLoop call g es st = some (none, st1) → st1.visited = st.visited := by
  induction es with
  | nil =>
    intro st st1 h
    simp only [dfsLoop, Option.some.injEq, Prod.mk.injEq, true_and] at h
    rw [h]
  | cons e es ih =>
    intro st st1 h
    obtain ⟨nb, w⟩ := e
    by_cases hv : st.visited.getD nb false = true
    · simp only [dfsLoop, hv, Bool.not_true, Bool.false_eq_true, if_false] at h
      exact ih st st1 h
    · have hv' : st.visited.getD nb false = false := by simpa using hv
      simp only [dfsLoop, hv', Bool.not_false, if_true] at h
      cases hc : call nb (addInt g w) st with
      | none => simp [hc] at h
      | some r =>
        obtain ⟨res, st2⟩ := r
        cases res with
        | some c => simp [hc] at h
        | none =>
          simp only [hc] at h
          rw [ih st2 st1 h]
          exact hcall nb _ st st2 hv hc

/-- A call of `dfs` on an unmarked node that returns `false` leaves `visited` as it was. -/
theorem dfs_restores (goal : Nat) (limit : Int) (graph : WGraph) (heuristic : List Int) :
    ∀ (fuel node : Nat) (g : Int) (st st1 : State), ¬ marked st.visited node →
      dfs goal limit graph heuristic fuel node g st = some (none, st1) →
      st1.visited = st.visited := by
  intro fuel
  induction fuel with
  | zero => intro node g st st1 _ h; simp [dfs] at h
  | succ fuel ih =>
    intro node g st st1 hm h
    simp only [dfs] at h
    by_cases hf : addInt g (heuristic.getD node 0) > limit
    · simp only [hf, if_true, Option.some.injEq, Prod.mk.injEq, true_and] at h
      rw [← h]
    · simp only [hf, if_false] at h
      by_cases hg : node = goal
      · simp [hg] at h
      · simp only [hg, if_false] at h
        cases hl : dfsLoop (dfs goal limit graph heuristic fuel) g (wadj graph node)
            { visited := st.visited.set node true, next_limit := st.next_limit,
              trace := st.trace ++ [(node, g, heuristic.getD node 0,
                addInt g (heuristic.getD node 0))] } with
        | none =>
          rw [hl] at h
          simp at h
        | some r =>
          obtain ⟨res, st3⟩ := r
          cases res with
          | some c =>
            rw [hl] at h
            simp at h
          | none =>
            rw [hl] at h
            simp only [Option.some.injEq, Prod.mk.injEq, true_and] at h
            have h3 := dfsLoop_restores (dfs goal limit graph heuristic fuel) ih g
              (wadj graph node) _ st3 hl
            rw [← h]
            simp only [h3]
            exact set_true_set_false hm

end IdaStar

/-! ## Uniform-cost search: the heap order on equal costs -/

namespace Ucs

/-- The top of the heap is the least pair in the lexicographic order on `(cost, node)`. -/
theorem pqTop_lex_least {pq : List (Int × Nat)} {m : Int × Nat} (h : pqTop pq = some m) :
    m ∈ pq ∧ ∀ e ∈ pq, m.1 < e.1 ∨ (m.1 = e.1 ∧ m.2 ≤ e.2) := by
  induction pq generalizing m with
  | nil => simp [pqTop] at h
  | cons x xs ih =>
    simp only [pqTop] at h
    cases htop : pqTop xs with
    | none =>
      have hxs := ucs_pqTop_none htop
      subst hxs
      simp only [htop, Option.some.injEq] at h
      subst h
      simp
    | some y =>
      obtain ⟨hy, hmin⟩ := ih htop
      simp only [htop] at h
      by_cases hlt : pairLt y x = true
      · simp only [hlt, if_true, Option.some.injEq] at h
        subst h
        refine ⟨by simp [hy], ?_⟩
        intro e he
        rcases List.mem_cons.1 he with rfl | he
        · simp only [pairLt, Bool.or_eq_true, Bool.and_eq_true, decide_eq_true_eq] at hlt
          omega
        · exact hmin e he
      · have hlt' : pairLt y x = false := by simpa using hlt
        simp only [hlt', Bool.false_eq_true, if_false, Option.some.injEq] at h
        subst h
        refine ⟨by simp, ?_⟩
        intro e he
        rcases List.mem_cons.1 he with rfl | he
        · exact Or.inr ⟨rfl, le_refl _⟩
        · have := hmin e he
          simp only [pairLt, Bool.or_eq_true, Bool.and_eq_true, decide_eq_true_eq] at hlt
          omega

theorem pqPop_lex_least {pq : List (Int × Nat)} {m : Int × Nat} {rest : List (Int × Nat)}
    (h : pqPop pq = some (m, rest)) :
    m ∈ pq ∧ ∀ e ∈ pq, m.1 < e.1 ∨ (m.1 = e.1 ∧ m.2 ≤ e.2) := by
  unfold pqPop at h
  cases htop : pqTop pq with
  | none => simp [htop] at h
  | some m' =>
    simp only [htop, Option.some.injEq, Prod.mk.injEq] at h
    obtain ⟨rfl, -⟩ := h
    exact pqTop_lex_least htop

/-- The entry popped depends only on the entries present, not on the order of insertion. -/
theorem pqPop_perm {pq pq1 : List (Int × Nat)} {m : Int × Nat} {rest : List (Int × Nat)}
    (h : pqPop pq = some (m, rest)) (hp : pq1.Perm pq) :
    pqPop pq1 = some (m, pq1.erase m) := by
  obtain ⟨hm, hmin⟩ := pqPop_lex_least h
  cases h1 : pqPop pq1 with
  | none =>
    have hnil := ucs_pqPop_none h1
    rw [hnil] at hp
    have := hp.mem_iff.2 hm
    simp at this
  | some r =>
    obtain ⟨m1, rest1⟩ := r
    obtain ⟨hm1, hmin1⟩ := pqPop_lex_least h1
    obtain ⟨-, hrest1, -⟩ := ucs_pqPop_some h1
    have ha := hmin m1 (hp.mem_iff.1 hm1)
    have hb := hmin1 m (hp.mem_iff.2 hm)
    have heq : m1 = m := by
      apply Prod.ext <;> omega
    rw [hrest1, heq]

end Ucs

/-! ## Depth-first search: the order of the printed nodes -/

namespace Dfs

theorem dfsLoop_trace (call : Nat → List Bool × List Nat → Option (List Bool × List Nat))
    (hcall : ∀ node st st1, call node st = some st1 → ∃ rest, st1.2 = st.2 ++ node :: rest)
    (ns : List Nat) :
    ∀ st st1, dfsLoop call ns st = some st1 →
      ∃ rest, st1.2 = st.2 ++ rest
        ∧ ∀ pre w post, ns = pre ++ w :: post → (∀ y ∈ pre, marked st.1 y) → ¬ marked st.1 w →
            ∃ rest1, rest = w :: rest1 := by
  induction ns with
  | nil =>
    intro st st1 h
    simp only [dfsLoop, Option.some.injEq] at h
    refine ⟨[], by rw [h]; simp, ?_⟩
    intro pre w post hns
    simp at hns
  | cons y ys ih =>
    intro st st1 h
    by_cases hv : st.1.getD y false = true
    · simp only [dfsLoop, hv, Bool.not_true, Bool.false_eq_true, if_false] at h
      obtain ⟨rest, h1, h2⟩ := ih st st1 h
      refine ⟨rest, h1, ?_⟩
      intro pre w post hns hpre hw
      cases pre with
      | nil =>
        simp only [List.nil_append, List.cons.injEq] at hns
        exact absurd (hns.1 ▸ hv) hw
      | cons a pre1 =>
        simp only [List.cons_append, List.cons.injEq] at hns
        exact h2 pre1 w post hns.2 (fun z hz => hpre z (List.mem_cons_of_mem _ hz)) hw
    · have hv' : st.1.getD y false = false := by simpa using hv
      simp only [dfsLoop, hv', Bool.not_false, if_true] at h
      cases hc : call y st with
      | none => simp [hc] at h
      | some st2 =>
        simp only [hc] at h
        obtain ⟨r2, hr2⟩ := hcall y st st2 hc
        obtain ⟨r3, hr3, -⟩ := ih st2 st1 h
        refine ⟨y :: (r2 ++ r3), by rw [hr3, hr2]; simp, ?_⟩
        intro pre w post hns hpre hw
        cases pre with
        | nil =>
          simp only [List.nil_append, List.cons.injEq] at hns
          exact ⟨r2 ++ r3, by rw [hns.1]⟩
        | cons a pre1 =>
          simp only [List.cons_append, List.cons.injEq] at hns
          exact absurd (hpre a (List.mem_cons_self _ _)) (hns.1 ▸ hv)

/-- A call of `dfs` prints its node first. -/
theorem dfs_trace_head (graph : Graph) :
    ∀ (fuel node : Nat) (st st1 : List Bool × List Nat),
      dfs graph fuel node st = some st1 → ∃ rest, st1.2 = st.2 ++ node :: rest := by
  intro fuel
  induction fuel with
  | zero => intro node st st1 h; simp [dfs] at h
  | succ fuel ih =>
    intro node st st1 h
    simp only [dfs] at h
    obtain ⟨rest, h1, -⟩ := dfsLoop_trace (dfs graph fuel) ih (adj graph node) _ st1 h
    exact ⟨rest, by rw [h1]; simp⟩

/-- A call of `dfs` prints its node and next the first neighbour that is unmarked once the
node itself is marked. -/
theorem dfs_trace_first_neighbour (graph : Graph) (fuel node : Nat)
    (st st1 : List Bool × List Nat) (h : dfs graph fuel node st = some st1) :
    ∃ rest, st1.2 = st.2 ++ node :: rest
      ∧ ∀ pre w post, adj graph node = pre ++ w :: post →
          (∀ y ∈ pre, marked (st.1.set node true) y) → ¬ marked (st.1.set node true) w →
          ∃ rest1, rest = w :: rest1 := by
  cases fuel with
  | zero => simp [dfs] at h
  | succ fuel =>
    simp only [dfs] at h
    obtain ⟨rest, h1, h2⟩ :=
      dfsLoop_trace (dfs graph fuel) (dfs_trace_head graph fuel) (adj graph node) _ st1 h
    exact ⟨rest, by rw [h1]; simp, h2⟩

/-- A call of `dfs` on any node of the graph returns, given fuel above the number of unmarked
nodes. -/
theorem dfs_returns (graph : Graph) (hwf : WellFormed graph) (fuel node : Nat) (v : List Bool)
    (t : List Nat) (hlen : v.length = graph.length)
    (hfuel : unmarkedCount v < fuel) : ∃ st1, dfs graph fuel node (v, t) = some st1 := by
  obtain ⟨fuel, rfl⟩ : ∃ f, fuel = f + 1 := ⟨fuel - 1, by omega⟩
  have hle : unmarkedCount (v.set node true) ≤ unmarkedCount v :=
    unmarkedCount_le_of_mono (by simp) (fun x hx => marked_set_true.2 (Or.inl hx))
  obtain ⟨v1, t1, new, h1, -⟩ := dfs_loop_post graph fuel (dfs_call_post graph hwf fuel)
    (adj graph node) (fun y hy => hwf.adj_lt hy) (v.set node true) (t ++ [node])
    (by simpa using hlen) (by omega)
  exact ⟨(v1, t1), by simpa only [dfs] using h1⟩

end Dfs

/-! ## A*: every entry and every visit event has `f = g + h` -/

namespace AStar

theorem relax_entries (heuristic : List Int) (g : Int) (es : List Edge) :
    ∀ (cost : List Int) (pq : List Node),
      (∀ e ∈ pq, e.f = addInt e.g (heuristic.getD e.id 0)) →
      ∀ e ∈ (relax heuristic g es (cost, pq)).2, e.f = addInt e.g (heuristic.getD e.id 0) := by
  induction es with
  | nil => intro cost pq h; simpa [relax] using h
  | cons e es ih =>
    intro cost pq h
    obtain ⟨v, w⟩ := e
    by_cases hlt : addInt g w < cost.getD v 0
    · simp only [relax, hlt, if_true]
      apply ih
      intro x hx
      rcases List.mem_append.1 hx with hx | hx
      · exact h x hx
      · simp only [List.mem_singleton] at hx
        subst hx
        rfl
    · simp only [relax, hlt, if_false]
      exact ih cost pq h

/-- Along the loop of `aStar` every frontier entry `(id, g, f)` has `f = g + heuristic[id]` and
every visit event `(v, g, h, f)` has `h = heuristic[v]` and `f = g + h`. -/
theorem loop_events (goal : Nat) (graph : WGraph) (heuristic : List Int) :
    ∀ (fuel : Nat) (tie : Nat → Nat) (visited : List Bool) (cost : List Int) (pq : List Node)
      (trace : List Visit) (r : Result),
      (∀ e ∈ pq, e.f = addInt e.g (heuristic.getD e.id 0)) →
      (∀ ev ∈ trace, ev.2.2.1 = heuristic.getD ev.1 0
        ∧ ev.2.2.2 = addInt ev.2.1 (heuristic.getD ev.1 0)) →
      loop goal graph heuristic fuel tie visited cost pq trace = some r →
      ∀ ev ∈ r.trace, ev.2.2.1 = heuristic.getD ev.1 0
        ∧ ev.2.2.2 = addInt ev.2.1 (heuristic.getD ev.1 0) := by
  intro fuel
  induction fuel with
  | zero => intro tie visited cost pq trace r _ _ h; simp [loop] at h
  | succ fuel ih =>
    intro tie visited cost pq trace r hpq htr h
    cases hpop : pqPop (tie 0) pq with
    | none =>
      simp only [loop, hpop, Option.some.injEq] at h
      rw [← h]
      exact htr
    | some cr =>
      obtain ⟨current, pq1⟩ := cr
      obtain ⟨hmem, hrest, -⟩ := pqPop_some hpop
      have hsub : ∀ e, e ∈ pq1 → e ∈ pq := fun e he => by
        rw [hrest] at he; exact List.mem_of_mem_erase he
      have hpq1 : ∀ e ∈ pq1, e.f = addInt e.g (heuristic.getD e.id 0) :=
        fun e he => hpq e (hsub e he)
      have htr1 : ∀ ev ∈ trace ++ [(current.id, current.g, heuristic.getD current.id 0,
          current.f)], ev.2.2.1 = heuristic.getD ev.1 0
            ∧ ev.2.2.2 = addInt ev.2.1 (heuristic.getD ev.1 0) := by
        intro ev hev
        rcases List.mem_append.1 hev with hev | hev
        · exact htr ev hev
        · simp only [List.mem_singleton] at hev
          subst hev
          exact ⟨rfl, hpq current hmem⟩
      by_cases hv : visited.getD current.id false = true
      · simp only [loop, hpop, hv, if_true] at h
        exact ih _ _ _ _ _ r hpq1 htr h
      · have hv' : visited.getD current.id false = false := by simpa using hv
        by_cases hgoal : current.id = goal
        · simp only [loop, hpop, hv', Bool.false_eq_true, if_false, if_pos hgoal,
            Option.some.injEq] at h
          rw [← h]
          exact htr1
        · simp only [loop, hpop, hv', Bool.false_eq_true, if_false, if_neg hgoal] at h
          exact ih _ _ _ _ _ r
            (relax_entries heuristic current.g (wadj graph current.id) cost pq1 hpq1) htr1 h

end AStar

theorem addInt_zero_left {x : Int} (h1 : -2147483648 ≤ x) (h2 : x ≤ 2147483647) :
    addInt 0 x = x := by
  rw [addInt_eq (by omega) (by omega)]
  omega

theorem getD_int_range {l : List Int} (h : ∀ x ∈ l, -2147483648 ≤ x ∧ x ≤ 2147483647) (i : Nat) :
    -2147483648 ≤ l.getD i 0 ∧ l.getD i 0 ≤ 2147483647 := by
  by_cases hi : i < l.length
  · rw [List.getD_eq_getElem _ _ hi]
    exact h _ (List.getElem_mem _)
  · rw [List.getD_eq_default _ _ (by omega)]
    omega

/-- `aStar` returns on every graph whose edge destinations are nodes, given fuel of at least the
number of edges plus 2. -/
theorem AStar.aStar_returns (graph : WGraph) (heuristic : List Int) (start goal fuel : Nat)
    (tie : Nat → Nat) (hwf : WellFormedW graph) (hs : start < graph.length)
    (hfuel : edgeCount graph + 2 ≤ fuel) :
    ∃ r, AStar.aStar fuel tie start goal graph heuristic = some r := by
  obtain ⟨r, -, hr, -⟩ := AStar.astar_loop_terminates graph heuristic goal hwf fuel tie
    (List.replicate graph.length false) ((List.replicate graph.length INT_MAX).set start 0)
    [⟨start, 0, heuristic.getD start 0⟩] [] (by simp)
    (by intro e he; simp at he; subst he; exact hs)
    (by
      rw [unmarkedSum_replicate _ _ (by simp)]
      unfold edgeCount at hfuel
      simp only [List.length_singleton]
      omega)
  exact ⟨r, hr⟩

/-- On every graph whose edge destinations are nodes and every heuristic table of `int`
entries, `aStar` returns and every visit event `(v, g, h, f)` has `h = heuristic[v]` and `f`
equal to the `int` sum of `g` and `heuristic[v]` as the program computes it. -/
theorem AStar.aStar_events_addInt_spec (graph : WGraph) (heuristic : List Int)
    (start goal fuel : Nat) (tie : Nat → Nat) (hwf : WellFormedW graph)
    (hs : start < graph.length)
    (hint : ∀ x ∈ heuristic, -2147483648 ≤ x ∧ x ≤ 2147483647)
    (hfuel : edgeCount graph + 2 ≤ fuel) :
    ∃ r, AStar.aStar fuel tie start goal graph heuristic = some r
      ∧ ∀ ev ∈ r.trace, ev.2.2.1 = heuristic.getD ev.1 0
          ∧ ev.2.2.2 = addInt ev.2.1 (heuristic.getD ev.1 0) := by
  obtain ⟨r, hr⟩ := AStar.aStar_returns graph heuristic start goal fuel tie hwf hs hfuel
  refine ⟨r, hr, ?_⟩
  refine AStar.loop_events goal graph heuristic fuel tie _ _ _ [] r ?_ (by simp) hr
  intro e he
  simp only [List.mem_singleton] at he
  subst he
  obtain ⟨h1, h2⟩ := getD_int_range hint start
  exact (addInt_zero_left h1 h2).symm

/-! ## IDA*: the next limit is the least pruned value -/

namespace IdaStar

end IdaStar

namespace IdaStar

end IdaStar

/-! ## Uniform-cost search: one iteration of the loop -/

namespace Ucs

/-- The invariant holds before the first iteration. -/
theorem inv_init (graph : WGraph) (start : Nat) (hs : start < graph.length) :
    Inv graph start (List.replicate graph.length false)
      ((List.replicate graph.length INT_MAX).set start 0) [(0, start)] := by
  have hst : ((List.replicate graph.length INT_MAX).set start 0).getD start 0 = 0 := by
    rw [getD_set_int, if_pos ⟨rfl, by simpa using hs⟩]
  have hother : ∀ v, v < graph.length → v ≠ start →
      ((List.replicate graph.length INT_MAX).set start 0).getD v 0 = INT_MAX := by
    intro v hv hvs
    rw [getD_set_int, if_neg (fun h => hvs h.1.symm),
      List.getD_eq_getElem _ _ (by simpa using hv)]
    simp
  refine ⟨by simp, by simp, ?_, ?_, ?_, ?_, ?_, by rw [hst]⟩
  · intro v hv
    by_cases hvs : v = start
    · subst hvs
      right
      rw [hst, markedSum_replicate]
      exact ⟨HasPath.path_refl _ _, le_refl _⟩
    · exact Or.inl (hother v hv hvs)
  · intro x hx
    simp at hx
    subst hx
    simp only
    rw [hst, markedSum_replicate]
    exact ⟨hs, HasPath.path_refl _ _, le_refl _, le_refl _⟩
  · intro v hv _ hc
    by_cases hvs : v = start
    · subst hvs
      rw [hst]
      exact List.mem_singleton_self _
    · exact absurd (hother v hv hvs) hc
  · intro u hu
    exact absurd hu (not_marked_replicate _ _)
  · intro u hu
    exact absurd hu (not_marked_replicate _ _)

/-- Popping a stale entry (its node is closed already) keeps the invariant. -/
theorem step_stale {graph : WGraph} {start : Nat} {visited : List Bool} {cost : List Int}
    {pq pq1 : List (Int × Nat)} {c : Int} {v : Nat} (hinv : Inv graph start visited cost pq)
    (hpop : pqPop pq = some ((c, v), pq1)) (hm : marked visited v) :
    Inv graph start visited cost pq1 := by
  obtain ⟨hmem, hrest, -⟩ := ucs_pqPop_some hpop
  have hsub : ∀ e, e ∈ pq1 → e ∈ pq := fun e he => by
    rw [hrest] at he; exact List.mem_of_mem_erase he
  have hne : ∀ e, e ∈ pq → e ≠ (c, v) → e ∈ pq1 := by
    intro e he hec
    rw [hrest]; exact (List.mem_erase_of_ne hec).2 he
  refine ⟨hinv.vlen, hinv.clen, hinv.cost_dich, fun e he => hinv.pq_ok e (hsub e he), ?_,
    hinv.closed_min, hinv.edge_ok, hinv.start_ok⟩
  intro u hu hum hc
  apply hne _ (hinv.open_in_pq u hu hum hc)
  intro heq
  have : u = v := by simpa using congrArg Prod.snd heq
  exact hum (this ▸ hm)

/-- Popping the entry `(c, v)` of an open node `v`: `c` is the recorded cost of `v`, every
entry pushed while relaxing the edges of `v` costs at least `c`, the recorded costs of the
closed nodes and of `v` stay as they are, and the invariant holds again. -/
theorem step_expand (graph : WGraph) (start : Nat) (hwf : WellFormedW graph)
    (hnn : NonNegWeights graph) (hb : absTotal graph < 2147483647) (hs : start < graph.length)
    {visited : List Bool} {cost : List Int} {pq pq1 : List (Int × Nat)} {c : Int} {v : Nat}
    (hinv : Inv graph start visited cost pq) (hpop : pqPop pq = some ((c, v), pq1))
    (hm : ¬ marked visited v) :
    v < graph.length ∧ cost.getD v 0 = c
      ∧ ∃ new, (relax c (wadj graph v) (cost, pq1)).2 = pq1 ++ new
        ∧ new.length ≤ (wadj graph v).length
        ∧ (∀ x ∈ new, c ≤ x.1)
        ∧ (∀ u, marked visited u ∨ u = v →
            (relax c (wadj graph v) (cost, pq1)).1.getD u 0 = cost.getD u 0)
        ∧ Inv graph start (visited.set v true) (relax c (wadj graph v) (cost, pq1)).1
            (relax c (wadj graph v) (cost, pq1)).2 := by
  have hIM : INT_MAX = 2147483647 := rfl
  obtain ⟨hmem, hrest, hmin⟩ := ucs_pqPop_some hpop
  obtain ⟨hv, hpath, hcb, hcv⟩ := hinv.pq_ok (c, v) hmem
  simp only at hv hpath hcb hcv
  have hsub : ∀ e, e ∈ pq1 → e ∈ pq := fun e he => by
    rw [hrest] at he; exact List.mem_of_mem_erase he
  have hne : ∀ e, e ∈ pq → e ≠ (c, v) → e ∈ pq1 := by
    intro e he hec
    rw [hrest]; exact (List.mem_erase_of_ne hec).2 he
  have hms := markedSum_set (v := visited) (i := v) (graph.map absWeight)
    (by rw [hinv.vlen]; exact hv) hm
  rw [getD_map_absWeight] at hms
  have htot := markedSum_le_absTotal graph (visited.set v true)
  have hc0 := hnn.hasPath_nonneg hpath
  have habs := absWeight_nonneg (wadj graph v)
  have hcmin : ∀ c', HasPath graph start v c' → c ≤ c' := by
    intro c' hc'
    by_cases hbig : c' < INT_MAX
    · rcases ucs_path_bound hinv hwf hnn hs hc' hbig with ⟨h, -⟩ | ⟨e, he, hle⟩
      · exact absurd h hm
      · exact le_trans (hmin e he) hle
    · omega
  have hcostv : cost.getD v 0 = c := by
    rcases hinv.cost_dich v hv with h | ⟨h, -⟩
    · omega
    · have := hcmin _ h; omega
  have hedges : ∀ e ∈ wadj graph v,
      e.1 < graph.length ∧ -INT_MAX < c + e.2 ∧ c + e.2 < INT_MAX := by
    intro e he
    have h1 := abs_le.1 (abs_le_absWeight he)
    have h2 := hnn.wadj_nonneg he
    exact ⟨hwf.wadj_lt he, by simp only [INT_MAX]; omega, by omega⟩
  obtain ⟨new, h1, h2, h3, h4, h5, h6, h7⟩ :=
    ucs_relax_spec c graph.length (wadj graph v) cost pq1 hinv.clen hedges
  have hnew : ∀ x ∈ new, x.2 < graph.length ∧ HasPath graph start x.2 x.1
      ∧ x.1 ≤ markedSum (visited.set v true) (graph.map absWeight) := by
    intro x hx
    obtain ⟨e, he, hx2, hx1, -⟩ := h4 x hx
    have hw := abs_le.1 (abs_le_absWeight he)
    refine ⟨hx2 ▸ hwf.wadj_lt he, ?_, by omega⟩
    rw [hx2, hx1]
    exact hpath.path_snoc he
  have hkeep : ∀ u, marked visited u ∨ u = v →
      (relax c (wadj graph v) (cost, pq1)).1.getD u 0 = cost.getD u 0 := by
    intro u hu
    rcases h7 u with h | h
    · exact h
    · have hp := (hnew _ h).2.1
      simp only at hp
      have hle := h5 u
      rcases hu with hu | rfl
      · have := (hinv.closed_min u hu).2 _ hp
        omega
      · have := hcmin _ hp
        omega
  refine ⟨hv, hcostv, new, h1, h3, ?_, hkeep, ?_⟩
  · intro x hx
    obtain ⟨e, he, -, hx1, -⟩ := h4 x hx
    have := hnn.wadj_nonneg he
    omega
  refine ⟨by simpa using hinv.vlen, h2, ?_, ?_, ?_, ?_, ?_, le_trans (h5 _) hinv.start_ok⟩
  · intro u hu
    rcases h7 u with h | h
    · rw [h]
      rcases hinv.cost_dich u hu with h' | ⟨h', h''⟩
      · exact Or.inl h'
      · exact Or.inr ⟨h', by omega⟩
    · obtain ⟨-, hp, hb'⟩ := hnew _ h
      exact Or.inr ⟨hp, hb'⟩
  · intro x hx
    rw [h1] at hx
    rcases List.mem_append.1 hx with hx | hx
    · obtain ⟨a, b, c', d⟩ := hinv.pq_ok x (hsub x hx)
      exact ⟨a, b, by omega, le_trans (h5 _) d⟩
    · obtain ⟨a, b, c'⟩ := hnew x hx
      obtain ⟨e, he, -, -, hle⟩ := h4 x hx
      exact ⟨a, b, c', hle⟩
  · intro u hu hum hc
    have hum' : ¬ marked visited u := fun h => hum (marked_set_true.2 (Or.inl h))
    have huv : u ≠ v := fun h =>
      hum (marked_set_true.2 (Or.inr ⟨h, by rw [hinv.vlen]; exact hv⟩))
    rw [h1]
    rcases h7 u with h | h
    · rw [h] at hc ⊢
      apply List.mem_append_left
      apply hne _ (hinv.open_in_pq u hu hum' hc)
      intro heq
      exact huv (by simpa using congrArg Prod.snd heq)
    · exact List.mem_append_right _ h
  · intro u hu
    have hu' : marked visited u ∨ u = v := by
      rcases marked_set_true.1 hu with h | ⟨h, -⟩
      · exact Or.inl h
      · exact Or.inr h
    rw [hkeep u hu']
    rcases hu' with h | rfl
    · exact hinv.closed_min u h
    · rw [hcostv]
      exact ⟨by simp only [INT_MAX]; omega, hcmin⟩
  · intro u hu e he
    have hu' : marked visited u ∨ u = v := by
      rcases marked_set_true.1 hu with h | ⟨h, -⟩
      · exact Or.inl h
      · exact Or.inr h
    rw [hkeep u hu']
    rcases hu' with h | rfl
    · obtain ⟨a, b⟩ := hinv.edge_ok u h e he
      have := h5 e.1
      have hdich := hinv.cost_dich e.1 (hwf.wadj_lt he)
      refine ⟨by omega, ?_⟩
      rcases hdich with h' | ⟨-, h''⟩
      · exact absurd h' b
      · simp only [INT_MAX]; omega
    · have := h6 e he
      have hw := abs_le.1 (abs_le_absWeight he)
      rw [hcostv]
      exact ⟨this, by simp only [INT_MAX]; omega⟩

end Ucs

/-! ## Uniform-cost search: the visit events -/

namespace Ucs

/-- The loop of `ucs` keeps both invariants and stops. -/
theorem loop_trace_spec (graph : WGraph) (start : Nat) (hwf : WellFormedW graph)
    (hnn : NonNegWeights graph) (hb : absTotal graph < 2147483647) (hs : start < graph.length) :
    ∀ (fuel : Nat) (st : State), Inv graph start st.visited st.cost st.pq →
      TraceInv st.visited st.cost st.pq st.trace →
      st.pq.length + unmarkedSum st.visited (graph.map List.length) < fuel →
      ∃ st1, loop graph fuel st = some st1 ∧ Inv graph start st1.visited st1.cost []
        ∧ TraceInv st1.visited st1.cost [] st1.trace := by
  intro fuel
  induction fuel with
  | zero => intro st _ _ hf; omega
  | succ fuel ih =>
    intro st hinv htr hf
    cases hpop : pqPop st.pq with
    | none =>
      have hpq := ucs_pqPop_none hpop
      refine ⟨st, by simp only [loop, hpop], ?_, ?_⟩
      · rw [← hpq]; exact hinv
      · rw [← hpq]; exact htr
    | some cr =>
      obtain ⟨⟨c, v⟩, pq1⟩ := cr
      obtain ⟨hmem, hrest, hmin⟩ := ucs_pqPop_some hpop
      have hlen1 : pq1.length + 1 = st.pq.length := by
        rw [hrest, List.length_erase_of_mem hmem]
        have := List.length_pos_of_mem hmem
        omega
      have hsub : ∀ e, e ∈ pq1 → e ∈ st.pq := fun e he => by
        rw [hrest] at he; exact List.mem_of_mem_erase he
      by_cases hm : marked st.visited v
      · have hm' : st.visited.getD v false = true := hm
        have hstep : loop graph (fuel + 1) st = loop graph fuel { st with pq := pq1 } := by
          simp only [loop, hpop, hm', if_true]
        rw [hstep]
        have hInv : Inv graph start st.visited st.cost pq1 := step_stale hinv hpop hm
        have hTr : TraceInv st.visited st.cost pq1 st.trace :=
          ⟨htr.vis, htr.nodup, htr.sorted, fun e he x hx => htr.below e he x (hsub x hx),
            htr.cost_eq⟩
        exact ih { st with pq := pq1 } hInv hTr (by simp only; omega)
      · have hm' : st.visited.getD v false = false := by
          unfold marked at hm; simpa using hm
        obtain ⟨hv, hcostv, new, h1, h3, hge, hkeep, hInv⟩ :=
          step_expand graph start hwf hnn hb hs hinv hpop hm
        have hus := unmarkedSum_set (v := st.visited) (i := v) (graph.map List.length)
          (by rw [hinv.vlen]; exact hv) hm
        rw [getD_map_length] at hus
        have hstep : loop graph (fuel + 1) st = loop graph fuel
            { visited := st.visited.set v true,
              cost := (relax c (wadj graph v) (st.cost, pq1)).1,
              pq := (relax c (wadj graph v) (st.cost, pq1)).2,
              trace := st.trace ++ [(v, c)] } := by
          simp only [loop, hpop, hm', Bool.false_eq_true, if_false]
        rw [hstep]
        have hvm : marked (st.visited.set v true) v :=
          marked_set_true.2 (Or.inr ⟨rfl, by rw [hinv.vlen]; exact hv⟩)
        have hTr : TraceInv (st.visited.set v true)
            (relax c (wadj graph v) (st.cost, pq1)).1
            (relax c (wadj graph v) (st.cost, pq1)).2 (st.trace ++ [(v, c)]) := by
          refine ⟨?_, ?_, ?_, ?_, ?_⟩
          · intro e he
            rcases List.mem_append.1 he with he | he
            · exact marked_set_true.2 (Or.inl (htr.vis e he))
            · simp only [List.mem_singleton] at he
              subst he
              exact hvm
          · rw [List.map_append, List.nodup_append]
            refine ⟨htr.nodup, by simp, ?_⟩
            intro a ha ha'
            simp only [List.map_cons, List.map_nil, List.mem_singleton] at ha'
            subst ha'
            obtain ⟨e, he, hea⟩ := List.mem_map.1 ha
            exact hm (hea ▸ htr.vis e he)
          · rw [List.map_append, List.pairwise_append]
            refine ⟨htr.sorted, by simp, ?_⟩
            intro a ha b hb'
            simp only [List.map_cons, List.map_nil, List.mem_singleton] at hb'
            obtain ⟨e, he, hea⟩ := List.mem_map.1 ha
            rw [hb', ← hea]
            exact htr.below e he (c, v) hmem
          · intro e he x hx
            rw [h1] at hx
            have hec : e.2 ≤ c := by
              rcases List.mem_append.1 he with he | he
              · exact htr.below e he (c, v) hmem
              · simp only [List.mem_singleton] at he
                subst he
                exact le_refl _
            rcases List.mem_append.1 hx with hx | hx
            · exact le_trans hec (hmin x (hsub x hx))
            · exact le_trans hec (hge x hx)
          · intro e he
            rcases List.mem_append.1 he with he | he
            · rw [hkeep e.1 (Or.inl (htr.vis e he))]
              exact htr.cost_eq e he
            · simp only [List.mem_singleton] at he
              subst he
              rw [hkeep v (Or.inr rfl)]
              exact hcostv
        refine ih _ hInv hTr ?_
        simp only
        rw [h1, List.length_append]
        omega

end Ucs

/-- Run of `ucs` on a graph with non-negative weights summing to less than `INT_MAX`: no node
is visited twice, the costs of the visit events are non-decreasing, and each of them is the
final cost-table entry of its node. -/
theorem Ucs.ucs_trace_spec (graph : WGraph) (start fuel : Nat) (hwf : WellFormedW graph)
    (hnn : NonNegWeights graph) (hb : totalWeight graph < INT_MAX) (hs : start < graph.length)
    (hfuel : edgeCount graph + 2 ≤ fuel) :
    ∃ st, Ucs.ucs fuel start graph = some st
      ∧ (st.trace.map Prod.fst).Nodup
      ∧ (st.trace.map Prod.snd).Pairwise (fun a b => a ≤ b)
      ∧ ∀ e ∈ st.trace, st.cost.getD e.1 0 = e.2 := by
  have hIM : INT_MAX = 2147483647 := rfl
  have hb' : absTotal graph < 2147483647 := by rw [hnn.absTotal_eq]; omega
  obtain ⟨st, hrun, -, htr⟩ := Ucs.loop_trace_spec graph start hwf hnn hb' hs fuel
    ⟨List.replicate graph.length false, (List.replicate graph.length INT_MAX).set start 0,
      [(0, start)], []⟩ (Ucs.inv_init graph start hs)
    ⟨by simp, by simp, by simp, by simp, by simp⟩ (by
      simp only [List.length_singleton]
      rw [unmarkedSum_replicate _ _ (by simp)]
      unfold edgeCount at hfuel
      omega)
  exact ⟨st, hrun, htr.nodup, htr.sorted, htr.cost_eq⟩

/-! ## A* with a consistent heuristic: the reported cost is minimal -/

theorem SmallHeuristic.getD_abs {graph : WGraph} {heuristic : List Int}
    (h : SmallHeuristic graph heuristic) (v : Nat) :
    |heuristic.getD v 0| + absTotal graph < INT_MAX := by
  by_cases hv : v < heuristic.length
  · rw [List.getD_eq_getElem _ _ hv]
    exact h.2 _ (List.getElem_mem _)
  · rw [List.getD_eq_default _ _ (by omega)]
    simpa using h.1

/-- Along a walk a consistent heuristic drops by at most the cost of the walk. -/
theorem Consistent.walk_le {graph : WGraph} {heuristic : List Int}
    (h : Consistent graph heuristic) {u : Nat} {p : List Edge} (hp : IsWalk graph u p) :
    heuristic.getD u 0 ≤ walkCost p + heuristic.getD (walkEnd u p) 0 := by
  induction p generalizing u with
  | nil => simp [walkEnd, walkCost]
  | cons e es ih =>
    obtain ⟨he, hes⟩ := hp
    have hu : u < graph.length := by
      by_contra hn
      rw [wadj_nil_of_ge (by omega)] at he
      simp at he
    have h1 := h u hu e he
    have h2 := ih hes
    rw [walkCost_cons]
    simp only [walkEnd]
    omega

namespace AStar

theorem astar_relax_opt (heuristic : List Int) (g : Int) (n : Nat) (es : List Edge) :
    ∀ (cost : List Int) (pq : List Node), cost.length = n →
      (∀ e ∈ es, e.1 < n ∧ -INT_MAX < g + e.2 ∧ g + e.2 < INT_MAX
        ∧ -INT_MAX < g + e.2 + heuristic.getD e.1 0
        ∧ g + e.2 + heuristic.getD e.1 0 < INT_MAX) →
      ∃ new, (relax heuristic g es (cost, pq)).2 = pq ++ new
        ∧ (relax heuristic g es (cost, pq)).1.length = n
        ∧ new.length ≤ es.length
        ∧ (∀ x ∈ new, ∃ e ∈ es, x.id = e.1 ∧ x.g = g + e.2
            ∧ x.f = x.g + heuristic.getD x.id 0
            ∧ (relax heuristic g es (cost, pq)).1.getD x.id 0 ≤ x.g)
        ∧ (∀ v, (relax heuristic g es (cost, pq)).1.getD v 0 ≤ cost.getD v 0)
        ∧ (∀ e ∈ es, (relax heuristic g es (cost, pq)).1.getD e.1 0 ≤ g + e.2)
        ∧ (∀ v, (relax heuristic g es (cost, pq)).1.getD v 0 = cost.getD v 0
            ∨ ∃ x ∈ new, x.id = v ∧ x.g = (relax heuristic g es (cost, pq)).1.getD v 0) := by
  induction es with
  | nil =>
    intro cost pq hlen _
    exact ⟨[], by simp [relax], by simpa [relax] using hlen, by simp, by simp, by simp [relax],
      by simp, by simp [relax]⟩
  | cons e es ih =>
    intro cost pq hlen hes
    obtain ⟨v, w⟩ := e
    obtain ⟨hv, hlo, hhi, hflo, hfhi⟩ := hes (v, w) (by simp)
    have hes' : ∀ e ∈ es, e.1 < n ∧ -INT_MAX < g + e.2 ∧ g + e.2 < INT_MAX
        ∧ -INT_MAX < g + e.2 + heuristic.getD e.1 0
        ∧ g + e.2 + heuristic.getD e.1 0 < INT_MAX :=
      fun e he => hes e (by simp [he])
    simp only [INT_MAX] at hlo hhi hflo hfhi
    have hadd : addInt g w = g + w := wrap32_eq (by omega) (by omega)
    have haddf : addInt (g + w) (heuristic.getD v 0) = g + w + heuristic.getD v 0 :=
      wrap32_eq (by omega) (by omega)
    by_cases hlt : g + w < cost.getD v 0
    · have hstep : relax heuristic g ((v, w) :: es) (cost, pq)
          = relax heuristic g es (cost.set v (g + w),
              pq ++ [⟨v, g + w, g + w + heuristic.getD v 0⟩]) := by
        simp only [relax, hadd, haddf, hlt, if_true]
      obtain ⟨new, h1, h2, h3, h4, h5, h6, h7⟩ :=
        ih (cost.set v (g + w)) (pq ++ [⟨v, g + w, g + w + heuristic.getD v 0⟩])
          (by simpa using hlen) hes'
      rw [hstep]
      have hsetv : (cost.set v (g + w)).getD v 0 = g + w := by
        rw [getD_set_int, if_pos ⟨rfl, by omega⟩]
      refine ⟨⟨v, g + w, g + w + heuristic.getD v 0⟩ :: new, ?_, h2, ?_, ?_, ?_, ?_, ?_⟩
      · rw [h1]; simp
      · simp only [List.length_cons]; omega
      · intro x hx
        rcases List.mem_cons.1 hx with rfl | hx
        · refine ⟨(v, w), by simp, rfl, rfl, rfl, ?_⟩
          have := h5 v
          rw [hsetv] at this
          exact this
        · obtain ⟨e, he, h⟩ := h4 x hx
          exact ⟨e, by simp [he], h⟩
      · intro u
        refine le_trans (h5 u) ?_
        rw [getD_set_int]
        split
        · rename_i huv
          rw [← huv.1]; omega
        · exact le_refl _
      · intro e he
        rcases List.mem_cons.1 he with rfl | he
        · have := h5 v
          rw [hsetv] at this
          exact this
        · exact h6 e he
      · intro u
        rcases h7 u with h | ⟨x, hx, hxu, hxg⟩
        · by_cases huv : v = u
          · subst huv
            rw [hsetv] at h
            right
            exact ⟨⟨v, g + w, g + w + heuristic.getD v 0⟩, List.mem_cons_self _ _, rfl, h.symm⟩
          · left
            rw [h, getD_set_int, if_neg (by tauto)]
        · exact Or.inr ⟨x, List.mem_cons_of_mem _ hx, hxu, hxg⟩
    · have hstep : relax heuristic g ((v, w) :: es) (cost, pq)
          = relax heuristic g es (cost, pq) := by
        simp only [relax, hadd, hlt, if_false]
      obtain ⟨new, h1, h2, h3, h4, h5, h6, h7⟩ := ih cost pq hlen hes'
      rw [hstep]
      refine ⟨new, h1, h2, ?_, ?_, h5, ?_, h7⟩
      · simp only [List.length_cons]; omega
      · intro x hx
        obtain ⟨e, he, h⟩ := h4 x hx
        exact ⟨e, by simp [he], h⟩
      · intro e he
        rcases List.mem_cons.1 he with rfl | he
        · have := h5 v
          simp only at hlt ⊢
          omega
        · exact h6 e he

/-- In a state satisfying the invariant, a walk out of a closed node either ends in a closed
node whose recorded cost is no larger, or some frontier entry has an evaluation value `f` no
larger than the cost of the walk plus the heuristic at its end. -/
theorem astar_walk_bound {graph : WGraph} {heuristic : List Int} {start : Nat}
    {visited : List Bool} {cost : List Int} {pq : List Node}
    (hinv : OptInv graph heuristic start visited cost pq) (hwf : WellFormedW graph)
    (hnn : NonNegWeights graph) (hcons : Consistent graph heuristic) (p : List Edge) :
    ∀ (u : Nat) (c0 : Int), marked visited u → cost.getD u 0 ≤ c0 → IsWalk graph u p →
      c0 + walkCost p < INT_MAX →
      (marked visited (walkEnd u p) ∧ cost.getD (walkEnd u p) 0 ≤ c0 + walkCost p)
        ∨ ∃ x ∈ pq, x.f ≤ c0 + walkCost p + heuristic.getD (walkEnd u p) 0 := by
  induction p with
  | nil =>
    intro u c0 hu hc _ _
    left
    simp only [walkEnd, walkCost, List.map_nil, List.sum_nil, add_zero]
    exact ⟨hu, hc⟩
  | cons e es ih =>
    intro u c0 hu hc hw hlt
    obtain ⟨he, hes⟩ := hw
    rw [walkCost_cons] at hlt ⊢
    have hrest := hnn.walkCost_nonneg hes
    obtain ⟨hedge, -⟩ := hinv.edge_ok u hu e he
    by_cases hm : marked visited e.1
    · have := ih e.1 (c0 + e.2) hm (by omega) hes (by omega)
      simp only [walkEnd]
      rw [← add_assoc]
      exact this
    · right
      obtain ⟨x, hx, hxid, hxg⟩ := hinv.open_in_pq e.1 (hwf.wadj_lt he) hm (by omega)
      refine ⟨x, hx, ?_⟩
      obtain ⟨-, -, -, -, hxf⟩ := hinv.pq_ok x hx
      have hwalk := hcons.walk_le hes
      simp only [walkEnd]
      rw [hxf, hxid, hxg]
      omega

theorem astar_path_bound {graph : WGraph} {heuristic : List Int} {start : Nat}
    {visited : List Bool} {cost : List Int} {pq : List Node}
    (hinv : OptInv graph heuristic start visited cost pq) (hwf : WellFormedW graph)
    (hnn : NonNegWeights graph) (hcons : Consistent graph heuristic)
    (hs : start < graph.length) {t : Nat} {c : Int}
    (hp : HasPath graph start t c) (hc : c < INT_MAX) :
    (marked visited t ∧ cost.getD t 0 ≤ c) ∨ ∃ x ∈ pq, x.f ≤ c + heuristic.getD t 0 := by
  obtain ⟨p, hw, hend, hcost⟩ := hp
  have h0 := hnn.walkCost_nonneg hw
  have hst := hinv.start_ok
  by_cases hm : marked visited start
  · have := astar_walk_bound hinv hwf hnn hcons p start 0 hm hst hw (by omega)
    rw [hend, hcost, zero_add] at this
    exact this
  · right
    obtain ⟨x, hx, hxid, hxg⟩ := hinv.open_in_pq start hs hm (by simp only [INT_MAX]; omega)
    refine ⟨x, hx, ?_⟩
    obtain ⟨-, -, -, -, hxf⟩ := hinv.pq_ok x hx
    have hwalk := hcons.walk_le hw
    rw [hend, hcost] at hwalk
    rw [hxf, hxid, hxg]
    omega

end AStar

namespace AStar

/-- Under a consistent heuristic, whenever the loop of `aStar` reports a cost for the goal, it
is the minimum path cost from `start`. -/
theorem astar_loop_optimal (graph : WGraph) (heuristic : List Int) (start goal : Nat)
    (hwf : WellFormedW graph) (hnn : NonNegWeights graph) (hcons : Consistent graph heuristic)
    (hsmall : SmallHeuristic graph heuristic) (hs : start < graph.length) :
    ∀ (fuel : Nat) (tie : Nat → Nat) (visited : List Bool) (cost : List Int) (pq : List Node)
      (trace : List Visit) (r : Result), OptInv graph heuristic start visited cost pq →
      loop goal graph heuristic fuel tie visited cost pq trace = some r →
      ∀ c, r.outcome = Outcome.found c → IsMinCost graph start goal c := by
  have hIM : INT_MAX = 2147483647 := rfl
  intro fuel
  induction fuel with
  | zero => intro tie visited cost pq trace r _ h; simp [loop] at h
  | succ fuel ih =>
    intro tie visited cost pq trace r hinv hrun
    cases hpop : pqPop (tie 0) pq with
    | none =>
      simp only [loop, hpop, Option.some.injEq] at hrun
      intro c hc
      rw [← hrun] at hc
      simp at hc
    | some cr =>
      obtain ⟨current, pq1⟩ := cr
      obtain ⟨hmem, hrest, hmin⟩ := pqPop_some hpop
      obtain ⟨hv, hpath, hcb, hcv, hcf⟩ := hinv.pq_ok current hmem
      have hsub : ∀ e, e ∈ pq1 → e ∈ pq := fun e he => by
        rw [hrest] at he; exact List.mem_of_mem_erase he
      have hne : ∀ e, e ∈ pq → e ≠ current → e ∈ pq1 := by
        intro e he hec
        rw [hrest]; exact (List.mem_erase_of_ne hec).2 he
      by_cases hm : marked visited current.id
      · have hm' : visited.getD current.id false = true := hm
        simp only [loop, hpop, hm', if_true] at hrun
        refine ih _ _ _ _ _ r ?_ hrun
        refine ⟨hinv.vlen, hinv.clen, hinv.cost_dich, fun e he => hinv.pq_ok e (hsub e he), ?_,
          hinv.closed_min, hinv.edge_ok, hinv.start_ok⟩
        intro u hu hum hc
        obtain ⟨x, hx, hxid, hxg⟩ := hinv.open_in_pq u hu hum hc
        refine ⟨x, hne x hx ?_, hxid, hxg⟩
        intro heq
        exact hum (hxid ▸ heq ▸ hm)
      · have hm' : visited.getD current.id false = false := by
          unfold marked at hm; simpa using hm
        have hms := markedSum_set (v := visited) (i := current.id) (graph.map absWeight)
          (by rw [hinv.vlen]; exact hv) hm
        rw [getD_map_absWeight] at hms
        have htot := markedSum_le_absTotal graph (visited.set current.id true)
        have hc0 := hnn.hasPath_nonneg hpath
        have habs := absWeight_nonneg (wadj graph current.id)
        have hsm := hsmall.1
        -- the popped cost is minimal
        have hcmin : ∀ c', HasPath graph start current.id c' → current.g ≤ c' := by
          intro c' hc'
          by_cases hbig : c' < INT_MAX
          · rcases astar_path_bound hinv hwf hnn hcons hs hc' hbig with ⟨h, -⟩ | ⟨e, he, hle⟩
            · exact absurd h hm
            · have := hmin e he
              omega
          · omega
        by_cases hgoal : current.id = goal
        · simp only [loop, hpop, hm', Bool.false_eq_true, if_false, if_pos hgoal,
            Option.some.injEq] at hrun
          intro c hc
          rw [← hrun] at hc
          simp only [Outcome.found.injEq] at hc
          rw [← hc, ← hgoal]
          exact ⟨hpath, hcmin⟩
        · simp only [loop, hpop, hm', Bool.false_eq_true, if_false, if_neg hgoal] at hrun
          have hcostv : cost.getD current.id 0 = current.g := by
            rcases hinv.cost_dich current.id hv with h | ⟨h, -⟩
            · omega
            · have := hcmin _ h; omega
          have hedges : ∀ e ∈ wadj graph current.id,
              e.1 < graph.length ∧ -INT_MAX < current.g + e.2 ∧ current.g + e.2 < INT_MAX
                ∧ -INT_MAX < current.g + e.2 + heuristic.getD e.1 0
                ∧ current.g + e.2 + heuristic.getD e.1 0 < INT_MAX := by
            intro e he
            have h1 := abs_le.1 (abs_le_absWeight he)
            have h2 := hnn.wadj_nonneg he
            have h3 := hsmall.getD_abs e.1
            have h4 := abs_le.1 (le_refl |heuristic.getD e.1 0|)
            exact ⟨hwf.wadj_lt he, by omega, by omega, by omega, by omega⟩
          obtain ⟨new, h1, h2, h3, h4, h5, h6, h7⟩ :=
            astar_relax_opt heuristic current.g graph.length (wadj graph current.id) cost pq1
              hinv.clen hedges
          have hnew : ∀ x ∈ new, x.id < graph.length ∧ HasPath graph start x.id x.g
              ∧ x.g ≤ markedSum (visited.set current.id true) (graph.map absWeight) := by
            intro x hx
            obtain ⟨e, he, hx2, hx1, -⟩ := h4 x hx
            have hw := abs_le.1 (abs_le_absWeight he)
            refine ⟨hx2 ▸ hwf.wadj_lt he, ?_, by omega⟩
            rw [hx2, hx1]
            exact hpath.path_snoc he
          have hkeep : ∀ u, marked visited u ∨ u = current.id →
              (relax heuristic current.g (wadj graph current.id) (cost, pq1)).1.getD u 0
                = cost.getD u 0 := by
            intro u hu
            rcases h7 u with h | ⟨x, hx, hxu, hxg⟩
            · exact h
            · have hp := (hnew x hx).2.1
              rw [hxu, hxg] at hp
              have hle := h5 u
              rcases hu with hu | rfl
              · have := (hinv.closed_min u hu).2 _ hp
                omega
              · have := hcmin _ hp
                omega
          refine ih _ _ _ _ _ r ?_ hrun
          refine ⟨by simpa using hinv.vlen, h2, ?_, ?_, ?_, ?_, ?_,
            le_trans (h5 _) hinv.start_ok⟩
          · intro u hu
            rcases h7 u with h | ⟨x, hx, hxu, hxg⟩
            · rw [h]
              rcases hinv.cost_dich u hu with h' | ⟨h', h''⟩
              · exact Or.inl h'
              · exact Or.inr ⟨h', by omega⟩
            · obtain ⟨-, hp, hb'⟩ := hnew x hx
              rw [hxu, hxg] at hp
              rw [hxg] at hb'
              exact Or.inr ⟨hp, hb'⟩
          · intro x hx
            rw [h1] at hx
            rcases List.mem_append.1 hx with hx | hx
            · obtain ⟨a, b, c', d, e'⟩ := hinv.pq_ok x (hsub x hx)
              exact ⟨a, b, by omega, le_trans (h5 _) d, e'⟩
            · obtain ⟨a, b, c'⟩ := hnew x hx
              obtain ⟨e, he, -, -, hf, hle⟩ := h4 x hx
              exact ⟨a, b, c', hle, hf⟩
          · intro u hu hum hc
            have hum' : ¬ marked visited u := fun h => hum (marked_set_true.2 (Or.inl h))
            have huv : u ≠ current.id := fun h =>
              hum (marked_set_true.2 (Or.inr ⟨h, by rw [hinv.vlen]; exact hv⟩))
            rcases h7 u with h | ⟨x, hx, hxu, hxg⟩
            · rw [h] at hc ⊢
              obtain ⟨x, hx, hxid, hxg⟩ := hinv.open_in_pq u hu hum' hc
              refine ⟨x, ?_, hxid, hxg⟩
              rw [h1]
              apply List.mem_append_left
              apply hne x hx
              intro heq
              exact huv (by rw [← hxid, heq])
            · exact ⟨x, by rw [h1]; exact List.mem_append_right _ hx, hxu, hxg⟩
          · intro u hu
            have hu' : marked visited u ∨ u = current.id := by
              rcases marked_set_true.1 hu with h | ⟨h, -⟩
              · exact Or.inl h
              · exact Or.inr h
            rw [hkeep u hu']
            rcases hu' with h | rfl
            · exact hinv.closed_min u h
            · rw [hcostv]
              exact ⟨by simp only [INT_MAX]; omega, hcmin⟩
          · intro u hu e he
            have hu' : marked visited u ∨ u = current.id := by
              rcases marked_set_true.1 hu with h | ⟨h, -⟩
              · exact Or.inl h
              · exact Or.inr h
            rw [hkeep u hu']
            rcases hu' with h | rfl
            · obtain ⟨a, b⟩ := hinv.edge_ok u h e he
              have := h5 e.1
              have hdich := hinv.cost_dich e.1 (hwf.wadj_lt he)
              refine ⟨by omega, ?_⟩
              rcases hdich with h' | ⟨-, h''⟩
              · exact absurd h' b
              · simp only [INT_MAX]; omega
            · have := h6 e he
              have hw := abs_le.1 (abs_le_absWeight he)
              rw [hcostv]
              exact ⟨this, by simp only [INT_MAX]; omega⟩

/-- The invariant holds before the first iteration. -/
theorem optInv_init (graph : WGraph) (heuristic : List Int) (start : Nat)
    (hs : start < graph.length) :
    OptInv graph heuristic start (List.replicate graph.length false)
      ((List.replicate graph.length INT_MAX).set start 0)
      [⟨start, 0, heuristic.getD start 0⟩] := by
  have hst : ((List.replicate graph.length INT_MAX).set start 0).getD start 0 = 0 := by
    rw [getD_set_int, if_pos ⟨rfl, by simpa using hs⟩]
  have hother : ∀ v, v < graph.length → v ≠ start →
      ((List.replicate graph.length INT_MAX).set start 0).getD v 0 = INT_MAX := by
    intro v hv hvs
    rw [getD_set_int, if_neg (fun h => hvs h.1.symm),
      List.getD_eq_getElem _ _ (by simpa using hv)]
    simp
  refine ⟨by simp, by simp, ?_, ?_, ?_, ?_, ?_, by rw [hst]⟩
  · intro v hv
    by_cases hvs : v = start
    · subst hvs
      right
      rw [hst, markedSum_replicate]
      exact ⟨HasPath.path_refl _ _, le_refl _⟩
    · exact Or.inl (hother v hv hvs)
  · intro x hx
    simp at hx
    subst hx
    simp only
    rw [hst, markedSum_replicate]
    exact ⟨hs, HasPath.path_refl _ _, le_refl _, le_refl _, by simp⟩
  · intro v hv _ hc
    by_cases hvs : v = start
    · subst hvs
      exact ⟨_, List.mem_singleton_self _, rfl, by rw [hst]⟩
    · exact absurd (hother v hv hvs) hc
  · intro u hu
    exact absurd hu (not_marked_replicate _ _)
  · intro u hu
    exact absurd hu (not_marked_replicate _ _)

end AStar

/-- Run of `aStar` with a consistent heuristic on a graph with non-negative weights: when the
goal is reachable, the run ends with success and the reported cost is the minimum path cost,
whatever the tie-breaking of the heap. -/
theorem AStar.aStar_consistent_spec (graph : WGraph) (heuristic : List Int)
    (start goal fuel : Nat) (tie : Nat → Nat) (hwf : WellFormedW graph)
    (hnn : NonNegWeights graph) (hcons : Consistent graph heuristic)
    (hsmall : SmallHeuristic graph heuristic) (hs : start < graph.length)
    (hreach : Reachable graph start goal) (hfuel : edgeCount graph + 2 ≤ fuel) :
    ∃ r c, AStar.aStar fuel tie start goal graph heuristic = some r
      ∧ r.outcome = Outcome.found c ∧ IsMinCost graph start goal c := by
  obtain ⟨r, hr, hcase⟩ :=
    AStar.aStar_reach_spec graph heuristic start goal fuel tie hwf hsmall.1 hs hfuel
  rcases hcase with ⟨-, c, h, f, pre, hout, -⟩ | ⟨hn, -⟩
  · exact ⟨r, c, hr, hout, AStar.astar_loop_optimal graph heuristic start goal hwf hnn hcons
      hsmall hs fuel tie _ _ _ [] r (AStar.optInv_init graph heuristic start hs) hr c hout⟩
  · exact absurd hreach hn

/-! ## The all-zero heuristic -/

theorem getD_replicate_zero (n v : Nat) : (List.replicate n (0 : Int)).getD v 0 = 0 := by
  by_cases hv : v < n
  · rw [List.getD_eq_getElem _ _ (by simpa using hv)]
    simp
  · rw [List.getD_eq_default _ _ (by simpa using hv)]

theorem consistent_zero {graph : WGraph} (hnn : NonNegWeights graph) :
    Consistent graph (List.replicate graph.length 0) := by
  intro u _ e he
  rw [getD_replicate_zero, getD_replicate_zero]
  have := hnn.wadj_nonneg he
  omega

theorem smallHeuristic_zero {graph : WGraph} (hb : absTotal graph < INT_MAX) :
    SmallHeuristic graph (List.replicate graph.length 0) := by
  refine ⟨hb, ?_⟩
  intro x hx
  have := List.eq_of_mem_replicate hx
  subst this
  simpa using hb

theorem IsMinCost.cost_unique {graph : WGraph} {s t : Nat} {a b : Int}
    (ha : IsMinCost graph s t a) (hb : IsMinCost graph s t b) : a = b :=
  le_antisymm (ha.2 b hb.1) (hb.2 a ha.1)

/-! ## Iterative-deepening DFS: a reported target lies within the depth limit -/

namespace Iddfs

theorem dlsLoop_true
    (call : Nat → List Bool × List Event → Option (Bool × List Bool × List Event))
    (P : Nat → Prop) (hcall : ∀ nb st st1, call nb st = some (true, st1) → P nb) (ns : List Nat) :
    ∀ st st1, dlsLoop call ns st = some (true, st1) → ∃ nb ∈ ns, P nb := by
  induction ns with
  | nil => intro st st1 h; simp [dlsLoop] at h
  | cons y ys ih =>
    intro st st1 h
    by_cases hv : st.1.getD y false = true
    · simp only [dlsLoop, hv, Bool.not_true, Bool.false_eq_true, if_false] at h
      obtain ⟨nb, hnb, hp⟩ := ih st st1 h
      exact ⟨nb, List.mem_cons_of_mem _ hnb, hp⟩
    · have hv' : st.1.getD y false = false := by simpa using hv
      simp only [dlsLoop, hv', Bool.not_false, if_true] at h
      cases hc : call y st with
      | none => simp [hc] at h
      | some r =>
        obtain ⟨b, st2⟩ := r
        cases b with
        | true => exact ⟨y, List.mem_cons_self _ _, hcall y st st2 hc⟩
        | false =>
          simp only [hc] at h
          obtain ⟨nb, hnb, hp⟩ := ih st2 st1 h
          exact ⟨nb, List.mem_cons_of_mem _ hnb, hp⟩

/-- A call of `dls` that returns `true` has found a path to the target with at most `depth`
edges. -/
theorem dls_true (target : Nat) (graph : Graph) :
    ∀ (fuel node : Nat) (depth : Int) (st st1 : List Bool × List Event),
      dls target graph fuel node depth st = some (true, st1) →
      ∃ k : Nat, (k : Int) ≤ depth ∧ HasUPath graph node target k := by
  intro fuel
  induction fuel with
  | zero => intro node depth st st1 h; simp [dls] at h
  | succ fuel ih =>
    intro node depth st st1 h
    simp only [dls] at h
    by_cases hd : depth < 0
    · simp [hd] at h
    · simp only [hd, if_false] at h
      by_cases ht : node = target
      · exact ⟨0, by omega, ht ▸ HasUPath.upath_refl _ _⟩
      · simp only [ht, if_false] at h
        obtain ⟨nb, hnb, k, hk, hp⟩ := dlsLoop_true
          (fun nb s => dls target graph fuel nb (depth - 1) s)
          (fun nb => ∃ k : Nat, (k : Int) ≤ depth - 1 ∧ HasUPath graph nb target k)
          (fun nb s s1 hc => ih nb (depth - 1) s s1 hc) (adj graph node) _ st1 h
        refine ⟨k + 1, by push_cast; omega, ?_⟩
        have := (HasUPath.edge hnb).trans hp
        rwa [Nat.add_comm] at this

theorem iddfsLoop_true (rec_fuel start target : Nat) (maxDepth : Int) (graph : Graph) :
    ∀ (fuel : Nat) (depth : Int) (trace tr : List Event),
      iddfsLoop rec_fuel start target maxDepth graph fuel depth trace = some (true, tr) →
      ∃ k : Nat, (k : Int) ≤ maxDepth ∧ HasUPath graph start target k := by
  intro fuel
  induction fuel with
  | zero => intro depth trace tr h; simp [iddfsLoop] at h
  | succ fuel ih =>
    intro depth trace tr h
    simp only [iddfsLoop] at h
    by_cases hd : depth ≤ maxDepth
    · simp only [hd, if_true] at h
      cases hc : dls target graph rec_fuel start depth
          (List.replicate graph.length false, trace ++ [Event.trying depth]) with
      | none => simp [hc] at h
      | some r =>
        obtain ⟨b, st⟩ := r
        cases b with
        | true =>
          obtain ⟨k, hk, hp⟩ := dls_true target graph rec_fuel start depth _ st hc
          exact ⟨k, by omega, hp⟩
        | false =>
          simp only [hc] at h
          exact ih _ _ tr h
    · simp [hd] at h

end Iddfs

/-! ## Uniform-cost search: every addition is exact -/

namespace Ucs

/-- Forgetting the additions of `relaxAdds` gives `relax`; it records one addition per edge,
with the cost and node it was called with. -/
theorem relaxAdds_spec (node : Nat) (c : Int) (es : List Edge) :
    ∀ (cost : List Int) (pq : List (Int × Nat)) (log : List Addition),
      relaxAdds node c es (cost, pq, log)
        = ((relax c es (cost, pq)).1, (relax c es (cost, pq)).2,
            log ++ es.map (fun e => (node, c, e.2))) := by
  induction es with
  | nil => intro cost pq log; simp [relaxAdds, relax]
  | cons e es ih =>
    intro cost pq log
    obtain ⟨v, w⟩ := e
    by_cases hlt : addInt c w < cost.getD v 0
    · simp only [relaxAdds, relax, hlt, if_true]
      rw [ih]
      simp
    · simp only [relaxAdds, relax, hlt, if_false]
      rw [ih]
      simp

/-- The loop of `ucs` with additions stops; forgetting the additions gives the run of `loop`;
and every addition `(v, c, w)` has `c` the cost of an actual path to `v`, with `c + w` within
the sum of all weights. -/
theorem loopAdds_spec (graph : WGraph) (start : Nat) (hwf : WellFormedW graph)
    (hnn : NonNegWeights graph) (hb : absTotal graph < 2147483647) (hs : start < graph.length) :
    ∀ (fuel : Nat) (st : State) (log : List Addition),
      Inv graph start st.visited st.cost st.pq →
      (∀ a ∈ log, HasPath graph start a.1 a.2.1 ∧ 0 ≤ a.2.1 ∧ 0 ≤ a.2.2
        ∧ a.2.1 + a.2.2 ≤ absTotal graph) →
      st.pq.length + unmarkedSum st.visited (graph.map List.length) < fuel →
      ∃ st1 log1, loopAdds graph fuel st log = some (st1, log1)
        ∧ loop graph fuel st = some st1
        ∧ ∀ a ∈ log1, HasPath graph start a.1 a.2.1 ∧ 0 ≤ a.2.1 ∧ 0 ≤ a.2.2
            ∧ a.2.1 + a.2.2 ≤ absTotal graph := by
  intro fuel
  induction fuel with
  | zero => intro st log _ _ hf; omega
  | succ fuel ih =>
    intro st log hinv hlog hf
    cases hpop : pqPop st.pq with
    | none =>
      exact ⟨st, log, by simp only [loopAdds, hpop], by simp only [loop, hpop], hlog⟩
    | some cr =>
      obtain ⟨⟨c, v⟩, pq1⟩ := cr
      obtain ⟨hmem, hrest, -⟩ := ucs_pqPop_some hpop
      have hlen1 : pq1.length + 1 = st.pq.length := by
        rw [hrest, List.length_erase_of_mem hmem]
        have := List.length_pos_of_mem hmem
        omega
      by_cases hm : marked st.visited v
      · have hm' : st.visited.getD v false = true := hm
        have hstep : loop graph (fuel + 1) st = loop graph fuel { st with pq := pq1 } := by
          simp only [loop, hpop, hm', if_true]
        have hstepL : loopAdds graph (fuel + 1) st log
            = loopAdds graph fuel { st with pq := pq1 } log := by
          simp only [loopAdds, hpop, hm', if_true]
        rw [hstep, hstepL]
        exact ih { st with pq := pq1 } log (step_stale hinv hpop hm) hlog (by simp only; omega)
      · have hm' : st.visited.getD v false = false := by
          unfold marked at hm; simpa using hm
        obtain ⟨hv, -, new, h1, h3, -, -, hInv⟩ :=
          step_expand graph start hwf hnn hb hs hinv hpop hm
        obtain ⟨-, hpath, hcb, -⟩ := hinv.pq_ok (c, v) hmem
        simp only at hpath hcb
        have hms := markedSum_set (v := st.visited) (i := v) (graph.map absWeight)
          (by rw [hinv.vlen]; exact hv) hm
        rw [getD_map_absWeight] at hms
        have htot := markedSum_le_absTotal graph (st.visited.set v true)
        have hc0 := hnn.hasPath_nonneg hpath
        have hus := unmarkedSum_set (v := st.visited) (i := v) (graph.map List.length)
          (by rw [hinv.vlen]; exact hv) hm
        rw [getD_map_length] at hus
        have hstep : loop graph (fuel + 1) st = loop graph fuel
            { visited := st.visited.set v true,
              cost := (relax c (wadj graph v) (st.cost, pq1)).1,
              pq := (relax c (wadj graph v) (st.cost, pq1)).2,
              trace := st.trace ++ [(v, c)] } := by
          simp only [loop, hpop, hm', Bool.false_eq_true, if_false]
        have hstepL : loopAdds graph (fuel + 1) st log = loopAdds graph fuel
            { visited := st.visited.set v true,
              cost := (relax c (wadj graph v) (st.cost, pq1)).1,
              pq := (relax c (wadj graph v) (st.cost, pq1)).2,
              trace := st.trace ++ [(v, c)] }
            (log ++ (wadj graph v).map (fun e => (v, c, e.2))) := by
          simp only [loopAdds, hpop, hm', Bool.false_eq_true, if_false]
          rw [relaxAdds_spec]
        rw [hstep, hstepL]
        refine ih _ _ hInv ?_ ?_
        · intro a ha
          rcases List.mem_append.1 ha with ha | ha
          · exact hlog a ha
          · obtain ⟨e, he, rfl⟩ := List.mem_map.1 ha
            have h1 := abs_le.1 (abs_le_absWeight he)
            have h2 := hnn.wadj_nonneg he
            refine ⟨hpath, hc0, h2, ?_⟩
            show c + e.2 ≤ absTotal graph
            omega
        · simp only
          rw [h1, List.length_append]
          omega

end Ucs

/-- Run of `ucs` on a graph with non-negative weights summing to less than `INT_MAX`: it
returns, and every addition `currCost + weight` it evaluates has `currCost` the cost of an
actual path from `start`, below `INT_MAX`, and a result in `0 .. INT_MAX - 1` that the `int`
addition computes exactly. -/
theorem Ucs.ucs_additions_spec (graph : WGraph) (start fuel : Nat) (hwf : WellFormedW graph)
    (hnn : NonNegWeights graph) (hb : totalWeight graph < INT_MAX) (hs : start < graph.length)
    (hfuel : edgeCount graph + 2 ≤ fuel) :
    ∃ st log, Ucs.ucsAdds fuel start graph = some (st, log)
      ∧ Ucs.ucs fuel start graph = some st
      ∧ ∀ a ∈ log, HasPath graph start a.1 a.2.1 ∧ 0 ≤ a.2.1 ∧ a.2.1 < INT_MAX
          ∧ 0 ≤ a.2.1 + a.2.2 ∧ a.2.1 + a.2.2 < INT_MAX
          ∧ addInt a.2.1 a.2.2 = a.2.1 + a.2.2 := by
  have hIM : INT_MAX = 2147483647 := rfl
  have hb' : absTotal graph < 2147483647 := by rw [hnn.absTotal_eq]; omega
  obtain ⟨st, log, hrunL, hrun, hlog⟩ := Ucs.loopAdds_spec graph start hwf hnn hb' hs fuel
    ⟨List.replicate graph.length false, (List.replicate graph.length INT_MAX).set start 0,
      [(0, start)], []⟩ [] (Ucs.inv_init graph start hs) (by simp) (by
      simp only [List.length_singleton]
      rw [unmarkedSum_replicate _ _ (by simp)]
      unfold edgeCount at hfuel
      omega)
  refine ⟨st, log, hrunL, hrun, ?_⟩
  intro a ha
  obtain ⟨hp, h0, hw, hsum⟩ := hlog a ha
  exact ⟨hp, h0, by omega, by omega, by omega, addInt_eq (by omega) (by omega)⟩

/-! ## A*: the subscripts it uses -/

namespace AStar

/-- Forgetting the subscripts of `relaxLog` gives `relax`; the subscripts it adds are edge
destinations. -/
theorem relaxLog_spec (heuristic : List Int) (g : Int) (es : List Edge) :
    ∀ (cost : List Int) (pq : List Node) (log : List Access),
      ∃ new, relaxLog heuristic g es (cost, pq, log)
          = ((relax heuristic g es (cost, pq)).1, (relax heuristic g es (cost, pq)).2, log ++ new)
        ∧ ∀ a ∈ new, ∃ e ∈ es, a.2 = e.1 := by
  induction es with
  | nil => intro cost pq log; exact ⟨[], by simp [relaxLog, relax], by simp⟩
  | cons e es ih =>
    intro cost pq log
    obtain ⟨v, w⟩ := e
    by_cases hlt : addInt g w < cost.getD v 0
    · obtain ⟨new, h1, h2⟩ := ih (cost.set v (addInt g w))
        (pq ++ [⟨v, addInt g w, addInt (addInt g w) (heuristic.getD v 0)⟩])
        (log ++ [(Vec.heuristic, v), (Vec.cost, v)] ++ [(Vec.cost, v)])
      refine ⟨[(Vec.heuristic, v), (Vec.cost, v)] ++ [(Vec.cost, v)] ++ new, ?_, ?_⟩
      · simp only [relaxLog, relax, hlt, if_true]
        rw [h1]
        simp only [List.append_assoc]
      · intro a ha
        rcases List.mem_append.1 ha with ha | ha
        · refine ⟨(v, w), by simp, ?_⟩
          simp only [List.cons_append, List.nil_append, List.mem_cons, List.mem_singleton,
            List.not_mem_nil, or_false] at ha
          rcases ha with rfl | rfl | rfl <;> rfl
        · obtain ⟨e, he, h⟩ := h2 a ha
          exact ⟨e, by simp [he], h⟩
    · obtain ⟨new, h1, h2⟩ := ih cost pq (log ++ [(Vec.heuristic, v), (Vec.cost, v)])
      refine ⟨[(Vec.heuristic, v), (Vec.cost, v)] ++ new, ?_, ?_⟩
      · simp only [relaxLog, relax, hlt, if_false]
        rw [h1]
        simp only [List.append_assoc]
      · intro a ha
        rcases List.mem_append.1 ha with ha | ha
        · refine ⟨(v, w), by simp, ?_⟩
          simp only [List.mem_cons, List.mem_singleton, List.not_mem_nil, or_false] at ha
          rcases ha with rfl | rfl <;> rfl
        · obtain ⟨e, he, h⟩ := h2 a ha
          exact ⟨e, by simp [he], h⟩

/-- The loop of `aStar` with subscripts stops on every graph whose edge destinations are
nodes; forgetting the subscripts gives the run of `loop`, and every subscript is a node. -/
theorem loopLog_spec (graph : WGraph) (heuristic : List Int) (goal : Nat)
    (hwf : WellFormedW graph) :
    ∀ (fuel : Nat) (tie : Nat → Nat) (visited : List Bool) (cost : List Int) (pq : List Node)
      (trace : List Visit) (log : List Access), visited.length = graph.length →
      (∀ e ∈ pq, e.id < graph.length) → (∀ a ∈ log, a.2 < graph.length) →
      pq.length + unmarkedSum visited (graph.map List.length) < fuel →
      ∃ r log1, loopLog goal graph heuristic fuel tie visited cost pq trace log = some (r, log1)
        ∧ loop goal graph heuristic fuel tie visited cost pq trace = some r
        ∧ ∀ a ∈ log1, a.2 < graph.length := by
  intro fuel
  induction fuel with
  | zero => intro tie visited cost pq trace log _ _ _ hf; omega
  | succ fuel ih =>
    intro tie visited cost pq trace log hvlen hids hlog hf
    cases hpop : pqPop (tie 0) pq with
    | none =>
      exact ⟨⟨trace, Outcome.notFound⟩, log, by simp only [loopLog, hpop],
        by simp only [loop, hpop], hlog⟩
    | some cr =>
      obtain ⟨current, pq1⟩ := cr
      obtain ⟨hmem, hrest, -⟩ := pqPop_some hpop
      have hid := hids current hmem
      have hlen1 : pq1.length + 1 = pq.length := by
        rw [hrest, List.length_erase_of_mem hmem]
        have := List.length_pos_of_mem hmem
        omega
      have hsub : ∀ e, e ∈ pq1 → e ∈ pq := fun e he => by
        rw [hrest] at he; exact List.mem_of_mem_erase he
      have hlog1 : ∀ a ∈ log ++ [(Vec.visited, current.id)], a.2 < graph.length := by
        intro a ha
        rcases List.mem_append.1 ha with ha | ha
        · exact hlog a ha
        · simp only [List.mem_singleton] at ha
          rw [ha]; exact hid
      by_cases hv : marked visited current.id
      · have hv' : visited.getD current.id false = true := hv
        have hstep : loop goal graph heuristic (fuel + 1) tie visited cost pq trace
            = loop goal graph heuristic fuel (fun k => tie (k + 1)) visited cost pq1 trace := by
          simp only [loop, hpop, hv', if_true]
        have hstepL : loopLog goal graph heuristic (fuel + 1) tie visited cost pq trace log
            = loopLog goal graph heuristic fuel (fun k => tie (k + 1)) visited cost pq1 trace
                (log ++ [(Vec.visited, current.id)]) := by
          simp only [loopLog, hpop, hv', if_true]
        rw [hstep, hstepL]
        exact ih _ _ _ _ _ _ hvlen (fun e he => hids e (hsub e he)) hlog1 (by omega)
      · have hv' : visited.getD current.id false = false := by
          unfold marked at hv; simpa using hv
        have hlog2 : ∀ a ∈ log ++ [(Vec.visited, current.id)]
            ++ [(Vec.visited, current.id), (Vec.heuristic, current.id)],
            a.2 < graph.length := by
          intro a ha
          rcases List.mem_append.1 ha with ha | ha
          · exact hlog1 a ha
          · simp only [List.mem_cons, List.mem_singleton, List.not_mem_nil, or_false] at ha
            rcases ha with rfl | rfl <;> exact hid
        by_cases hgoal : current.id = goal
        · refine ⟨⟨trace ++ [(current.id, current.g, heuristic.getD current.id 0, current.f)],
            Outcome.found current.g⟩, _, ?_, ?_, hlog2⟩
          · simp only [loopLog, hpop, hv', Bool.false_eq_true, if_false, if_pos hgoal]
          · simp only [loop, hpop, hv', Bool.false_eq_true, if_false, if_pos hgoal]
        · have hus := unmarkedSum_set (v := visited) (i := current.id) (graph.map List.length)
            (by rw [hvlen]; exact hid) hv
          rw [getD_map_length] at hus
          obtain ⟨new, h1, h2, h3⟩ :=
            relax_ids heuristic current.g (wadj graph current.id) cost pq1
          obtain ⟨lnew, hl1, hl2⟩ := relaxLog_spec heuristic current.g (wadj graph current.id)
            cost pq1 (log ++ [(Vec.visited, current.id)]
              ++ [(Vec.visited, current.id), (Vec.heuristic, current.id)]
              ++ [(Vec.graph, current.id)])
          have hstep : loop goal graph heuristic (fuel + 1) tie visited cost pq trace
              = loop goal graph heuristic fuel (fun k => tie (k + 1))
                  (visited.set current.id true)
                  (relax heuristic current.g (wadj graph current.id) (cost, pq1)).1
                  (relax heuristic current.g (wadj graph current.id) (cost, pq1)).2
                  (trace ++ [(current.id, current.g, heuristic.getD current.id 0, current.f)]) := by
            simp only [loop, hpop, hv', Bool.false_eq_true, if_false, if_neg hgoal]
          have hstepL : loopLog goal graph heuristic (fuel + 1) tie visited cost pq trace log
              = loopLog goal graph heuristic fuel (fun k => tie (k + 1))
                  (visited.set current.id true)
                  (relax heuristic current.g (wadj graph current.id) (cost, pq1)).1
                  (relax heuristic current.g (wadj graph current.id) (cost, pq1)).2
                  (trace ++ [(current.id, current.g, heuristic.getD current.id 0, current.f)])
                  (log ++ [(Vec.visited, current.id)]
                    ++ [(Vec.visited, current.id), (Vec.heuristic, current.id)]
                    ++ [(Vec.graph, current.id)] ++ lnew) := by
            simp only [loopLog, hpop, hv', Bool.false_eq_true, if_false, if_neg hgoal]
            rw [hl1]
          rw [hstep, hstepL]
          refine ih (fun k => tie (k + 1)) _ _ _ _ _ (by simpa using hvlen) ?_ ?_ ?_
          · intro e he
            rw [h1] at he
            rcases List.mem_append.1 he with he | he
            · exact hids e (hsub e he)
            · obtain ⟨ed, hed, hid'⟩ := h3 e he
              exact hid' ▸ hwf.wadj_lt hed
          · intro a ha
            rcases List.mem_append.1 ha with ha | ha
            · rcases List.mem_append.1 ha with ha | ha
              · exact hlog2 a ha
              · simp only [List.mem_singleton] at ha
                rw [ha]; exact hid
            · obtain ⟨ed, hed, hid'⟩ := hl2 a ha
              exact hid' ▸ hwf.wadj_lt hed
          · rw [h1, List.length_append]; omega

end AStar

/-! ## Greedy best-first search: termination and completeness -/

namespace Greedy

theorem greedy_pqPop_none {pick : Nat} {pq : List Node} (h : pqPop pick pq = none) : pq = [] := by
  cases pq with
  | nil => rfl
  | cons x xs => simp [pqPop] at h

theorem greedy_pqPop_some {pick : Nat} {pq : List Node} {c : Node} {rest : List Node}
    (h : pqPop pick pq = some (c, rest)) : c ∈ pq ∧ rest = pq.erase c := by
  cases pq with
  | nil => simp [pqPop] at h
  | cons x xs =>
    simp only [pqPop, Option.some.injEq, Prod.mk.injEq] at h
    obtain ⟨hc, hrest⟩ := h
    have hmem : c ∈ x :: xs := by
      rw [← hc, List.getD_eq_getElem?_getD]
      cases hget : (List.filter (fun e => decide (e.h = minH x xs)) (x :: xs))[pick %
          (List.filter (fun e => decide (e.h = minH x xs)) (x :: xs)).length]? with
      | none => simp
      | some y =>
        have h1 := List.mem_iff_getElem?.2 ⟨_, hget⟩
        have h2 := (List.mem_filter.1 h1).1
        simpa using h2
    exact ⟨hmem, by rw [← hrest, hc]⟩

/-- The `for` loop appends entries for neighbours only, at most one per edge, and every
neighbour that is not closed gets one. -/
theorem expand_spec (heuristic : List Int) (visited : List Bool) (es : List Edge) :
    ∀ pq : List Node, ∃ new, expand heuristic visited es pq = pq ++ new
      ∧ new.length ≤ es.length
      ∧ (∀ x ∈ new, ∃ e ∈ es, x.id = e.1)
      ∧ (∀ e ∈ es, marked visited e.1 ∨ ∃ x ∈ new, x.id = e.1) := by
  induction es with
  | nil => intro pq; exact ⟨[], by simp [expand], by simp, by simp, by simp⟩
  | cons e es ih =>
    intro pq
    obtain ⟨v, w⟩ := e
    by_cases hv : marked visited v
    · have hv' : visited.getD v false = true := hv
      obtain ⟨new, h1, h2, h3, h4⟩ := ih pq
      refine ⟨new, ?_, ?_, ?_, ?_⟩
      · simp only [expand, hv', Bool.not_true, Bool.false_eq_true, if_false]
        exact h1
      · simp only [List.length_cons]; omega
      · intro x hx
        obtain ⟨e, he, h⟩ := h3 x hx
        exact ⟨e, by simp [he], h⟩
      · intro e he
        rcases List.mem_cons.1 he with rfl | he
        · exact Or.inl hv
        · exact h4 e he
    · have hv' : visited.getD v false = false := by
        unfold marked at hv; simpa using hv
      obtain ⟨new, h1, h2, h3, h4⟩ := ih (pq ++ [⟨v, heuristic.getD v 0⟩])
      refine ⟨⟨v, heuristic.getD v 0⟩ :: new, ?_, ?_, ?_, ?_⟩
      · simp only [expand, hv', Bool.not_false, if_true]
        rw [h1]; simp
      · simp only [List.length_cons]; omega
      · intro x hx
        rcases List.mem_cons.1 hx with rfl | hx
        · exact ⟨(v, w), by simp, rfl⟩
        · obtain ⟨e, he, h⟩ := h3 x hx
          exact ⟨e, by simp [he], h⟩
      · intro e he
        rcases List.mem_cons.1 he with rfl | he
        · exact Or.inr ⟨⟨v, heuristic.getD v 0⟩, by simp, rfl⟩
        · rcases h4 e he with h | ⟨x, hx, h⟩
          · exact Or.inl h
          · exact Or.inr ⟨x, by simp [hx], h⟩

theorem inv_init_greedy (graph : WGraph) (heuristic : List Int) (start goal : Nat)
    (hs : start < graph.length) :
    Inv graph start goal (List.replicate graph.length false)
      [⟨start, heuristic.getD start 0⟩] [] where
  vlen := by simp
  pq_ok := by
    intro x hx
    simp only [List.mem_singleton] at hx
    rw [hx]
    exact ⟨hs, Reachable.reach_refl graph start⟩
  closed := fun u hu => absurd hu (not_marked_replicate _ u)
  start_ok := Or.inr ⟨⟨start, heuristic.getD start 0⟩, List.mem_singleton.2 rfl, rfl⟩
  goal_open := not_marked_replicate _ goal
  trace_marked := by simp
  trace_nodup := by simp

end Greedy

/-! ## Greedy best-first search: the loop -/

namespace Greedy

/-- Dropping a popped entry whose node is already closed keeps the invariant. -/
theorem inv_stale {graph : WGraph} {start goal : Nat} {visited : List Bool} {pq : List Node}
    {trace : List (Nat × Int)} {c : Node} (hinv : Inv graph start goal visited pq trace)
    (hm : marked visited c.id) : Inv graph start goal visited (pq.erase c) trace where
  vlen := hinv.vlen
  pq_ok := fun x hx => hinv.pq_ok x (List.mem_of_mem_erase hx)
  closed := by
    intro u hu e he
    rcases hinv.closed u hu e he with h | ⟨x, hx, hxe⟩
    · exact Or.inl h
    · by_cases hxc : x = c
      · exact Or.inl (by rw [← hxe, hxc]; exact hm)
      · exact Or.inr ⟨x, (List.mem_erase_of_ne hxc).2 hx, hxe⟩
  start_ok := by
    rcases hinv.start_ok with h | ⟨x, hx, hxe⟩
    · exact Or.inl h
    · by_cases hxc : x = c
      · exact Or.inl (by rw [← hxe, hxc]; exact hm)
      · exact Or.inr ⟨x, (List.mem_erase_of_ne hxc).2 hx, hxe⟩
  goal_open := hinv.goal_open
  trace_marked := hinv.trace_marked
  trace_nodup := hinv.trace_nodup

/-- Printing the popped node keeps the printed nodes pairwise distinct. -/
theorem trace_nodup_snoc {graph : WGraph} {start goal : Nat} {visited : List Bool}
    {pq : List Node} {trace : List (Nat × Int)} (hinv : Inv graph start goal visited pq trace)
    {v : Nat} (hm : ¬ marked visited v) (h : Int) :
    ((trace ++ [(v, h)]).map Prod.fst).Nodup := by
  rw [List.map_append, List.map_singleton]
  refine List.Nodup.append hinv.trace_nodup (List.nodup_singleton _) ?_
  intro x hx hx'
  simp only [List.mem_singleton] at hx'
  obtain ⟨ev, hev, rfl⟩ := List.mem_map.1 hx
  exact hm (hx' ▸ hinv.trace_marked ev hev)

/-- Closing a popped node other than the goal and queueing its open neighbours keeps the
invariant. -/
theorem inv_expand {graph : WGraph} {start goal : Nat} {visited : List Bool} {pq : List Node}
    {trace : List (Nat × Int)} {c : Node} (heuristic : List Int) (hwf : WellFormedW graph)
    (hinv : Inv graph start goal visited pq trace) (hc : c ∈ pq) (hm : ¬ marked visited c.id)
    (hg : c.id ≠ goal) :
    Inv graph start goal (visited.set c.id true)
      (expand heuristic (visited.set c.id true) (wadj graph c.id) (pq.erase c))
      (trace ++ [(c.id, heuristic.getD c.id 0)]) := by
  obtain ⟨hid, hreach⟩ := hinv.pq_ok c hc
  have hidv : c.id < visited.length := by rw [hinv.vlen]; exact hid
  obtain ⟨new, h1, -, h3, h4⟩ :=
    expand_spec heuristic (visited.set c.id true) (wadj graph c.id) (pq.erase c)
  have hmono : ∀ x, marked visited x → marked (visited.set c.id true) x :=
    fun x hx => marked_set_true.2 (Or.inl hx)
  have hnode : marked (visited.set c.id true) c.id := marked_set_true.2 (Or.inr ⟨rfl, hidv⟩)
  have hkeep : ∀ x ∈ pq, ∀ t, x.id = t → marked (visited.set c.id true) t
      ∨ ∃ y ∈ pq.erase c ++ new, y.id = t := by
    intro x hx t hxt
    by_cases hxc : x = c
    · exact Or.inl (by rw [← hxt, hxc]; exact hnode)
    · exact Or.inr ⟨x, List.mem_append_left _ ((List.mem_erase_of_ne hxc).2 hx), hxt⟩
  rw [h1]
  refine ⟨by simpa using hinv.vlen, ?_, ?_, ?_, ?_, ?_, trace_nodup_snoc hinv hm _⟩
  · intro x hx
    rcases List.mem_append.1 hx with hx | hx
    · exact hinv.pq_ok x (List.mem_of_mem_erase hx)
    · obtain ⟨e, he, hxe⟩ := h3 x hx
      rw [hxe]
      exact ⟨hwf.wadj_lt he, hreach.reach_step he⟩
  · intro u hu e he
    rcases marked_set_true.1 hu with hu | ⟨hu, -⟩
    · rcases hinv.closed u hu e he with h | ⟨x, hx, hxe⟩
      · exact Or.inl (hmono _ h)
      · exact hkeep x hx _ hxe
    · rw [hu] at he
      rcases h4 e he with h | ⟨x, hx, hxe⟩
      · exact Or.inl h
      · exact Or.inr ⟨x, List.mem_append_right _ hx, hxe⟩
  · rcases hinv.start_ok with h | ⟨x, hx, hxe⟩
    · exact Or.inl (hmono _ h)
    · exact hkeep x hx _ hxe
  · intro h
    rcases marked_set_true.1 h with h | ⟨h, -⟩
    · exact hinv.goal_open h
    · exact hg h.symm
  · intro ev hev
    rcases List.mem_append.1 hev with hev | hev
    · exact hmono _ (hinv.trace_marked ev hev)
    · simp only [List.mem_singleton] at hev
      rw [hev]; exact hnode

/-- The loop of `greedyBestFirstSearch` stops; it reports the goal exactly when the goal is
reachable from `start`, and the nodes it prints are pairwise distinct nodes of the graph. -/
theorem greedy_loop_spec (graph : WGraph) (heuristic : List Int) (start goal : Nat)
    (hwf : WellFormedW graph) :
    ∀ (fuel : Nat) (tie : Nat → Nat) (visited : List Bool) (pq : List Node)
      (trace : List (Nat × Int)), Inv graph start goal visited pq trace →
      pq.length + unmarkedSum visited (graph.map List.length) < fuel →
      ∃ r, loop goal graph heuristic fuel tie visited pq trace = some r
        ∧ (r.reached = true ↔ Reachable graph start goal)
        ∧ (r.trace.map Prod.fst).Nodup
        ∧ ∀ ev ∈ r.trace, ev.1 < graph.length := by
  intro fuel
  induction fuel with
  | zero => intro tie visited pq trace _ hf; omega
  | succ fuel ih =>
    intro tie visited pq trace hinv hf
    have hnodes : ∀ (v : List Bool) (tr : List (Nat × Int)), v.length = graph.length →
        (∀ ev ∈ tr, marked v ev.1) → ∀ ev ∈ tr, ev.1 < graph.length :=
      fun v tr hv h ev hev => hv ▸ marked_lt (h ev hev)
    cases hpop : pqPop (tie 0) pq with
    | none =>
      have hpq := greedy_pqPop_none hpop
      refine ⟨⟨trace, false⟩, by simp only [loop, hpop], ?_, hinv.trace_nodup,
        hnodes _ _ hinv.vlen hinv.trace_marked⟩
      have hnot : ¬ Reachable graph start goal := by
        intro hr
        have hstart : marked visited start := by
          rcases hinv.start_ok with h | ⟨x, hx, -⟩
          · exact h
          · rw [hpq] at hx; simp at hx
        refine hinv.goal_open (hr.reach_closed (P := fun x => marked visited x) hstart ?_)
        intro u e hu he
        rcases hinv.closed u hu e he with h | ⟨x, hx, -⟩
        · exact h
        · rw [hpq] at hx; simp at hx
      simp [hnot]
    | some cr =>
      obtain ⟨current, pq1⟩ := cr
      obtain ⟨hmem, hrest⟩ := greedy_pqPop_some hpop
      obtain ⟨hid, hreach⟩ := hinv.pq_ok current hmem
      have hlen1 : pq1.length + 1 = pq.length := by
        rw [hrest, List.length_erase_of_mem hmem]
        have := List.length_pos_of_mem hmem
        omega
      by_cases hv : marked visited current.id
      · have hv' : visited.getD current.id false = true := hv
        have hstep : loop goal graph heuristic (fuel + 1) tie visited pq trace
            = loop goal graph heuristic fuel (fun k => tie (k + 1)) visited pq1 trace := by
          simp only [loop, hpop, hv', if_true]
        rw [hstep, hrest]
        exact ih _ _ _ _ (inv_stale hinv hv) (by rw [← hrest]; omega)
      · have hv' : visited.getD current.id false = false := by
          unfold marked at hv; simpa using hv
        by_cases hgoal : current.id = goal
        · refine ⟨⟨trace ++ [(current.id, heuristic.getD current.id 0)], true⟩, ?_, ?_,
            trace_nodup_snoc hinv hv _, ?_⟩
          · simp only [loop, hpop, hv', Bool.false_eq_true, if_false, if_pos hgoal]
          · simp only [true_iff]
            exact hgoal ▸ hreach
          · intro ev hev
            rcases List.mem_append.1 hev with hev | hev
            · exact hnodes _ _ hinv.vlen hinv.trace_marked ev hev
            · simp only [List.mem_singleton] at hev
              rw [hev]; exact hid
        · have hus := unmarkedSum_set (v := visited) (i := current.id) (graph.map List.length)
            (by rw [hinv.vlen]; exact hid) hv
          rw [getD_map_length] at hus
          obtain ⟨new, h1, h2, -, -⟩ := expand_spec heuristic (visited.set current.id true)
            (wadj graph current.id) pq1
          have hstep : loop goal graph heuristic (fuel + 1) tie visited pq trace
              = loop goal graph heuristic fuel (fun k => tie (k + 1))
                  (visited.set current.id true)
                  (expand heuristic (visited.set current.id true) (wadj graph current.id) pq1)
                  (trace ++ [(current.id, heuristic.getD current.id 0)]) := by
            simp only [loop, hpop, hv', Bool.false_eq_true, if_false, if_neg hgoal]
          rw [hstep]
          refine ih _ _ _ _ (hrest ▸ inv_expand heuristic hwf hinv hmem hv hgoal) ?_
          rw [h1, List.length_append]
          omega

end Greedy

/-! ## A*: every cost it handles is the cost of a path -/

namespace AStar

/-- Whatever the heuristic, the `g` of every queue entry, of every visit event and of the final
report is the total weight of a path from `start`, as long as the absolute edge weights sum to
less than `INT_MAX`. -/
theorem astar_loop_paths (graph : WGraph) (heuristic : List Int) (start goal : Nat)
    (hwf : WellFormedW graph) (hb : absTotal graph < INT_MAX) :
    ∀ (fuel : Nat) (tie : Nat → Nat) (visited : List Bool) (cost : List Int) (pq : List Node)
      (trace : List Visit) (r : Result), visited.length = graph.length →
      cost.length = graph.length →
      (∀ x ∈ pq, x.id < graph.length ∧ HasPath graph start x.id x.g
        ∧ |x.g| ≤ markedSum visited (graph.map absWeight)) →
      (∀ ev ∈ trace, HasPath graph start ev.1 ev.2.1) →
      loop goal graph heuristic fuel tie visited cost pq trace = some r →
      (∀ ev ∈ r.trace, HasPath graph start ev.1 ev.2.1)
        ∧ ∀ c, r.outcome = Outcome.found c → HasPath graph start goal c := by
  have hIM : INT_MAX = 2147483647 := rfl
  intro fuel
  induction fuel with
  | zero => intro tie visited cost pq trace r _ _ _ _ h; simp [loop] at h
  | succ fuel ih =>
    intro tie visited cost pq trace r hvlen hclen hpq htr hrun
    cases hpop : pqPop (tie 0) pq with
    | none =>
      simp only [loop, hpop, Option.some.injEq] at hrun
      rw [← hrun]
      exact ⟨htr, fun c hc => by simp at hc⟩
    | some cr =>
      obtain ⟨current, pq1⟩ := cr
      obtain ⟨hmem, hrest, -⟩ := pqPop_some hpop
      obtain ⟨hid, hpath, hg⟩ := hpq current hmem
      have hsub : ∀ e, e ∈ pq1 → e ∈ pq := fun e he => by
        rw [hrest] at he; exact List.mem_of_mem_erase he
      have htr1 : ∀ ev ∈ trace ++ [(current.id, current.g, heuristic.getD current.id 0,
          current.f)], HasPath graph start ev.1 ev.2.1 := by
        intro ev hev
        rcases List.mem_append.1 hev with hev | hev
        · exact htr ev hev
        · simp only [List.mem_singleton] at hev
          rw [hev]; exact hpath
      by_cases hv : marked visited current.id
      · have hv' : visited.getD current.id false = true := hv
        simp only [loop, hpop, hv', if_true] at hrun
        exact ih _ _ _ _ _ r hvlen hclen (fun e he => hpq e (hsub e he)) htr hrun
      · have hv' : visited.getD current.id false = false := by
          unfold marked at hv; simpa using hv
        by_cases hgoal : current.id = goal
        · simp only [loop, hpop, hv', Bool.false_eq_true, if_false, if_pos hgoal,
            Option.some.injEq] at hrun
          rw [← hrun]
          refine ⟨htr1, ?_⟩
          intro c hc
          simp only [Outcome.found.injEq] at hc
          rw [← hc, ← hgoal]
          exact hpath
        · simp only [loop, hpop, hv', Bool.false_eq_true, if_false, if_neg hgoal] at hrun
          have hms := markedSum_set (v := visited) (i := current.id) (graph.map absWeight)
            (by rw [hvlen]; exact hid) hv
          rw [getD_map_absWeight] at hms
          have htot := markedSum_le_absTotal graph (visited.set current.id true)
          have hgb := abs_le.1 hg
          have hedges : ∀ e ∈ wadj graph current.id,
              e.1 < graph.length ∧ -INT_MAX < current.g + e.2 ∧ current.g + e.2 < INT_MAX := by
            intro e he
            have h1 := abs_le.1 (abs_le_absWeight he)
            exact ⟨hwf.wadj_lt he, by omega, by omega⟩
          obtain ⟨new, h1, h2, -, h4, -, -, -⟩ :=
            astar_relax_spec heuristic current.g graph.length (wadj graph current.id) cost pq1
              hclen hedges
          refine ih _ _ _ _ _ r (by simpa using hvlen) h2 ?_ htr1 hrun
          intro e he
          rw [h1] at he
          rcases List.mem_append.1 he with he | he
          · obtain ⟨a, b, c⟩ := hpq e (hsub e he)
            have := absWeight_nonneg (wadj graph current.id)
            exact ⟨a, b, by omega⟩
          · obtain ⟨ed, hed, hid', hg'⟩ := h4 e he
            refine ⟨hid' ▸ hwf.wadj_lt hed, ?_, ?_⟩
            · rw [hid', hg']
              exact hpath.path_snoc hed
            · have hw := abs_le.1 (abs_le_absWeight hed)
              rw [hg', abs_le]
              constructor <;> omega

end AStar

/-- Run of `aStar` with any heuristic on a graph whose absolute edge weights sum to less than
`INT_MAX`: it returns, and the `g` of each visit event and the reported cost are total
weights of paths from `start`. -/
theorem AStar.aStar_paths_spec (graph : WGraph) (heuristic : List Int) (start goal fuel : Nat)
    (tie : Nat → Nat) (hwf : WellFormedW graph) (hb : absTotal graph < INT_MAX)
    (hs : start < graph.length) (hfuel : edgeCount graph + 2 ≤ fuel) :
    ∃ r, AStar.aStar fuel tie start goal graph heuristic = some r
      ∧ (∀ ev ∈ r.trace, HasPath graph start ev.1 ev.2.1)
      ∧ ∀ c, r.outcome = Outcome.found c → HasPath graph start goal c := by
  obtain ⟨r, hr⟩ := AStar.aStar_returns graph heuristic start goal fuel tie hwf hs hfuel
  refine ⟨r, hr, ?_⟩
  refine AStar.astar_loop_paths graph heuristic start goal hwf hb fuel tie _ _ _ [] r
    (by simp) (by simp) ?_ (by simp) hr
  intro e he
  simp only [List.mem_singleton] at he
  subst he
  refine ⟨hs, HasPath.path_refl _ _, ?_⟩
  simp [markedSum_replicate]

/-! ## A*: every visit event is the report of a run towards that node -/

namespace AStar

/-- The loop does not look at the goal before it pops it: a visit event `(v, g, h, f)` emitted
by a run towards `goal` is the final event of the run towards `v` from the same state, which
reports the cost `g`. -/
theorem loop_event_as_goal (graph : WGraph) (heuristic : List Int) (goal : Nat)
    (hwf : WellFormedW graph) :
    ∀ (fuel : Nat) (tie : Nat → Nat) (visited : List Bool) (cost : List Int) (pq : List Node)
      (trace : List Visit) (r : Result), visited.length = graph.length →
      (∀ x ∈ pq, x.id < graph.length) →
      loop goal graph heuristic fuel tie visited cost pq trace = some r →
      ∀ ev ∈ r.trace, ev ∈ trace ∨ (¬ marked visited ev.1
        ∧ ∃ r1, loop ev.1 graph heuristic fuel tie visited cost pq trace = some r1
            ∧ r1.outcome = Outcome.found ev.2.1) := by
  intro fuel
  induction fuel with
  | zero => intro tie visited cost pq trace r _ _ h; simp [loop] at h
  | succ fuel ih =>
    intro tie visited cost pq trace r hvlen hids hrun ev hev
    cases hpop : pqPop (tie 0) pq with
    | none =>
      simp only [loop, hpop, Option.some.injEq] at hrun
      rw [← hrun] at hev
      exact Or.inl hev
    | some cr =>
      obtain ⟨current, pq1⟩ := cr
      obtain ⟨hmem, hrest, -⟩ := pqPop_some hpop
      have hid := hids current hmem
      have hsub : ∀ e, e ∈ pq1 → e ∈ pq := fun e he => by
        rw [hrest] at he; exact List.mem_of_mem_erase he
      by_cases hv : marked visited current.id
      · have hv' : visited.getD current.id false = true := hv
        simp only [loop, hpop, hv', if_true] at hrun
        rcases ih _ _ _ _ _ r hvlen (fun e he => hids e (hsub e he)) hrun ev hev with h | h
        · exact Or.inl h
        · obtain ⟨hm, r1, hr1, hout⟩ := h
          refine Or.inr ⟨hm, r1, ?_, hout⟩
          simp only [loop, hpop, hv', if_true]
          exact hr1
      · have hv' : visited.getD current.id false = false := by
          unfold marked at hv; simpa using hv
        have hhere : ev = (current.id, current.g, heuristic.getD current.id 0, current.f) →
            ¬ marked visited ev.1
              ∧ ∃ r1, loop ev.1 graph heuristic (fuel + 1) tie visited cost pq trace = some r1
                ∧ r1.outcome = Outcome.found ev.2.1 := by
          intro h
          rw [h]
          refine ⟨hv, ⟨trace ++ [(current.id, current.g, heuristic.getD current.id 0,
            current.f)], Outcome.found current.g⟩, ?_, rfl⟩
          simp only [loop, hpop, hv', Bool.false_eq_true, if_false, if_true]
        by_cases hgoal : current.id = goal
        · simp only [loop, hpop, hv', Bool.false_eq_true, if_false, if_pos hgoal,
            Option.some.injEq] at hrun
          rw [← hrun] at hev
          rcases List.mem_append.1 hev with hev | hev
          · exact Or.inl hev
          · exact Or.inr (hhere (List.mem_singleton.1 hev))
        · simp only [loop, hpop, hv', Bool.false_eq_true, if_false, if_neg hgoal] at hrun
          obtain ⟨new, h1, -, h3⟩ :=
            relax_ids heuristic current.g (wadj graph current.id) cost pq1
          have hids1 : ∀ x ∈ (relax heuristic current.g (wadj graph current.id) (cost, pq1)).2,
              x.id < graph.length := by
            intro e he
            rw [h1] at he
            rcases List.mem_append.1 he with he | he
            · exact hids e (hsub e he)
            · obtain ⟨ed, hed, hid'⟩ := h3 e he
              exact hid' ▸ hwf.wadj_lt hed
          rcases ih _ _ _ _ _ r (by simpa using hvlen) hids1 hrun ev hev with h | h
          · rcases List.mem_append.1 h with h | h
            · exact Or.inl h
            · exact Or.inr (hhere (List.mem_singleton.1 h))
          · obtain ⟨hm, r1, hr1, hout⟩ := h
            have hne : current.id ≠ ev.1 := fun heq =>
              hm (marked_set_true.2 (Or.inr ⟨heq.symm, by rw [hvlen]; exact hid⟩))
            refine Or.inr ⟨fun h => hm (marked_set_true.2 (Or.inl h)), r1, ?_, hout⟩
            simp only [loop, hpop, hv', Bool.false_eq_true, if_false, if_neg hne]
            exact hr1

end AStar

/-- Run of `aStar` with a consistent heuristic on a graph with non-negative weights: the goal,
if reachable, is reported with its minimum path cost, and every visit event carries the
minimum path cost of its node. -/
theorem AStar.aStar_first_pop_spec (graph : WGraph) (heuristic : List Int)
    (start goal fuel : Nat) (tie : Nat → Nat) (hwf : WellFormedW graph)
    (hnn : NonNegWeights graph) (hcons : Consistent graph heuristic)
    (hsmall : SmallHeuristic graph heuristic) (hs : start < graph.length)
    (hreach : Reachable graph start goal) (hfuel : edgeCount graph + 2 ≤ fuel) :
    ∃ r c, AStar.aStar fuel tie start goal graph heuristic = some r
      ∧ r.outcome = Outcome.found c ∧ IsMinCost graph start goal c
      ∧ ∀ ev ∈ r.trace, IsMinCost graph start ev.1 ev.2.1 := by
  obtain ⟨r, c, hr, hout, hmin⟩ := AStar.aStar_consistent_spec graph heuristic start goal fuel
    tie hwf hnn hcons hsmall hs hreach hfuel
  refine ⟨r, c, hr, hout, hmin, ?_⟩
  intro ev hev
  rcases AStar.loop_event_as_goal graph heuristic goal hwf fuel tie _ _ _ [] r (by simp)
    (by intro x hx; simp only [List.mem_singleton] at hx; rw [hx]; exact hs) hr ev hev
    with h | ⟨-, r1, hr1, hout1⟩
  · simp at h
  · exact AStar.astar_loop_optimal graph heuristic start ev.1 hwf hnn hcons hsmall hs fuel tie
      _ _ _ [] r1 (AStar.optInv_init graph heuristic start hs) hr1 _ hout1

/-! ## Iterative-deepening DFS: a pass whose limit covers all nodes is a full DFS -/

namespace Iddfs

/-- The loop of `dls` over the neighbours `ns`, given the behaviour `ih` of the recursive calls:
it returns; it only adds marks; and if it returns `false` while the depth left for the calls is
at least the number of unmarked nodes minus one, then every neighbour is marked afterwards and
every node marked on the way is not the target and has all its neighbours marked. -/
theorem dlsLoop_full (target : Nat) (graph : Graph) (fuel : Nat) (depth : Int)
    (ih : ∀ (node : Nat) (v : List Bool) (tr : List Event), node < graph.length →
      v.length = graph.length → ¬ marked v node → unmarkedCount v ≤ fuel →
      ∃ b v1 tr1, dls target graph fuel node depth (v, tr) = some (b, v1, tr1)
        ∧ v1.length = graph.length ∧ (∀ x, marked v x → marked v1 x)
        ∧ (b = false → (unmarkedCount v : Int) ≤ depth + 1 →
            marked v1 node ∧ ∀ x, marked v1 x →
              marked v x ∨ (x ≠ target ∧ ∀ y ∈ adj graph x, marked v1 y)))
    (ns : List Nat) (hns : ∀ y ∈ ns, y < graph.length) :
    ∀ (v : List Bool) (tr : List Event), v.length = graph.length → unmarkedCount v ≤ fuel →
      ∃ b v1 tr1, dlsLoop (fun nb s => dls target graph fuel nb depth s) ns (v, tr)
          = some (b, v1, tr1)
        ∧ v1.length = graph.length ∧ (∀ x, marked v x → marked v1 x)
        ∧ (b = false → (unmarkedCount v : Int) ≤ depth + 1 →
            (∀ y ∈ ns, marked v1 y) ∧ ∀ x, marked v1 x →
              marked v x ∨ (x ≠ target ∧ ∀ y ∈ adj graph x, marked v1 y)) := by
  induction ns with
  | nil =>
    intro v tr hlen _
    exact ⟨false, v, tr, by simp [dlsLoop], hlen, fun _ h => h,
      fun _ _ => ⟨by simp, fun x hx => Or.inl hx⟩⟩
  | cons y ys ihl =>
    intro v tr hlen hf
    have hy : y < graph.length := hns y (by simp)
    have hys : ∀ z ∈ ys, z < graph.length := fun z hz => hns z (by simp [hz])
    by_cases hm : marked v y
    · have hm' : v.getD y false = true := hm
      obtain ⟨b, v1, tr1, h1, h2, h3, h4⟩ := ihl hys v tr hlen hf
      refine ⟨b, v1, tr1, ?_, h2, h3, ?_⟩
      · simp only [dlsLoop, hm', Bool.not_true, Bool.false_eq_true, if_false]
        exact h1
      · intro hb hbud
        obtain ⟨h5, h6⟩ := h4 hb hbud
        refine ⟨?_, h6⟩
        intro z hz
        rcases List.mem_cons.1 hz with rfl | hz
        · exact h3 _ hm
        · exact h5 z hz
    · have hm' : v.getD y false = false := by
        unfold marked at hm; simpa using hm
      obtain ⟨b1, v', tr', hc, hlen', hmono', hpost'⟩ := ih y v tr hy hlen hm hf
      cases b1 with
      | true =>
        refine ⟨true, v', tr', ?_, hlen', hmono', fun hb => by simp at hb⟩
        simp only [dlsLoop, hm', Bool.not_false, if_true, hc]
      | false =>
        have hcnt := unmarkedCount_le_of_mono (by rw [hlen, hlen']) hmono'
        obtain ⟨b, v1, tr1, h1, h2, h3, h4⟩ := ihl hys v' tr' hlen' (by omega)
        refine ⟨b, v1, tr1, ?_, h2, fun x hx => h3 x (hmono' x hx), ?_⟩
        · simp only [dlsLoop, hm', Bool.not_false, if_true, hc]
          exact h1
        · intro hb hbud
          obtain ⟨hy1, hcl1⟩ := hpost' rfl hbud
          obtain ⟨h5, h6⟩ := h4 hb (by omega)
          refine ⟨?_, ?_⟩
          · intro z hz
            rcases List.mem_cons.1 hz with rfl | hz
            · exact h3 _ hy1
            · exact h5 z hz
          · intro x hx
            rcases h6 x hx with h | h
            · rcases hcl1 x h with h' | ⟨h', h''⟩
              · exact Or.inl h'
              · exact Or.inr ⟨h', fun z hz => h3 z (h'' z hz)⟩
            · exact Or.inr h

/-- A call of `dls` on an unmarked node returns, given fuel for the unmarked nodes; it only
adds marks; and if it returns `false` although its depth limit is at least the number of
unmarked nodes minus one, it has explored everything: the node is marked and every node it
marked is not the target and has all its neighbours marked. -/
theorem dls_full (target : Nat) (graph : Graph) (hwf : WellFormed graph) :
    ∀ (fuel : Nat) (depth : Int) (node : Nat) (v : List Bool) (tr : List Event),
      node < graph.length → v.length = graph.length → ¬ marked v node →
      unmarkedCount v ≤ fuel →
      ∃ b v1 tr1, dls target graph fuel node depth (v, tr) = some (b, v1, tr1)
        ∧ v1.length = graph.length ∧ (∀ x, marked v x → marked v1 x)
        ∧ (b = false → (unmarkedCount v : Int) ≤ depth + 1 →
            marked v1 node ∧ ∀ x, marked v1 x →
              marked v x ∨ (x ≠ target ∧ ∀ y ∈ adj graph x, marked v1 y)) := by
  intro fuel
  induction fuel with
  | zero =>
    intro depth node v tr hn hlen hm hf
    have := unmarkedCount_pos (by omega) hm
    omega
  | succ fuel ih =>
    intro depth node v tr hn hlen hm hf
    have hpos := unmarkedCount_pos (v := v) (i := node) (by omega) hm
    by_cases hd : depth < 0
    · refine ⟨false, v, tr, by simp only [dls, hd, if_true], hlen, fun _ h => h, ?_⟩
      intro _ hbud
      omega
    · by_cases ht : node = target
      · refine ⟨true, v, tr ++ [Event.found node], ?_, hlen, fun _ h => h,
          fun hb => by simp at hb⟩
        simp only [dls, hd, if_false, ht, if_true]
      · have hcnt := unmarkedCount_set (v := v) (i := node) (by omega) hm
        have hmn : marked (v.set node true) node := marked_set_true.2 (Or.inr ⟨rfl, by omega⟩)
        obtain ⟨b, v1, tr1, h1, h2, h3, h4⟩ :=
          dlsLoop_full target graph fuel (depth - 1) (ih (depth - 1)) (adj graph node)
            (fun y hy => hwf.adj_lt hy) (v.set node true) (tr ++ [Event.visited node depth])
            (by simpa using hlen) (by omega)
        refine ⟨b, v1, tr1, ?_, h2, fun x hx => h3 x (marked_set_true.2 (Or.inl hx)), ?_⟩
        · simp only [dls, hd, if_false, ht]
          exact h1
        · intro hb hbud
          obtain ⟨h5, h6⟩ := h4 hb (by omega)
          refine ⟨h3 _ hmn, ?_⟩
          intro x hx
          rcases h6 x hx with h | h
          · rcases marked_set_true.1 h with h' | ⟨h', -⟩
            · exact Or.inl h'
            · exact Or.inr ⟨h' ▸ ht, h' ▸ h5⟩
          · exact Or.inr h

/-- Every pass of `iddfs` returns; a pass whose limit is at least the number of nodes minus one
and that returns `false` shows that the target is not reachable. -/
theorem dls_pass (target : Nat) (graph : Graph) (hwf : WellFormed graph) (start : Nat)
    (hs : start < graph.length) (rec_fuel : Nat) (hrec : graph.length ≤ rec_fuel)
    (depth : Int) (tr : List Event) :
    ∃ b st, dls target graph rec_fuel start depth (List.replicate graph.length false, tr)
        = some (b, st)
      ∧ (b = false → (graph.length : Int) ≤ depth + 1 → ¬ UReachable graph start target) := by
  obtain ⟨b, v1, tr1, h1, -, -, h4⟩ := dls_full target graph hwf rec_fuel depth start
    (List.replicate graph.length false) tr hs (by simp) (not_marked_replicate _ _)
    (by rw [unmarkedCount_replicate]; exact hrec)
  refine ⟨b, (v1, tr1), h1, ?_⟩
  intro hb hbud hreach
  rw [unmarkedCount_replicate] at h4
  obtain ⟨hst, hcl⟩ := h4 hb hbud
  have hstep : ∀ u v, marked v1 u → v ∈ adj graph u → marked v1 v := by
    intro u v hu hv
    rcases hcl u hu with h | ⟨-, h⟩
    · exact absurd h (not_marked_replicate _ _)
    · exact h v hv
  have ht : marked v1 target := hreach.ureach_closed (P := fun x => marked v1 x) hst hstep
  rcases hcl target ht with h | ⟨h, -⟩
  · exact not_marked_replicate _ _ h
  · exact h rfl

/-- When the target is reachable, the passes up to the limit `n - 1` include one that returns
`true`. -/
theorem iddfsLoop_reachable (rec_fuel start target : Nat) (maxDepth : Int) (graph : Graph)
    (hwf : WellFormed graph) (hs : start < graph.length) (hrec : graph.length ≤ rec_fuel)
    (hmax : (graph.length : Int) - 1 ≤ maxDepth) (hint : maxDepth ≤ INT_MAX)
    (hreach : UReachable graph start target) :
    ∀ (k fuel : Nat) (depth : Int) (trace : List Event), 0 ≤ depth →
      depth + k = (graph.length : Int) - 1 → k + 1 ≤ fuel →
      ∃ tr, iddfsLoop rec_fuel start target maxDepth graph fuel depth trace = some (true, tr) := by
  have hIM : INT_MAX = 2147483647 := rfl
  intro k
  induction k with
  | zero =>
    intro fuel depth trace h0 hk hf
    obtain ⟨f, rfl⟩ : ∃ f, fuel = f + 1 := ⟨fuel - 1, by omega⟩
    obtain ⟨b, st, hc, hpost⟩ := dls_pass target graph hwf start hs rec_fuel hrec depth
      (trace ++ [Event.trying depth])
    have hd : depth ≤ maxDepth := by omega
    cases b with
    | true => exact ⟨st.2, by simp only [iddfsLoop, hd, if_true, hc]⟩
    | false => exact absurd hreach (hpost rfl (by omega))
  | succ k ihk =>
    intro fuel depth trace h0 hk hf
    obtain ⟨f, rfl⟩ : ∃ f, fuel = f + 1 := ⟨fuel - 1, by omega⟩
    obtain ⟨b, st, hc, -⟩ := dls_pass target graph hwf start hs rec_fuel hrec depth
      (trace ++ [Event.trying depth])
    have hd : depth ≤ maxDepth := by omega
    cases b with
    | true => exact ⟨st.2, by simp only [iddfsLoop, hd, if_true, hc]⟩
    | false =>
      have hadd : addInt depth 1 = depth + 1 := addInt_eq (by omega) (by omega)
      obtain ⟨tr, htr⟩ := ihk f (depth + 1) st.2 (by omega) (by push_cast at hk ⊢; omega)
        (by omega)
      exact ⟨tr, by simp only [iddfsLoop, hd, if_true, hc, hadd]; exact htr⟩

/-- When the target is not reachable and the limit is below `INT_MAX`, all passes return
`false` and so does the loop. -/
theorem iddfsLoop_unreachable (rec_fuel start target : Nat) (maxDepth : Int) (graph : Graph)
    (hwf : WellFormed graph) (hs : start < graph.length) (hrec : graph.length ≤ rec_fuel)
    (hint : maxDepth < INT_MAX) (hreach : ¬ UReachable graph start target) :
    ∀ (k fuel : Nat) (depth : Int) (trace : List Event), 0 ≤ depth →
      depth + k = maxDepth + 1 → k + 1 ≤ fuel →
      ∃ tr, iddfsLoop rec_fuel start target maxDepth graph fuel depth trace
        = some (false, tr) := by
  have hIM : INT_MAX = 2147483647 := rfl
  intro k
  induction k with
  | zero =>
    intro fuel depth trace h0 hk hf
    obtain ⟨f, rfl⟩ : ∃ f, fuel = f + 1 := ⟨fuel - 1, by omega⟩
    have hd : ¬ depth ≤ maxDepth := by omega
    exact ⟨trace, by simp only [iddfsLoop, hd, if_false]⟩
  | succ k ihk =>
    intro fuel depth trace h0 hk hf
    obtain ⟨f, rfl⟩ : ∃ f, fuel = f + 1 := ⟨fuel - 1, by omega⟩
    obtain ⟨b, st, hc, -⟩ := dls_pass target graph hwf start hs rec_fuel hrec depth
      (trace ++ [Event.trying depth])
    have hd : depth ≤ maxDepth := by omega
    cases b with
    | true =>
      obtain ⟨j, -, hp⟩ := dls_true target graph rec_fuel start depth _ st hc
      exact absurd ⟨j, hp⟩ hreach
    | false =>
      have hadd : addInt depth 1 = depth + 1 := addInt_eq (by omega) (by omega)
      obtain ⟨tr, htr⟩ := ihk f (depth + 1) st.2 (by omega) (by push_cast at hk ⊢; omega)
        (by omega)
      exact ⟨tr, by simp only [iddfsLoop, hd, if_true, hc, hadd]; exact htr⟩

end Iddfs

/-! ## A*: the evaluation value of every pushed entry -/

namespace AStar

/-- Forgetting the pushed entries of `relaxPush` gives `relax`; the entries it records are the
ones `relax` appends to the queue. -/
theorem relaxPush_spec (heuristic : List Int) (g : Int) (es : List Edge) :
    ∀ (cost : List Int) (pq pushed : List Node),
      ∃ new, (relax heuristic g es (cost, pq)).2 = pq ++ new
        ∧ relaxPush heuristic g es (cost, pq, pushed)
          = ((relax heuristic g es (cost, pq)).1, (relax heuristic g es (cost, pq)).2,
              pushed ++ new) := by
  induction es with
  | nil => intro cost pq pushed; exact ⟨[], by simp [relax], by simp [relaxPush, relax]⟩
  | cons e es ih =>
    intro cost pq pushed
    obtain ⟨v, w⟩ := e
    by_cases hlt : addInt g w < cost.getD v 0
    · obtain ⟨new, h1, h2⟩ := ih (cost.set v (addInt g w))
        (pq ++ [⟨v, addInt g w, addInt (addInt g w) (heuristic.getD v 0)⟩])
        (pushed ++ [⟨v, addInt g w, addInt (addInt g w) (heuristic.getD v 0)⟩])
      refine ⟨⟨v, addInt g w, addInt (addInt g w) (heuristic.getD v 0)⟩ :: new, ?_, ?_⟩
      · simp only [relax, hlt, if_true]
        rw [h1]; simp
      · simp only [relaxPush, relax, hlt, if_true]
        rw [h2]; simp
    · obtain ⟨new, h1, h2⟩ := ih cost pq pushed
      refine ⟨new, ?_, ?_⟩
      · simp only [relax, hlt, if_false]
        exact h1
      · simp only [relaxPush, relax, hlt, if_false]
        exact h2

/-- With absolute weights and heuristic entries small enough for the `int` range, the loop of
`aStar` with pushes stops; forgetting the pushes gives the run of `loop`; every visit event
`(v, g, h, f)` has `h = heuristic[v]` and `f = g + heuristic[v]` over the integers, and every
pushed entry `(id, g, f)` has `f = g + heuristic[id]`. -/
theorem loopPush_spec (graph : WGraph) (heuristic : List Int) (goal : Nat)
    (hwf : WellFormedW graph) (hsmall : SmallHeuristic graph heuristic) :
    ∀ (fuel : Nat) (tie : Nat → Nat) (visited : List Bool) (cost : List Int) (pq : List Node)
      (trace : List Visit) (pushed : List Node), visited.length = graph.length →
      cost.length = graph.length →
      (∀ x ∈ pq, x.id < graph.length ∧ |x.g| ≤ markedSum visited (graph.map absWeight)
        ∧ x.f = x.g + heuristic.getD x.id 0) →
      (∀ ev ∈ trace, ev.2.2.1 = heuristic.getD ev.1 0
        ∧ ev.2.2.2 = ev.2.1 + heuristic.getD ev.1 0) →
      (∀ x ∈ pushed, x.f = x.g + heuristic.getD x.id 0) →
      pq.length + unmarkedSum visited (graph.map List.length) < fuel →
      ∃ r pushed1, loopPush goal graph heuristic fuel tie visited cost pq trace pushed
          = some (r, pushed1)
        ∧ loop goal graph heuristic fuel tie visited cost pq trace = some r
        ∧ (∀ ev ∈ r.trace, ev.2.2.1 = heuristic.getD ev.1 0
            ∧ ev.2.2.2 = ev.2.1 + heuristic.getD ev.1 0)
        ∧ ∀ x ∈ pushed1, x.f = x.g + heuristic.getD x.id 0 := by
  have hIM : INT_MAX = 2147483647 := rfl
  intro fuel
  induction fuel with
  | zero => intro tie visited cost pq trace pushed _ _ _ _ _ hf; omega
  | succ fuel ih =>
    intro tie visited cost pq trace pushed hvlen hclen hpq htr hpushed hf
    cases hpop : pqPop (tie 0) pq with
    | none =>
      exact ⟨⟨trace, Outcome.notFound⟩, pushed, by simp only [loopPush, hpop],
        by simp only [loop, hpop], htr, hpushed⟩
    | some cr =>
      obtain ⟨current, pq1⟩ := cr
      obtain ⟨hmem, hrest, -⟩ := pqPop_some hpop
      obtain ⟨hid, hg, hfg⟩ := hpq current hmem
      have hlen1 : pq1.length + 1 = pq.length := by
        rw [hrest, List.length_erase_of_mem hmem]
        have := List.length_pos_of_mem hmem
        omega
      have hsub : ∀ e, e ∈ pq1 → e ∈ pq := fun e he => by
        rw [hrest] at he; exact List.mem_of_mem_erase he
      have htr1 : ∀ ev ∈ trace ++ [(current.id, current.g, heuristic.getD current.id 0,
          current.f)], ev.2.2.1 = heuristic.getD ev.1 0
            ∧ ev.2.2.2 = ev.2.1 + heuristic.getD ev.1 0 := by
        intro ev hev
        rcases List.mem_append.1 hev with hev | hev
        · exact htr ev hev
        · simp only [List.mem_singleton] at hev
          rw [hev]
          exact ⟨rfl, hfg⟩
      by_cases hv : marked visited current.id
      · have hv' : visited.getD current.id false = true := hv
        have hstep : loop goal graph heuristic (fuel + 1) tie visited cost pq trace
            = loop goal graph heuristic fuel (fun k => tie (k + 1)) visited cost pq1 trace := by
          simp only [loop, hpop, hv', if_true]
        have hstepP : loopPush goal graph heuristic (fuel + 1) tie visited cost pq trace pushed
            = loopPush goal graph heuristic fuel (fun k => tie (k + 1)) visited cost pq1 trace
                pushed := by
          simp only [loopPush, hpop, hv', if_true]
        rw [hstep, hstepP]
        exact ih _ _ _ _ _ _ hvlen hclen (fun e he => hpq e (hsub e he)) htr hpushed (by omega)
      · have hv' : visited.getD current.id false = false := by
          unfold marked at hv; simpa using hv
        by_cases hgoal : current.id = goal
        · refine ⟨⟨trace ++ [(current.id, current.g, heuristic.getD current.id 0, current.f)],
            Outcome.found current.g⟩, pushed, ?_, ?_, htr1, hpushed⟩
          · simp only [loopPush, hpop, hv', Bool.false_eq_true, if_false, if_pos hgoal]
          · simp only [loop, hpop, hv', Bool.false_eq_true, if_false, if_pos hgoal]
        · have hms := markedSum_set (v := visited) (i := current.id) (graph.map absWeight)
            (by rw [hvlen]; exact hid) hv
          rw [getD_map_absWeight] at hms
          have hus := unmarkedSum_set (v := visited) (i := current.id) (graph.map List.length)
            (by rw [hvlen]; exact hid) hv
          rw [getD_map_length] at hus
          have htot := markedSum_le_absTotal graph (visited.set current.id true)
          have hgb := abs_le.1 hg
          have hedges : ∀ e ∈ wadj graph current.id,
              e.1 < graph.length ∧ -INT_MAX < current.g + e.2 ∧ current.g + e.2 < INT_MAX
                ∧ -INT_MAX < current.g + e.2 + heuristic.getD e.1 0
                ∧ current.g + e.2 + heuristic.getD e.1 0 < INT_MAX := by
            intro e he
            have h1 := abs_le.1 (abs_le_absWeight he)
            have h3 := hsmall.getD_abs e.1
            have h4 := abs_le.1 (le_refl |heuristic.getD e.1 0|)
            have h5 := hsmall.1
            exact ⟨hwf.wadj_lt he, by omega, by omega, by omega, by omega⟩
          obtain ⟨new, h1, h2, h3, h4, -, -, -⟩ :=
            astar_relax_opt heuristic current.g graph.length (wadj graph current.id) cost pq1
              hclen hedges
          obtain ⟨new1, hn1, hn2⟩ := relaxPush_spec heuristic current.g (wadj graph current.id)
            cost pq1 pushed
          have hnew : new1 = new := List.append_cancel_left (hn1.symm.trans h1)
          rw [hnew] at hn2
          have hstep : loop goal graph heuristic (fuel + 1) tie visited cost pq trace
              = loop goal graph heuristic fuel (fun k => tie (k + 1))
                  (visited.set current.id true)
                  (relax heuristic current.g (wadj graph current.id) (cost, pq1)).1
                  (relax heuristic current.g (wadj graph current.id) (cost, pq1)).2
                  (trace ++ [(current.id, current.g, heuristic.getD current.id 0, current.f)]) := by
            simp only [loop, hpop, hv', Bool.false_eq_true, if_false, if_neg hgoal]
          have hstepP : loopPush goal graph heuristic (fuel + 1) tie visited cost pq trace pushed
              = loopPush goal graph heuristic fuel (fun k => tie (k + 1))
                  (visited.set current.id true)
                  (relax heuristic current.g (wadj graph current.id) (cost, pq1)).1
                  (relax heuristic current.g (wadj graph current.id) (cost, pq1)).2
                  (trace ++ [(current.id, current.g, heuristic.getD current.id 0, current.f)])
                  (pushed ++ new) := by
            simp only [loopPush, hpop, hv', Bool.false_eq_true, if_false, if_neg hgoal]
            rw [hn2]
          rw [hstep, hstepP]
          refine ih _ _ _ _ _ _ (by simpa using hvlen) h2 ?_ htr1 ?_ ?_
          · intro e he
            rw [h1] at he
            rcases List.mem_append.1 he with he | he
            · obtain ⟨a, b, c⟩ := hpq e (hsub e he)
              have := absWeight_nonneg (wadj graph current.id)
              exact ⟨a, by omega, c⟩
            · obtain ⟨ed, hed, hid', hg', hf', -⟩ := h4 e he
              refine ⟨hid' ▸ hwf.wadj_lt hed, ?_, hf'⟩
              have hw := abs_le.1 (abs_le_absWeight hed)
              rw [hg', abs_le]
              constructor <;> omega
          · intro e he
            rcases List.mem_append.1 he with he | he
            · exact hpushed e he
            · obtain ⟨ed, hed, -, -, hf', -⟩ := h4 e he
              exact hf'
          · rw [h1, List.length_append]
            omega

end AStar

/-- Run of `aStar` with absolute weights and heuristic entries small enough for the `int`
range: it returns, its visit events carry `h = heuristic[v]` and `f = g + heuristic[v]`, and
every entry it pushes has `f = g + heuristic[id]`, the sums being taken over the integers. -/
theorem AStar.aStar_push_spec (graph : WGraph) (heuristic : List Int) (start goal fuel : Nat)
    (tie : Nat → Nat) (hwf : WellFormedW graph) (hsmall : SmallHeuristic graph heuristic)
    (hs : start < graph.length) (hfuel : edgeCount graph + 2 ≤ fuel) :
    ∃ r pushed, AStar.aStarPush fuel tie start goal graph heuristic = some (r, pushed)
      ∧ AStar.aStar fuel tie start goal graph heuristic = some r
      ∧ (∀ ev ∈ r.trace, ev.2.2.1 = heuristic.getD ev.1 0
          ∧ ev.2.2.2 = ev.2.1 + heuristic.getD ev.1 0)
      ∧ ∀ x ∈ pushed, x.f = x.g + heuristic.getD x.id 0 := by
  refine AStar.loopPush_spec graph heuristic goal hwf hsmall fuel tie
    (List.replicate graph.length false) ((List.replicate graph.length INT_MAX).set start 0)
    [⟨start, 0, heuristic.getD start 0⟩] [] [⟨start, 0, heuristic.getD start 0⟩]
    (by simp) (by simp) ?_ (by simp) ?_ ?_
  · intro x hx
    simp only [List.mem_singleton] at hx
    rw [hx]
    refine ⟨hs, ?_, by simp⟩
    simp [markedSum_replicate]
  · intro x hx
    simp only [List.mem_singleton] at hx
    rw [hx]
    simp
  · simp only [List.length_singleton]
    rw [unmarkedSum_replicate _ _ (by simp)]
    unfold edgeCount at hfuel
    omega

/-! ## Claims C6 and C7: BFS and DFS visit exactly the reachable nodes -/

/-- C6: called on a well-formed graph with an all-false `visited` vector, `bfs` terminates and
the sequence of nodes it prints contains every node reachable from `start` exactly once and no
node that is unreachable from `start`. -/
theorem bfs_visits_exactly_reachable (graph : Graph) (start fuel : Nat)
    (hwf : WellFormed graph) (hs : start < graph.length) (hfuel : graph.length ≤ fuel) :
    ∃ visited trace,
      Bfs.bfs fuel start graph (List.replicate graph.length false) = some (visited, trace)
        ∧ (∀ v, UReachable graph start v → trace.count v = 1)
        ∧ (∀ v, ¬ UReachable graph start v → trace.count v = 0) := by
  obtain ⟨visited, trace, hrun, hnd, hmem⟩ := Bfs.bfs_trace_spec graph start fuel hwf hs hfuel
  exact ⟨visited, trace, hrun, fun v hv => List.count_eq_one_of_mem hnd ((hmem v).2 hv),
    fun v hv => List.count_eq_zero_of_not_mem (fun h => hv ((hmem v).1 h))⟩

/-- Witness for C6 on the sample graph of the demo `main`. -/
theorem bfs_visits_exactly_reachable_witness :
    ∃ visited trace,
      Bfs.bfs 6 0 sampleGraph (List.replicate sampleGraph.length false) = some (visited, trace)
        ∧ (∀ v, UReachable sampleGraph 0 v → trace.count v = 1)
        ∧ (∀ v, ¬ UReachable sampleGraph 0 v → trace.count v = 0) :=
  bfs_visits_exactly_reachable sampleGraph 0 6 (by unfold WellFormed; decide) (by decide)
    (by decide)

/-- C7: called on a well-formed graph (cyclic or not) with an all-false `visited` vector, `dfs`
terminates and the sequence of nodes it prints contains every node reachable from `start`
exactly once and no unreachable node; hence `bfs` and `dfs` from the same start print the same
set of nodes. -/
theorem dfs_visits_exactly_reachable (graph : Graph) (start fuel : Nat)
    (hwf : WellFormed graph) (hs : start < graph.length) (hfuel : graph.length ≤ fuel) :
    ∃ visited trace,
      Dfs.dfs graph fuel start (List.replicate graph.length false, []) = some (visited, trace)
        ∧ (∀ v, UReachable graph start v → trace.count v = 1)
        ∧ (∀ v, ¬ UReachable graph start v → trace.count v = 0)
        ∧ ∃ bvisited btrace,
            Bfs.bfs fuel start graph (List.replicate graph.length false)
              = some (bvisited, btrace)
            ∧ ∀ v, v ∈ trace ↔ v ∈ btrace := by
  obtain ⟨visited, trace, hrun, hnd, hmem⟩ := Dfs.dfs_trace_spec graph start fuel hwf hs hfuel
  obtain ⟨bvisited, btrace, hbrun, -, hbmem⟩ := Bfs.bfs_trace_spec graph start fuel hwf hs hfuel
  exact ⟨visited, trace, hrun, fun v hv => List.count_eq_one_of_mem hnd ((hmem v).2 hv),
    fun v hv => List.count_eq_zero_of_not_mem (fun h => hv ((hmem v).1 h)),
    bvisited, btrace, hbrun, fun v => by rw [hmem, hbmem]⟩

/-- Witness for C7 on the sample graph of the demo `main`. -/
theorem dfs_visits_exactly_reachable_witness :
    ∃ visited trace,
      Dfs.dfs sampleGraph 6 0 (List.replicate sampleGraph.length false, []) = some (visited, trace)
        ∧ (∀ v, UReachable sampleGraph 0 v → trace.count v = 1)
        ∧ (∀ v, ¬ UReachable sampleGraph 0 v → trace.count v = 0)
        ∧ ∃ bvisited btrace,
            Bfs.bfs 6 0 sampleGraph (List.replicate sampleGraph.length false)
              = some (bvisited, btrace)
            ∧ ∀ v, v ∈ trace ↔ v ∈ btrace :=
  dfs_visits_exactly_reachable sampleGraph 0 6 (by unfold WellFormed; decide) (by decide)
    (by decide)

/-! ## Claims C2, C5 and C10: defects shown on concrete inputs -/

/-- C2 (the code departs from the claim): `detourGraph` has non-negative weights, `detourH` is
admissible for goal 3 and the minimum path cost from 0 to 3 is 12, yet `aStar` reports total
cost 13 whatever way ties are broken, because node 2 is closed at cost 3 and never re-opened. -/
theorem aStar_admissible_not_optimal :
    NonNegWeights detourGraph ∧ Admissible detourGraph detourH 3
      ∧ IsMinCost detourGraph 0 3 12
      ∧ ∀ tie, (AStar.aStar 6 tie 0 3 detourGraph detourH).map (fun r => r.outcome)
          = some (Outcome.found 13) :=
  ⟨by unfold NonNegWeights; decide, detourH_admissible, detourGraph_minCost, detourGraph_aStar⟩

/-- C5 (the code departs from the claim): in `triangleGraph` node 3 is at distance 2 from node
0, yet `iddfs` with `maxDepth = 2` returns `false`, and with `maxDepth = 3` it succeeds only in
the iteration with depth limit 3, because `dls` never clears a `visited` mark. -/
theorem iddfs_misses_shortest_depth :
    IsDist triangleGraph 0 3 2
      ∧ (Iddfs.iddfs 4 5 0 3 2 triangleGraph).map (fun r => r.1) = some false
      ∧ (Iddfs.iddfs 5 5 0 3 3 triangleGraph).map (fun r => (r.1, Iddfs.lastLimit r.2))
          = some (true, some 3) :=
  ⟨triangleGraph_dist, by decide, by decide⟩

/-- C10 (the code departs from the claim): on `detourGraph` with the admissible heuristic
`detourH`, start 0 and goal 3, `idaStar` reports total cost 12 while `aStar` reports 13. -/
theorem idaStar_aStar_costs_differ :
    NonNegWeights detourGraph ∧ Admissible detourGraph detourH 3 ∧ Reachable detourGraph 0 3
      ∧ (IdaStar.idaStar 3 4 0 3 detourGraph detourH).map (fun r => r.outcome)
          = some (Outcome.found 12)
      ∧ ∀ tie, (AStar.aStar 6 tie 0 3 detourGraph detourH).map (fun r => r.outcome)
          = some (Outcome.found 13) :=
  ⟨by unfold NonNegWeights; decide, detourH_admissible, ⟨12, detourGraph_minCost.1⟩,
    detourGraph_idaStar, detourGraph_aStar⟩

/-! ## Claim C8: A* reports the goal exactly when it is reachable -/

/-- C8 as stated fails: in `heavyEdge` node 1 is reachable from node 0 through an edge of
weight `INT_MAX`, yet `aStar` ends with the "goal cannot be reached" outcome, since a new cost
equal to the `INT_MAX` sentinel is not an improvement. -/
theorem aStar_misses_reachable_goal :
    Reachable heavyEdge 0 1
      ∧ ∀ tie, AStar.aStar 3 tie 0 1 heavyEdge [0, 0]
          = some ⟨[(0, 0, 0, 0)], Outcome.notFound⟩ := by
  refine ⟨⟨2147483647, [(1, 2147483647)], by simp [IsWalk, wadj, heavyEdge], rfl, rfl⟩, ?_⟩
  intro tie
  have h : AStar.aStarDet 3 0 1 heavyEdge [0, 0] = some ⟨[(0, 0, 0, 0)], Outcome.notFound⟩ := by
    decide
  exact AStar.aStar_of_aStarDet h tie

/-- C8 (amended): for every graph whose edge destinations are nodes and whose edge weights have
absolute values summing to less than `INT_MAX`, every heuristic table with one entry per
node (admissible or not), every valid start and every tie-breaking rule, `aStar` terminates; its outcome is "goal cannot
be reached" exactly when the goal is not reachable from start, and otherwise it is success,
the last visit event being the goal. -/
theorem aStar_notFound_iff_unreachable (graph : WGraph) (heuristic : List Int)
    (start goal fuel : Nat) (tie : Nat → Nat) (hwf : WellFormedW graph)
    (hb : absTotal graph < INT_MAX) (_hh : heuristic.length = graph.length)
    (hs : start < graph.length) (hfuel : edgeCount graph + 2 ≤ fuel) :
    ∃ r, AStar.aStar fuel tie start goal graph heuristic = some r
      ∧ (r.outcome = Outcome.notFound ↔ ¬ Reachable graph start goal)
      ∧ (Reachable graph start goal → ∃ c h f pre, r.outcome = Outcome.found c
          ∧ r.trace = pre ++ [(goal, c, h, f)]) := by
  obtain ⟨r, hr, hcase⟩ := AStar.aStar_reach_spec graph heuristic start goal fuel tie hwf hb hs hfuel
  refine ⟨r, hr, ?_, ?_⟩
  · rcases hcase with ⟨hreach, c, h, f, pre, hout, -⟩ | ⟨hn, hout⟩
    · rw [hout]
      exact ⟨fun h => (by cases h), fun h => absurd hreach h⟩
    · exact ⟨fun _ => hn, fun _ => hout⟩
  · intro hreach
    rcases hcase with ⟨-, c, h, f, pre, hout, htr⟩ | ⟨hn, -⟩
    · exact ⟨c, h, f, pre, hout, htr⟩
    · exact absurd hreach hn

/-- Witness for C8 (amended) on the sample graph and heuristic of the demo `main`. -/
theorem aStar_notFound_iff_unreachable_witness :
    ∃ r, AStar.aStar 9 (fun _ => 0) 0 5 sampleWGraph sampleH = some r
      ∧ (r.outcome = Outcome.notFound ↔ ¬ Reachable sampleWGraph 0 5)
      ∧ (Reachable sampleWGraph 0 5 → ∃ c h f pre, r.outcome = Outcome.found c
          ∧ r.trace = pre ++ [(5, c, h, f)]) :=
  aStar_notFound_iff_unreachable sampleWGraph sampleH 0 5 9 (fun _ => 0)
    (by unfold WellFormedW; decide) (by decide) (by decide) (by decide) (by decide)

/-! ## Claim C1: the cost table of uniform-cost search -/

/-- C1 as stated fails: `heavyGraph` has non-negative weights and node 2 is reachable from
node 0 with minimum path cost `2147483648`, yet the cost table of `ucs` still holds the
sentinel `INT_MAX = 2147483647` for node 2 (node 1, reached at cost `INT_MAX`, is never
queued). -/
theorem ucs_sentinel_hides_reachable_node :
    NonNegWeights heavyGraph ∧ IsMinCost heavyGraph 0 2 2147483648
      ∧ (Ucs.ucs 5 0 heavyGraph).map (fun st => st.cost)
          = some [0, 2147483647, 2147483647] :=
  ⟨by unfold NonNegWeights; decide, heavyGraph_minCost, by decide⟩

/-- C1 (amended): for every graph whose edge destinations are nodes and whose edge weights are
non-negative and sum to less than `INT_MAX`, and every valid start node, `ucs` terminates and
its cost table holds 0 for start, the minimum total weight over all paths from start for each
reachable node, and the sentinel `INT_MAX` for every node that is not reachable. -/
theorem ucs_cost_table_minimal (graph : WGraph) (start fuel : Nat) (hwf : WellFormedW graph)
    (hnn : NonNegWeights graph) (hb : totalWeight graph < INT_MAX) (hs : start < graph.length)
    (hfuel : edgeCount graph + 2 ≤ fuel) :
    ∃ st, Ucs.ucs fuel start graph = some st
      ∧ st.cost.getD start 0 = 0
      ∧ (∀ v, Reachable graph start v → IsMinCost graph start v (st.cost.getD v 0))
      ∧ (∀ v, v < graph.length → ¬ Reachable graph start v → st.cost.getD v 0 = INT_MAX) := by
  obtain ⟨st, hrun, hmin, hinf⟩ := Ucs.ucs_cost_spec graph start fuel hwf hnn hb hs hfuel
  refine ⟨st, hrun, ?_, hmin, hinf⟩
  obtain ⟨hp, hle⟩ := hmin start (Reachable.reach_refl _ _)
  have h1 := hle 0 (HasPath.path_refl _ _)
  have h2 := hnn.hasPath_nonneg hp
  omega

/-- Witness for C1 (amended) on the sample graph of the demo `main`. -/
theorem ucs_cost_table_minimal_witness :
    ∃ st, Ucs.ucs 16 0 sampleUcsGraph = some st
      ∧ st.cost.getD 0 0 = 0
      ∧ (∀ v, Reachable sampleUcsGraph 0 v → IsMinCost sampleUcsGraph 0 v (st.cost.getD v 0))
      ∧ (∀ v, v < sampleUcsGraph.length → ¬ Reachable sampleUcsGraph 0 v →
          st.cost.getD v 0 = INT_MAX) :=
  ucs_cost_table_minimal sampleUcsGraph 0 16 (by unfold WellFormedW; decide)
    (by unfold NonNegWeights; decide) (by decide) (by decide) (by decide)

/-! ## Claims C3 and C9: iterative-deepening A* -/

/-- C3 as stated fails, on two inputs with non-negative weights and the all-zero heuristic
(non-negative and admissible). In `heavyEdge` goal 1 is reachable from node 0 (minimum cost
`INT_MAX`), yet `idaStar` reports no cost at all: the pruned value `f = INT_MAX` coincides with
the sentinel `INF`, so the run ends with "goal not found"; no addition overflows in this run.
In `wrapGraph` the minimum cost from 0 to 2 is `2147483648`; the 32-bit sum `g + cost` wraps
around and `idaStar` reaches the goal reporting cost `-2147483648`. -/
theorem idaStar_unbounded_weights_counterexample :
    (NonNegWeights heavyEdge ∧ (∀ x ∈ ([0, 0] : List Int), 0 ≤ x)
      ∧ Admissible heavyEdge [0, 0] 1 ∧ IsMinCost heavyEdge 0 1 2147483647
      ∧ IdaStar.idaStar 3 3 0 1 heavyEdge [0, 0]
          = some ⟨[0], [(0, 0, 0, 0)], Outcome.notFound⟩)
    ∧ (NonNegWeights wrapGraph ∧ (∀ x ∈ ([0, 0, 0] : List Int), 0 ≤ x)
      ∧ Admissible wrapGraph [0, 0, 0] 2 ∧ IsMinCost wrapGraph 0 2 2147483648
      ∧ (IdaStar.idaStar 3 3 0 2 wrapGraph [0, 0, 0]).map (fun r => r.outcome)
          = some (Outcome.found (-2147483648))) := by
  refine ⟨⟨by unfold NonNegWeights; decide, by decide, ?_, ?_, by decide⟩,
    ⟨by unfold NonNegWeights; decide, by decide, ?_, ?_, by decide⟩⟩
  · exact admissible_of_potential [-2147483647, 0] 2 (by decide) (by decide) (by decide)
      (by decide) (by decide)
  · refine ⟨⟨[(1, 2147483647)], by simp [IsWalk, wadj, heavyEdge], rfl, rfl⟩, ?_⟩
    intro c hc
    have := potential_hasPath heavyEdge [0, 2147483647] (by decide) hc
    simpa using this
  · exact admissible_of_potential [-2147483648, -1073741824, 0] 3 (by decide) (by decide)
      (by decide) (by decide) (by decide)
  · refine ⟨⟨[(1, 1073741824), (2, 1073741824)], by simp [IsWalk, wadj, wrapGraph], rfl, rfl⟩, ?_⟩
    intro c hc
    have := potential_hasPath wrapGraph [0, 1073741824, 2147483648] (by decide) hc
    simpa using this

/-- C3 (amended): for every graph with edge destinations among its nodes and non-negative edge
weights, every admissible heuristic table with one non-negative entry per node such that the
sum of all edge weights plus any entry stays below `INT_MAX`, every valid start and every goal
reachable from start, `idaStar` terminates reporting a cost, and that cost is the minimum path
cost from start to goal. -/
theorem idaStar_cost_optimal (graph : WGraph) (heuristic : List Int) (start goal : Nat)
    (iters depth : Nat) (hwf : WellFormedW graph) (hnn : NonNegWeights graph)
    (hbh : BoundedHeuristic graph heuristic) (hs : start < graph.length)
    (hadm : Admissible graph heuristic goal) (hreach : Reachable graph start goal)
    (hiters : iterBound graph heuristic ≤ iters) (hdepth : graph.length ≤ depth) :
    ∃ r c, IdaStar.idaStar iters depth start goal graph heuristic = some r
      ∧ r.outcome = Outcome.found c ∧ IsMinCost graph start goal c := by
  obtain ⟨r, hrun, hcase⟩ :=
    IdaStar.idaStar_spec graph heuristic start goal iters depth hwf hnn hbh hs hiters hdepth
  rcases hcase with ⟨c, hout, hpath, hbound⟩ | ⟨-, hn⟩
  · refine ⟨r, c, hrun, hout, hpath, ?_⟩
    intro c' hc'
    obtain ⟨p, hp, hend, hcost⟩ := hc'
    obtain ⟨q, hq, hqend, hnd, hle⟩ := exists_simple_walk hnn p start hp
    have h1 := hbound q hq (hqend.trans hend) hnd
    have h2 := maxF_le_of_admissible hadm q 0 start hq (hqend.trans hend)
    have h3 := (hbh.getD_bounds goal).1
    omega
  · exact absurd hreach hn

/-- Witness for C3 (amended) on `detourGraph` with the admissible heuristic `detourH`. -/
theorem idaStar_cost_optimal_witness :
    ∃ r c, IdaStar.idaStar 28 4 0 3 detourGraph detourH = some r
      ∧ r.outcome = Outcome.found c ∧ IsMinCost detourGraph 0 3 c :=
  idaStar_cost_optimal detourGraph detourH 0 3 28 4 (by unfold WellFormedW; decide)
    (by unfold NonNegWeights; decide) (by unfold BoundedHeuristic; decide) (by decide)
    detourH_admissible ⟨12, detourGraph_minCost.1⟩ (by decide) (by decide)

/-- C9 as stated fails: `lightEdge` has non-negative weights and the heuristic
`[0, 2147483642]` is non-negative, node 1 is reachable from node 0, yet `idaStar` ends with
"goal not found": node 1 is pruned with `f = 5 + 2147483642 = INT_MAX`, which the outer loop
cannot tell from the sentinel `INF`. -/
theorem idaStar_notFound_though_reachable :
    NonNegWeights lightEdge ∧ (∀ x ∈ ([0, 2147483642] : List Int), 0 ≤ x)
      ∧ Reachable lightEdge 0 1
      ∧ IdaStar.idaStar 3 3 0 1 lightEdge [0, 2147483642]
          = some ⟨[0], [(0, 0, 0, 0)], Outcome.notFound⟩ :=
  ⟨by unfold NonNegWeights; decide, by decide,
    ⟨5, [(1, 5)], by simp [IsWalk, wadj, lightEdge], rfl, rfl⟩, by decide⟩

/-- C9 (amended): for every graph with edge destinations among its nodes and non-negative edge
weights, every heuristic table with one non-negative entry per node such that the sum of all
edge weights plus any entry stays below `INT_MAX`, and every valid start, the outer loop of
`idaStar` terminates (within `iterBound` iterations, each recursing at most as deep as there
are nodes), and its outcome is "goal not found" exactly when the goal is not reachable. -/
theorem idaStar_terminates_notFound_iff (graph : WGraph) (heuristic : List Int)
    (start goal : Nat) (iters depth : Nat) (hwf : WellFormedW graph)
    (hnn : NonNegWeights graph) (hbh : BoundedHeuristic graph heuristic)
    (hs : start < graph.length) (hiters : iterBound graph heuristic ≤ iters)
    (hdepth : graph.length ≤ depth) :
    ∃ r, IdaStar.idaStar iters depth start goal graph heuristic = some r
      ∧ (r.outcome = Outcome.notFound ↔ ¬ Reachable graph start goal) := by
  obtain ⟨r, hrun, hcase⟩ :=
    IdaStar.idaStar_spec graph heuristic start goal iters depth hwf hnn hbh hs hiters hdepth
  refine ⟨r, hrun, ?_⟩
  rcases hcase with ⟨c, hout, hpath, -⟩ | ⟨hout, hn⟩
  · rw [hout]
    exact ⟨fun h => (by cases h), fun h => absurd ⟨c, hpath⟩ h⟩
  · exact ⟨fun _ => hn, fun _ => hout⟩

/-- Witness for C9 (amended) on the sample graph and heuristic of the demo `main`. -/
theorem idaStar_terminates_notFound_iff_witness :
    ∃ r, IdaStar.idaStar 25 6 0 5 sampleWGraph sampleH = some r
      ∧ (r.outcome = Outcome.notFound ↔ ¬ Reachable sampleWGraph 0 5) :=
  idaStar_terminates_notFound_iff sampleWGraph sampleH 0 5 25 6 (by unfold WellFormedW; decide)
    (by unfold NonNegWeights; decide) (by unfold BoundedHeuristic; decide) (by decide)
    (by decide) (by decide)

/-! ## Claim C4: bidirectional BFS finds a shortest path -/

theorem exists_isDist {graph : Graph} {s t : Nat} (h : UReachable graph s t) :
    ∃ d, IsDist graph s t d := by
  classical
  exact ⟨Nat.find h, Nat.find_spec h, fun k hk => Nat.find_min' h hk⟩

theorem symmetric_of_check {graph : Graph}
    (h : ∀ u, u < graph.length → ∀ v ∈ adj graph u, u ∈ adj graph v) : Symmetric graph := by
  intro u v hv
  by_cases hu : u < graph.length
  · exact h u hu v hv
  · unfold adj at hv
    rw [List.getD_eq_default _ _ (by omega)] at hv
    simp at hv

/-- C4: for every symmetric adjacency list (with every listed neighbour a node of the graph)
and every pair of valid nodes `start ≠ goal` with goal reachable from start, the unweighted
distance `d` from start to goal exists, and `bidirectionalBFS`, given at least `d` rounds of
fuel, returns `true` and prints `start` followed by the nodes of a walk of the graph from
start to goal with exactly `d` edges. -/
theorem bidirectionalBFS_shortest (graph : Graph) (start goal : Nat) (hwf : WellFormed graph)
    (hsym : Symmetric graph) (hs : start < graph.length) (hg : goal < graph.length)
    (hne : start ≠ goal) (hreach : UReachable graph start goal) :
    ∃ d, IsDist graph start goal d ∧ ∀ fuel path_fuel, d ≤ fuel → d ≤ path_fuel →
      ∃ m p, Bidirectional.bidirectionalBFS fuel path_fuel graph start goal
          = some (some (m, start :: p))
        ∧ p.length = d ∧ IsUWalk graph start p ∧ uwalkEnd start p = goal := by
  obtain ⟨d, hd⟩ := exists_isDist hreach
  exact ⟨d, hd, fun fuel path_fuel hf hp =>
    Bidirectional.bidirectionalBFS_spec graph start goal d fuel path_fuel hwf hsym hs hg hne hd
      hf hp⟩

/-- Witness for C4 on the sample graph of the demo `main` (start 0, goal 6). -/
theorem bidirectionalBFS_shortest_witness :
    ∃ d, IsDist sampleBiGraph 0 6 d ∧ ∀ fuel path_fuel, d ≤ fuel → d ≤ path_fuel →
      ∃ m p, Bidirectional.bidirectionalBFS fuel path_fuel sampleBiGraph 0 6
          = some (some (m, 0 :: p))
        ∧ p.length = d ∧ IsUWalk sampleBiGraph 0 p ∧ uwalkEnd 0 p = 6 :=
  bidirectionalBFS_shortest sampleBiGraph 0 6 (by unfold WellFormed; decide)
    (symmetric_of_check (by decide)) (by decide) (by decide) (by decide)
    ⟨4, [1, 3, 5, 6], by simp [IsUWalk, adj, sampleBiGraph], rfl, rfl⟩

/-! ## Claim C11: bidirectional BFS with start = goal -/

/-- C11 fails on the code: `bidirectionalBFS` has no test for `start == goal`, and a meeting
is only detected when a node is newly discovered. With `start = goal = 0` on the sample graph
the backward search meets the forward one at node 1 and the printed path is `0 1 0`, with two
edges instead of none; on the graph with the single node 0 and no edge both queues run
empty and the function returns `false`. -/
theorem bidirectionalBFS_same_node_not_immediate (k j : Nat) :
    Bidirectional.bidirectionalBFS (1 + k) (1 + j) sampleBiGraph 0 0
        = some (some (1, [0, 1, 0]))
      ∧ Bidirectional.bidirectionalBFS (2 + k) j [[]] 0 0 = some none :=
  ⟨Bidirectional.bidirectionalBFS_fuel_mono (by decide) k j, by
    have h := Bidirectional.bidirectionalBFS_fuel_mono
      (by decide : Bidirectional.bidirectionalBFS 2 0 [[]] 0 0 = some none) k j
    rwa [Nat.zero_add] at h⟩

/-! ## Claim C12: A* and IDA* with start = goal -/

/-- C12: for every graph, every heuristic table with one `int` entry per node and every node
`s`, `aStar` (whatever the tie-breaking) and `idaStar` called with `start = goal = s` both
report success with total cost 0, and the only visit event of each is the one of `s`;
the first loop iteration, respectively the first `dfs` call, already ends the run. -/
theorem aStar_idaStar_start_is_goal (graph : WGraph) (heuristic : List Int) (s : Nat)
    (tie : Nat → Nat) (fuel iters depth : Nat) (_hs : s < graph.length)
    (_hh : heuristic.length = graph.length)
    (hint : ∀ x ∈ heuristic, -2147483648 ≤ x ∧ x ≤ 2147483647) :
    AStar.aStar (fuel + 1) tie s s graph heuristic
        = some ⟨[(s, 0, heuristic.getD s 0, heuristic.getD s 0)], Outcome.found 0⟩
      ∧ IdaStar.idaStar (iters + 1) (depth + 1) s s graph heuristic
        = some ⟨[heuristic.getD s 0], [(s, 0, heuristic.getD s 0, heuristic.getD s 0)],
            Outcome.found 0⟩ := by
  have hwrap : addInt 0 (heuristic.getD s 0) = heuristic.getD s 0 := by
    have hb : -2147483648 ≤ heuristic.getD s 0 ∧ heuristic.getD s 0 ≤ 2147483647 := by
      by_cases h : s < heuristic.length
      · rw [List.getD_eq_getElem _ _ h]
        exact hint _ (List.getElem_mem _)
      · rw [List.getD_eq_default _ _ (by omega)]
        omega
    unfold addInt wrap32
    omega
  constructor
  · simp only [AStar.aStar, AStar.loop, AStar.pqPop_singleton, getD_replicate_false,
      Bool.false_eq_true, if_false, if_true, List.nil_append]
  · simp only [IdaStar.idaStar, IdaStar.idaLoop, IdaStar.dfs, hwrap, gt_iff_lt, lt_irrefl,
      if_false, if_true, List.nil_append]

/-- Witness for C12 on the sample graph and heuristic of the demos, with `s = 2`. -/
theorem aStar_idaStar_start_is_goal_witness :
    AStar.aStar (0 + 1) (fun _ => 0) 2 2 sampleWGraph sampleH
        = some ⟨[(2, 0, sampleH.getD 2 0, sampleH.getD 2 0)], Outcome.found 0⟩
      ∧ IdaStar.idaStar (0 + 1) (0 + 1) 2 2 sampleWGraph sampleH
        = some ⟨[sampleH.getD 2 0], [(2, 0, sampleH.getD 2 0, sampleH.getD 2 0)],
            Outcome.found 0⟩ :=
  aStar_idaStar_start_is_goal sampleWGraph sampleH 2 (fun _ => 0) 0 0 0 (by decide) (by decide)
    (by decide)

/-! ## Claim C13: the path printed by bidirectional BFS is a path of the graph -/

/-- C13: for every symmetric adjacency list with `n` nodes (every listed neighbour a node of
the graph) and valid start and goal, `bidirectionalBFS` terminates (`n + 1` rounds and `n`
parent steps of fuel suffice); whenever it returns `true`, the node sequence built by
`printPath` begins at start, ends at goal, and every two consecutive nodes are joined by an
edge; consequently it returns `false` whenever goal is not reachable from start. -/
theorem bidirectionalBFS_path_is_walk (graph : Graph) (start goal fuel path_fuel : Nat)
    (hwf : WellFormed graph) (hsym : Symmetric graph) (hs : start < graph.length)
    (hg : goal < graph.length) (hfuel : graph.length + 1 ≤ fuel)
    (hpf : graph.length ≤ path_fuel) :
    ∃ ans, Bidirectional.bidirectionalBFS fuel path_fuel graph start goal = some ans
      ∧ (∀ m path, ans = some (m, path) →
          ∃ p, path = start :: p ∧ IsUWalk graph start p ∧ uwalkEnd start p = goal)
      ∧ (¬ UReachable graph start goal → ans = none) := by
  obtain ⟨ans, hrun, hpath⟩ := Bidirectional.bidirectionalBFS_sound graph start goal fuel
    path_fuel hwf hsym hs hg hfuel hpf
  refine ⟨ans, hrun, hpath, ?_⟩
  intro hn
  cases hans : ans with
  | none => rfl
  | some mp =>
    obtain ⟨m, path⟩ := mp
    obtain ⟨p, -, hw, he⟩ := hpath m path hans
    exact absurd ⟨p.length, p, hw, he, rfl⟩ hn

/-- Witness for C13 on the sample graph of the demo `main` (start 0, goal 6). -/
theorem bidirectionalBFS_path_is_walk_witness :
    ∃ ans, Bidirectional.bidirectionalBFS 8 7 sampleBiGraph 0 6 = some ans
      ∧ (∀ m path, ans = some (m, path) →
          ∃ p, path = 0 :: p ∧ IsUWalk sampleBiGraph 0 p ∧ uwalkEnd 0 p = 6)
      ∧ (¬ UReachable sampleBiGraph 0 6 → ans = none) :=
  bidirectionalBFS_path_is_walk sampleBiGraph 0 6 8 7 (by unfold WellFormed; decide)
    (symmetric_of_check (by decide)) (by decide) (by decide) (by decide) (by decide)

/-! ## Claim C14: A* on the sample graph -/

theorem sampleWGraph_aStar (tie : Nat → Nat) :
    AStar.aStar 5 tie 0 5 sampleWGraph sampleH
      = some ⟨[(0, 0, 7, 7), (2, 4, 2, 6), (1, 2, 6, 8), (3, 4, 1, 5), (5, 5, 0, 5)],
          Outcome.found 5⟩ := by
  have h : AStar.aStarDet 5 0 5 sampleWGraph sampleH
      = some ⟨[(0, 0, 7, 7), (2, 4, 2, 6), (1, 2, 6, 8), (3, 4, 1, 5), (5, 5, 0, 5)],
          Outcome.found 5⟩ := by
    decide
  exact AStar.aStar_of_aStarDet h tie

/-- C14: on the weighted sample graph with heuristic `[7,6,2,1,3,0]`, start 0 and goal 5,
`aStar` reports the goal reached with total cost 5, whatever the tie-breaking of the heap and
for every fuel of at least 5 iterations; the nodes it visits are 0, 2, 1, 3, 5. -/
theorem aStar_sample_cost_five (tie : Nat → Nat) (k : Nat) :
    AStar.aStar (5 + k) tie 0 5 sampleWGraph sampleH
      = some ⟨[(0, 0, 7, 7), (2, 4, 2, 6), (1, 2, 6, 8), (3, 4, 1, 5), (5, 5, 0, 5)],
          Outcome.found 5⟩ :=
  AStar.aStar_fuel_mono (sampleWGraph_aStar tie) k

/-! ## Claim C15: greedy best-first search on the sample graph -/

theorem sampleWGraph_minCost : IsMinCost sampleWGraph 0 5 5 := by
  refine ⟨⟨[(1, 2), (3, 2), (5, 1)], by simp [IsWalk, wadj, sampleWGraph], rfl, rfl⟩, ?_⟩
  intro c hc
  have := potential_hasPath sampleWGraph [0, 2, 4, 4, 5, 5] (by decide) hc
  simpa using this

theorem sampleWGraph_greedy (tie : Nat → Nat) :
    Greedy.greedyBestFirstSearch 4 tie 0 5 sampleWGraph sampleH
      = some ⟨[(0, 7), (2, 2), (4, 3), (5, 0)], true⟩ := by
  have h : Greedy.greedyDet 4 0 5 sampleWGraph sampleH
      = some ⟨[(0, 7), (2, 2), (4, 3), (5, 0)], true⟩ := by
    decide
  exact Greedy.greedy_of_greedyDet h tie

/-- C15: on the weighted sample graph with heuristic `[7,6,2,1,3,0]`, start 0 and goal 5,
`greedyBestFirstSearch` visits exactly the nodes 0, 2, 4, 5 in that order and then reports
the goal reached (whatever the tie-breaking of the heap, for every fuel of at least 4
iterations); the route `0 → 2 → 4 → 5` is a walk of the graph of total weight 8, while the
minimum path cost from 0 to 5 is 5. -/
theorem greedy_sample_route_costs_eight (tie : Nat → Nat) (k : Nat) :
    Greedy.greedyBestFirstSearch (4 + k) tie 0 5 sampleWGraph sampleH
        = some ⟨[(0, 7), (2, 2), (4, 3), (5, 0)], true⟩
      ∧ IsWalk sampleWGraph 0 [(2, 4), (4, 2), (5, 2)]
      ∧ walkEnd 0 [(2, 4), (4, 2), (5, 2)] = 5
      ∧ walkCost [(2, 4), (4, 2), (5, 2)] = 8
      ∧ IsMinCost sampleWGraph 0 5 5 ∧ (5 : Int) < 8 :=
  ⟨Greedy.greedy_fuel_mono (sampleWGraph_greedy tie) k,
    by simp [IsWalk, wadj, sampleWGraph], rfl, rfl, sampleWGraph_minCost, by decide⟩

/-! ## Claim C16: bidirectional BFS on the sample graph -/

/-- C16: on the 7-node undirected sample graph (edges 0-1, 0-2, 1-3, 2-4, 3-5, 4-5, 5-6),
start 0 and goal 6, `bidirectionalBFS` returns `true` (for every fuel of at least 2 rounds and
2 parent steps), the meeting node is 3 and the printed path is `0 1 3 5 6`, the first of the
two paths `0-1-3-5-6`, `0-2-4-5-6`: a walk of the graph from 0 to 6 with 4 edges. -/
theorem bidirectionalBFS_sample_path (k j : Nat) :
    Bidirectional.bidirectionalBFS (2 + k) (2 + j) sampleBiGraph 0 6
        = some (some (3, [0, 1, 3, 5, 6]))
      ∧ IsUWalk sampleBiGraph 0 [1, 3, 5, 6] ∧ uwalkEnd 0 [1, 3, 5, 6] = 6
      ∧ ([1, 3, 5, 6] : List Nat).length = 4 :=
  ⟨Bidirectional.bidirectionalBFS_fuel_mono (by decide) k j,
    by simp [IsUWalk, adj, sampleBiGraph], rfl, rfl⟩

/-! ## Claim C17: A* with a goal that is not a node -/

/-- C17 as stated fails: `aStar` never validates `goal`. On the sample graph (6 nodes) with
start 0 and goal index 6 it runs the ordinary search, prints a visit event for each of the six
nodes and ends with the ordinary "goal cannot be reached" outcome, whatever the tie-breaking
of the heap. -/
theorem aStar_invalid_goal_runs_search :
    sampleWGraph.length ≤ 6
      ∧ ∀ tie, AStar.aStar 8 tie 0 6 sampleWGraph sampleH
        = some ⟨[(0, 0, 7, 7), (2, 4, 2, 6), (1, 2, 6, 8), (3, 4, 1, 5), (5, 5, 0, 5),
            (4, 5, 3, 8)], Outcome.notFound⟩ := by
  refine ⟨by decide, ?_⟩
  intro tie
  have h : AStar.aStarDet 8 0 6 sampleWGraph sampleH
      = some ⟨[(0, 0, 7, 7), (2, 4, 2, 6), (1, 2, 6, 8), (3, 4, 1, 5), (5, 5, 0, 5),
          (4, 5, 3, 8)], Outcome.notFound⟩ := by
    decide
  exact AStar.aStar_of_aStarDet h tie

/-- C17 (amended): for every graph with `n` nodes whose edge destinations are nodes, every
heuristic table, every valid start and every goal index `≥ n`, `aStar` makes no validity
check: it terminates (fuel of at least the number of edges plus 2), its first visit event is
the one of `start`, and it ends with the ordinary "goal cannot be reached" outcome. -/
theorem aStar_goal_outside_ends_notFound (graph : WGraph) (heuristic : List Int)
    (start goal fuel : Nat) (tie : Nat → Nat) (hwf : WellFormedW graph)
    (hs : start < graph.length) (hg : graph.length ≤ goal)
    (hfuel : edgeCount graph + 2 ≤ fuel) :
    ∃ r suffix, AStar.aStar fuel tie start goal graph heuristic = some r
      ∧ r.outcome = Outcome.notFound
      ∧ r.trace = (start, 0, heuristic.getD start 0, heuristic.getD start 0) :: suffix := by
  obtain ⟨fuel, rfl⟩ : ∃ f, fuel = f + 1 := ⟨fuel - 1, by omega⟩
  have hne : start ≠ goal := by omega
  obtain ⟨new, h1, h2, h3⟩ := AStar.relax_ids heuristic 0 (wadj graph start)
    ((List.replicate graph.length INT_MAX).set start 0) []
  have hnm : ¬ marked (List.replicate graph.length false) start := not_marked_replicate _ _
  have hus := unmarkedSum_set (v := List.replicate graph.length false) (i := start)
    (graph.map List.length) (by simpa using hs) hnm
  rw [getD_map_length, unmarkedSum_replicate _ _ (by simp)] at hus
  obtain ⟨r, suffix, hr, htr, hout⟩ := AStar.astar_loop_terminates graph heuristic goal hwf fuel
    (fun k => tie (k + 1)) ((List.replicate graph.length false).set start true)
    (AStar.relax heuristic 0 (wadj graph start)
      ((List.replicate graph.length INT_MAX).set start 0, [])).1
    (AStar.relax heuristic 0 (wadj graph start)
      ((List.replicate graph.length INT_MAX).set start 0, [])).2
    ([] ++ [(start, 0, heuristic.getD start 0, heuristic.getD start 0)])
    (by simp)
    (by
      intro e he
      rw [h1] at he
      obtain ⟨ed, hed, hid⟩ := h3 e (by simpa using he)
      exact hid ▸ hwf.wadj_lt hed)
    (by
      rw [h1]
      unfold edgeCount at hfuel
      simp only [List.nil_append]
      omega)
  refine ⟨r, suffix, ?_, hout hg, by rw [htr]; rfl⟩
  rw [← hr]
  simp only [AStar.aStar, AStar.loop, AStar.pqPop_singleton, getD_replicate_false,
    Bool.false_eq_true, if_false, if_neg hne]

/-- Witness for C17 (amended) on the sample graph, with goal index 6. -/
theorem aStar_goal_outside_ends_notFound_witness :
    ∃ r suffix, AStar.aStar 9 (fun _ => 0) 0 6 sampleWGraph sampleH = some r
      ∧ r.outcome = Outcome.notFound
      ∧ r.trace = (0, 0, sampleH.getD 0 0, sampleH.getD 0 0) :: suffix :=
  aStar_goal_outside_ends_notFound sampleWGraph sampleH 0 6 9 (fun _ => 0)
    (by unfold WellFormedW; decide) (by decide) (by decide) (by decide)

/-! ## Claim C18: linear search returns the first matching index -/

/-- C18: for every `int` array `arr`, every `size` not exceeding its length and every target,
`linearSearch` returns (fuel above `size` suffices); the result is `-1` exactly when the
target does not occur among the first `size` elements, and otherwise it is the smallest
index `m < size` with `arr[m] == target`. -/
theorem linearSearch_returns_first_match (arr : List Int) (size target : Int) (fuel : Nat)
    (_hsize : size ≤ arr.length) (hmax : size ≤ INT_MAX) (hfuel : size.toNat < fuel) :
    ∃ r, LinearSearch.linearSearch fuel arr size target = some r
      ∧ (r = -1 ↔ ∀ j : Nat, (j : Int) < size → arr.getD j 0 ≠ target)
      ∧ (r ≠ -1 → ∃ m : Nat, r = m ∧ (m : Int) < size ∧ arr.getD m 0 = target
          ∧ ∀ j, j < m → arr.getD j 0 ≠ target) := by
  obtain ⟨r, hr, hcase⟩ := LinearSearch.linear_loop_spec arr size target hmax fuel 0
    (fun j hj => absurd hj (Nat.not_lt_zero j)) (by simpa using hfuel)
  refine ⟨r, hr, ?_, ?_⟩
  · rcases hcase with ⟨h1, h2⟩ | ⟨m, h1, h2, h3, -⟩
    · exact ⟨fun _ => h2, fun _ => h1⟩
    · exact ⟨fun h => by omega, fun h => absurd h3 (h m h2)⟩
  · intro hne
    rcases hcase with ⟨h1, -⟩ | h
    · exact absurd h1 hne
    · exact h

/-- Witness for C18 on the array of the demo `main`, searching for 45. -/
theorem linearSearch_returns_first_match_witness :
    ∃ r, LinearSearch.linearSearch 6 [10, 25, 30, 45, 50] 5 45 = some r
      ∧ (r = -1 ↔ ∀ j : Nat, (j : Int) < 5 → [10, 25, 30, 45, 50].getD j 0 ≠ (45 : Int))
      ∧ (r ≠ -1 → ∃ m : Nat, r = m ∧ (m : Int) < 5 ∧ [10, 25, 30, 45, 50].getD m 0 = (45 : Int)
          ∧ ∀ j, j < m → [10, 25, 30, 45, 50].getD j 0 ≠ (45 : Int)) :=
  linearSearch_returns_first_match [10, 25, 30, 45, 50] 5 45 6 (by decide) (by decide)
    (by decide)

/-! ## Claim C19: binary search on a sorted array -/

/-- C19: for every `int` array sorted in non-decreasing order (the empty array and arrays with
duplicates included), `size` being its length, and every target, `binarySearch` returns (fuel
above `size` suffices); the result is `-1` exactly when the target does not occur in the
array, and otherwise it is an index `r` with `0 ≤ r < size` and `arr[r] == target`. -/
theorem binarySearch_sorted_finds (arr : List Int) (size target : Int) (fuel : Nat)
    (hsorted : arr.Pairwise (fun a b => a ≤ b)) (hsize : size = arr.length)
    (hmax : size ≤ INT_MAX) (hfuel : arr.length < fuel) :
    ∃ r, BinarySearch.binarySearch fuel arr size target = some r
      ∧ (r = -1 ↔ target ∉ arr)
      ∧ (r ≠ -1 → 0 ≤ r ∧ r < size ∧ arrGet arr r = target) := by
  have hIM : INT_MAX = 2147483647 := rfl
  subst hsize
  have hsub : subInt (arr.length : Int) 1 = arr.length - 1 := subInt_eq (by omega) (by omega)
  obtain ⟨r, hr, hcase⟩ := BinarySearch.binary_loop_spec arr target hsorted hmax fuel 0
    (arr.length - 1) (le_refl _) (by omega) (by omega) (fun j hj _ => by omega)
    (fun j hj hjl => by omega) (by omega)
  refine ⟨r, by simp only [BinarySearch.binarySearch, hsub]; exact hr, ?_, ?_⟩
  · rcases hcase with ⟨h1, h2⟩ | ⟨h1, h2, h3⟩
    · exact ⟨fun _ => h2, fun _ => h1⟩
    · refine ⟨fun h => by omega, fun h => absurd ?_ h⟩
      have hlt : r.toNat < arr.length := by omega
      rw [← h3, arrGet, List.getD_eq_getElem _ _ hlt]
      exact List.getElem_mem _
  · intro hne
    rcases hcase with ⟨h1, -⟩ | h
    · exact absurd h1 hne
    · exact h

/-- Witness for C19 on the sorted array of the demo `main`, searching for 40. -/
theorem binarySearch_sorted_finds_witness :
    ∃ r, BinarySearch.binarySearch 7 [10, 20, 30, 40, 50, 60] 6 40 = some r
      ∧ (r = -1 ↔ (40 : Int) ∉ [10, 20, 30, 40, 50, 60])
      ∧ (r ≠ -1 → 0 ≤ r ∧ r < 6 ∧ arrGet [10, 20, 30, 40, 50, 60] r = 40) :=
  binarySearch_sorted_finds [10, 20, 30, 40, 50, 60] 6 40 7 (by decide) (by decide) (by decide)
    (by decide)

/-! ## Claim C20: the BFS visit order is the level-by-level order -/

/-- C20: for every graph with `n` nodes (every listed neighbour a node of the graph), every
valid start and `visited` initially all false, `bfs` returns (fuel for `n` iterations
suffices) and the order in which it visits nodes is `LevelSpec.levelOrder`: level 0 is
`[start]`, and each further level lists, scanning the nodes of the level before in their
order and the adjacency list of each in stored order, every node not listed before, once, at
its first occurrence. In particular the nodes are visited in non-decreasing order of their
edge-count distance from start. -/
theorem bfs_order_is_level_order (graph : Graph) (start fuel : Nat) (hwf : WellFormed graph)
    (hs : start < graph.length) (hfuel : graph.length ≤ fuel) :
    ∃ visited, Bfs.bfs fuel start graph (List.replicate graph.length false)
        = some (visited, LevelSpec.levelOrder graph start)
      ∧ (LevelSpec.levelOrder graph start).Pairwise
          (fun u v => ∀ du dv, IsDist graph start u du → IsDist graph start v dv → du ≤ dv) := by
  obtain ⟨v, hv⟩ := Bfs.bfs_trace_levelOrder graph start fuel hwf hs hfuel
  exact ⟨v, hv, LevelSpec.levelOrder_sorted graph start⟩

/-- Witness for C20 on the sample graph of the BFS demo, from node 0. -/
theorem bfs_order_is_level_order_witness :
    ∃ visited, Bfs.bfs 6 0 sampleGraph (List.replicate sampleGraph.length false)
        = some (visited, LevelSpec.levelOrder sampleGraph 0)
      ∧ (LevelSpec.levelOrder sampleGraph 0).Pairwise
          (fun u v => ∀ du dv, IsDist sampleGraph 0 u du → IsDist sampleGraph 0 v dv →
            du ≤ dv) :=
  bfs_order_is_level_order sampleGraph 0 6 (by unfold WellFormed; decide) (by decide)
    (by decide)

/-! ## Claim C21: depth-first search prints a node, then its first unvisited neighbour -/

/-- C21: for every graph (every listed neighbour a node of the graph) and every call of `dfs`
on a node `u`, the call returns (recursion fuel above the number of unmarked nodes suffices),
`u` is the first node it reports, and if `u` has a neighbour that is unvisited once `u` is
marked, the node reported immediately after `u` is the first such neighbour in the order of
the adjacency list of `u`. -/
theorem dfs_reports_node_then_first_unvisited (graph : Graph) (fuel u : Nat) (v : List Bool)
    (t : List Nat) (hwf : WellFormed graph) (_hu : u < graph.length)
    (hlen : v.length = graph.length) (hfuel : unmarkedCount v < fuel) :
    ∃ v1 rest, Dfs.dfs graph fuel u (v, t) = some (v1, t ++ u :: rest)
      ∧ ∀ pre w post, adj graph u = pre ++ w :: post →
          (∀ y ∈ pre, marked (v.set u true) y) → ¬ marked (v.set u true) w →
          ∃ rest1, rest = w :: rest1 := by
  obtain ⟨⟨v1, t1⟩, hrun⟩ := Dfs.dfs_returns graph hwf fuel u v t hlen hfuel
  obtain ⟨rest, h1, h2⟩ := Dfs.dfs_trace_first_neighbour graph fuel u (v, t) (v1, t1) hrun
  simp only at h1
  exact ⟨v1, rest, by rw [hrun, h1], h2⟩

/-- Witness for C21 on the sample graph of the DFS demo: the call on node 1 with node 0
already marked. -/
theorem dfs_reports_node_then_first_unvisited_witness :
    ∃ v1 rest, Dfs.dfs sampleGraph 6 1 ([true, false, false, false, false, false], [0])
        = some (v1, [0] ++ 1 :: rest)
      ∧ ∀ pre w post, adj sampleGraph 1 = pre ++ w :: post →
          (∀ y ∈ pre, marked ([true, false, false, false, false, false].set 1 true) y) →
          ¬ marked ([true, false, false, false, false, false].set 1 true) w →
          ∃ rest1, rest = w :: rest1 :=
  dfs_reports_node_then_first_unvisited sampleGraph 6 1 [true, false, false, false, false, false]
    [0] (by unfold WellFormed; decide) (by decide) (by decide) (by decide)

/-! ## Claim C22: depth-limited search leaves its marks -/

/-- C22 fails on the code: `dls` sets `visited[node] = true` and never clears it. On the graph
with triangle `0-1-2` and edge `2-3`, the call `dls(0, 3, 1, graph, visited)` with `visited`
all false returns `false` and leaves nodes 0, 1 and 2 marked; with depth limit 0 it returns
`false` and leaves node 0 marked. -/
theorem dls_returns_false_with_marks_left :
    (Iddfs.dls 3 triangleGraph 3 0 1 (List.replicate 4 false, [])).map (fun r => (r.1, r.2.1))
        = some (false, [true, true, true, false])
      ∧ (Iddfs.dls 3 triangleGraph 2 0 0 (List.replicate 4 false, [])).map
          (fun r => (r.1, r.2.1)) = some (false, [true, false, false, false]) := by
  decide

/-! ## Claim C23: a failed IDA* `dfs` call restores the `visited` vector -/

/-- C23: for every call of IDA*'s recursive `dfs` on a node that is unmarked at entry, if the
call returns `false` then the `visited` vector on return equals the one at entry. -/
theorem idaStar_dfs_false_restores_visited (goal : Nat) (limit : Int) (graph : WGraph)
    (heuristic : List Int) (fuel node : Nat) (g : Int) (st st1 : IdaStar.State)
    (hm : ¬ marked st.visited node)
    (h : IdaStar.dfs goal limit graph heuristic fuel node g st = some (none, st1)) :
    st1.visited = st.visited :=
  IdaStar.dfs_restores goal limit graph heuristic fuel node g st st1 hm h

/-- Witness for C23: the pass with limit 3 on `detourGraph` visits nodes 0 and 2, prunes nodes
1 and 3, returns `false` and leaves no mark. -/
theorem idaStar_dfs_false_restores_visited_witness :
    (⟨[false, false, false, false], 12, [(0, 0, 0, 0), (2, 3, 0, 3)]⟩ : IdaStar.State).visited
      = (⟨List.replicate 4 false, IdaStar.INF, []⟩ : IdaStar.State).visited :=
  idaStar_dfs_false_restores_visited 3 3 detourGraph detourH 4 0 0
    ⟨List.replicate 4 false, IdaStar.INF, []⟩
    ⟨[false, false, false, false], 12, [(0, 0, 0, 0), (2, 3, 0, 3)]⟩ (by decide) (by decide)

/-! ## Claim C24: the limits of the iterations of IDA* -/

/-- C25 as stated fails: `wrapGraph` has the non-negative weights `0 → 1 (1073741824)` and
`1 → 2 (1073741824)`; the `int` sum of the two leaves the 32-bit range, `ucs` records the
wrapped value for node 2, and the costs of its visit events `0, 1073741824, -2147483648` are
not non-decreasing. -/
theorem ucs_event_costs_decrease_on_overflow :
    NonNegWeights wrapGraph
      ∧ (Ucs.ucs 5 0 wrapGraph).map (fun st => st.trace)
        = some [(0, 0), (1, 1073741824), (2, -2147483648)] :=
  ⟨by unfold NonNegWeights; decide, by decide⟩

/-- C25 (amended): for every graph whose edge destinations are nodes and whose edge weights are
non-negative and sum to less than `INT_MAX`, and every valid start, `ucs` terminates, emits at
most one visit event per node, the costs carried by successive visit events are
non-decreasing, and the cost carried by the visit event of a node equals the entry of that
node in the final cost table. -/
theorem ucs_events_once_sorted_final (graph : WGraph) (start fuel : Nat)
    (hwf : WellFormedW graph) (hnn : NonNegWeights graph) (hb : totalWeight graph < INT_MAX)
    (hs : start < graph.length) (hfuel : edgeCount graph + 2 ≤ fuel) :
    ∃ st, Ucs.ucs fuel start graph = some st
      ∧ (st.trace.map Prod.fst).Nodup
      ∧ (st.trace.map Prod.snd).Pairwise (fun a b => a ≤ b)
      ∧ ∀ e ∈ st.trace, st.cost.getD e.1 0 = e.2 :=
  Ucs.ucs_trace_spec graph start fuel hwf hnn hb hs hfuel

/-- Witness for C25 (amended) on the sample graph of the UCS demo. -/
theorem ucs_events_once_sorted_final_witness :
    ∃ st, Ucs.ucs 16 0 sampleUcsGraph = some st
      ∧ (st.trace.map Prod.fst).Nodup
      ∧ (st.trace.map Prod.snd).Pairwise (fun a b => a ≤ b)
      ∧ ∀ e ∈ st.trace, st.cost.getD e.1 0 = e.2 :=
  ucs_events_once_sorted_final sampleUcsGraph 0 16 (by unfold WellFormedW; decide)
    (by unfold NonNegWeights; decide) (by decide) (by decide) (by decide)

/-! ## Claim C26: ties in the frontier of uniform-cost search -/

/-- C26 as stated fails: the heap of `ucs` holds `pair<int,int>` values `(cost, node)` ordered
by `greater<>`, so entries of equal cost are ordered by node id. With `(1, 2)` pushed before
`(1, 1)` the pop returns `(1, 1)`; on the graph with edges `0 → 2` and `0 → 1` of weight 1
(node 2 listed, hence pushed, first) `ucs` visits node 1 before node 2. -/
theorem ucs_tie_not_insertion_order :
    Ucs.pqPop [(1, 2), (1, 1)] = some ((1, 1), [(1, 2)])
      ∧ (Ucs.ucs 5 0 [[(2, 1), (1, 1)], [], []]).map (fun st => st.trace)
        = some [(0, 0), (1, 1), (2, 1)] := by
  decide

/-- C26 (amended): whenever the frontier of `ucs` holds several entries with the same minimum
accumulated cost, the entry popped first is the one with the smallest node id: the popped
entry is the least pair `(cost, node)` of the frontier, and it is the same for every order
in which the entries were inserted. -/
theorem ucs_ties_broken_by_node_id (pq : List (Int × Nat)) (m : Int × Nat)
    (rest : List (Int × Nat)) (h : Ucs.pqPop pq = some (m, rest)) :
    m ∈ pq ∧ (∀ e ∈ pq, m.1 ≤ e.1) ∧ (∀ e ∈ pq, e.1 = m.1 → m.2 ≤ e.2)
      ∧ ∀ pq1 : List (Int × Nat), pq1.Perm pq → Ucs.pqPop pq1 = some (m, pq1.erase m) := by
  obtain ⟨hm, hmin⟩ := Ucs.pqPop_lex_least h
  refine ⟨hm, ?_, ?_, fun pq1 hp => Ucs.pqPop_perm h hp⟩
  · intro e he
    have := hmin e he
    omega
  · intro e he heq
    have := hmin e he
    omega

/-- Witness for C26 (amended): three entries, two of them of the least cost 1. -/
theorem ucs_ties_broken_by_node_id_witness :
    ((1, 1) : Int × Nat) ∈ [((1 : Int), 2), (3, 0), (1, 1)]
      ∧ (∀ e ∈ [((1 : Int), 2), (3, 0), (1, 1)], ((1, 1) : Int × Nat).1 ≤ e.1)
      ∧ (∀ e ∈ [((1 : Int), 2), (3, 0), (1, 1)],
          e.1 = ((1, 1) : Int × Nat).1 → ((1, 1) : Int × Nat).2 ≤ e.2)
      ∧ ∀ pq1 : List (Int × Nat), pq1.Perm [(1, 2), (3, 0), (1, 1)] →
          Ucs.pqPop pq1 = some ((1, 1), pq1.erase (1, 1)) :=
  ucs_ties_broken_by_node_id [(1, 2), (3, 0), (1, 1)] (1, 1) [(1, 2), (3, 0)] (by decide)

/-! ## Claim C27: the values carried by the visit events of A* -/

/-- C27 as stated fails: on `shortcutGraph` with the table `steepH` of `int` entries, `aStar`
from 0 to 3 emits for node 1 the visit event `(g, h, f) = (1, 2147483647, -2147483648)`,
whatever the tie-breaking, so `f` is not `g + heuristic[1] = 2147483648`: the `int` sum
`newG + heuristic[neighbor]` has left the 32-bit range. The entry pushed for node 1 is
`(1, 1, -2147483648)` accordingly. -/
theorem aStar_event_f_differs_from_g_plus_h :
    (∀ x ∈ steepH, -2147483648 ≤ x ∧ x ≤ 2147483647)
      ∧ (∀ tie, ∃ r ev, AStar.aStar 5 tie 0 3 shortcutGraph steepH = some r ∧ ev ∈ r.trace
          ∧ ev = (1, 1, 2147483647, -2147483648)
          ∧ ev.2.2.2 ≠ ev.2.1 + steepH.getD ev.1 0)
      ∧ (AStar.aStarPush 5 (fun _ => 0) 0 3 shortcutGraph steepH).map (fun p => p.2)
          = some [⟨0, 0, 0⟩, ⟨1, 1, -2147483648⟩, ⟨2, 1, 1⟩, ⟨3, 6, -2147483648⟩] := by
  refine ⟨by decide, ?_, by decide⟩
  intro tie
  have h : AStar.aStarDet 5 0 3 shortcutGraph steepH
      = some ⟨[(0, 0, 0, 0), (1, 1, 2147483647, -2147483648),
          (3, 6, 2147483642, -2147483648)], Outcome.found 6⟩ := by decide
  exact ⟨_, (1, 1, 2147483647, -2147483648), AStar.aStar_of_aStarDet h tie, by simp, rfl,
    by decide⟩

/-- C27 (amended): for every graph whose edge destinations are nodes and every heuristic table
such that the absolute values of all edge weights, summed and increased by the absolute value
of any heuristic entry, stay below `INT_MAX`, every valid start, every goal and every
tie-breaking of the queue: `aStar` returns, every visit event it emits for a node `v` carries
values `(g, h, f)` with `h = heuristic[v]` and `f = g + heuristic[v]` (the sum over the
integers), and every frontier entry `(id, g, f)` ever pushed (recorded by `aStarPush`, which
otherwise runs exactly as `aStar`) satisfies `f = g + heuristic[id]`. -/
theorem aStar_events_carry_exact_g_h_f (graph : WGraph) (heuristic : List Int)
    (start goal fuel : Nat) (tie : Nat → Nat) (hwf : WellFormedW graph)
    (hsmall : SmallHeuristic graph heuristic) (hs : start < graph.length)
    (hfuel : edgeCount graph + 2 ≤ fuel) :
    ∃ r pushed, AStar.aStarPush fuel tie start goal graph heuristic = some (r, pushed)
      ∧ AStar.aStar fuel tie start goal graph heuristic = some r
      ∧ (∀ ev ∈ r.trace, ev.2.2.1 = heuristic.getD ev.1 0
          ∧ ev.2.2.2 = ev.2.1 + heuristic.getD ev.1 0)
      ∧ ∀ x ∈ pushed, x.f = x.g + heuristic.getD x.id 0 :=
  AStar.aStar_push_spec graph heuristic start goal fuel tie hwf hsmall hs hfuel

/-- Witness for C27 (amended) on the sample graph and heuristic of the demo `main`. -/
theorem aStar_events_carry_exact_g_h_f_witness :
    ∃ r pushed, AStar.aStarPush 9 (fun _ => 0) 0 5 sampleWGraph sampleH = some (r, pushed)
      ∧ AStar.aStar 9 (fun _ => 0) 0 5 sampleWGraph sampleH = some r
      ∧ (∀ ev ∈ r.trace, ev.2.2.1 = sampleH.getD ev.1 0
          ∧ ev.2.2.2 = ev.2.1 + sampleH.getD ev.1 0)
      ∧ ∀ x ∈ pushed, x.f = x.g + sampleH.getD x.id 0 :=
  aStar_events_carry_exact_g_h_f sampleWGraph sampleH 0 5 9 (fun _ => 0)
    (by unfold WellFormedW; decide) (by unfold SmallHeuristic; decide) (by decide) (by decide)

/-! ## Claim C28: A* with the all-zero heuristic against uniform-cost search -/

/-- C28 as stated fails: `heavyGraph` has the non-negative weights `0 → 1 (INT_MAX)` and
`1 → 2 (1)` and node 2 is reachable from node 0, yet `aStar` with the all-zero heuristic
reports no total cost at all: its run ends with "goal cannot be reached", because the new
cost `INT_MAX` of node 1 is not below the sentinel and node 1 is never queued. The table of
`ucs` holds the sentinel `INT_MAX` for node 2. No addition overflows in these runs. -/
theorem aStar_zero_heuristic_reports_no_cost :
    NonNegWeights heavyGraph ∧ Reachable heavyGraph 0 2
      ∧ (∀ tie, AStar.aStar 5 tie 0 2 heavyGraph [0, 0, 0]
          = some ⟨[(0, 0, 0, 0)], Outcome.notFound⟩)
      ∧ (Ucs.ucs 5 0 heavyGraph).map (fun st => st.cost)
          = some [0, 2147483647, 2147483647] := by
  refine ⟨by unfold NonNegWeights; decide, ⟨_, heavyGraph_minCost.1⟩, ?_, by decide⟩
  intro tie
  have h : AStar.aStarDet 5 0 2 heavyGraph [0, 0, 0]
      = some ⟨[(0, 0, 0, 0)], Outcome.notFound⟩ := by
    decide
  exact AStar.aStar_of_aStarDet h tie

/-- C28 (amended): for every graph whose edge destinations are nodes and whose edge weights are
non-negative and sum to less than `INT_MAX`, every valid start and every goal reachable from
start, `aStar` run with the all-zero heuristic reports (whatever the tie-breaking of its heap)
a total cost equal to the entry for goal in the cost table that `ucs` computes from the same
start; both are the minimum path cost. -/
theorem aStar_zero_heuristic_agrees_with_ucs (graph : WGraph) (start goal fuel : Nat)
    (tie : Nat → Nat) (hwf : WellFormedW graph) (hnn : NonNegWeights graph)
    (hb : totalWeight graph < INT_MAX) (hs : start < graph.length)
    (hreach : Reachable graph start goal) (hfuel : edgeCount graph + 2 ≤ fuel) :
    ∃ r st c, AStar.aStar fuel tie start goal graph (List.replicate graph.length 0) = some r
      ∧ Ucs.ucs fuel start graph = some st
      ∧ r.outcome = Outcome.found c ∧ st.cost.getD goal 0 = c
      ∧ IsMinCost graph start goal c := by
  have hb' : absTotal graph < INT_MAX := by rw [hnn.absTotal_eq]; exact hb
  obtain ⟨r, c, hr, hout, hmin⟩ := AStar.aStar_consistent_spec graph
    (List.replicate graph.length 0) start goal fuel tie hwf hnn (consistent_zero hnn)
    (smallHeuristic_zero hb') hs hreach hfuel
  obtain ⟨st, hst, hcost, -⟩ := Ucs.ucs_cost_spec graph start fuel hwf hnn hb hs hfuel
  exact ⟨r, st, c, hr, hst, hout, (hcost goal hreach).cost_unique hmin, hmin⟩

/-- Witness for C28 (amended) on the sample graph of the UCS demo (start 0, goal 5). -/
theorem aStar_zero_heuristic_agrees_with_ucs_witness :
    ∃ r st c, AStar.aStar 16 (fun _ => 0) 0 5 sampleUcsGraph
          (List.replicate sampleUcsGraph.length 0) = some r
      ∧ Ucs.ucs 16 0 sampleUcsGraph = some st
      ∧ r.outcome = Outcome.found c ∧ st.cost.getD 5 0 = c
      ∧ IsMinCost sampleUcsGraph 0 5 c :=
  aStar_zero_heuristic_agrees_with_ucs sampleUcsGraph 0 5 16 (fun _ => 0)
    (by unfold WellFormedW; decide) (by unfold NonNegWeights; decide) (by decide) (by decide)
    ⟨8, [(1, 2), (4, 1), (5, 5)], by simp [IsWalk, wadj, sampleUcsGraph], rfl, rfl⟩
    (by decide)

/-! ## Claim C29: the sample heuristic is not admissible -/

/-- C29 fails on the code: the heuristic table `[7,6,2,1,3,0]` of the A* and IDA* demos
overestimates. The minimum cost from node 0 to the goal 5 is 5 (path `0 → 1 → 3 → 5`), from
node 1 it is 3 and from node 4 it is 2, while the table holds 7, 6 and 3 for these nodes; hence
the table is not admissible for goal 5. -/
theorem sampleH_not_admissible :
    IsMinCost sampleWGraph 0 5 5 ∧ sampleH.getD 0 0 = 7
      ∧ HasPath sampleWGraph 1 5 3 ∧ sampleH.getD 1 0 = 6
      ∧ HasPath sampleWGraph 4 5 2 ∧ sampleH.getD 4 0 = 3
      ∧ ¬ Admissible sampleWGraph sampleH 5 := by
  refine ⟨sampleWGraph_minCost, rfl, ?_, rfl, ?_, rfl, ?_⟩
  · exact ⟨[(3, 2), (5, 1)], by simp [IsWalk, wadj, sampleWGraph], rfl, rfl⟩
  · exact ⟨[(5, 2)], by simp [IsWalk, wadj, sampleWGraph], rfl, rfl⟩
  · intro h
    have := h 0 5 sampleWGraph_minCost.1
    simp [sampleH] at this

/-! ## Claim C30: the midpoint of binary search -/

/-- C31 as stated fails, in two ways. On `heavyGraph` (weights `0 → 1 (INT_MAX)`,
`1 → 2 (1)`) with the zero heuristic, which is consistent, node 2 is reachable at minimum cost
`2147483648`, yet the run ends without reporting any cost: the new cost `INT_MAX` of node 1 is
not below the sentinel in `cost`. On `shortcutGraph` with the consistent heuristic `steepH`
the `int` sums `g + h` wrap around, node 3 is popped first with `g = 6` and that cost is
reported, although the minimum path cost is 2. -/
theorem aStar_consistent_misses_min_cost :
    (NonNegWeights heavyGraph ∧ Consistent heavyGraph [0, 0, 0]
        ∧ IsMinCost heavyGraph 0 2 2147483648
        ∧ ∀ tie, (AStar.aStar 5 tie 0 2 heavyGraph [0, 0, 0]).map (fun r => r.outcome)
            = some Outcome.notFound)
      ∧ (NonNegWeights shortcutGraph ∧ Consistent shortcutGraph steepH
        ∧ IsMinCost shortcutGraph 0 3 2
        ∧ ∀ tie, AStar.aStar 5 tie 0 3 shortcutGraph steepH
            = some ⟨[(0, 0, 0, 0), (1, 1, 2147483647, -2147483648),
                (3, 6, 2147483642, -2147483648)], Outcome.found 6⟩) := by
  refine ⟨⟨by unfold NonNegWeights; decide, by unfold Consistent; decide, heavyGraph_minCost,
    ?_⟩, by unfold NonNegWeights; decide, by unfold Consistent; decide, ?_, ?_⟩
  · intro tie
    have h : AStar.aStarDet 5 0 2 heavyGraph [0, 0, 0]
        = some ⟨[(0, 0, 0, 0)], Outcome.notFound⟩ := by decide
    rw [AStar.aStar_of_aStarDet h tie]
    rfl
  · refine ⟨⟨[(2, 1), (3, 1)], by simp [IsWalk, wadj, shortcutGraph], rfl, rfl⟩, ?_⟩
    intro c hc
    have := potential_hasPath shortcutGraph [0, 1, 1, 2] (by decide) hc
    simpa using this
  · intro tie
    exact AStar.aStar_of_aStarDet (by decide) tie

/-- C31 (amended): for every graph whose edge destinations are nodes and whose edge weights are
non-negative, every consistent heuristic (`h(u) ≤ w(u, v) + h(v)` for every edge `u → v`)
such that the sum of all edge weights, alone and increased by the absolute value of any
heuristic entry, is below `INT_MAX`, every valid start and every goal reachable from start:
the `g` value with which `aStar` first pops any node (the `g` of its visit event) equals that
node's true minimum cost from start, and the total cost it reports at the goal is the minimum
path cost, whatever the tie-breaking of the queue. -/
theorem aStar_consistent_first_pop_is_min_cost (graph : WGraph) (heuristic : List Int)
    (start goal fuel : Nat) (tie : Nat → Nat) (hwf : WellFormedW graph)
    (hnn : NonNegWeights graph) (hcons : Consistent graph heuristic)
    (hsmall : SmallHeuristic graph heuristic) (hs : start < graph.length)
    (hreach : Reachable graph start goal) (hfuel : edgeCount graph + 2 ≤ fuel) :
    ∃ r c, AStar.aStar fuel tie start goal graph heuristic = some r
      ∧ r.outcome = Outcome.found c ∧ IsMinCost graph start goal c
      ∧ ∀ ev ∈ r.trace, IsMinCost graph start ev.1 ev.2.1 :=
  AStar.aStar_first_pop_spec graph heuristic start goal fuel tie hwf hnn hcons hsmall hs hreach
    hfuel

/-- Witness for C31 (amended) on the sample graph with the exact distances to node 5 as
heuristic. -/
theorem aStar_consistent_first_pop_is_min_cost_witness :
    ∃ r c, AStar.aStar 9 (fun _ => 0) 0 5 sampleWGraph [5, 3, 2, 1, 2, 0] = some r
      ∧ r.outcome = Outcome.found c ∧ IsMinCost sampleWGraph 0 5 c
      ∧ ∀ ev ∈ r.trace, IsMinCost sampleWGraph 0 ev.1 ev.2.1 :=
  aStar_consistent_first_pop_is_min_cost sampleWGraph [5, 3, 2, 1, 2, 0] 0 5 9 (fun _ => 0)
    (by unfold WellFormedW; decide) (by unfold NonNegWeights; decide)
    (by unfold Consistent; decide) (by unfold SmallHeuristic; decide) (by decide)
    ⟨5, [(1, 2), (3, 2), (5, 1)], by simp [IsWalk, wadj, sampleWGraph], rfl, rfl⟩ (by decide)

/-! ## Claim C32: the cost reported by A* is the cost of a path -/

/-- C32 as stated fails: on `wrapGraph`, whose weights `0 → 1 (1073741824)` and
`1 → 2 (1073741824)` are non-negative, `aStar` from 0 to 2 with the zero heuristic reports the
total cost `-2147483648` (the `int` sum of the two weights), although every path from 0 to 2
has a non-negative total weight. -/
theorem aStar_reports_cost_of_no_path :
    NonNegWeights wrapGraph
      ∧ (∀ tie, (AStar.aStar 4 tie 0 2 wrapGraph [0, 0, 0]).map (fun r => r.outcome)
          = some (Outcome.found (-2147483648)))
      ∧ ∀ c, HasPath wrapGraph 0 2 c → 0 ≤ c := by
  have hnn : NonNegWeights wrapGraph := by unfold NonNegWeights; decide
  refine ⟨hnn, ?_, fun c hc => hnn.hasPath_nonneg hc⟩
  intro tie
  have h : (AStar.aStarDet 4 0 2 wrapGraph [0, 0, 0]).map (fun r => r.outcome)
      = some (Outcome.found (-2147483648)) := by decide
  cases hd : AStar.aStarDet 4 0 2 wrapGraph [0, 0, 0] with
  | none => rw [hd] at h; simp at h
  | some r =>
    rw [AStar.aStar_of_aStarDet hd tie]
    rw [hd] at h
    exact h

/-- C32 (amended): for every graph whose edge destinations are nodes and whose edge weights, in
absolute value, sum to less than `INT_MAX`, every heuristic table whatsoever, every valid
start, every goal and every tie-breaking of the queue, `aStar` returns, and whenever it
reports success with total cost `c` there is an actual path from start to goal in the graph
whose edge weights sum to exactly `c`; hence `c` is never below the true minimum path cost. -/
theorem aStar_reported_cost_is_path_cost (graph : WGraph) (heuristic : List Int)
    (start goal fuel : Nat) (tie : Nat → Nat) (hwf : WellFormedW graph)
    (hb : absTotal graph < INT_MAX) (hs : start < graph.length)
    (hfuel : edgeCount graph + 2 ≤ fuel) :
    ∃ r, AStar.aStar fuel tie start goal graph heuristic = some r
      ∧ ∀ c, r.outcome = Outcome.found c →
          HasPath graph start goal c ∧ ∀ m, IsMinCost graph start goal m → m ≤ c := by
  obtain ⟨r, hr, -, hout⟩ :=
    AStar.aStar_paths_spec graph heuristic start goal fuel tie hwf hb hs hfuel
  exact ⟨r, hr, fun c hc => ⟨hout c hc, fun m hm => hm.2 c (hout c hc)⟩⟩

/-- Witness for C32 (amended) on the sample graph with a heuristic that is not admissible. -/
theorem aStar_reported_cost_is_path_cost_witness :
    ∃ r, AStar.aStar 9 (fun _ => 0) 0 5 sampleWGraph [0, 50, 0, 0, 0, 0] = some r
      ∧ ∀ c, r.outcome = Outcome.found c →
          HasPath sampleWGraph 0 5 c ∧ ∀ m, IsMinCost sampleWGraph 0 5 m → m ≤ c :=
  aStar_reported_cost_is_path_cost sampleWGraph [0, 50, 0, 0, 0, 0] 0 5 9 (fun _ => 0)
    (by unfold WellFormedW; decide) (by decide) (by decide) (by decide)

/-! ## Claim C33: greedy best-first search is complete on finite graphs -/

/-- C33: for every graph whose edge destinations are nodes, every heuristic table, every start
node of the graph, every goal and every way of resolving ties in the queue,
`greedyBestFirstSearch` terminates (any fuel of at least the number of edges plus two gives a
result), the nodes of its `Visited node` lines are pairwise distinct nodes of the graph, and
it ends with `Goal reached` exactly when `goal` is reachable from `start`. -/
theorem greedy_terminates_and_is_complete (graph : WGraph) (heuristic : List Int)
    (start goal fuel : Nat) (tie : Nat → Nat) (hwf : WellFormedW graph)
    (hs : start < graph.length) (hfuel : edgeCount graph + 2 ≤ fuel) :
    ∃ r, Greedy.greedyBestFirstSearch fuel tie start goal graph heuristic = some r
      ∧ (r.reached = true ↔ Reachable graph start goal)
      ∧ (r.trace.map Prod.fst).Nodup
      ∧ ∀ ev ∈ r.trace, ev.1 < graph.length :=
  Greedy.greedy_loop_spec graph heuristic start goal hwf fuel tie _ _ _
    (Greedy.inv_init_greedy graph heuristic start goal hs) (by
      simp only [List.length_singleton]
      rw [unmarkedSum_replicate _ _ (by simp)]
      unfold edgeCount at hfuel
      omega)

/-- Witness for C33 on the sample graph of the demo, from node 0 to node 5. -/
theorem greedy_terminates_and_is_complete_witness :
    ∃ r, Greedy.greedyBestFirstSearch 20 (fun _ => 0) 0 5 sampleWGraph sampleH = some r
      ∧ (r.reached = true ↔ Reachable sampleWGraph 0 5)
      ∧ (r.trace.map Prod.fst).Nodup
      ∧ ∀ ev ∈ r.trace, ev.1 < sampleWGraph.length :=
  greedy_terminates_and_is_complete sampleWGraph sampleH 0 5 20 (fun _ => 0)
    (by unfold WellFormedW; decide) (by decide) (by decide)

/-! ## Claim C34: a target reported by IDDFS lies within the depth bound -/

/-- C34: for every graph, start, target and `maxDepth`, if `iddfs` returns `true` then the
graph contains a path from start to target with at most `maxDepth` edges. -/
theorem iddfs_true_gives_path_within_bound (graph : Graph) (start target : Nat)
    (maxDepth : Int) (fuel rec_fuel : Nat) (tr : List Iddfs.Event)
    (h : Iddfs.iddfs fuel rec_fuel start target maxDepth graph = some (true, tr)) :
    ∃ k : Nat, (k : Int) ≤ maxDepth ∧ HasUPath graph start target k :=
  Iddfs.iddfsLoop_true rec_fuel start target maxDepth graph fuel 0 [] tr h

/-- Witness for C34: on `triangleGraph` the target 1 is reported in the pass with limit 1. -/
theorem iddfs_true_gives_path_within_bound_witness :
    ∃ k : Nat, (k : Int) ≤ 1 ∧ HasUPath triangleGraph 0 1 k :=
  iddfs_true_gives_path_within_bound triangleGraph 0 1 1 2 2
    [Iddfs.Event.trying 0, Iddfs.Event.visited 0 0, Iddfs.Event.trying 1,
      Iddfs.Event.visited 0 1, Iddfs.Event.found 1] (by decide)

/-! ## Claim C35: IDDFS with a depth limit of at least `n - 1` -/

/-- C35: for every graph with `n` nodes whose neighbours are nodes, every start node of the
graph, every target and every `int` value `maxDepth ≥ n - 1`, `iddfs` returns `true` exactly
when the target is reachable from start. If it is reachable, one of the passes with limit
`0 .. n - 1` returns `true`, because a pass with limit `n - 1` never cuts off and explores
like a full DFS. If it is not reachable, no run returns `true`, and for `maxDepth < INT_MAX`
the run returns `false` after its `maxDepth + 1` passes. -/
theorem iddfs_deep_limit_true_iff_reachable (graph : Graph) (start target : Nat)
    (maxDepth : Int) (fuel rec_fuel : Nat) (hwf : WellFormed graph) (hs : start < graph.length)
    (hmax : (graph.length : Int) - 1 ≤ maxDepth) (hint : maxDepth ≤ INT_MAX)
    (hfuel : maxDepth.toNat + 2 ≤ fuel) (hrec : graph.length ≤ rec_fuel) :
    (UReachable graph start target →
        ∃ tr, Iddfs.iddfs fuel rec_fuel start target maxDepth graph = some (true, tr))
      ∧ (¬ UReachable graph start target →
        (∀ f r tr, Iddfs.iddfs f r start target maxDepth graph ≠ some (true, tr))
          ∧ (maxDepth < INT_MAX →
            ∃ tr, Iddfs.iddfs fuel rec_fuel start target maxDepth graph = some (false, tr))) := by
  refine ⟨?_, ?_⟩
  · intro hreach
    exact Iddfs.iddfsLoop_reachable rec_fuel start target maxDepth graph hwf hs hrec hmax hint
      hreach (graph.length - 1) fuel 0 [] (le_refl _) (by omega) (by omega)
  · intro hreach
    refine ⟨?_, ?_⟩
    · intro f r tr h
      obtain ⟨k, -, hp⟩ := Iddfs.iddfsLoop_true r start target maxDepth graph f 0 [] tr h
      exact hreach ⟨k, hp⟩
    · intro hlt
      exact Iddfs.iddfsLoop_unreachable rec_fuel start target maxDepth graph hwf hs hrec hlt
        hreach (maxDepth.toNat + 1) fuel 0 [] (le_refl _) (by omega) (by omega)

/-- Witness for C35 on `triangleGraph` (four nodes) with `maxDepth = 3`. -/
theorem iddfs_deep_limit_true_iff_reachable_witness :
    (UReachable triangleGraph 0 3 →
        ∃ tr, Iddfs.iddfs 5 4 0 3 3 triangleGraph = some (true, tr))
      ∧ (¬ UReachable triangleGraph 0 3 →
        (∀ f r tr, Iddfs.iddfs f r 0 3 3 triangleGraph ≠ some (true, tr))
          ∧ ((3 : Int) < INT_MAX →
            ∃ tr, Iddfs.iddfs 5 4 0 3 3 triangleGraph = some (false, tr))) :=
  iddfs_deep_limit_true_iff_reachable triangleGraph 0 3 3 5 4 (by unfold WellFormed; decide)
    (by decide) (by decide) (by decide) (by decide) (by decide)

/-! ## Claim C36: bidirectional BFS on a directed graph -/

/-- C36: on the directed adjacency list `graph[0] = {1}`, `graph[1] = {}`, `graph[2] = {1}`
with start 0 and goal 2, `bidirectionalBFS` returns `true` (meeting at node 1, for every fuel
of at least one round and one parent step) and prints the sequence `0 1 2`, although there
is no edge `1 → 2`, the sequence is not a walk of the graph, and node 2 is not reachable from
node 0. -/
theorem bidirectionalBFS_directed_reports_non_path :
    ¬ Symmetric oneWayGraph
      ∧ (∀ k j, Bidirectional.bidirectionalBFS (1 + k) (1 + j) oneWayGraph 0 2
          = some (some (1, [0, 1, 2])))
      ∧ 2 ∉ adj oneWayGraph 1 ∧ ¬ IsUWalk oneWayGraph 0 [1, 2]
      ∧ ¬ UReachable oneWayGraph 0 2 := by
  refine ⟨?_, fun k j => Bidirectional.bidirectionalBFS_fuel_mono (by decide) k j, by decide,
    ?_, ?_⟩
  · intro h
    have := h 0 1 (by decide)
    revert this
    decide
  · intro h
    have := h.2.1
    revert this
    decide
  · intro h
    have := h.ureach_closed (P := fun x => x = 0 ∨ x = 1) (Or.inl rfl) (by
      intro u v hu hv
      rcases hu with rfl | rfl
      · have hv1 : v = 1 := by simpa [adj, oneWayGraph] using hv
        exact Or.inr hv1
      · simp [adj, oneWayGraph] at hv)
    omega

/-! ## Claim C37: the additions of uniform-cost search do not overflow -/

/-- C37: for every graph whose edge destinations are nodes and whose edge weights are
non-negative and sum to less than `INT_MAX`, and every valid start, `ucs` terminates and every
addition `currCost + weight` it performs (recorded by `ucsAdds`, which otherwise runs exactly
as `ucs`) is made on the cost of an actual path from start, which is below the sentinel
`INT_MAX`; its result lies in `0 .. INT_MAX - 1`, so the 32-bit sum agrees with the sum over
the unbounded integers. -/
theorem ucs_additions_never_overflow (graph : WGraph) (start fuel : Nat)
    (hwf : WellFormedW graph) (hnn : NonNegWeights graph) (hb : totalWeight graph < INT_MAX)
    (hs : start < graph.length) (hfuel : edgeCount graph + 2 ≤ fuel) :
    ∃ st log, Ucs.ucsAdds fuel start graph = some (st, log)
      ∧ Ucs.ucs fuel start graph = some st
      ∧ ∀ a ∈ log, HasPath graph start a.1 a.2.1 ∧ 0 ≤ a.2.1 ∧ a.2.1 < INT_MAX
          ∧ 0 ≤ a.2.1 + a.2.2 ∧ a.2.1 + a.2.2 < INT_MAX
          ∧ addInt a.2.1 a.2.2 = a.2.1 + a.2.2 :=
  Ucs.ucs_additions_spec graph start fuel hwf hnn hb hs hfuel

/-- Witness for C37 on the sample graph of the UCS demo. -/
theorem ucs_additions_never_overflow_witness :
    ∃ st log, Ucs.ucsAdds 16 0 sampleUcsGraph = some (st, log)
      ∧ Ucs.ucs 16 0 sampleUcsGraph = some st
      ∧ ∀ a ∈ log, HasPath sampleUcsGraph 0 a.1 a.2.1 ∧ 0 ≤ a.2.1 ∧ a.2.1 < INT_MAX
          ∧ 0 ≤ a.2.1 + a.2.2 ∧ a.2.1 + a.2.2 < INT_MAX
          ∧ addInt a.2.1 a.2.2 = a.2.1 + a.2.2 :=
  ucs_additions_never_overflow sampleUcsGraph 0 16 (by unfold WellFormedW; decide)
    (by unfold NonNegWeights; decide) (by decide) (by decide) (by decide)

/-! ## Claim C38: every subscript used by `aStar` is a node -/

/-- C38: for every graph with `n` nodes whose edge destinations lie in `0 .. n-1`, every
heuristic table of length `n`, every start in `0 .. n-1` and every value of `goal` (and every
way of resolving ties in the queue), `aStar` terminates, and every subscript it applies to
`graph`, `visited`, `cost` or `heuristic` lies in `0 .. n-1`. The run with the subscripts
recorded returns the same result as `aStar`. -/
theorem aStar_subscripts_in_range (graph : WGraph) (heuristic : List Int) (start goal fuel : Nat)
    (tie : Nat → Nat) (hwf : WellFormedW graph) (hh : heuristic.length = graph.length)
    (hs : start < graph.length) (hfuel : edgeCount graph + 2 ≤ fuel) :
    ∃ r log, AStar.aStarLog fuel tie start goal graph heuristic = some (r, log)
      ∧ AStar.aStar fuel tie start goal graph heuristic = some r
      ∧ ∀ a ∈ log, a.2 < graph.length ∧ a.2 < heuristic.length := by
  obtain ⟨r, log, h1, h2, h3⟩ := AStar.loopLog_spec graph heuristic goal hwf fuel tie
    (List.replicate graph.length false) ((List.replicate graph.length INT_MAX).set start 0)
    [⟨start, 0, heuristic.getD start 0⟩] []
    [(AStar.Vec.heuristic, start), (AStar.Vec.cost, start)] (by simp)
    (by intro e he; simp only [List.mem_singleton] at he; rw [he]; exact hs)
    (by
      intro a ha
      simp only [List.mem_cons, List.mem_singleton, List.not_mem_nil, or_false] at ha
      rcases ha with rfl | rfl <;> exact hs)
    (by
      simp only [List.length_singleton]
      rw [unmarkedSum_replicate _ _ (by simp)]
      unfold edgeCount at hfuel
      omega)
  exact ⟨r, log, h1, h2, fun a ha => ⟨h3 a ha, by rw [hh]; exact h3 a ha⟩⟩

/-- Witness for C38 on the sample graph of the A* demo with a goal that is not a node. -/
theorem aStar_subscripts_in_range_witness :
    ∃ r log, AStar.aStarLog 20 (fun _ => 0) 0 9 sampleWGraph sampleH = some (r, log)
      ∧ AStar.aStar 20 (fun _ => 0) 0 9 sampleWGraph sampleH = some r
      ∧ ∀ a ∈ log, a.2 < sampleWGraph.length ∧ a.2 < sampleH.length :=
  aStar_subscripts_in_range sampleWGraph sampleH 0 9 20 (fun _ => 0)
    (by unfold WellFormedW; decide) (by decide) (by decide) (by decide)

end SearchAlgorithm
